import Mathlib

/-!
# AT runtime substrate: Vector, String, RefPtr, ByteBuffer

A shallow embedding of the container and ownership primitives of the `AT`
library (`src/AT/*.h`, `src/AT/*.cpp`) together with proofs about them.

Conventions of the embedding:

* `usize` values are natural numbers; every arithmetic result the source computes
  in `usize` is reduced with `usize` (remainder modulo `2 ^ 64`).
* A pointer is a natural number, `0` being `nullptr`. The global allocator is a
  `Heap`: `operator new` always succeeds and hands out a fresh, never reused,
  non-null address; `operator delete` of `nullptr` does nothing and of a block
  that is not live is a memory fault.
* A `VERIFY` that fails ends the execution (`AT_PLATFORM_DEBUGBREAK`); it is the
  result `Except.error Fault.contract_violation`. An access outside a live block
  is `Except.error Fault.memory_fault`.
-/

namespace AT

/-! ## Machine integers and faults -/

/-- Number of values of `usize` (`unsigned long long`). -/
def usize_limit : Nat := 18446744073709551616

/-- Wrap-around of `usize` arithmetic. -/
def usize (n : Nat) : Nat := n % usize_limit

/-- Number of values of `u32`. -/
def u32_limit : Nat := 4294967296

/-- Ways an operation ends without returning. -/
inductive Fault where
  | contract_violation
  | memory_fault
  deriving DecidableEq, Repr

/-- The `VERIFY` macro of `Assertions.h`: continue only when the condition holds. -/
def VERIFY (condition : Bool) : Except Fault Unit :=
  if condition then Except.ok () else Except.error Fault.contract_violation

/-- The computation returns normally and its result satisfies `P`. -/
def Returns {α : Type} (r : Except Fault α) (P : α → Prop) : Prop :=
  ∃ a, r = Except.ok a ∧ P a

/-! ## The global allocator -/

/-- Allocator state: the live blocks, how many blocks were handed out so far (block
addresses are `1, 2, ...`) and the addresses released by `operator delete`, most
recent first. -/
structure Heap (B : Type) where
  blocks : Nat → Option B
  allocations : Nat
  freed : List Nat

namespace Heap

variable {B : Type}

/-- A heap on which nothing was allocated yet. -/
def empty : Heap B := ⟨fun _ => none, 0, []⟩

/-- Replace the content found at address `p`. -/
def store (h : Heap B) (p : Nat) (b : Option B) : Heap B :=
  { h with blocks := fun q => if q = p then b else h.blocks q }

/-- Allocation of a block with initial content `b`: `::operator new`. -/
def operator_new (h : Heap B) (b : B) : Nat × Heap B :=
  (h.allocations + 1,
    { blocks := fun q => if q = h.allocations + 1 then some b else h.blocks q,
      allocations := h.allocations + 1,
      freed := h.freed })

/-- Release of a block: `::operator delete`. -/
def operator_delete (h : Heap B) (p : Nat) : Except Fault (Heap B) :=
  if p = 0 then Except.ok h
  else match h.blocks p with
    | none => Except.error Fault.memory_fault
    | some _ =>
      Except.ok { blocks := fun q => if q = p then none else h.blocks q,
                  allocations := h.allocations,
                  freed := p :: h.freed }

end Heap

/-! ## Vector (`src/AT/Vector.h`) -/

/-- State of one element slot of a `Vector` storage block. -/
inductive Slot (T : Type) where
  | raw
  | live (x : T)
  | moved_from

/-- Memory seen by `Vector<T>`: the allocator, whose blocks are arrays of slots, and
the values on which `~T()` ran, most recent first. -/
structure ElementMemory (T : Type) where
  heap : Heap (List (Slot T))
  finalized : List T

/-- The three data members of `Vector<T>`. -/
structure Vector where
  m_elements : Nat
  m_capacity : Nat
  m_count : Nat
  deriving DecidableEq, Repr

/-- A reference `m_elements[index]` into a storage block. -/
structure ElementRef where
  block : Nat
  index : Nat
  deriving DecidableEq, Repr

namespace ElementMemory

variable {T : Type}

/-- Memory without any allocation. -/
def empty : ElementMemory T := ⟨Heap.empty, []⟩

/-- Slot a reference designates, when it lies inside a live block. -/
def slot (m : ElementMemory T) (r : ElementRef) : Option (Slot T) :=
  match m.heap.blocks r.block with
  | none => none
  | some slots => slots.get? r.index

/-- Overwrite the slot a reference designates. -/
def set_slot (m : ElementMemory T) (r : ElementRef) (s : Slot T) : Except Fault (ElementMemory T) :=
  match m.heap.blocks r.block with
  | none => Except.error Fault.memory_fault
  | some slots =>
    if r.index < slots.length then
      Except.ok { m with heap := m.heap.store r.block (some (slots.set r.index s)) }
    else Except.error Fault.memory_fault

/-- Read of the element behind a reference. -/
def read (m : ElementMemory T) (r : ElementRef) : Except Fault T :=
  match m.slot r with
  | some (Slot.live x) => Except.ok x
  | _ => Except.error Fault.memory_fault

/-- Placement copy construction `new (destination) T(element)`. -/
def construct (m : ElementMemory T) (destination : ElementRef) (element : T) :
    Except Fault (ElementMemory T) :=
  m.set_slot destination (Slot.live element)

/-- Placement move construction `new (destination) T(move(source))`. -/
def move_construct (m : ElementMemory T) (destination source : ElementRef) :
    Except Fault (ElementMemory T) :=
  match m.slot source with
  | some (Slot.live x) => do
    let m1 ← m.set_slot source Slot.moved_from
    m1.set_slot destination (Slot.live x)
  | _ => Except.error Fault.memory_fault

/-- Explicit destructor call `source.~T()` of an element type whose destructor accesses
its object: on anything but a constructed object it is a memory fault. -/
def destroy (m : ElementMemory T) (source : ElementRef) : Except Fault (ElementMemory T) :=
  match m.slot source with
  | some (Slot.live x) => do
    let m1 ← m.set_slot source Slot.raw
    Except.ok { m1 with finalized := x :: m1.finalized }
  | some Slot.moved_from => m.set_slot source Slot.raw
  | _ => Except.error Fault.memory_fault

end ElementMemory

namespace Vector

variable {T : Type}

/-- `Vector::growth_factor_numerator`. -/
def growth_factor_numerator : Nat := 3

/-- `Vector::growth_factor_denominator`. -/
def growth_factor_denominator : Nat := 2

/-- `Vector::Vector()`. -/
def default : Vector := ⟨0, 0, 0⟩

/-- `Vector::capacity`. -/
def capacity (v : Vector) : Nat := v.m_capacity

/-- `Vector::count`. -/
def count (v : Vector) : Nat := v.m_count

/-- `Vector::allocate_memory`: a block of `in_count * sizeof(T)` bytes, seen as the
slots of `T` that fit in it. -/
def allocate_memory (sizeof_T : Nat) (m : ElementMemory T) (in_count : Nat) :
    Nat × ElementMemory T :=
  let allocation_size := usize (in_count * sizeof_T)
  let r := m.heap.operator_new (List.replicate (allocation_size / sizeof_T) Slot.raw)
  (r.1, { m with heap := r.2 })

/-- `Vector::free_memory`. -/
def free_memory (m : ElementMemory T) (in_elements : Nat) (_in_capacity : Nat) :
    Except Fault (ElementMemory T) := do
  let h ← m.heap.operator_delete in_elements
  Except.ok { m with heap := h }

/-- Loop of `Vector::move_elements`, `remaining` iterations from `index` on. -/
def move_elements_loop (destination_elements source_elements : Nat) :
    Nat → Nat → ElementMemory T → Except Fault (ElementMemory T)
  | 0, _, m => Except.ok m
  | remaining + 1, index, m => do
    let m1 ← m.move_construct ⟨destination_elements, index⟩ ⟨source_elements, index⟩
    let m2 ← m1.destroy ⟨source_elements, index⟩
    move_elements_loop destination_elements source_elements remaining (index + 1) m2

/-- `Vector::move_elements`. -/
def move_elements (m : ElementMemory T) (destination_elements source_elements in_count : Nat) :
    Except Fault (ElementMemory T) :=
  move_elements_loop destination_elements source_elements in_count 0 m

/-- `Vector::expand_elements_block`. -/
def expand_elements_block (sizeof_T : Nat) (v : Vector) (m : ElementMemory T)
    (new_capacity : Nat) : Except Fault (Vector × ElementMemory T) := do
  VERIFY (decide (new_capacity > v.m_capacity))
  let r := allocate_memory sizeof_T m new_capacity
  let new_elements := r.1
  let m1 ← move_elements r.2 new_elements v.m_elements v.m_count
  let m2 ← free_memory m1 v.m_elements v.m_capacity
  Except.ok ({ m_elements := new_elements, m_capacity := new_capacity, m_count := v.m_count }, m2)

/-- `Vector::expand_elements_block_if_required`. -/
def expand_elements_block_if_required (sizeof_T : Nat) (v : Vector) (m : ElementMemory T)
    (required_capacity : Nat) : Except Fault (Vector × ElementMemory T) :=
  if v.m_capacity ≥ required_capacity then Except.ok (v, m)
  else
    let new_capacity := usize (v.m_count * growth_factor_numerator) / growth_factor_denominator
    let new_capacity := if new_capacity < required_capacity then required_capacity else new_capacity
    expand_elements_block sizeof_T v m new_capacity

/-- `Vector::add(const T&)` and `Vector::add(T&&)` with an argument that is an object
outside the storage of the vector, given by its value; `add_by_reference` is the call
with an argument that is an object of the element memory. -/
def add (sizeof_T : Nat) (v : Vector) (m : ElementMemory T) (element : T) :
    Except Fault (Vector × ElementMemory T) := do
  let r ← expand_elements_block_if_required sizeof_T v m (usize (v.m_count + 1))
  let m1 ← r.2.construct ⟨r.1.m_elements, r.1.m_count⟩ element
  Except.ok ({ r.1 with m_count := usize (r.1.m_count + 1) }, m1)

/-- `Vector::at`. -/
def «at» (v : Vector) (index : Nat) : Except Fault ElementRef := do
  VERIFY (decide (index < v.m_count))
  Except.ok ⟨v.m_elements, index⟩

/-- `Vector::operator[]`. -/
def operator_index (v : Vector) (index : Nat) : Except Fault ElementRef :=
  Except.ok ⟨v.m_elements, index⟩

/-- A run of `add` calls, one per element of the list, in order. -/
def add_all (sizeof_T : Nat) :
    List T → Vector → ElementMemory T → Except Fault (Vector × ElementMemory T)
  | [], v, m => Except.ok (v, m)
  | x :: xs, v, m => do
    let r ← add sizeof_T v m x
    add_all sizeof_T xs r.1 r.2

/-- The block at `p` has `cap` slots and its first slots hold the elements of `xs`, live and
in order. -/
def Stores (m : ElementMemory T) (p cap : Nat) (xs : List T) : Prop :=
  ∃ slots, m.heap.blocks p = some slots ∧ slots.length = cap ∧
    ∀ i, i < xs.length → slots[i]? = (xs[i]?).map Slot.live

/-- Representation invariant tying a vector to the sequence of elements it holds. -/
def Holds (v : Vector) (m : ElementMemory T) (xs : List T) : Prop :=
  v.m_count = xs.length ∧ xs.length ≤ v.m_capacity ∧ 2 * v.m_capacity ≤ 3 * xs.length ∧
  v.m_elements ≤ m.heap.allocations ∧
  ((v.m_elements = 0 ∧ v.m_capacity = 0) ∨
    (v.m_elements ≠ 0 ∧ Stores m v.m_elements v.m_capacity xs))

end Vector

/-! ## Raw memory operations (`src/AT/MemoryOperations.cpp`) -/

/-- Loop of `copy_memory`: `remaining` iterations from `byte_offset` on. -/
def copy_memory_loop (source : List (Option Nat)) :
    Nat → Nat → List (Option Nat) → Except Fault (List (Option Nat))
  | 0, _, destination => Except.ok destination
  | remaining + 1, byte_offset, destination =>
    match source.get? byte_offset with
    | none => Except.error Fault.memory_fault
    | some byte =>
      if byte_offset < destination.length then
        copy_memory_loop source remaining (byte_offset + 1) (destination.set byte_offset byte)
      else Except.error Fault.memory_fault

/-- `copy_memory` on the contents of the destination and source buffers (a byte is `none`
while its value is indeterminate): the new contents of the destination buffer. -/
def copy_memory (destination source : List (Option Nat)) (byte_count : Nat) :
    Except Fault (List (Option Nat)) :=
  copy_memory_loop source byte_count 0 destination

/-- Loop of `zero_memory`: `remaining` iterations from `byte_offset` on. -/
def zero_memory_loop : Nat → Nat → List (Option Nat) → Except Fault (List (Option Nat))
  | 0, _, destination => Except.ok destination
  | remaining + 1, byte_offset, destination =>
    if byte_offset < destination.length then
      zero_memory_loop remaining (byte_offset + 1) (destination.set byte_offset (some 0))
    else Except.error Fault.memory_fault

/-- `zero_memory` on the contents of the destination buffer. -/
def zero_memory (destination : List (Option Nat)) (byte_count : Nat) :
    Except Fault (List (Option Nat)) :=
  zero_memory_loop byte_count 0 destination

/-! ## ByteBuffer (`src/AT/ByteBuffer.cpp`) -/

/-- The two data members of `ByteBuffer`. -/
structure ByteBuffer where
  m_bytes : Nat
  m_byte_count : Nat
  deriving DecidableEq, Repr

namespace ByteBuffer

/-- Bytes that can be accessed through a pointer: the block it designates, nothing for
`nullptr` or a pointer to no live block. -/
def region (h : Heap (List (Option Nat))) (p : Nat) : List (Option Nat) :=
  if p = 0 then [] else (h.blocks p).getD []

/-- `ByteBuffer::ByteBuffer()`. -/
def default : ByteBuffer := ⟨0, 0⟩

/-- `ByteBuffer::bytes`. -/
def bytes (b : ByteBuffer) : Nat := b.m_bytes

/-- `ByteBuffer::byte_count`. -/
def byte_count (b : ByteBuffer) : Nat := b.m_byte_count

/-- `ByteBuffer::free`. -/
def free (b : ByteBuffer) (h : Heap (List (Option Nat))) :
    Except Fault (ByteBuffer × Heap (List (Option Nat))) :=
  if b.m_bytes ≠ 0 then do
    VERIFY (decide (b.m_byte_count > 0))
    let h1 ← h.operator_delete b.m_bytes
    Except.ok (⟨0, 0⟩, h1)
  else Except.ok (⟨0, 0⟩, h)

/-- `ByteBuffer::allocate_new`. -/
def allocate_new (b : ByteBuffer) (h : Heap (List (Option Nat))) (new_byte_count : Nat) :
    Except Fault (ByteBuffer × Heap (List (Option Nat))) := do
  let r ← free b h
  if new_byte_count = 0 then Except.ok r
  else
    let a := r.2.operator_new (List.replicate new_byte_count none)
    Except.ok (⟨a.1, new_byte_count⟩, a.2)

/-- `ByteBuffer::set_byte_count`. -/
def set_byte_count (b : ByteBuffer) (h : Heap (List (Option Nat))) (in_byte_count : Nat) :
    Except Fault (ByteBuffer × Heap (List (Option Nat))) :=
  if b.m_byte_count = in_byte_count then Except.ok (b, h)
  else do
    let copy_byte_count := if b.m_byte_count > in_byte_count then in_byte_count else b.m_byte_count
    let a := h.operator_new (List.replicate in_byte_count none)
    let new_bytes := a.1
    let copied ← copy_memory (region a.2 new_bytes) (region a.2 b.m_bytes) copy_byte_count
    let h1 := a.2.store new_bytes (some copied)
    let r ← free b h1
    Except.ok (⟨new_bytes, in_byte_count⟩, r.2)

/-- `ByteBuffer::expand`. -/
def expand (b : ByteBuffer) (h : Heap (List (Option Nat))) (new_byte_count : Nat) :
    Except Fault (ByteBuffer × Heap (List (Option Nat))) := do
  VERIFY (decide (new_byte_count ≥ b.m_byte_count))
  set_byte_count b h new_byte_count

/-- `ByteBuffer::expand_by`. -/
def expand_by (b : ByteBuffer) (h : Heap (List (Option Nat))) (expansion_byte_count : Nat) :
    Except Fault (ByteBuffer × Heap (List (Option Nat))) :=
  let new_byte_count := usize (b.m_byte_count + expansion_byte_count)
  expand b h new_byte_count

/-- `ByteBuffer::shrink`. -/
def shrink (b : ByteBuffer) (h : Heap (List (Option Nat))) (new_byte_count : Nat) :
    Except Fault (ByteBuffer × Heap (List (Option Nat))) := do
  VERIFY (decide (new_byte_count ≤ b.m_byte_count))
  set_byte_count b h new_byte_count

/-- `ByteBuffer::shrink_by`. -/
def shrink_by (b : ByteBuffer) (h : Heap (List (Option Nat))) (shrinking_byte_count : Nat) :
    Except Fault (ByteBuffer × Heap (List (Option Nat))) := do
  VERIFY (decide (shrinking_byte_count ≤ b.m_byte_count))
  let new_byte_count := b.m_byte_count - shrinking_byte_count
  shrink b h new_byte_count

/-- `ByteBuffer::ensure_byte_count`. -/
def ensure_byte_count (b : ByteBuffer) (h : Heap (List (Option Nat))) (in_byte_count : Nat) :
    Except Fault (ByteBuffer × Heap (List (Option Nat))) :=
  if b.m_byte_count ≥ in_byte_count then Except.ok (b, h)
  else expand b h in_byte_count

/-- `ByteBuffer::from_initial_byte_count`. -/
def from_initial_byte_count (h : Heap (List (Option Nat))) (initial_byte_count : Nat) :
    Except Fault (ByteBuffer × Heap (List (Option Nat))) :=
  allocate_new ByteBuffer.default h initial_byte_count

/-- `ByteBuffer::from_byte_span`, the span being given by the bytes it covers. -/
def from_byte_span (h : Heap (List (Option Nat))) (byte_span : List (Option Nat)) :
    Except Fault (ByteBuffer × Heap (List (Option Nat))) := do
  let r ← from_initial_byte_count h byte_span.length
  let copied ← copy_memory (region r.2 r.1.bytes) byte_span byte_span.length
  if r.1.bytes = 0 then Except.ok r
  else Except.ok (r.1, r.2.store r.1.bytes (some copied))

/-- `ByteBuffer::copy`. -/
def copy (h : Heap (List (Option Nat))) (source_buffer : ByteBuffer) :
    Except Fault (ByteBuffer × Heap (List (Option Nat))) :=
  let source_buffer_byte_span := (region h source_buffer.m_bytes).take source_buffer.m_byte_count
  from_byte_span h source_buffer_byte_span

/-- `ByteBuffer::ByteBuffer(ByteBuffer&&)`: the constructed buffer and the state in which
the source is left. -/
def move_construct (other : ByteBuffer) : ByteBuffer × ByteBuffer :=
  (⟨other.m_bytes, other.m_byte_count⟩, other)

/-- `ByteBuffer::operator=(ByteBuffer&&)` between two distinct objects: the destination
and the source afterwards. -/
def move_assign (this other : ByteBuffer) (h : Heap (List (Option Nat))) :
    Except Fault ((ByteBuffer × ByteBuffer) × Heap (List (Option Nat))) := do
  let r ← free this h
  Except.ok ((⟨other.m_bytes, other.m_byte_count⟩, other), r.2)

/-- `ByteBuffer::~ByteBuffer`. -/
def destroy (b : ByteBuffer) (h : Heap (List (Option Nat))) :
    Except Fault (Heap (List (Option Nat))) := do
  let r ← free b h
  Except.ok r.2

end ByteBuffer

/-! ## StringView and String (`src/AT/StringView.h`, `src/AT/String.h`, `src/AT/String.cpp`) -/

/-- A view, given by the bytes it spans, in order. -/
structure StringView where
  bytes : List Nat

namespace StringView

/-- `StringView::byte_count`. -/
def byte_count (v : StringView) : Nat := v.bytes.length

/-- Bytes readable through `StringView::characters`. -/
def characters (v : StringView) : List (Option Nat) := v.bytes.map some

end StringView

/-- A heap block of `String`: the `HeapBufferHeader` and the character bytes after it. -/
structure StringBlock where
  reference_count : Nat
  characters : List (Option Nat)

/-- The anonymous union of `String`, by its active member. -/
inductive StringStorage where
  | m_inline_buffer (cells : List (Option Nat))
  | m_heap_buffer (p : Nat)

/-- The data members of `String`. -/
structure String where
  storage : StringStorage
  m_byte_count : Nat

namespace String

/-- `String::inline_capacity`, `sizeof(void*)` with 64-bit pointers. -/
def inline_capacity : Nat := 8

/-- `sizeof(HeapBufferHeader)`: one `u32`. -/
def sizeof_HeapBufferHeader : Nat := 4

/-- `String::is_stored_inline`. -/
def is_stored_inline (s : String) : Bool := decide (s.m_byte_count ≤ inline_capacity)

/-- `String::byte_count`. -/
def byte_count (s : String) : Except Fault Nat := do
  VERIFY (decide (s.m_byte_count > 0))
  Except.ok (s.m_byte_count - 1)

/-- The bytes of the union read as `m_inline_buffer`; they are indeterminate while the
union holds the heap pointer. -/
def m_inline_buffer (s : String) : List (Option Nat) :=
  match s.storage with
  | StringStorage.m_inline_buffer cells => cells
  | StringStorage.m_heap_buffer _ => List.replicate inline_capacity none

/-- The union read as `m_heap_buffer`; the bytes of an inline buffer designate no block. -/
def m_heap_buffer (s : String) : Except Fault Nat :=
  match s.storage with
  | StringStorage.m_inline_buffer _ => Except.error Fault.memory_fault
  | StringStorage.m_heap_buffer p => Except.ok p

/-- Bytes readable through `String::heap_buffer_characters`. -/
def heap_buffer_characters (s : String) (h : Heap StringBlock) :
    Except Fault (List (Option Nat)) := do
  let p ← s.m_heap_buffer
  match h.blocks p with
  | none => Except.error Fault.memory_fault
  | some block => Except.ok block.characters

/-- Bytes readable through `String::characters`. -/
def characters (s : String) (h : Heap StringBlock) : Except Fault (List (Option Nat)) :=
  if s.is_stored_inline then Except.ok s.m_inline_buffer
  else s.heap_buffer_characters h

/-- `String::allocate_heap_buffer`. -/
def allocate_heap_buffer (h : Heap StringBlock) (characters_byte_count : Nat) :
    Except Fault (Nat × Heap StringBlock) := do
  VERIFY (decide (characters_byte_count > inline_capacity))
  let allocation_size := usize (sizeof_HeapBufferHeader + characters_byte_count)
  if allocation_size < sizeof_HeapBufferHeader then Except.error Fault.memory_fault
  else
    Except.ok (h.operator_new
      ⟨0, List.replicate (allocation_size - sizeof_HeapBufferHeader) none⟩)

/-- `String::free_heap_buffer`. -/
def free_heap_buffer (h : Heap StringBlock) (heap_buffer : Nat) (characters_byte_count : Nat) :
    Except Fault (Heap StringBlock) := do
  VERIFY (decide (characters_byte_count > inline_capacity))
  match h.blocks heap_buffer with
  | none => Except.error Fault.memory_fault
  | some header => do
    VERIFY (decide (header.reference_count = 0))
    h.operator_delete heap_buffer

/-- `String::increment_reference_count`. -/
def increment_reference_count (s : String) (h : Heap StringBlock) :
    Except Fault (Heap StringBlock) := do
  let p ← s.m_heap_buffer
  match h.blocks p with
  | none => Except.error Fault.memory_fault
  | some header => do
    VERIFY (decide (header.reference_count ≠ u32_limit - 1))
    Except.ok (h.store p (some { header with reference_count := header.reference_count + 1 }))

/-- `String::decrement_reference_count`. -/
def decrement_reference_count (s : String) (h : Heap StringBlock) :
    Except Fault (Bool × Heap StringBlock) := do
  let p ← s.m_heap_buffer
  match h.blocks p with
  | none => Except.error Fault.memory_fault
  | some header => do
    VERIFY (decide (header.reference_count > 0))
    Except.ok (decide (header.reference_count - 1 = 0),
      h.store p (some { header with reference_count := header.reference_count - 1 }))

/-- `String::String()`. -/
def default : String :=
  ⟨StringStorage.m_inline_buffer ((List.replicate inline_capacity none).set 0 (some 0)), 1⟩

/-- `String::clear`. -/
def clear (s : String) (h : Heap StringBlock) : Except Fault (String × Heap StringBlock) := do
  let h1 ←
    if !s.is_stored_inline then do
      let r ← s.decrement_reference_count h
      if r.1 then do
        let p ← s.m_heap_buffer
        free_heap_buffer r.2 p s.m_byte_count
      else Except.ok r.2
    else Except.ok h
  let zeroed ← zero_memory s.m_inline_buffer inline_capacity
  Except.ok (⟨StringStorage.m_inline_buffer zeroed, 1⟩, h1)

/-- `String::~String`. -/
def destroy (s : String) (h : Heap StringBlock) : Except Fault (Heap StringBlock) := do
  let r ← s.clear h
  Except.ok r.2

/-- Body shared by `String::String(const String&)` and `String::operator=(const String&)`
once `m_byte_count` is set: copy of the inline bytes, or sharing of the heap block. -/
def copy_from (this other : String) (h : Heap StringBlock) :
    Except Fault (String × Heap StringBlock) :=
  if this.is_stored_inline then do
    let copied ← copy_memory this.m_inline_buffer other.m_inline_buffer this.m_byte_count
    Except.ok ({ this with storage := StringStorage.m_inline_buffer copied }, h)
  else do
    let p ← other.m_heap_buffer
    let this1 : String := { this with storage := StringStorage.m_heap_buffer p }
    let h1 ← this1.increment_reference_count h
    Except.ok (this1, h1)

/-- `String::String(const String&)`. -/
def copy_construct (other : String) (h : Heap StringBlock) :
    Except Fault (String × Heap StringBlock) :=
  copy_from
    ⟨StringStorage.m_inline_buffer (List.replicate inline_capacity none), other.m_byte_count⟩
    other h

/-- Body shared by `String::String(String&&)` and `String::operator=(String&&)` once
`m_byte_count` is set: the destination and the state in which the source is left. -/
def move_from (this other : String) : Except Fault (String × String) := do
  let r ←
    if this.is_stored_inline then do
      let copied ← copy_memory this.m_inline_buffer other.m_inline_buffer this.m_byte_count
      Except.ok ({ this with storage := StringStorage.m_inline_buffer copied }, other)
    else do
      let p ← other.m_heap_buffer
      Except.ok ({ this with storage := StringStorage.m_heap_buffer p },
        { other with storage := StringStorage.m_heap_buffer 0 })
  let zeroed ← zero_memory r.2.m_inline_buffer inline_capacity
  Except.ok (r.1, ⟨StringStorage.m_inline_buffer zeroed, 1⟩)

/-- `String::String(String&&)`: the constructed string and the state in which the source is
left. -/
def move_construct (other : String) : Except Fault (String × String) :=
  move_from
    ⟨StringStorage.m_inline_buffer (List.replicate inline_capacity none), other.m_byte_count⟩
    other

/-- Bytes of the buffer `destination_buffer` designates in the constructor and the
assignment from a view: the inline buffer, or the characters of the heap block. -/
def destination_buffer (s : String) (h : Heap StringBlock) : Except Fault (List (Option Nat)) :=
  match s.storage with
  | StringStorage.m_inline_buffer cells => Except.ok cells
  | StringStorage.m_heap_buffer _ => s.heap_buffer_characters h

/-- Write of new contents through `destination_buffer`. -/
def set_destination_buffer (s : String) (h : Heap StringBlock) (cells : List (Option Nat)) :
    Except Fault (String × Heap StringBlock) :=
  match s.storage with
  | StringStorage.m_inline_buffer _ =>
    Except.ok ({ s with storage := StringStorage.m_inline_buffer cells }, h)
  | StringStorage.m_heap_buffer p =>
    match h.blocks p with
    | none => Except.error Fault.memory_fault
    | some block => Except.ok (s, h.store p (some { block with characters := cells }))

/-- Body shared by `String::String(StringView)` and `String::operator=(StringView)` once
`m_byte_count` is set and the union is seen as the inline buffer. -/
def fill_from_view (this : String) (string_view : StringView) (h : Heap StringBlock) :
    Except Fault (String × Heap StringBlock) := do
  let r ←
    if !this.is_stored_inline then do
      let a ← allocate_heap_buffer h this.m_byte_count
      let this1 : String := { this with storage := StringStorage.m_heap_buffer a.1 }
      let h1 ← this1.increment_reference_count a.2
      Except.ok (this1, h1)
    else Except.ok (this, h)
  let destination ← r.1.destination_buffer r.2
  let copied ← copy_memory destination string_view.characters string_view.byte_count
  let last := usize (this.m_byte_count + usize_limit - 1)
  if last < copied.length then
    r.1.set_destination_buffer r.2 (copied.set last (some 0))
  else Except.error Fault.memory_fault

/-- `String::String(StringView)`. -/
def from_view (string_view : StringView) (h : Heap StringBlock) :
    Except Fault (String × Heap StringBlock) :=
  fill_from_view
    ⟨StringStorage.m_inline_buffer (List.replicate inline_capacity none),
      usize (string_view.byte_count + 1)⟩
    string_view h

/-- `String::operator=(const String&)` between two distinct objects. -/
def copy_assign (this other : String) (h : Heap StringBlock) :
    Except Fault (String × Heap StringBlock) := do
  let r ← this.clear h
  copy_from { r.1 with m_byte_count := other.m_byte_count } other r.2

/-- `String::operator=(String&&)` between two distinct objects: the destination and the
source afterwards. -/
def move_assign (this other : String) (h : Heap StringBlock) :
    Except Fault ((String × String) × Heap StringBlock) := do
  let c ← this.clear h
  let r ← move_from { c.1 with m_byte_count := other.m_byte_count } other
  Except.ok (r, c.2)

/-- `String::operator=(StringView)`. -/
def view_assign (this : String) (string_view : StringView) (h : Heap StringBlock) :
    Except Fault (String × Heap StringBlock) := do
  let r ← this.clear h
  fill_from_view { r.1 with m_byte_count := usize (string_view.byte_count + 1) } string_view r.2

/-- Block a string counts for: none for an inline string. -/
def target (s : String) : Option Nat :=
  match s.storage with
  | StringStorage.m_inline_buffer _ => none
  | StringStorage.m_heap_buffer p => some p

end String

namespace String

/-- Class invariant of a `String` living in heap `h`: the stored count is at least one,
the active member of the union is the one `is_stored_inline` selects, an inline buffer has
`inline_capacity` bytes, a heap buffer is a live block whose header counts at least this
string and whose characters are `m_byte_count` bytes, and the byte at `byte_count()` is
the terminator. -/
def WellFormed (s : String) (h : Heap StringBlock) : Prop :=
  0 < s.m_byte_count ∧
  match s.storage with
  | StringStorage.m_inline_buffer cells =>
    s.m_byte_count ≤ inline_capacity ∧ cells.length = inline_capacity ∧
      cells[s.m_byte_count - 1]? = some (some 0)
  | StringStorage.m_heap_buffer p =>
    inline_capacity < s.m_byte_count ∧ p ≠ 0 ∧
      ∃ block, h.blocks p = some block ∧ 0 < block.reference_count ∧
        block.characters.length = s.m_byte_count ∧
        block.characters[s.m_byte_count - 1]? = some (some 0)

/-- The header of the block of a heap-backed string can be incremented once more. -/
def CanShare (s : String) (h : Heap StringBlock) : Prop :=
  ∀ p block, s.storage = StringStorage.m_heap_buffer p → h.blocks p = some block →
    block.reference_count ≠ u32_limit - 1

/-- A sample block: nine characters and the terminator, used by one string. -/
def sample_block : StringBlock :=
  ⟨1, [some 65, some 66, some 67, some 68, some 69, some 70, some 71, some 72, some 73, some 0]⟩

/-- A sample heap whose only live block is `sample_block`, at address 1. -/
def sample_heap : Heap StringBlock :=
  ⟨fun q => if q = 1 then some sample_block else none, 1, []⟩

/-- A sample heap-backed string, using `sample_block`. -/
def sample_heap_string : String := ⟨StringStorage.m_heap_buffer 1, 10⟩

/-- A sample inline string of two characters. -/
def sample_inline_string : String :=
  ⟨StringStorage.m_inline_buffer [some 104, some 105, some 0, none, none, none, none, none], 3⟩

end String

/-! ## Reference counting discipline shared by `String` and `RefPtr` -/

/-- Reference count stored in the block at `p`, 0 when no block is live there. -/
def live_count {B : Type} (rc : B → Nat) (h : Heap B) (p : Nat) : Nat :=
  match h.blocks p with
  | some b => rc b
  | none => 0

/-- Reference counting invariant. `targets` lists, for every handle created so far, the block
it points to (`none` for a handle that points to no block or was destroyed); `rc` reads the
count stored in a block.

* the number of handles that point to `p` is the count stored in the block at `p`, and is 0
  when no block is live at `p`;
* a live block has a positive count and an address the allocator handed out;
* no address was released twice;
* the released addresses are exactly the addresses handed out that are no longer live. -/
def CountInv {B : Type} (rc : B → Nat) (h : Heap B) (targets : List (Option Nat)) : Prop :=
  (∀ p, targets.count (some p) = live_count rc h p) ∧
  (∀ p b, h.blocks p = some b → 0 < rc b ∧ 1 ≤ p ∧ p ≤ h.allocations) ∧
  h.freed.Nodup ∧
  (∀ p, p ∈ h.freed ↔ (h.blocks p = none ∧ 1 ≤ p ∧ p ≤ h.allocations))

/-! ## RefCounted and RefPtr (`src/AT/RefPtr.h`) -/

/-- Number of values of `u64`. -/
def u64_limit : Nat := 18446744073709551616

/-- The `RefCounted` part of an object. -/
structure RefCounted where
  m_reference_count : Nat
  deriving DecidableEq, Repr

namespace RefCounted

/-- `RefCounted::RefCounted()`. -/
def default : RefCounted := ⟨0⟩

/-- `RefCounted::reference_count`. -/
def reference_count (o : RefCounted) : Nat := o.m_reference_count

/-- `RefCounted::increment_reference_count`. -/
def increment_reference_count (o : RefCounted) : Except Fault RefCounted := do
  VERIFY (decide (o.m_reference_count ≠ u64_limit - 1))
  Except.ok ⟨o.m_reference_count + 1⟩

/-- `RefCounted::decrement_reference_count`: whether the count hit zero, and the object. -/
def decrement_reference_count (o : RefCounted) : Except Fault (Bool × RefCounted) := do
  VERIFY (decide (o.m_reference_count > 0))
  Except.ok (decide (o.m_reference_count - 1 = 0), ⟨o.m_reference_count - 1⟩)

end RefCounted

/-- The data member of `RefPtr<T>`. -/
structure RefPtr where
  m_instance : Nat
  deriving DecidableEq, Repr

namespace RefPtr

/-- `RefPtr::RefPtr()` and `RefPtr::RefPtr(NullptrType)`. -/
def default : RefPtr := ⟨0⟩

/-- `RefPtr::is_valid`. -/
def is_valid (r : RefPtr) : Bool := decide (r.m_instance ≠ 0)

/-- `RefPtr::increment_reference_count`. -/
def increment_reference_count (r : RefPtr) (h : Heap RefCounted) :
    Except Fault (Heap RefCounted) :=
  match h.blocks r.m_instance with
  | none => Except.error Fault.memory_fault
  | some ref_counted => do
    let o ← ref_counted.increment_reference_count
    Except.ok (h.store r.m_instance (some o))

/-- `RefPtr::decrement_reference_count`. -/
def decrement_reference_count (r : RefPtr) (h : Heap RefCounted) :
    Except Fault (Bool × Heap RefCounted) :=
  match h.blocks r.m_instance with
  | none => Except.error Fault.memory_fault
  | some ref_counted => do
    let d ← ref_counted.decrement_reference_count
    Except.ok (d.1, h.store r.m_instance (some d.2))

/-- `RefPtr::RefPtr(T* instance)`, the private constructor. -/
def from_instance (raw_instance : Nat) (h : Heap RefCounted) :
    Except Fault (RefPtr × Heap RefCounted) :=
  let this : RefPtr := ⟨raw_instance⟩
  if this.m_instance ≠ 0 then do
    let h1 ← this.increment_reference_count h
    Except.ok (this, h1)
  else Except.ok (this, h)

/-- `adopt_ref`. -/
def adopt_ref (raw_instance : Nat) (h : Heap RefCounted) :
    Except Fault (RefPtr × Heap RefCounted) :=
  from_instance raw_instance h

/-- `create_ref`: `new T(...)`, whose `RefCounted` part starts at count zero, then
`adopt_ref`. -/
def create_ref (h : Heap RefCounted) : Except Fault (RefPtr × Heap RefCounted) :=
  let a := h.operator_new RefCounted.default
  adopt_ref a.1 a.2

/-- `RefPtr::RefPtr(const RefPtr&)`. -/
def copy_construct (other : RefPtr) (h : Heap RefCounted) :
    Except Fault (RefPtr × Heap RefCounted) :=
  let this : RefPtr := ⟨other.m_instance⟩
  if this.m_instance ≠ 0 then do
    let h1 ← this.increment_reference_count h
    Except.ok (this, h1)
  else Except.ok (this, h)

/-- `RefPtr::RefPtr(RefPtr&&)`: the constructed handle and the source afterwards. -/
def move_construct (other : RefPtr) : RefPtr × RefPtr :=
  (⟨other.m_instance⟩, { other with m_instance := 0 })

/-- `RefPtr::release`. -/
def release (r : RefPtr) (h : Heap RefCounted) : Except Fault (RefPtr × Heap RefCounted) :=
  if r.m_instance ≠ 0 then do
    let d ← r.decrement_reference_count h
    let h1 ← if d.1 then d.2.operator_delete r.m_instance else Except.ok d.2
    Except.ok ({ r with m_instance := 0 }, h1)
  else Except.ok (r, h)

/-- `RefPtr::~RefPtr`. -/
def destroy (r : RefPtr) (h : Heap RefCounted) : Except Fault (Heap RefCounted) := do
  let x ← r.release h
  Except.ok x.2

/-- `RefPtr::operator=(const RefPtr&)` between two distinct handles. -/
def copy_assign (this other : RefPtr) (h : Heap RefCounted) :
    Except Fault (RefPtr × Heap RefCounted) := do
  let x ← this.release h
  let this1 : RefPtr := { x.1 with m_instance := other.m_instance }
  if this1.m_instance ≠ 0 then do
    let h1 ← this1.increment_reference_count x.2
    Except.ok (this1, h1)
  else Except.ok (this1, x.2)

/-- `RefPtr::operator=(RefPtr&&)` between two distinct handles: the destination and the
source afterwards. -/
def move_assign (this other : RefPtr) (h : Heap RefCounted) :
    Except Fault ((RefPtr × RefPtr) × Heap RefCounted) := do
  let x ← this.release h
  Except.ok (({ x.1 with m_instance := other.m_instance }, { other with m_instance := 0 }), x.2)

/-- `RefPtr::operator=(NullptrType)`. -/
def assign_nullptr (this : RefPtr) (h : Heap RefCounted) :
    Except Fault (RefPtr × Heap RefCounted) :=
  this.release h

/-- Block a handle counts for: none for a null handle. -/
def target (r : RefPtr) : Option Nat :=
  if r.m_instance = 0 then none else some r.m_instance

end RefPtr

/-- A program state: the objects, and the `RefPtr` handles created so far in creation order,
`none` standing for a handle whose destructor has run. -/
structure RefPtrWorld where
  heap : Heap RefCounted
  handles : List (Option RefPtr)

/-- The operations a program performs on handles; handles are named by their position. -/
inductive RefPtrOp where
  | create_ref
  | construct_default
  | construct_copy (other : Nat)
  | construct_move (other : Nat)
  | assign_copy (this other : Nat)
  | assign_move (this other : Nat)
  | assign_nullptr (this : Nat)
  | release (this : Nat)
  | destroy (this : Nat)

namespace RefPtrWorld

/-- The state of a program that has created nothing. -/
def empty : RefPtrWorld := ⟨Heap.empty, []⟩

/-- The live handle at a position; using a handle that does not exist is a fault. -/
def handle (w : RefPtrWorld) (i : Nat) : Except Fault RefPtr :=
  match w.handles.get? i with
  | some (some r) => Except.ok r
  | _ => Except.error Fault.memory_fault

/-- Number of live handles whose instance pointer is the object at `p`. -/
def references (w : RefPtrWorld) (p : Nat) : Nat :=
  w.handles.countP (fun o => match o with
    | some r => decide (r.m_instance = p)
    | none => false)

/-- One operation. -/
def step (w : RefPtrWorld) : RefPtrOp → Except Fault RefPtrWorld
  | RefPtrOp.create_ref => do
    let r ← RefPtr.create_ref w.heap
    Except.ok ⟨r.2, w.handles ++ [some r.1]⟩
  | RefPtrOp.construct_default =>
    Except.ok ⟨w.heap, w.handles ++ [some RefPtr.default]⟩
  | RefPtrOp.construct_copy other => do
    let o ← w.handle other
    let r ← RefPtr.copy_construct o w.heap
    Except.ok ⟨r.2, w.handles ++ [some r.1]⟩
  | RefPtrOp.construct_move other => do
    let o ← w.handle other
    let r := RefPtr.move_construct o
    Except.ok ⟨w.heap, w.handles.set other (some r.2) ++ [some r.1]⟩
  | RefPtrOp.assign_copy this other => do
    let t ← w.handle this
    let o ← w.handle other
    if this = other then Except.ok w
    else do
      let r ← RefPtr.copy_assign t o w.heap
      Except.ok ⟨r.2, w.handles.set this (some r.1)⟩
  | RefPtrOp.assign_move this other => do
    let t ← w.handle this
    let o ← w.handle other
    if this = other then Except.ok w
    else do
      let r ← RefPtr.move_assign t o w.heap
      Except.ok ⟨r.2, (w.handles.set this (some r.1.1)).set other (some r.1.2)⟩
  | RefPtrOp.assign_nullptr this => do
    let t ← w.handle this
    let r ← RefPtr.assign_nullptr t w.heap
    Except.ok ⟨r.2, w.handles.set this (some r.1)⟩
  | RefPtrOp.release this => do
    let t ← w.handle this
    let r ← RefPtr.release t w.heap
    Except.ok ⟨r.2, w.handles.set this (some r.1)⟩
  | RefPtrOp.destroy this => do
    let t ← w.handle this
    let h ← RefPtr.destroy t w.heap
    Except.ok ⟨h, w.handles.set this none⟩

/-- A sequence of operations, in order. -/
def run (w : RefPtrWorld) : List RefPtrOp → Except Fault RefPtrWorld
  | [] => Except.ok w
  | op :: ops => do
    let w1 ← w.step op
    run w1 ops

/-- For every handle of a list, the object it counts for. -/
def targets_of (handles : List (Option RefPtr)) : List (Option Nat) :=
  handles.map (fun o => match o with
    | some r => r.target
    | none => none)

/-- For every handle, the object it counts for. -/
def targets (w : RefPtrWorld) : List (Option Nat) := targets_of w.handles

end RefPtrWorld

/-- A program state: the heap blocks of strings, and the `String` objects created so far in
creation order, `none` standing for an object whose destructor has run. -/
structure StringWorld where
  heap : Heap StringBlock
  strings : List (Option String)

/-- The operations a program performs on strings; objects are named by their position. -/
inductive StringOp where
  | construct_default
  | construct_view (string_view : StringView)
  | construct_copy (other : Nat)
  | construct_move (other : Nat)
  | assign_copy (this other : Nat)
  | assign_move (this other : Nat)
  | assign_view (this : Nat) (string_view : StringView)
  | clear (this : Nat)
  | destroy (this : Nat)

namespace StringWorld

/-- The state of a program that has created nothing. -/
def empty : StringWorld := ⟨Heap.empty, []⟩

/-- The live object at a position; using an object that does not exist is a fault. -/
def object (w : StringWorld) (i : Nat) : Except Fault String :=
  match w.strings.get? i with
  | some (some s) => Except.ok s
  | _ => Except.error Fault.memory_fault

/-- Number of live strings whose `m_heap_buffer` points to the block at `p`. -/
def references (w : StringWorld) (p : Nat) : Nat :=
  w.strings.countP (fun o => match o with
    | some s =>
      (match s.storage with
        | StringStorage.m_heap_buffer q => decide (q = p)
        | StringStorage.m_inline_buffer _ => false)
    | none => false)

/-- One operation. -/
def step (w : StringWorld) : StringOp → Except Fault StringWorld
  | StringOp.construct_default =>
    Except.ok ⟨w.heap, w.strings ++ [some String.default]⟩
  | StringOp.construct_view string_view => do
    let r ← String.from_view string_view w.heap
    Except.ok ⟨r.2, w.strings ++ [some r.1]⟩
  | StringOp.construct_copy other => do
    let o ← w.object other
    let r ← String.copy_construct o w.heap
    Except.ok ⟨r.2, w.strings ++ [some r.1]⟩
  | StringOp.construct_move other => do
    let o ← w.object other
    let r ← String.move_construct o
    Except.ok ⟨w.heap, w.strings.set other (some r.2) ++ [some r.1]⟩
  | StringOp.assign_copy this other => do
    let t ← w.object this
    let o ← w.object other
    if this = other then Except.ok w
    else do
      let r ← String.copy_assign t o w.heap
      Except.ok ⟨r.2, w.strings.set this (some r.1)⟩
  | StringOp.assign_move this other => do
    let t ← w.object this
    let o ← w.object other
    if this = other then Except.ok w
    else do
      let r ← String.move_assign t o w.heap
      Except.ok ⟨r.2, (w.strings.set this (some r.1.1)).set other (some r.1.2)⟩
  | StringOp.assign_view this string_view => do
    let t ← w.object this
    let r ← String.view_assign t string_view w.heap
    Except.ok ⟨r.2, w.strings.set this (some r.1)⟩
  | StringOp.clear this => do
    let t ← w.object this
    let r ← String.clear t w.heap
    Except.ok ⟨r.2, w.strings.set this (some r.1)⟩
  | StringOp.destroy this => do
    let t ← w.object this
    let h ← String.destroy t w.heap
    Except.ok ⟨h, w.strings.set this none⟩

/-- A sequence of operations, in order. -/
def run (w : StringWorld) : List StringOp → Except Fault StringWorld
  | [] => Except.ok w
  | op :: ops => do
    let w1 ← w.step op
    run w1 ops

/-- For every string of a list, the block it counts for. -/
def targets_of (strings : List (Option String)) : List (Option Nat) :=
  strings.map (fun o => match o with
    | some s => s.target
    | none => none)

/-- For every string, the block it counts for. -/
def targets (w : StringWorld) : List (Option Nat) := targets_of w.strings

/-- Invariant of the reachable states: the reference counting discipline holds and every
live string satisfies the class invariant. -/
def Inv (w : StringWorld) : Prop :=
  CountInv StringBlock.reference_count w.heap w.targets ∧
  ∀ (i : Nat) (s : String), w.strings[i]? = some (some s) → s.WellFormed w.heap

end StringWorld

/-- Every block live in `h2` is a block of `h1` with the same characters, or was allocated
after `h1`; and no address of `h1` is handed out again. -/
def Evolves (h1 h2 : Heap StringBlock) : Prop :=
  h1.allocations ≤ h2.allocations ∧
  ∀ q b2, h2.blocks q = some b2 →
    (∃ b1, h1.blocks q = some b1 ∧ b2.characters = b1.characters) ∨ h1.allocations < q

/-! ## Vector: the other constructors and operations (`src/AT/Vector.h`) -/

/-- A `for (usize index = first; ...; ++index)` loop running `remaining` iterations of
`body`, from `index` on. -/
def for_range {S : Type} (body : Nat → S → Except Fault S) : Nat → Nat → S → Except Fault S
  | 0, _, s => Except.ok s
  | remaining + 1, index, s => do
    let s1 ← body index s
    for_range body remaining (index + 1) s1

namespace ElementMemory

variable {T : Type}

/-- Placement copy construction `new (destination) T(source)` from an element in memory. -/
def copy_construct (m : ElementMemory T) (destination source : ElementRef) :
    Except Fault (ElementMemory T) :=
  match m.slot source with
  | some (Slot.live x) => m.set_slot destination (Slot.live x)
  | _ => Except.error Fault.memory_fault

/-- The memory `m1` is `m` with the block at `p` holding `slots` and with the destructor
log `log`: the other blocks and the allocator's counters are those of `m`. -/
def Updated (m m1 : ElementMemory T) (p : Nat) (slots : List (Slot T)) (log : List T) : Prop :=
  m1.heap.blocks p = some slots ∧ (∀ q, q ≠ p → m1.heap.blocks q = m.heap.blocks q) ∧
  m1.heap.allocations = m.heap.allocations ∧ m1.heap.freed = m.heap.freed ∧
  m1.finalized = log

end ElementMemory

namespace Vector

variable {T : Type}

/-- `Vector::copy_elements`, the source being a block of the heap. -/
def copy_elements (m : ElementMemory T) (destination_elements source_elements in_count : Nat) :
    Except Fault (ElementMemory T) :=
  for_range (fun index m1 =>
      m1.copy_construct ⟨destination_elements, index⟩ ⟨source_elements, index⟩)
    in_count 0 m

/-- `Vector::copy_elements`, the source being a span given by its elements. -/
def copy_elements_from_span (m : ElementMemory T) (destination_elements : Nat)
    (span : List T) (in_count : Nat) : Except Fault (ElementMemory T) :=
  for_range (fun index m1 =>
      match span.get? index with
      | some x => m1.construct ⟨destination_elements, index⟩ x
      | none => Except.error Fault.memory_fault)
    in_count 0 m

/-- `Vector::from_initial_capacity`. -/
def from_initial_capacity (sizeof_T : Nat) (m : ElementMemory T) (initial_capacity : Nat) :
    Vector × ElementMemory T :=
  let r := allocate_memory sizeof_T m initial_capacity
  (⟨r.1, initial_capacity, 0⟩, r.2)

/-- `Vector::from_span`, the span being given by its elements. -/
def from_span (sizeof_T : Nat) (m : ElementMemory T) (span : List T) :
    Except Fault (Vector × ElementMemory T) := do
  let r := from_initial_capacity sizeof_T m span.length
  let vector : Vector := { r.1 with m_count := span.length }
  let m1 ← copy_elements_from_span r.2 vector.m_elements span vector.m_count
  Except.ok (vector, m1)

/-- `Vector::from_template_element`. -/
def from_template_element (sizeof_T : Nat) (m : ElementMemory T) (in_count : Nat)
    (template_element : T) : Except Fault (Vector × ElementMemory T) := do
  let r := from_initial_capacity sizeof_T m in_count
  let vector : Vector := { r.1 with m_count := in_count }
  let m1 ← for_range (fun index m1 => m1.construct ⟨vector.m_elements, index⟩ template_element)
    vector.m_count 0 r.2
  Except.ok (vector, m1)

/-- `Vector::Vector(const Vector&)`. -/
def copy_construct (sizeof_T : Nat) (other : Vector) (m : ElementMemory T) :
    Except Fault (Vector × ElementMemory T) := do
  let r := allocate_memory sizeof_T m other.m_count
  let this : Vector := ⟨r.1, other.m_count, other.m_count⟩
  let m1 ← copy_elements r.2 this.m_elements other.m_elements this.m_count
  Except.ok (this, m1)

/-- `Vector::Vector(Vector&&)`: the constructed vector and the source afterwards. -/
def move_construct (other : Vector) : Vector × Vector :=
  (⟨other.m_elements, other.m_capacity, other.m_count⟩, ⟨0, 0, 0⟩)

/-- `Vector::clear`. -/
def clear (v : Vector) (m : ElementMemory T) : Except Fault (Vector × ElementMemory T) := do
  let m1 ← for_range (fun index m1 => m1.destroy ⟨v.m_elements, index⟩) v.m_count 0 m
  Except.ok ({ v with m_count := 0 }, m1)

/-- `Vector::clear_and_shrink`. -/
def clear_and_shrink (v : Vector) (m : ElementMemory T) :
    Except Fault (Vector × ElementMemory T) := do
  let r ← clear v m
  let m1 ← free_memory r.2 r.1.m_elements r.1.m_capacity
  Except.ok ({ r.1 with m_elements := 0, m_capacity := 0 }, m1)

/-- `Vector::~Vector`. -/
def destroy (v : Vector) (m : ElementMemory T) : Except Fault (ElementMemory T) := do
  let r ← clear_and_shrink v m
  Except.ok r.2

/-- `Vector::operator=(const Vector&)` between two distinct objects. -/
def copy_assign (sizeof_T : Nat) (this other : Vector) (m : ElementMemory T) :
    Except Fault (Vector × ElementMemory T) := do
  let c ← clear this m
  let r ← (if other.m_count > c.1.m_capacity then
      (free_memory c.2 c.1.m_elements c.1.m_capacity).map (fun m1 =>
        let a := allocate_memory sizeof_T m1 other.m_count
        (({ c.1 with m_capacity := other.m_count, m_elements := a.1 } : Vector), a.2))
    else Except.ok c)
  let this1 : Vector := { r.1 with m_count := other.m_count }
  let m2 ← copy_elements r.2 this1.m_elements other.m_elements this1.m_count
  Except.ok (this1, m2)

/-- `Vector::operator=(Vector&&)` between two distinct objects: the destination and the
source afterwards. -/
def move_assign (this other : Vector) (m : ElementMemory T) :
    Except Fault ((Vector × Vector) × ElementMemory T) := do
  let c ← clear this m
  let this1 : Vector := ⟨other.m_elements, other.m_capacity, other.m_count⟩
  Except.ok ((this1, ⟨0, 0, 0⟩), c.2)

/-- `Vector::emplace`, the element being given by the value the constructor builds from the
arguments. -/
def emplace (sizeof_T : Nat) (v : Vector) (m : ElementMemory T) (element : T) :
    Except Fault (Vector × ElementMemory T) := do
  let r ← expand_elements_block_if_required sizeof_T v m (usize (v.m_count + 1))
  let m1 ← r.2.construct ⟨r.1.m_elements, r.1.m_count⟩ element
  Except.ok ({ r.1 with m_count := usize (r.1.m_count + 1) }, m1)

/-- `Vector::remove_last()`. -/
def remove_last (v : Vector) (m : ElementMemory T) : Except Fault (Vector × ElementMemory T) := do
  VERIFY (decide (v.m_count > 0))
  let v1 : Vector := { v with m_count := v.m_count - 1 }
  let m1 ← m.destroy ⟨v1.m_elements, v1.m_count⟩
  Except.ok (v1, m1)

/-- `Vector::remove_last(usize)`. -/
def remove_last_count (v : Vector) (m : ElementMemory T) (remove_count : Nat) :
    Except Fault (Vector × ElementMemory T) := do
  VERIFY (decide (v.m_count ≥ remove_count))
  let m1 ← for_range (fun remove_index m1 => m1.destroy ⟨v.m_elements, remove_index⟩)
    remove_count (v.m_count - remove_count) m
  Except.ok ({ v with m_count := v.m_count - remove_count }, m1)

/-- `Vector::remove_unordered(usize)`. -/
def remove_unordered (v : Vector) (m : ElementMemory T) (remove_index : Nat) :
    Except Fault (Vector × ElementMemory T) := do
  VERIFY (decide (remove_index < v.m_count))
  let m1 ← m.destroy ⟨v.m_elements, remove_index⟩
  let v1 : Vector := { v with m_count := v.m_count - 1 }
  if remove_index ≠ v1.m_count then do
    let m2 ← m1.move_construct ⟨v1.m_elements, remove_index⟩ ⟨v1.m_elements, v1.m_count⟩
    let m3 ← m2.destroy ⟨v1.m_elements, v1.m_count⟩
    Except.ok (v1, m3)
  else Except.ok (v1, m1)

/-- `Vector::remove_unordered(usize, usize)`. The subscripts `m_elements[a + b]` add in
`usize`; the placement address `m_elements + remove_index + index` is pointer arithmetic,
which does not wrap. The destructor calls are those of an element type whose destructor
accesses its object; `remove_unordered_range_trivial` is the same body for a trivially
destructible element type. -/
def remove_unordered_range (v : Vector) (m : ElementMemory T) (remove_index remove_count : Nat) :
    Except Fault (Vector × ElementMemory T) := do
  VERIFY (decide (usize (remove_index + remove_count) ≤ v.m_count))
  let move_count := usize (v.m_count + usize_limit - usize (remove_index + remove_count))
  let move_count := if move_count > remove_count then remove_count else move_count
  let move_index := usize (v.m_count + usize_limit - move_count)
  let m1 ← for_range (fun index m1 => do
      let m2 ← m1.destroy ⟨v.m_elements, usize (remove_index + index)⟩
      let m3 ← m2.copy_construct ⟨v.m_elements, remove_index + index⟩
        ⟨v.m_elements, usize (move_index + index)⟩
      m3.destroy ⟨v.m_elements, usize (move_index + index)⟩)
    move_count 0 m
  let m4 ← for_range (fun index m1 => m1.destroy ⟨v.m_elements, usize (remove_index + index)⟩)
    (remove_count - move_count) move_count m1
  Except.ok ({ v with m_count := usize (v.m_count + usize_limit - remove_count) }, m4)

/-- Representation of a well-formed vector holding the elements `xs`: `count()` is their
number, within `capacity()`; the vector is empty with no storage, or its storage block has
`capacity()` slots whose first ones hold `xs`, live and in order. -/
def Rep (v : Vector) (m : ElementMemory T) (xs : List T) : Prop :=
  v.m_count = xs.length ∧ xs.length ≤ v.m_capacity ∧ v.m_elements ≤ m.heap.allocations ∧
  ((v.m_elements = 0 ∧ v.m_capacity = 0) ∨
    (v.m_elements ≠ 0 ∧ Stores m v.m_elements v.m_capacity xs))

end Vector

/-- A program state: the element memory, and the `Vector` objects created so far in creation
order, `none` standing for an object whose destructor has run. -/
structure VectorWorld (T : Type) where
  memory : ElementMemory T
  vectors : List (Option Vector)

/-- The operations a program performs on vectors; objects are named by their position. -/
inductive VectorOp (T : Type) where
  | construct_default
  | from_initial_capacity (initial_capacity : Nat)
  | from_span (span : List T)
  | from_template_element (in_count : Nat) (template_element : T)
  | construct_copy (other : Nat)
  | construct_move (other : Nat)
  | assign_copy (this other : Nat)
  | assign_move (this other : Nat)
  | add (this : Nat) (element : T)
  | emplace (this : Nat) (element : T)
  | remove_last (this : Nat)
  | remove_last_count (this : Nat) (remove_count : Nat)
  | remove_unordered (this : Nat) (remove_index : Nat)
  | remove_unordered_range (this : Nat) (remove_index remove_count : Nat)
  | clear (this : Nat)
  | clear_and_shrink (this : Nat)
  | destroy (this : Nat)

namespace VectorOp

variable {T : Type}

/-- The `usize` arguments of the operation are values of `usize`. -/
def well_typed : VectorOp T → Prop
  | from_initial_capacity initial_capacity => initial_capacity < usize_limit
  | from_span span => span.length < usize_limit
  | from_template_element in_count _ => in_count < usize_limit
  | remove_last_count _ remove_count => remove_count < usize_limit
  | remove_unordered _ remove_index => remove_index < usize_limit
  | remove_unordered_range _ remove_index remove_count =>
    remove_index < usize_limit ∧ remove_count < usize_limit
  | _ => True

end VectorOp

namespace VectorWorld

variable {T : Type}

/-- The state of a program that has created nothing. -/
def empty : VectorWorld T := ⟨ElementMemory.empty, []⟩

/-- The live object at a position; using an object that does not exist is a fault. -/
def object (w : VectorWorld T) (i : Nat) : Except Fault Vector :=
  match w.vectors.get? i with
  | some (some v) => Except.ok v
  | _ => Except.error Fault.memory_fault

/-- One operation, on elements of `sizeof_T` bytes. -/
def step (sizeof_T : Nat) (w : VectorWorld T) : VectorOp T → Except Fault (VectorWorld T)
  | VectorOp.construct_default =>
    Except.ok ⟨w.memory, w.vectors ++ [some Vector.default]⟩
  | VectorOp.from_initial_capacity initial_capacity =>
    let r := Vector.from_initial_capacity sizeof_T w.memory initial_capacity
    Except.ok ⟨r.2, w.vectors ++ [some r.1]⟩
  | VectorOp.from_span span => do
    let r ← Vector.from_span sizeof_T w.memory span
    Except.ok ⟨r.2, w.vectors ++ [some r.1]⟩
  | VectorOp.from_template_element in_count template_element => do
    let r ← Vector.from_template_element sizeof_T w.memory in_count template_element
    Except.ok ⟨r.2, w.vectors ++ [some r.1]⟩
  | VectorOp.construct_copy other => do
    let o ← w.object other
    let r ← Vector.copy_construct sizeof_T o w.memory
    Except.ok ⟨r.2, w.vectors ++ [some r.1]⟩
  | VectorOp.construct_move other => do
    let o ← w.object other
    let r := Vector.move_construct o
    Except.ok ⟨w.memory, w.vectors.set other (some r.2) ++ [some r.1]⟩
  | VectorOp.assign_copy this other => do
    let t ← w.object this
    let o ← w.object other
    if this = other then Except.ok w
    else do
      let r ← Vector.copy_assign sizeof_T t o w.memory
      Except.ok ⟨r.2, w.vectors.set this (some r.1)⟩
  | VectorOp.assign_move this other => do
    let t ← w.object this
    let o ← w.object other
    if this = other then Except.ok w
    else do
      let r ← Vector.move_assign t o w.memory
      Except.ok ⟨r.2, (w.vectors.set this (some r.1.1)).set other (some r.1.2)⟩
  | VectorOp.add this element => do
    let t ← w.object this
    let r ← Vector.add sizeof_T t w.memory element
    Except.ok ⟨r.2, w.vectors.set this (some r.1)⟩
  | VectorOp.emplace this element => do
    let t ← w.object this
    let r ← Vector.emplace sizeof_T t w.memory element
    Except.ok ⟨r.2, w.vectors.set this (some r.1)⟩
  | VectorOp.remove_last this => do
    let t ← w.object this
    let r ← Vector.remove_last t w.memory
    Except.ok ⟨r.2, w.vectors.set this (some r.1)⟩
  | VectorOp.remove_last_count this remove_count => do
    let t ← w.object this
    let r ← Vector.remove_last_count t w.memory remove_count
    Except.ok ⟨r.2, w.vectors.set this (some r.1)⟩
  | VectorOp.remove_unordered this remove_index => do
    let t ← w.object this
    let r ← Vector.remove_unordered t w.memory remove_index
    Except.ok ⟨r.2, w.vectors.set this (some r.1)⟩
  | VectorOp.remove_unordered_range this remove_index remove_count => do
    let t ← w.object this
    let r ← Vector.remove_unordered_range t w.memory remove_index remove_count
    Except.ok ⟨r.2, w.vectors.set this (some r.1)⟩
  | VectorOp.clear this => do
    let t ← w.object this
    let r ← Vector.clear t w.memory
    Except.ok ⟨r.2, w.vectors.set this (some r.1)⟩
  | VectorOp.clear_and_shrink this => do
    let t ← w.object this
    let r ← Vector.clear_and_shrink t w.memory
    Except.ok ⟨r.2, w.vectors.set this (some r.1)⟩
  | VectorOp.destroy this => do
    let t ← w.object this
    let m ← Vector.destroy t w.memory
    Except.ok ⟨m, w.vectors.set this none⟩

/-- A sequence of operations, in order. -/
def run (sizeof_T : Nat) (w : VectorWorld T) : List (VectorOp T) → Except Fault (VectorWorld T)
  | [] => Except.ok w
  | op :: ops => do
    let w1 ← w.step sizeof_T op
    run sizeof_T w1 ops

/-- Every block of the memory has fewer slots than `usize` has values. -/
def Bounded (m : ElementMemory T) : Prop :=
  ∀ p slots, m.heap.blocks p = some slots → slots.length < usize_limit

/-- Invariant of the reachable states: every live vector has `count() <= capacity()`, and
the blocks are of bounded size. -/
def Inv (w : VectorWorld T) : Prop :=
  (∀ (i : Nat) (v : Vector), w.vectors[i]? = some (some v) → v.m_count ≤ v.m_capacity) ∧
  Bounded w.memory

end VectorWorld

/-! ## Sample vector states -/

/-- A memory with one block of three slots, the first two holding `10` and `20`. -/
def sample_memory : ElementMemory Nat :=
  ⟨⟨fun q => if q = 1 then some [Slot.live 10, Slot.live 20, Slot.raw] else none, 1, []⟩, []⟩

/-- The vector owning the block of `sample_memory`. -/
def sample_vector : Vector := ⟨1, 3, 2⟩

/-- A memory with one full block of two slots holding `10` and `20`. -/
def sample_full_memory : ElementMemory Nat :=
  ⟨⟨fun q => if q = 1 then some [Slot.live 10, Slot.live 20] else none, 1, []⟩, []⟩

/-- The vector owning the block of `sample_full_memory`. -/
def sample_full_vector : Vector := ⟨1, 2, 2⟩

/-- A program using every constructor and operation of `Vector` once or more. -/
def sample_program : List (VectorOp Nat) :=
  [VectorOp.construct_default, VectorOp.from_initial_capacity 4,
    VectorOp.from_span [1, 2, 3, 4, 5], VectorOp.from_template_element 3 7,
    VectorOp.add 0 10, VectorOp.emplace 0 11, VectorOp.add 1 12,
    VectorOp.construct_copy 2, VectorOp.construct_move 3,
    VectorOp.remove_unordered 2 1, VectorOp.remove_unordered_range 2 0 2,
    VectorOp.remove_last 4, VectorOp.remove_last_count 4 2,
    VectorOp.assign_copy 1 4, VectorOp.assign_move 3 5,
    VectorOp.clear 0, VectorOp.clear_and_shrink 2, VectorOp.destroy 5]

/-! ## ByteBuffer: states -/

namespace ByteBuffer

/-- The buffer is null with no bytes, or its pointer designates a live block of
`m_byte_count` bytes that the allocator handed out. -/
def Backed (b : ByteBuffer) (h : Heap (List (Option Nat))) : Prop :=
  (b.m_bytes = 0 ∧ b.m_byte_count = 0) ∨
  (b.m_bytes ≠ 0 ∧ b.m_bytes ≤ h.allocations ∧
    ∃ stored, h.blocks b.m_bytes = some stored ∧ stored.length = b.m_byte_count)

/-- Class invariant of `ByteBuffer`, the one `free` asserts: the buffer is backed, and
`bytes()` is null exactly when `byte_count()` is zero. -/
def WellFormed (b : ByteBuffer) (h : Heap (List (Option Nat))) : Prop :=
  Backed b h ∧ (b.m_bytes = 0 ↔ b.m_byte_count = 0)

/-- A heap whose only live block holds the four bytes `1, 2, 3, 4`. -/
def sample_byte_heap : Heap (List (Option Nat)) :=
  ⟨fun q => if q = 1 then some [some 1, some 2, some 3, some 4] else none, 1, []⟩

/-- The buffer owning the block of `sample_byte_heap`. -/
def sample_byte_buffer : ByteBuffer := ⟨1, 4⟩

end ByteBuffer

/-! ## OwnPtr (`src/AT/OwnPtr.h`) -/

/-- The data member of `OwnPtr<T>`. -/
structure OwnPtr where
  m_instance : Nat
  deriving DecidableEq, Repr

namespace OwnPtr

variable {B : Type}

/-- `OwnPtr::OwnPtr()`. -/
def default : OwnPtr := ⟨0⟩

/-- `OwnPtr::OwnPtr(NullptrType)`. -/
def from_nullptr : OwnPtr := ⟨0⟩

/-- `OwnPtr::OwnPtr(T* instance)`, the private constructor. -/
def from_instance (raw_instance : Nat) : OwnPtr := ⟨raw_instance⟩

/-- `OwnPtr::is_valid`. -/
def is_valid (p : OwnPtr) : Bool := decide (p.m_instance ≠ 0)

/-- `OwnPtr::get`. -/
def get (p : OwnPtr) : Except Fault Nat := do
  VERIFY p.is_valid
  Except.ok p.m_instance

/-- `OwnPtr::deref`: the object behind the pointer. -/
def deref (p : OwnPtr) (h : Heap B) : Except Fault B := do
  VERIFY p.is_valid
  match h.blocks p.m_instance with
  | none => Except.error Fault.memory_fault
  | some object => Except.ok object

/-- `OwnPtr::release`; `delete m_instance` releases the object. -/
def release (p : OwnPtr) (h : Heap B) : Except Fault (OwnPtr × Heap B) :=
  if p.m_instance ≠ 0 then do
    let h1 ← h.operator_delete p.m_instance
    Except.ok ({ p with m_instance := 0 }, h1)
  else Except.ok (p, h)

/-- `OwnPtr::~OwnPtr`. -/
def destroy (p : OwnPtr) (h : Heap B) : Except Fault (Heap B) := do
  let r ← p.release h
  Except.ok r.2

/-- `OwnPtr::OwnPtr(OwnPtr&&)`: the constructed handle and the source afterwards. -/
def move_construct (other : OwnPtr) : OwnPtr × OwnPtr :=
  (⟨other.m_instance⟩, { other with m_instance := 0 })

/-- `OwnPtr::operator=(OwnPtr&&)` between two distinct handles: the destination and the
source afterwards. -/
def move_assign (this other : OwnPtr) (h : Heap B) :
    Except Fault ((OwnPtr × OwnPtr) × Heap B) := do
  let r ← this.release h
  Except.ok (({ r.1 with m_instance := other.m_instance }, { other with m_instance := 0 }), r.2)

/-- `OwnPtr::operator=(NullptrType)`. -/
def assign_nullptr (this : OwnPtr) (h : Heap B) : Except Fault (OwnPtr × Heap B) :=
  this.release h

/-- `OwnPtr::as`: the handle returned and the source afterwards. The cast keeps the
object the pointer designates. -/
def «as» (p : OwnPtr) : OwnPtr × OwnPtr :=
  let casted_instance := p.m_instance
  let casted_own_ptr := from_instance casted_instance
  (casted_own_ptr, { p with m_instance := 0 })

/-- `OwnPtr::leak_and_release`: the raw pointer returned and the handle afterwards. -/
def leak_and_release (p : OwnPtr) : Nat × OwnPtr :=
  let raw_instance := p.m_instance
  (raw_instance, { p with m_instance := 0 })

/-- `adopt_own`. -/
def adopt_own (raw_instance : Nat) : OwnPtr :=
  from_instance raw_instance

/-- `create_own`: `new T(...)`, then `adopt_own`. -/
def create_own (h : Heap B) (value : B) : OwnPtr × Heap B :=
  let a := h.operator_new value
  (adopt_own a.1, a.2)

/-- Object a handle owns: none for a null handle. -/
def target (p : OwnPtr) : Option Nat :=
  if p.m_instance = 0 then none else some p.m_instance

end OwnPtr

/-- A program state: the objects, and the `OwnPtr` handles created so far in creation order,
`none` standing for a handle whose destructor has run. -/
structure OwnPtrWorld (B : Type) where
  heap : Heap B
  handles : List (Option OwnPtr)

/-- The operations a program performs on owning handles; handles are named by their
position. Objects enter the program through `create_own`. -/
inductive OwnPtrOp (B : Type) where
  | create_own (value : B)
  | construct_default
  | construct_nullptr
  | construct_move (other : Nat)
  | assign_move (this other : Nat)
  | assign_nullptr (this : Nat)
  | release (this : Nat)
  | cast (this : Nat)
  | destroy (this : Nat)

namespace OwnPtrWorld

variable {B : Type}

/-- The state of a program that has created nothing. -/
def empty : OwnPtrWorld B := ⟨Heap.empty, []⟩

/-- The live handle at a position; using a handle that does not exist is a fault. -/
def handle (w : OwnPtrWorld B) (i : Nat) : Except Fault OwnPtr :=
  match w.handles.get? i with
  | some (some p) => Except.ok p
  | _ => Except.error Fault.memory_fault

/-- Number of live handles whose instance pointer is the object at `p`. -/
def owners (w : OwnPtrWorld B) (p : Nat) : Nat :=
  w.handles.countP (fun o => match o with
    | some q => decide (q.m_instance = p)
    | none => false)

/-- One operation; `cast` is a call of `as`. -/
def step (w : OwnPtrWorld B) : OwnPtrOp B → Except Fault (OwnPtrWorld B)
  | OwnPtrOp.create_own value =>
    let r := OwnPtr.create_own w.heap value
    Except.ok ⟨r.2, w.handles ++ [some r.1]⟩
  | OwnPtrOp.construct_default =>
    Except.ok ⟨w.heap, w.handles ++ [some OwnPtr.default]⟩
  | OwnPtrOp.construct_nullptr =>
    Except.ok ⟨w.heap, w.handles ++ [some OwnPtr.from_nullptr]⟩
  | OwnPtrOp.construct_move other => do
    let o ← w.handle other
    let r := OwnPtr.move_construct o
    Except.ok ⟨w.heap, w.handles.set other (some r.2) ++ [some r.1]⟩
  | OwnPtrOp.assign_move this other => do
    let t ← w.handle this
    let o ← w.handle other
    if this = other then Except.ok w
    else do
      let r ← OwnPtr.move_assign t o w.heap
      Except.ok ⟨r.2, (w.handles.set this (some r.1.1)).set other (some r.1.2)⟩
  | OwnPtrOp.assign_nullptr this => do
    let t ← w.handle this
    let r ← OwnPtr.assign_nullptr t w.heap
    Except.ok ⟨r.2, w.handles.set this (some r.1)⟩
  | OwnPtrOp.release this => do
    let t ← w.handle this
    let r ← OwnPtr.release t w.heap
    Except.ok ⟨r.2, w.handles.set this (some r.1)⟩
  | OwnPtrOp.cast this => do
    let t ← w.handle this
    let r := OwnPtr.«as» t
    Except.ok ⟨w.heap, w.handles.set this (some r.2) ++ [some r.1]⟩
  | OwnPtrOp.destroy this => do
    let t ← w.handle this
    let h ← OwnPtr.destroy t w.heap
    Except.ok ⟨h, w.handles.set this none⟩

/-- A sequence of operations, in order. -/
def run (w : OwnPtrWorld B) : List (OwnPtrOp B) → Except Fault (OwnPtrWorld B)
  | [] => Except.ok w
  | op :: ops => do
    let w1 ← w.step op
    run w1 ops

/-- For every handle of a list, the object it owns. -/
def targets_of (handles : List (Option OwnPtr)) : List (Option Nat) :=
  handles.map (fun o => match o with
    | some p => p.target
    | none => none)

/-- For every handle, the object it owns. -/
def targets (w : OwnPtrWorld B) : List (Option Nat) := targets_of w.handles

/-- Invariant of the reachable states: the counting discipline with every live object
counting for one, that is, every live object has exactly one owning handle, every released
object has none and was released once. -/
def Inv (w : OwnPtrWorld B) : Prop :=
  CountInv (fun _ : B => 1) w.heap w.targets

end OwnPtrWorld

/-! ## Optional (`src/AT/Optional.h`) -/

/-- The data members of the primary template `Optional<T>`: `m_value_buffer`, given by
the state of the object placed in it, and `m_has_value`. -/
structure Optional (T : Type) where
  m_value_buffer : Slot T
  m_has_value : Bool

namespace Optional

variable {T : Type}

/-- `Optional::Optional()`. -/
def default : Optional T := ⟨Slot.raw, false⟩

/-- `Optional::raw_value`: the object placed in the buffer. -/
def raw_value (o : Optional T) : Except Fault T :=
  match o.m_value_buffer with
  | Slot.live x => Except.ok x
  | _ => Except.error Fault.memory_fault

/-- Explicit destructor call `raw_value().~T()`: the buffer afterwards and the values on
which `~T()` ran, most recent first. -/
def destroy_value (o : Optional T) (finalized : List T) : Except Fault (Slot T × List T) :=
  match o.m_value_buffer with
  | Slot.live x => Except.ok (Slot.raw, x :: finalized)
  | Slot.moved_from => Except.ok (Slot.raw, finalized)
  | Slot.raw => Except.error Fault.memory_fault

/-- `Optional::Optional(const T&)` and `Optional::Optional(T&&)`. -/
def from_value (value : T) : Optional T := ⟨Slot.live value, true⟩

/-- `Optional::Optional(const Optional&)`. -/
def copy_construct (other : Optional T) : Except Fault (Optional T) :=
  if other.m_has_value then do
    let value ← other.raw_value
    Except.ok ⟨Slot.live value, other.m_has_value⟩
  else Except.ok ⟨Slot.raw, other.m_has_value⟩

/-- `Optional::Optional(Optional&&)`: the constructed object, the state in which the
source is left, and the destructor log. -/
def move_construct (other : Optional T) (finalized : List T) :
    Except Fault ((Optional T × Optional T) × List T) :=
  if other.m_has_value then do
    let value ← other.raw_value
    let moved : Optional T := { other with m_value_buffer := Slot.moved_from }
    let d ← moved.destroy_value finalized
    Except.ok ((⟨Slot.live value, other.m_has_value⟩, ⟨d.1, false⟩), d.2)
  else Except.ok ((⟨Slot.raw, other.m_has_value⟩, other), finalized)

/-- `Optional::has_value`. -/
def has_value (o : Optional T) : Bool := o.m_has_value

/-- `Optional::value`. -/
def value (o : Optional T) : Except Fault T := do
  VERIFY o.has_value
  o.raw_value

/-- `Optional::release`. -/
def release (o : Optional T) (finalized : List T) : Except Fault (Optional T × List T) :=
  if o.m_has_value then do
    let d ← o.destroy_value finalized
    Except.ok (⟨d.1, false⟩, d.2)
  else Except.ok (o, finalized)

/-- `Optional::~Optional`. -/
def destroy (o : Optional T) (finalized : List T) : Except Fault (List T) :=
  if o.m_has_value then do
    let d ← o.destroy_value finalized
    Except.ok d.2
  else Except.ok finalized

/-- `Optional::operator=(const Optional&)` between two distinct objects. -/
def copy_assign (this other : Optional T) (finalized : List T) :
    Except Fault (Optional T × List T) := do
  let r ← this.release finalized
  if other.m_has_value then do
    let value ← other.raw_value
    Except.ok (⟨Slot.live value, true⟩, r.2)
  else Except.ok r

/-- `Optional::operator=(Optional&&)` between two distinct objects: the destination and
the source afterwards, and the destructor log. -/
def move_assign (this other : Optional T) (finalized : List T) :
    Except Fault ((Optional T × Optional T) × List T) := do
  let r ← this.release finalized
  if other.m_has_value then do
    let value ← other.raw_value
    let moved : Optional T := { other with m_value_buffer := Slot.moved_from }
    let d ← moved.destroy_value r.2
    Except.ok ((⟨Slot.live value, true⟩, ⟨d.1, false⟩), d.2)
  else Except.ok ((r.1, other), r.2)

/-- `Optional::operator=(const T&)` and `Optional::operator=(T&&)`. -/
def value_assign (this : Optional T) (value : T) (finalized : List T) :
    Except Fault (Optional T × List T) := do
  let r ← this.release finalized
  Except.ok (⟨Slot.live value, true⟩, r.2)

/-- `Optional::operator==`, `eq` being `operator==` of `T`. -/
def operator_eq (eq : T → T → Bool) (this other : Optional T) : Except Fault Bool :=
  if this.m_has_value ≠ other.m_has_value then Except.ok false
  else if this.m_has_value then do
    let a ← this.raw_value
    let b ← other.raw_value
    Except.ok (eq a b)
  else Except.ok true

/-- `Optional::operator!=`. -/
def operator_ne (eq : T → T → Bool) (this other : Optional T) : Except Fault Bool := do
  let r ← operator_eq eq this other
  Except.ok (!r)

/-- Class invariant of `Optional<T>`: the buffer holds an object exactly when
`m_has_value` is set. -/
def WellFormed (o : Optional T) : Prop :=
  o.m_has_value = true ↔ ∃ x, o.m_value_buffer = Slot.live x

end Optional

/-- The data member of the specialization `Optional<T&>`: the address of the object
referred to, `0` being `nullptr`. -/
structure OptionalReference where
  m_value : Nat
  deriving DecidableEq, Repr

namespace OptionalReference

/-- `Optional<T&>::Optional()`. -/
def default : OptionalReference := ⟨0⟩

/-- `Optional<T&>::Optional(const Optional&)`. -/
def copy_construct (other : OptionalReference) : OptionalReference := ⟨other.m_value⟩

/-- `Optional<T&>::Optional(Optional&&)`: the constructed object and the source
afterwards. -/
def move_construct (other : OptionalReference) : OptionalReference × OptionalReference :=
  (⟨other.m_value⟩, ⟨0⟩)

/-- `Optional<T&>::Optional(T&)`, the reference being given by the address of the
object. -/
def from_value (value : Nat) : OptionalReference := ⟨value⟩

/-- `Optional<T&>::operator=(const Optional&)`. -/
def copy_assign (_this other : OptionalReference) : OptionalReference := ⟨other.m_value⟩

/-- `Optional<T&>::operator=(Optional&&)` between two distinct objects: the destination
and the source afterwards. -/
def move_assign (_this other : OptionalReference) : OptionalReference × OptionalReference :=
  (⟨other.m_value⟩, ⟨0⟩)

/-- `Optional<T&>::operator=(T&)`. -/
def value_assign (_this : OptionalReference) (value : Nat) : OptionalReference := ⟨value⟩

/-- `Optional<T&>::has_value`. -/
def has_value (o : OptionalReference) : Bool := decide (o.m_value ≠ 0)

/-- `Optional<T&>::value`: the reference `*m_value`, given by the address of the
object. -/
def value (o : OptionalReference) : Except Fault Nat := do
  VERIFY o.has_value
  Except.ok o.m_value

/-- Read of the object behind `value()`, in a memory that gives the object found at
every address. -/
def read {T : Type} (objects : Nat → Option T) (o : OptionalReference) : Except Fault T := do
  let p ← o.value
  match objects p with
  | some x => Except.ok x
  | none => Except.error Fault.memory_fault

/-- `Optional<T&>::release`. -/
def release (_o : OptionalReference) : OptionalReference := ⟨0⟩

/-- `Optional<T&>::operator==`. -/
def operator_eq (this other : OptionalReference) : Bool :=
  let values_are_equal := decide (this.m_value = other.m_value)
  values_are_equal

/-- `Optional<T&>::operator!=`. -/
def operator_ne (this other : OptionalReference) : Bool :=
  let values_are_equal := decide (this.m_value = other.m_value)
  !values_are_equal

/-- A memory with the value `7` at the addresses `1` and `2`, and nothing elsewhere. -/
def sample_objects : Nat → Option Nat :=
  fun p => if p = 1 ∨ p = 2 then some 7 else none

end OptionalReference

/-! ## Span (`src/AT/Span.h`) -/

/-- The two data members of `Span<T>`; `m_elements` points at an element of an array,
and the null pointer is the reference into block `0`. -/
structure Span where
  m_elements : ElementRef
  m_count : Nat
  deriving DecidableEq, Repr

namespace Span

/-- `Span::Span()`. -/
def default : Span := ⟨⟨0, 0⟩, 0⟩

/-- Pointer arithmetic `m_elements + offset`. -/
def element (s : Span) (offset : Nat) : ElementRef :=
  ⟨s.m_elements.block, s.m_elements.index + offset⟩

/-- `Span::count`. -/
def count (s : Span) : Nat := s.m_count

/-- `Span::at`. -/
def «at» (s : Span) (index : Nat) : Except Fault ElementRef := do
  VERIFY (decide (index < s.m_count))
  Except.ok (s.element index)

/-- `Span::operator[]`. -/
def operator_index (s : Span) (index : Nat) : ElementRef := s.element index

/-- `Span::slice(usize offset_index, usize in_count)`. -/
def slice (s : Span) (offset_index in_count : Nat) : Except Fault Span := do
  VERIFY (decide (usize (offset_index + in_count) ≤ s.m_count))
  Except.ok ⟨s.element offset_index, in_count⟩

/-- `Span::slice(usize offset_index)`. -/
def slice_to_end (s : Span) (offset_index : Nat) : Except Fault Span := do
  VERIFY (decide (offset_index ≤ s.m_count))
  Except.ok ⟨s.element offset_index, usize (s.m_count + usize_limit - offset_index)⟩

/-- `Span::slice_range`. -/
def slice_range (s : Span) (range_min_index range_max_index : Nat) : Except Fault Span := do
  VERIFY (decide (range_min_index ≤ range_max_index))
  VERIFY (decide (range_max_index ≤ s.m_count))
  Except.ok ⟨s.element range_min_index,
    usize (range_max_index + usize_limit - range_min_index)⟩

/-- The span lies entirely inside `original`: same array, and every position it covers
is covered by `original`. -/
def Inside (s original : Span) : Prop :=
  s.m_elements.block = original.m_elements.block ∧
    original.m_elements.index ≤ s.m_elements.index ∧
    s.m_elements.index + s.m_count ≤ original.m_elements.index + original.m_count

/-- A span over the four elements of an array at address `1`. -/
def sample_span : Span := ⟨⟨1, 0⟩, 4⟩

end Span

/-! ## StringView comparison (`src/AT/StringView.cpp`) -/

namespace StringView

/-- Loop of `StringView::operator==`: `remaining` iterations from `byte_offset` on, over
the bytes readable through the two `m_characters` pointers. -/
def operator_eq_loop (this_characters other_characters : List (Option Nat)) :
    Nat → Nat → Except Fault Bool
  | 0, _ => Except.ok true
  | remaining + 1, byte_offset =>
    match this_characters.get? byte_offset, other_characters.get? byte_offset with
    | some (some a), some (some b) =>
      if a ≠ b then Except.ok false
      else operator_eq_loop this_characters other_characters remaining (byte_offset + 1)
    | _, _ => Except.error Fault.memory_fault

/-- `StringView::operator==`. -/
def operator_eq (this other : StringView) : Except Fault Bool :=
  if this.byte_count ≠ other.byte_count then Except.ok false
  else operator_eq_loop this.characters other.characters this.byte_count 0

/-- `StringView::operator!=`. -/
def operator_ne (this other : StringView) : Except Fault Bool := do
  let are_equal ← operator_eq other this
  Except.ok (!are_equal)

end StringView

/-! ## FormatStream (`src/AT/Format.h`, `src/AT/Format.cpp`) -/

/-- Number of values of `char`. -/
def char_limit : Nat := 256

/-- The two data members of `FormatStream`. -/
structure FormatStream where
  m_formatted_buffer : ByteBuffer
  m_formatted_byte_count : Nat
  deriving DecidableEq, Repr

namespace FormatStream

/-- `FormatStream::FormatStream()`. -/
def default : FormatStream := ⟨ByteBuffer.default, 0⟩

/-- The values of a run of bytes, when none of them is indeterminate. -/
def determinate : List (Option Nat) → Option (List Nat)
  | [] => some []
  | none :: _ => none
  | some byte :: rest => (determinate rest).map (fun bytes => byte :: bytes)

/-- `FormatStream::formatted_string_view`: the view over the first
`m_formatted_byte_count` bytes of the buffer, given by the bytes it spans; there is none
when the range leaves the buffer or covers an indeterminate byte. -/
def formatted_string_view (s : FormatStream) (h : Heap (List (Option Nat))) :
    Option StringView :=
  let span := (ByteBuffer.region h s.m_formatted_buffer.bytes).take s.m_formatted_byte_count
  if span.length = s.m_formatted_byte_count then (determinate span).map StringView.mk
  else none

/-- `FormatStream::ensure_push_byte_count`. -/
def ensure_push_byte_count (s : FormatStream) (h : Heap (List (Option Nat)))
    (push_byte_count : Nat) : Except Fault (FormatStream × Heap (List (Option Nat))) := do
  let formatted_buffer_byte_count := usize (s.m_formatted_byte_count + push_byte_count)
  let r ← s.m_formatted_buffer.ensure_byte_count h formatted_buffer_byte_count
  Except.ok ({ s with m_formatted_buffer := r.1 }, r.2)

/-- `FormatStream::push_codepoint`. -/
def push_codepoint (s : FormatStream) (h : Heap (List (Option Nat))) (codepoint : Nat) :
    Except Fault (FormatStream × Heap (List (Option Nat))) := do
  let r ← ensure_push_byte_count s h 1
  let bytes := ByteBuffer.region r.2 r.1.m_formatted_buffer.bytes
  if r.1.m_formatted_byte_count < bytes.length then
    Except.ok ({ r.1 with m_formatted_byte_count := usize (r.1.m_formatted_byte_count + 1) },
      r.2.store r.1.m_formatted_buffer.bytes
        (some (bytes.set r.1.m_formatted_byte_count (some (codepoint % char_limit)))))
  else Except.error Fault.memory_fault

/-- `FormatStream::push_string`. -/
def push_string (s : FormatStream) (h : Heap (List (Option Nat))) (string_view : StringView) :
    Except Fault (FormatStream × Heap (List (Option Nat))) := do
  let r ← ensure_push_byte_count s h string_view.byte_count
  let bytes := ByteBuffer.region r.2 r.1.m_formatted_buffer.bytes
  let copied ← copy_memory (bytes.drop r.1.m_formatted_byte_count) string_view.characters
    string_view.byte_count
  let h1 := if r.1.m_formatted_buffer.bytes = 0 then r.2
    else r.2.store r.1.m_formatted_buffer.bytes
      (some (bytes.take r.1.m_formatted_byte_count ++ copied))
  Except.ok ({ r.1 with
    m_formatted_byte_count := usize (r.1.m_formatted_byte_count + string_view.byte_count) }, h1)

/-- First loop of `push_unsigned_integer`: the number of digits. -/
def count_digits (temp_value formatted_buffer_byte_count : Nat) : Nat :=
  if h : temp_value ≠ 0 then
    count_digits (temp_value / 10) (usize (formatted_buffer_byte_count + 1))
  else formatted_buffer_byte_count
termination_by temp_value
decreasing_by exact Nat.div_lt_self (Nat.pos_of_ne_zero h) (by decide)

/-- Second loop of `push_unsigned_integer`: the digits are written into the scratch
array from the last position backwards; a write outside the array is a memory fault. -/
def write_digits (formatted_buffer_byte_count temp_value byte_offset : Nat)
    (formatted_buffer : List Nat) : Except Fault (List Nat) :=
  if h : temp_value ≠ 0 then
    let digit := (temp_value % 10 + 48) % char_limit
    let index := usize (formatted_buffer_byte_count + usize_limit - byte_offset)
    if index < formatted_buffer.length then
      write_digits formatted_buffer_byte_count (temp_value / 10) (usize (byte_offset + 1))
        (formatted_buffer.set index digit)
    else Except.error Fault.memory_fault
  else Except.ok formatted_buffer
termination_by temp_value
decreasing_by exact Nat.div_lt_self (Nat.pos_of_ne_zero h) (by decide)

/-- `FormatStream::push_unsigned_integer`; `48` is `'0'` and the scratch array has
`sizeof(u64) * 8` bytes. -/
def push_unsigned_integer (s : FormatStream) (h : Heap (List (Option Nat))) (value : Nat) :
    Except Fault (FormatStream × Heap (List (Option Nat))) :=
  if value = 0 then push_codepoint s h 48
  else do
    let formatted_buffer := List.replicate 64 0
    let formatted_buffer_byte_count := count_digits value 0
    let formatted_buffer ← write_digits formatted_buffer_byte_count value 1 formatted_buffer
    let formatted_string_view : StringView :=
      ⟨formatted_buffer.take formatted_buffer_byte_count⟩
    push_string s h formatted_string_view

/-- `FormatStream::push_signed_integer`; `45` is `'-'`, and both the negation and the
conversion to `u64` are taken modulo `2 ^ 64`. -/
def push_signed_integer (s : FormatStream) (h : Heap (List (Option Nat))) (value : Int) :
    Except Fault (FormatStream × Heap (List (Option Nat))) :=
  if value < 0 then do
    let r ← push_codepoint s h 45
    push_unsigned_integer r.1 r.2 ((-value) % (u64_limit : Int)).toNat
  else push_unsigned_integer s h (value % (u64_limit : Int)).toNat

/-- Canonical base-10 representation of a number, as ASCII bytes, most significant digit
first: `"0"` for zero, no leading zero otherwise. -/
def canonical_decimal (value : Nat) : List Nat :=
  if value = 0 then [48] else ((Nat.digits 10 value).reverse).map (fun digit => digit + 48)

/-- Canonical base-10 representation of an integer: a `'-'` before the digits of the
absolute value when it is negative. -/
def canonical_signed_decimal (value : Int) : List Nat :=
  if value < 0 then 45 :: canonical_decimal value.natAbs else canonical_decimal value.natAbs

/-- Calls on a `FormatStream`. A call of `push_floating_point_number` is a
`push_signed_integer`, a `push_codepoint` and a `push_signed_integer` in a row. -/
inductive Call where
  | push_codepoint (codepoint : Nat)
  | push_unsigned_integer (value : Nat)
  | push_signed_integer (value : Int)
  | push_string (string_view : StringView)
  | ensure_push_byte_count (push_byte_count : Nat)

/-- One call. -/
def step (state : FormatStream × Heap (List (Option Nat))) :
    Call → Except Fault (FormatStream × Heap (List (Option Nat)))
  | Call.push_codepoint codepoint => push_codepoint state.1 state.2 codepoint
  | Call.push_unsigned_integer value => push_unsigned_integer state.1 state.2 value
  | Call.push_signed_integer value => push_signed_integer state.1 state.2 value
  | Call.push_string string_view => push_string state.1 state.2 string_view
  | Call.ensure_push_byte_count push_byte_count =>
    ensure_push_byte_count state.1 state.2 push_byte_count

/-- A sequence of calls, in order. -/
def run (state : FormatStream × Heap (List (Option Nat))) :
    List Call → Except Fault (FormatStream × Heap (List (Option Nat)))
  | [] => Except.ok state
  | call :: calls => do
    let state1 ← step state call
    run state1 calls

/-- A freshly constructed stream, in a program that allocated nothing yet. -/
def fresh : FormatStream × Heap (List (Option Nat)) := (FormatStream.default, Heap.empty)

/-- Invariant of the reachable states: the buffer is well formed, its byte count is a
`usize`, the formatted byte count does not exceed it, and the formatted bytes are the
determinate bytes `output`. -/
def Inv (s : FormatStream) (h : Heap (List (Option Nat))) (output : List Nat) : Prop :=
  ByteBuffer.WellFormed s.m_formatted_buffer h ∧
    s.m_formatted_buffer.m_byte_count < usize_limit ∧
    s.m_formatted_byte_count ≤ s.m_formatted_buffer.m_byte_count ∧
    s.m_formatted_byte_count = output.length ∧
    (ByteBuffer.region h s.m_formatted_buffer.bytes).take s.m_formatted_byte_count
      = output.map some

end FormatStream

/-! ## Arguments bound by reference, and trivially destructible elements -/

namespace ElementMemory

variable {T : Type}

/-- Explicit destructor call `source.~T()` when `T` is trivially destructible (`int`, for
instance): a pseudo-destructor call, which accesses no object and has no effect. -/
def destroy_trivial (m : ElementMemory T) (_source : ElementRef) :
    Except Fault (ElementMemory T) :=
  Except.ok m

end ElementMemory

namespace Vector

variable {T : Type}

/-- `Vector::add(const T&)`, the argument being given by the reference it is bound to, an
object of the element memory: the storage is expanded first, and the object referred to is
read afterwards, by the copy construction. -/
def add_by_reference (sizeof_T : Nat) (v : Vector) (m : ElementMemory T) (element : ElementRef) :
    Except Fault (Vector × ElementMemory T) := do
  let r ← expand_elements_block_if_required sizeof_T v m (usize (v.m_count + 1))
  let m1 ← r.2.copy_construct ⟨r.1.m_elements, r.1.m_count⟩ element
  Except.ok ({ r.1 with m_count := usize (r.1.m_count + 1) }, m1)

/-- `Vector::remove_unordered(usize, usize)` instantiated at a trivially destructible `T`:
the body of `remove_unordered_range` with pseudo-destructor calls. -/
def remove_unordered_range_trivial (v : Vector) (m : ElementMemory T)
    (remove_index remove_count : Nat) : Except Fault (Vector × ElementMemory T) := do
  VERIFY (decide (usize (remove_index + remove_count) ≤ v.m_count))
  let move_count := usize (v.m_count + usize_limit - usize (remove_index + remove_count))
  let move_count := if move_count > remove_count then remove_count else move_count
  let move_index := usize (v.m_count + usize_limit - move_count)
  let m1 ← for_range (fun index m1 => do
      let m2 ← m1.destroy_trivial ⟨v.m_elements, usize (remove_index + index)⟩
      let m3 ← m2.copy_construct ⟨v.m_elements, remove_index + index⟩
        ⟨v.m_elements, usize (move_index + index)⟩
      m3.destroy_trivial ⟨v.m_elements, usize (move_index + index)⟩)
    move_count 0 m
  let m4 ← for_range
    (fun index m1 => m1.destroy_trivial ⟨v.m_elements, usize (remove_index + index)⟩)
    (remove_count - move_count) move_count m1
  Except.ok ({ v with m_count := usize (v.m_count + usize_limit - remove_count) }, m4)

end Vector

end AT

namespace AT

/-! ## General lemmas -/

@[simp] theorem ok_bind {ε α β : Type} (a : α) (f : α → Except ε β) :
    (Except.ok a >>= f) = f a := rfl

@[simp] theorem error_bind {ε α β : Type} (e : ε) (f : α → Except ε β) :
    (Except.error e >>= f) = Except.error e := rfl

@[simp] theorem VERIFY_true : VERIFY true = Except.ok () := rfl

@[simp] theorem VERIFY_false : VERIFY false = Except.error Fault.contract_violation := rfl

@[simp] theorem returns_ok {α : Type} (a : α) (P : α → Prop) :
    Returns (Except.ok a) P ↔ P a := by
  constructor
  · rintro ⟨b, hb, hp⟩
    cases hb
    exact hp
  · intro hp
    exact ⟨a, rfl, hp⟩

@[simp] theorem returns_error {α : Type} (e : Fault) (P : α → Prop) :
    Returns (Except.error e) P ↔ False := by
  constructor
  · rintro ⟨b, hb, _⟩
    cases hb
  · intro h
    exact h.elim

theorem returns_bind {α β : Type} {x : Except Fault α} {f : α → Except Fault β}
    {P : β → Prop} : Returns (x >>= f) P ↔ Returns x (fun a => Returns (f a) P) := by
  cases x with
  | error e => simp
  | ok a => simp

theorem Returns.imp {α : Type} {r : Except Fault α} {P Q : α → Prop} (h : Returns r P)
    (hpq : ∀ a, P a → Q a) : Returns r Q := by
  obtain ⟨a, ha, hp⟩ := h
  exact ⟨a, ha, hpq a hp⟩

theorem usize_of_lt {n : Nat} (h : n < usize_limit) : usize n = n := Nat.mod_eq_of_lt h

namespace ElementMemory

variable {T : Type}

theorem set_slot_ok {m : ElementMemory T} {r : ElementRef} {slots : List (Slot T)} (s : Slot T)
    (hb : m.heap.blocks r.block = some slots) (hi : r.index < slots.length) :
    m.set_slot r s =
      Except.ok { m with heap := m.heap.store r.block (some (slots.set r.index s)) } := by
  simp [set_slot, hb, hi]

theorem slot_eq {m : ElementMemory T} {r : ElementRef} {slots : List (Slot T)}
    (hb : m.heap.blocks r.block = some slots) : m.slot r = slots[r.index]? := by
  simp [slot, hb]

end ElementMemory

namespace Vector

variable {T : Type}

/-- One iteration of the element move: the source slot becomes raw, the destination slot
receives the value, nothing else changes. -/
theorem move_iteration {m : ElementMemory T} {dst src i : Nat} {ss ds : List (Slot T)} {x : T}
    (hne : src ≠ dst) (hs : m.heap.blocks src = some ss) (hd : m.heap.blocks dst = some ds)
    (hi : i < ss.length) (hj : i < ds.length) (hx : ss[i]? = some (Slot.live x)) :
    ∃ m1 m2, m.move_construct ⟨dst, i⟩ ⟨src, i⟩ = Except.ok m1 ∧
      m1.destroy ⟨src, i⟩ = Except.ok m2 ∧
      m2.heap.blocks src = some (ss.set i Slot.raw) ∧
      m2.heap.blocks dst = some (ds.set i (Slot.live x)) ∧
      (∀ q, q ≠ src → q ≠ dst → m2.heap.blocks q = m.heap.blocks q) ∧
      m2.heap.allocations = m.heap.allocations ∧ m2.heap.freed = m.heap.freed ∧
      m2.finalized = m.finalized := by
  have hne' : dst ≠ src := fun h => hne h.symm
  simp [ElementMemory.move_construct, ElementMemory.slot, ElementMemory.set_slot,
    ElementMemory.destroy, Heap.store, hs, hd, hx, hi, hj, hne, hne']
  intro q h1 h2
  simp [h1, h2]

end Vector
end AT

namespace AT

/-! ## Raw memory operations -/

theorem take_set_self {α : Type} (l : List α) (n : Nat) (a : α) :
    (l.set n a).take n = l.take n := by
  apply List.ext_getElem?
  intro i
  by_cases h : i < n
  · rw [List.getElem?_take_of_lt h, List.getElem?_take_of_lt h, List.getElem?_set,
      if_neg (by omega)]
  · rw [List.getElem?_eq_none (by simp; omega), List.getElem?_eq_none (by simp; omega)]

theorem copy_memory_loop_spec (source : List (Option Nat)) :
    ∀ (remaining byte_offset : Nat) (destination : List (Option Nat)),
      byte_offset + remaining ≤ source.length → byte_offset + remaining ≤ destination.length →
      ∃ result, copy_memory_loop source remaining byte_offset destination = Except.ok result ∧
        result.length = destination.length ∧
        ∀ i, result[i]? =
          if byte_offset ≤ i ∧ i < byte_offset + remaining then source[i]? else destination[i]? := by
  intro remaining
  induction remaining with
  | zero =>
    intro byte_offset destination _ _
    refine ⟨destination, rfl, rfl, ?_⟩
    intro i
    rw [if_neg (by omega)]
  | succ n ih =>
    intro byte_offset destination hs hd
    have hlt : byte_offset < source.length := by omega
    obtain ⟨result, e, hlen, hget⟩ := ih (byte_offset + 1)
      (destination.set byte_offset source[byte_offset]) (by omega) (by simp; omega)
    refine ⟨result, ?_, by simpa using hlen, ?_⟩
    · have hd' : byte_offset < destination.length := by omega
      simp [copy_memory_loop, List.getElem?_eq_getElem hlt, hd', e]
    · intro i
      rw [hget i, List.getElem?_set]
      by_cases h1 : byte_offset = i
      · subst h1
        have hd' : byte_offset < destination.length := by omega
        simp [hd', List.getElem?_eq_getElem hlt]
      · by_cases h2 : byte_offset + 1 ≤ i ∧ i < byte_offset + 1 + n
        · rw [if_pos h2, if_pos (by omega)]
        · rw [if_neg h2, if_neg h1, if_neg (by omega)]

/-- `copy_memory` overwrites the first `byte_count` bytes of the destination with those of
the source and leaves the others. -/
theorem copy_memory_spec (destination source : List (Option Nat)) (byte_count : Nat)
    (hs : byte_count ≤ source.length) (hd : byte_count ≤ destination.length) :
    copy_memory destination source byte_count =
      Except.ok (source.take byte_count ++ destination.drop byte_count) := by
  obtain ⟨result, e, hlen, hget⟩ :=
    copy_memory_loop_spec source byte_count 0 destination (by omega) (by omega)
  rw [copy_memory, e]
  congr 1
  apply List.ext_getElem?
  intro i
  rw [hget i]
  by_cases h : i < byte_count
  · rw [if_pos (by omega), List.getElem?_append_left (by simp; omega), List.getElem?_take_of_lt h]
  · rw [if_neg (by omega), List.getElem?_append_right (by simp; omega)]
    simp only [List.length_take, Nat.min_eq_left hs, List.getElem?_drop]
    congr 1
    omega

theorem zero_memory_loop_spec :
    ∀ (remaining byte_offset : Nat) (destination : List (Option Nat)),
      byte_offset + remaining ≤ destination.length →
      ∃ result, zero_memory_loop remaining byte_offset destination = Except.ok result ∧
        result.length = destination.length ∧
        ∀ i, result[i]? =
          if byte_offset ≤ i ∧ i < byte_offset + remaining then some (some 0)
          else destination[i]? := by
  intro remaining
  induction remaining with
  | zero =>
    intro byte_offset destination _
    refine ⟨destination, rfl, rfl, ?_⟩
    intro i
    rw [if_neg (by omega)]
  | succ n ih =>
    intro byte_offset destination hd
    have hd' : byte_offset < destination.length := by omega
    obtain ⟨result, e, hlen, hget⟩ := ih (byte_offset + 1)
      (destination.set byte_offset (some 0)) (by simp; omega)
    refine ⟨result, ?_, by simpa using hlen, ?_⟩
    · simp [zero_memory_loop, hd', e]
    · intro i
      rw [hget i, List.getElem?_set]
      by_cases h1 : byte_offset = i
      · subst h1
        simp [hd']
      · by_cases h2 : byte_offset + 1 ≤ i ∧ i < byte_offset + 1 + n
        · rw [if_pos h2, if_pos (by omega)]
        · rw [if_neg h2, if_neg h1, if_neg (by omega)]

/-- Zeroing a whole buffer. -/
theorem zero_memory_all (destination : List (Option Nat)) :
    zero_memory destination destination.length =
      Except.ok (List.replicate destination.length (some 0)) := by
  obtain ⟨result, e, hlen, hget⟩ :=
    zero_memory_loop_spec destination.length 0 destination (by omega)
  rw [zero_memory, e]
  congr 1
  apply List.ext_getElem?
  intro i
  rw [hget i, List.getElem?_replicate]
  by_cases h : i < destination.length
  · rw [if_pos (by omega), if_pos h]
  · rw [if_neg (by omega), if_neg h]
    exact List.getElem?_eq_none (by omega)

end AT

namespace AT

/-! ## Reference counting discipline -/

section CountInv

variable {B : Type} {rc : B → Nat}

theorem countInv_empty (rc : B → Nat) : CountInv rc (Heap.empty : Heap B) [] := by
  refine ⟨fun p => rfl, ?_, List.nodup_nil, ?_⟩
  · intro p b hb
    cases hb
  · intro p
    simp [Heap.empty]
    omega

theorem set_none_of_none {t : List (Option Nat)} {i : Nat} (hi : t[i]? = some none) :
    t.set i none = t := by
  apply List.ext_getElem?
  intro j
  rw [List.getElem?_set]
  by_cases h : i = j
  · subst h
    have hlt : i < t.length := by
      by_contra hge
      rw [List.getElem?_eq_none (by omega)] at hi
      cases hi
    simp [hlt, hi]
  · rw [if_neg h]

theorem lt_length_of_getElem? {α : Type} {t : List α} {i : Nat} {a : α} (hi : t[i]? = some a) :
    i < t.length := by
  by_contra hge
  rw [List.getElem?_eq_none (by omega)] at hi
  cases hi

theorem count_set_some {t : List (Option Nat)} {i : Nat} {o : Option Nat} (hi : t[i]? = some o)
    (n : Option Nat) (q : Nat) :
    (t.set i n).count (some q) + (if o = some q then 1 else 0)
      = t.count (some q) + (if n = some q then 1 else 0) := by
  have hlt := lt_length_of_getElem? hi
  have hget : t[i] = o := by
    rw [List.getElem?_eq_getElem hlt] at hi
    exact Option.some.inj hi
  have hle : (if o = some q then 1 else 0) ≤ t.count (some q) := by
    split
    · rename_i ho
      have : some q ∈ t := by
        rw [← ho, ← hget]
        exact List.getElem_mem hlt
      exact List.one_le_count_iff.mpr this
    · omega
  rw [List.count_set _ _ _ _ hlt, hget]
  simp only [beq_iff_eq]
  omega

/-- A block some handle points to is live and holds a positive count. -/
theorem CountInv.live_of_target {h : Heap B} {t : List (Option Nat)} {j p : Nat}
    (inv : CountInv rc h t) (hj : t[j]? = some (some p)) :
    ∃ b, h.blocks p = some b ∧ 0 < rc b := by
  have hmem : some p ∈ t := by
    have hlt := lt_length_of_getElem? hj
    rw [List.getElem?_eq_getElem hlt] at hj
    rw [← Option.some.inj hj]
    exact List.getElem_mem hlt
  have hc := inv.1 p
  have hpos : 0 < t.count (some p) := List.count_pos_iff.mpr hmem
  cases hb : h.blocks p with
  | none =>
    simp [live_count, hb] at hc
    omega
  | some b => exact ⟨b, rfl, (inv.2.1 p b hb).1⟩

/-- A handle that pointed to nothing starts pointing to `p`, whose count is incremented. -/
theorem CountInv.acquire {h h' : Heap B} {t : List (Option Nat)} {i p : Nat} {b b' : B}
    (inv : CountInv rc h t) (hi : t[i]? = some none)
    (hb : h.blocks p = some b) (hb' : h'.blocks p = some b') (hrc : rc b' = rc b + 1)
    (hothers : ∀ q, q ≠ p → h'.blocks q = h.blocks q)
    (halloc : h'.allocations = h.allocations) (hfreed : h'.freed = h.freed) :
    CountInv rc h' (t.set i (some p)) := by
  obtain ⟨c1, c2, c3, c4⟩ := inv
  refine ⟨?_, ?_, by rw [hfreed]; exact c3, ?_⟩
  · intro q
    have hc := count_set_some hi (some p) q
    have h1 := c1 q
    by_cases hq : q = p
    · subst hq
      simp only [live_count, hb, hb'] at h1 ⊢
      simp at hc
      omega
    · have hne : ¬ (some p = some q) := fun e => hq (Option.some.inj e).symm
      simp only [live_count, hothers q hq] at h1 ⊢
      simp [hne] at hc
      omega
  · intro q bq hq
    by_cases hqp : q = p
    · subst hqp
      rw [hb'] at hq
      cases hq
      have := c2 q b hb
      rw [halloc]
      omega
    · rw [hothers q hqp] at hq
      rw [halloc]
      exact c2 q bq hq
  · intro q
    rw [hfreed, halloc, c4 q]
    by_cases hqp : q = p
    · subst hqp
      simp [hb, hb']
    · rw [hothers q hqp]

/-- A handle stops pointing to `p`, whose count was more than one and is decremented. -/
theorem CountInv.release_shared {h h' : Heap B} {t : List (Option Nat)} {i p : Nat} {b b' : B}
    (inv : CountInv rc h t) (hi : t[i]? = some (some p))
    (hb : h.blocks p = some b) (hb' : h'.blocks p = some b') (hrc : rc b' + 1 = rc b)
    (hshared : 1 < rc b)
    (hothers : ∀ q, q ≠ p → h'.blocks q = h.blocks q)
    (halloc : h'.allocations = h.allocations) (hfreed : h'.freed = h.freed) :
    CountInv rc h' (t.set i none) := by
  obtain ⟨c1, c2, c3, c4⟩ := inv
  refine ⟨?_, ?_, by rw [hfreed]; exact c3, ?_⟩
  · intro q
    have hc := count_set_some hi none q
    have h1 := c1 q
    by_cases hq : q = p
    · subst hq
      simp only [live_count, hb, hb'] at h1 ⊢
      simp at hc
      omega
    · have hne : ¬ (some p = some q) := fun e => hq (Option.some.inj e).symm
      simp only [live_count, hothers q hq] at h1 ⊢
      simp [hne] at hc
      omega
  · intro q bq hq
    by_cases hqp : q = p
    · subst hqp
      rw [hb'] at hq
      cases hq
      have := c2 q b hb
      rw [halloc]
      omega
    · rw [hothers q hqp] at hq
      rw [halloc]
      exact c2 q bq hq
  · intro q
    rw [hfreed, halloc, c4 q]
    by_cases hqp : q = p
    · subst hqp
      simp [hb, hb']
    · rw [hothers q hqp]

/-- The only handle that pointed to `p` stops pointing to it and the block is released. -/
theorem CountInv.release_last {h h' : Heap B} {t : List (Option Nat)} {i p : Nat} {b : B}
    (inv : CountInv rc h t) (hi : t[i]? = some (some p))
    (hb : h.blocks p = some b) (hlast : rc b = 1) (hb' : h'.blocks p = none)
    (hothers : ∀ q, q ≠ p → h'.blocks q = h.blocks q)
    (halloc : h'.allocations = h.allocations) (hfreed : h'.freed = p :: h.freed) :
    CountInv rc h' (t.set i none) := by
  obtain ⟨c1, c2, c3, c4⟩ := inv
  have hrange := c2 p b hb
  have hnotfreed : p ∉ h.freed := by
    intro hmem
    have := ((c4 p).mp hmem).1
    rw [hb] at this
    cases this
  refine ⟨?_, ?_, by rw [hfreed]; exact List.nodup_cons.mpr ⟨hnotfreed, c3⟩, ?_⟩
  · intro q
    have hc := count_set_some hi none q
    have h1 := c1 q
    by_cases hq : q = p
    · subst hq
      simp only [live_count, hb, hb'] at h1 ⊢
      simp at hc
      omega
    · have hne : ¬ (some p = some q) := fun e => hq (Option.some.inj e).symm
      simp only [live_count, hothers q hq] at h1 ⊢
      simp [hne] at hc
      omega
  · intro q bq hq
    by_cases hqp : q = p
    · subst hqp
      rw [hb'] at hq
      cases hq
    · rw [hothers q hqp] at hq
      rw [halloc]
      exact c2 q bq hq
  · intro q
    rw [hfreed, halloc, List.mem_cons, c4 q]
    by_cases hqp : q = p
    · subst hqp
      simp [hb', hrange.2.1, hrange.2.2]
    · rw [hothers q hqp]
      simp [hqp]

/-- A handle that pointed to nothing starts pointing to a block just allocated, whose count
is one. -/
theorem CountInv.fresh {h h' : Heap B} {t : List (Option Nat)} {i : Nat} {b' : B}
    (inv : CountInv rc h t) (hi : t[i]? = some none)
    (hb' : h'.blocks (h.allocations + 1) = some b') (hrc : rc b' = 1)
    (hothers : ∀ q, q ≠ h.allocations + 1 → h'.blocks q = h.blocks q)
    (halloc : h'.allocations = h.allocations + 1) (hfreed : h'.freed = h.freed) :
    CountInv rc h' (t.set i (some (h.allocations + 1))) := by
  obtain ⟨c1, c2, c3, c4⟩ := inv
  have hdead : h.blocks (h.allocations + 1) = none := by
    cases hb : h.blocks (h.allocations + 1) with
    | none => rfl
    | some b =>
      have := c2 _ b hb
      omega
  refine ⟨?_, ?_, by rw [hfreed]; exact c3, ?_⟩
  · intro q
    have hc := count_set_some hi (some (h.allocations + 1)) q
    have h1 := c1 q
    by_cases hq : q = h.allocations + 1
    · subst hq
      simp only [live_count, hdead, hb'] at h1 ⊢
      simp at hc
      omega
    · have hne : ¬ (some (h.allocations + 1) = some q) := fun e => hq (Option.some.inj e).symm
      simp only [live_count, hothers q hq] at h1 ⊢
      simp [hne] at hc
      omega
  · intro q bq hq
    by_cases hqp : q = h.allocations + 1
    · subst hqp
      rw [hb'] at hq
      cases hq
      omega
    · rw [hothers q hqp] at hq
      have := c2 q bq hq
      omega
  · intro q
    rw [hfreed, halloc, c4 q]
    by_cases hqp : q = h.allocations + 1
    · subst hqp
      simp [hdead, hb']
    · rw [hothers q hqp]
      constructor
      · rintro ⟨h1, h2, h3⟩
        exact ⟨h1, h2, by omega⟩
      · rintro ⟨h1, h2, h3⟩
        exact ⟨h1, h2, by omega⟩

/-- A handle hands the block it points to over to a handle that pointed to nothing. -/
theorem CountInv.transfer {h : Heap B} {t : List (Option Nat)} {i j p : Nat}
    (inv : CountInv rc h t) (hi : t[i]? = some none) (hj : t[j]? = some (some p)) :
    CountInv rc h ((t.set i (some p)).set j none) := by
  obtain ⟨c1, c2, c3, c4⟩ := inv
  have hij : i ≠ j := by
    intro e
    subst e
    rw [hi] at hj
    cases hj
  have hj' : (t.set i (some p))[j]? = some (some p) := by
    rw [List.getElem?_set, if_neg hij]
    exact hj
  refine ⟨?_, c2, c3, c4⟩
  intro q
  have hc1 := count_set_some hi (some p) q
  have hc2 := count_set_some hj' none q
  have h1 := c1 q
  simp at hc1 hc2
  omega

/-- A new handle that points to nothing. -/
theorem CountInv.extend {h : Heap B} {t : List (Option Nat)} (inv : CountInv rc h t) :
    CountInv rc h (t ++ [none]) := by
  obtain ⟨c1, c2, c3, c4⟩ := inv
  refine ⟨?_, c2, c3, c4⟩
  intro q
  rw [List.count_append, c1 q]
  simp

/-- Reading of the invariant, address by address: an address the allocator handed out
holds a live block whose count is the number of handles pointing to it, at least one, and
was never released, or holds nothing, no handle points to it and it was released exactly
once; any other address holds nothing and was never released. -/
theorem CountInv.describe {h : Heap B} {t : List (Option Nat)} (inv : CountInv rc h t)
    (p : Nat) :
    ((1 ≤ p ∧ p ≤ h.allocations) →
      (∃ b, h.blocks p = some b ∧ rc b = t.count (some p) ∧ 0 < t.count (some p) ∧
        h.freed.count p = 0) ∨
      (h.blocks p = none ∧ t.count (some p) = 0 ∧ h.freed.count p = 1)) ∧
    (¬ (1 ≤ p ∧ p ≤ h.allocations) →
      h.blocks p = none ∧ t.count (some p) = 0 ∧ h.freed.count p = 0) := by
  obtain ⟨c1, c2, c3, c4⟩ := inv
  have hc := c1 p
  constructor
  · intro hrange
    cases hb : h.blocks p with
    | some b =>
      left
      have hnot : p ∉ h.freed := by
        intro hmem
        have := ((c4 p).mp hmem).1
        rw [hb] at this
        cases this
      simp only [live_count, hb] at hc
      refine ⟨b, rfl, hc.symm, ?_, List.count_eq_zero.mpr hnot⟩
      rw [hc]
      exact (c2 p b hb).1
    | none =>
      right
      simp only [live_count, hb] at hc
      exact ⟨rfl, hc, List.count_eq_one_of_mem c3 ((c4 p).mpr ⟨hb, hrange.1, hrange.2⟩)⟩
  · intro hout
    have hdead : h.blocks p = none := by
      cases hb : h.blocks p with
      | none => rfl
      | some b => exact absurd (c2 p b hb).2 hout
    have hnot : p ∉ h.freed := fun hmem => hout ((c4 p).mp hmem).2
    simp only [live_count, hdead] at hc
    exact ⟨hdead, hc, List.count_eq_zero.mpr hnot⟩

/-- Between two states that satisfy the invariant, an address handed out before is released
(once more) exactly when its number of handles drops from positive to zero. -/
theorem CountInv.released_iff {h h' : Heap B} {t t' : List (Option Nat)}
    (inv : CountInv rc h t) (inv' : CountInv rc h' t')
    (hmono : h.allocations ≤ h'.allocations) (p : Nat) (h1 : 1 ≤ p) (h2 : p ≤ h.allocations) :
    h'.freed.count p = h.freed.count p + 1 ↔ (0 < t.count (some p) ∧ t'.count (some p) = 0) := by
  have d := (inv.describe p).1 ⟨h1, h2⟩
  have d' := (inv'.describe p).1 ⟨h1, by omega⟩
  rcases d with ⟨b, _, _, hpos, hf⟩ | ⟨_, hz, hf⟩ <;>
    rcases d' with ⟨b', _, _, hpos', hf'⟩ | ⟨_, hz', hf'⟩ <;> omega

end CountInv
end AT

namespace AT
namespace Vector
variable {T : Type}

/-- The move loop transfers the live elements of the source block, position by position. -/
theorem move_elements_loop_spec {dst src : Nat} (hne : src ≠ dst) :
    ∀ (remaining index : Nat) (m : ElementMemory T) (ss ds : List (Slot T)),
      m.heap.blocks src = some ss → m.heap.blocks dst = some ds →
      index + remaining ≤ ss.length → index + remaining ≤ ds.length →
      (∀ i, index ≤ i → i < index + remaining → ∃ x, ss[i]? = some (Slot.live x)) →
      ∃ m' ss' ds', move_elements_loop dst src remaining index m = Except.ok m' ∧
        m'.heap.blocks src = some ss' ∧ m'.heap.blocks dst = some ds' ∧
        ds'.length = ds.length ∧
        (∀ i, index ≤ i → i < index + remaining → ds'[i]? = ss[i]?) ∧
        (∀ i, i < index → ds'[i]? = ds[i]?) ∧
        (∀ q, q ≠ src → q ≠ dst → m'.heap.blocks q = m.heap.blocks q) ∧
        m'.heap.allocations = m.heap.allocations ∧ m'.heap.freed = m.heap.freed ∧
        m'.finalized = m.finalized := by
  intro remaining
  induction remaining with
  | zero =>
    intro index m ss ds hs hd _ _ _
    refine ⟨m, ss, ds, rfl, hs, hd, rfl, ?_, fun _ _ => rfl, fun _ _ _ => rfl, rfl, rfl, rfl⟩
    intro i h1 h2
    omega
  | succ n ih =>
    intro index m ss ds hs hd hls hld hlive
    obtain ⟨x, hx⟩ := hlive index (Nat.le_refl _) (by omega)
    obtain ⟨m1, m2, e1, e2, hs2, hd2, hq2, ha2, hf2, hz2⟩ :=
      move_iteration hne hs hd (by omega) (by omega) hx
    have hlive2 : ∀ i, index + 1 ≤ i → i < index + 1 + n →
        ∃ y, (ss.set index Slot.raw)[i]? = some (Slot.live y) := by
      intro i h1 h2
      obtain ⟨y, hy⟩ := hlive i (by omega) (by omega)
      refine ⟨y, ?_⟩
      rw [List.getElem?_set, if_neg (by omega)]
      exact hy
    obtain ⟨m', ss', ds', e, hs', hd', hlen, hmoved, hkept, hq, ha, hf, hz⟩ :=
      ih (index + 1) m2 (ss.set index Slot.raw) (ds.set index (Slot.live x)) hs2 hd2
        (by simp; omega) (by simp; omega) hlive2
    refine ⟨m', ss', ds', ?_, hs', hd', ?_, ?_, ?_, ?_, ?_, ?_, ?_⟩
    · simp [move_elements_loop, e1, e2, e]
    · simpa using hlen
    · intro i h1 h2
      by_cases hi : i = index
      · subst hi
        rw [hkept i (by omega), hx, List.getElem?_set]
        simp
        omega
      · rw [hmoved i (by omega) (by omega), List.getElem?_set, if_neg (by omega)]
    · intro i h1
      rw [hkept i (by omega), List.getElem?_set, if_neg (by omega)]
    · intro q h1 h2
      rw [hq q h1 h2, hq2 q h1 h2]
    · rw [ha, ha2]
    · rw [hf, hf2]
    · rw [hz, hz2]

end Vector
end AT

namespace AT
namespace Vector
variable {T : Type}

theorem holds_default (m : ElementMemory T) : Holds Vector.default m ([] : List T) := by
  simp [Holds, Vector.default]

/-- Constructing the next element in a block that has room for it. -/
theorem construct_stores {m : ElementMemory T} {p cap : Nat} {xs : List T} (x : T)
    (hst : Stores m p cap xs) (hroom : xs.length < cap) :
    ∃ m', m.construct ⟨p, xs.length⟩ x = Except.ok m' ∧ Stores m' p cap (xs ++ [x]) ∧
      m'.heap.allocations = m.heap.allocations := by
  obtain ⟨slots, hb, hlen, hget⟩ := hst
  refine ⟨_, ElementMemory.set_slot_ok _ hb (by simpa [hlen] using hroom), ?_, rfl⟩
  refine ⟨slots.set xs.length (Slot.live x), by simp [Heap.store], by simpa using hlen, ?_⟩
  intro i hi
  simp only [List.length_append, List.length_singleton] at hi
  rw [List.getElem?_set]
  by_cases h : xs.length = i
  · subst h
    simp [hlen, hroom]
  · rw [if_neg h, hget i (by omega), List.getElem?_append_left (by omega)]

end Vector
end AT

namespace AT
namespace Vector
variable {T : Type}

/-- Growing the storage block keeps every element at its position. -/
theorem expand_elements_block_stores {sizeof_T : Nat} {v : Vector} {m : ElementMemory T}
    {xs : List T} {new_capacity : Nat} (hv : Holds v m xs) (hsz : 0 < sizeof_T)
    (hgrow : v.m_capacity < new_capacity) (hfit : new_capacity * sizeof_T < usize_limit) :
    Returns (expand_elements_block sizeof_T v m new_capacity) (fun r =>
      r.1.m_count = xs.length ∧ r.1.m_capacity = new_capacity ∧ r.1.m_elements ≠ 0 ∧
      r.1.m_elements ≤ r.2.heap.allocations ∧ Stores r.2 r.1.m_elements new_capacity xs) := by
  obtain ⟨hcount, hcap, _, hptr, hrep⟩ := hv
  have hslots : usize (new_capacity * sizeof_T) / sizeof_T = new_capacity := by
    rw [usize_of_lt hfit, Nat.mul_div_cancel _ hsz]
  rcases hrep with ⟨hnull, hzero⟩ | ⟨hnn, slots, hb, hlen, hget⟩
  · have hn : xs.length = 0 := by omega
    simp only [expand_elements_block, hgrow, decide_True, VERIFY_true, ok_bind, move_elements,
      hcount, hn, move_elements_loop, free_memory, Heap.operator_delete, hnull, if_true,
      returns_ok, allocate_memory, Heap.operator_new, hslots]
    refine ⟨trivial, trivial, by simp, by simp, ?_⟩
    refine ⟨List.replicate new_capacity Slot.raw, by simp, by simp, ?_⟩
    intro i hi
    omega
  · have hne : v.m_elements ≠ m.heap.allocations + 1 := by omega
    obtain ⟨m', ss', ds', e, hs', hd', hdlen, hmoved, _, _, ha, _, _⟩ :=
      move_elements_loop_spec hne v.m_count 0
        (allocate_memory sizeof_T m new_capacity).2 slots
        (List.replicate new_capacity Slot.raw)
        (by simp [allocate_memory, Heap.operator_new, hne, hb])
        (by simp [allocate_memory, Heap.operator_new, hslots])
        (by omega) (by simp; omega)
        (by
          intro i _ hi
          rw [hget i (by omega)]
          have : i < xs.length := by omega
          simp [List.getElem?_eq_getElem this])
    have hnew : (allocate_memory sizeof_T m new_capacity).1 = m.heap.allocations + 1 := rfl
    simp only [expand_elements_block, hgrow, decide_True, VERIFY_true, ok_bind, move_elements,
      hnew, e, free_memory, Heap.operator_delete, hnn, if_false, hs', returns_ok]
    refine ⟨hcount, trivial, by simp, ?_, ?_⟩
    · simp [ha, allocate_memory, Heap.operator_new]
    · refine ⟨ds', ?_, by simpa using hdlen, ?_⟩
      · simp [hd', Ne.symm hne]
      · intro i hi
        rw [hmoved i (Nat.zero_le _) (by omega), hget i hi]

end Vector
end AT

namespace AT
namespace Vector
variable {T : Type}

/-- When there is room, or after growing, `add` appends the element and keeps the rest. -/
theorem add_holds {sizeof_T : Nat} {v : Vector} {m : ElementMemory T} {xs : List T} (x : T)
    (hv : Holds v m xs) (hsz : 0 < sizeof_T)
    (hfit : 3 * (xs.length + 1) * sizeof_T < usize_limit) :
    Returns (add sizeof_T v m x) (fun r => Holds r.1 r.2 (xs ++ [x])) := by
  have hle : 3 * (xs.length + 1) ≤ 3 * (xs.length + 1) * sizeof_T :=
    Nat.le_mul_of_pos_right _ hsz
  have hn1 : xs.length + 1 < usize_limit := by omega
  have hv' := hv
  obtain ⟨hcount, hcap, hbound, hptr, hrep⟩ := hv'
  have hreq : usize (v.m_count + 1) = xs.length + 1 := by rw [hcount, usize_of_lt hn1]
  have hnext : ∀ c, c = xs.length → usize (c + 1) = (xs ++ [x]).length := by
    intro c hc
    rw [hc, usize_of_lt hn1]
    simp
  unfold add
  rw [returns_bind, hreq]
  unfold expand_elements_block_if_required
  by_cases hroom : v.m_capacity ≥ xs.length + 1
  · rw [if_pos hroom]
    simp only [returns_ok]
    rcases hrep with ⟨_, hzero⟩ | ⟨hnn, hst⟩
    · omega
    · obtain ⟨m', e, hst', ha⟩ := construct_stores x hst (by omega)
      rw [hcount, e]
      simp only [ok_bind, returns_ok]
      refine ⟨hnext _ rfl, ?_, ?_, ?_, Or.inr ⟨hnn, hst'⟩⟩
      · simp; omega
      · simp; omega
      · simpa [ha] using hptr
  · rw [if_neg hroom]
    have h3 : usize (v.m_count * growth_factor_numerator) = 3 * xs.length := by
      rw [hcount, growth_factor_numerator, usize_of_lt (by omega)]
      omega
    simp only [h3, growth_factor_denominator]
    generalize hnc : (if 3 * xs.length / 2 < xs.length + 1 then xs.length + 1
      else 3 * xs.length / 2) = nc
    have hnc1 : xs.length + 1 ≤ nc := by
      rw [← hnc]
      split <;> omega
    have hnc2 : 2 * nc ≤ 3 * (xs.length + 1) := by
      rw [← hnc]
      split <;> omega
    have hncfit : nc * sizeof_T < usize_limit :=
      Nat.lt_of_le_of_lt (Nat.mul_le_mul_right _ (by omega)) hfit
    refine (expand_elements_block_stores hv hsz (by omega) hncfit).imp ?_
    rintro ⟨v1, m1⟩ ⟨hc1, hcap1, hnn1, hptr1, hst1⟩
    simp only at hc1 hcap1 hnn1 hptr1 hst1
    obtain ⟨m', e, hst', ha⟩ := construct_stores x hst1 (by omega)
    simp only [hc1, e, ok_bind, returns_ok]
    refine ⟨hnext _ rfl, ?_, ?_, ?_, Or.inr ⟨hnn1, by simpa [hcap1] using hst'⟩⟩
    · simp; omega
    · simp; omega
    · simpa [ha] using hptr1

/-- A run of `add` calls appends the elements in order. -/
theorem add_all_holds {sizeof_T : Nat} (hsz : 0 < sizeof_T) :
    ∀ (ys xs : List T) (v : Vector) (m : ElementMemory T), Holds v m xs →
      3 * (xs.length + ys.length) * sizeof_T < usize_limit →
      Returns (add_all sizeof_T ys v m) (fun r => Holds r.1 r.2 (xs ++ ys)) := by
  intro ys
  induction ys with
  | nil =>
    intro xs v m hv _
    simpa [add_all] using hv
  | cons y ys ih =>
    intro xs v m hv hfit
    simp only [List.length_cons] at hfit
    have hstep : 3 * (xs.length + 1) * sizeof_T ≤ 3 * (xs.length + (ys.length + 1)) * sizeof_T :=
      Nat.mul_le_mul_right _ (by omega)
    unfold add_all
    rw [returns_bind]
    refine (add_holds y hv hsz (by omega)).imp ?_
    rintro ⟨v1, m1⟩ h1
    have := ih (xs ++ [y]) v1 m1 h1 (by
      simp only [List.length_append, List.length_singleton]
      have : xs.length + 1 + ys.length = xs.length + (ys.length + 1) := by omega
      rw [this]
      exact hfit)
    simpa using this

/-- Reading through `at` a position of a vector that holds `xs` gives the element of `xs`. -/
theorem at_of_holds {v : Vector} {m : ElementMemory T} {xs : List T} (hv : Holds v m xs)
    (i : Nat) (hi : i < xs.length) :
    Vector.«at» v i >>= m.read = Except.ok (xs.get ⟨i, hi⟩) := by
  obtain ⟨hcount, hcap, _, _, hrep⟩ := hv
  rcases hrep with ⟨_, hzero⟩ | ⟨_, slots, hb, _, hget⟩
  · omega
  · have h := hget i hi
    simp [Vector.«at», hcount, hi, ElementMemory.read, ElementMemory.slot, hb, h,
      List.getElem?_eq_getElem hi]

end Vector
end AT

namespace AT
namespace Vector
variable {T : Type}

theorem add_all_append (sizeof_T : Nat) :
    ∀ (ys zs : List T) (v : Vector) (m : ElementMemory T),
      add_all sizeof_T (ys ++ zs) v m =
        add_all sizeof_T ys v m >>= fun r => add_all sizeof_T zs r.1 r.2 := by
  intro ys
  induction ys with
  | nil => intro zs v m; rfl
  | cons y ys ih =>
    intro zs v m
    simp only [List.cons_append, add_all]
    cases add sizeof_T v m y with
    | error e => rfl
    | ok r => simpa using ih zs r.1 r.2

/-- Starting from a default-constructed vector, a run of `add` calls whose arguments are
objects outside the storage of the vector, with the values `xs` (whose grown storage size
is representable in `usize`), returns normally, leaves `count()` equal to the length of
`xs` and, at every position `i`, the element `xs[i]`; moreover the same holds in the
intermediate state after each prefix of the run, so that the reallocations of the later
calls keep the elements already inserted in place. -/
theorem add_all_sequence (sizeof_T : Nat) (xs : List T) (m : ElementMemory T)
    (hsz : 0 < sizeof_T) (hfit : 3 * xs.length * sizeof_T < usize_limit) :
    ∃ v m', add_all sizeof_T xs Vector.default m = Except.ok (v, m') ∧
      v.count = xs.length ∧
      (∀ (i : Nat) (hi : i < xs.length),
        (Vector.«at» v i >>= m'.read) = Except.ok (xs.get ⟨i, hi⟩)) ∧
      (∀ k, k ≤ xs.length → ∃ vk mk,
        add_all sizeof_T (xs.take k) Vector.default m = Except.ok (vk, mk) ∧
        add_all sizeof_T (xs.drop k) vk mk = Except.ok (v, m') ∧
        vk.count = k ∧
        ∀ (i : Nat) (hi : i < xs.length), i < k →
          (Vector.«at» vk i >>= mk.read) = Except.ok (xs.get ⟨i, hi⟩)) := by
  obtain ⟨⟨v, m'⟩, e, hv⟩ :=
    add_all_holds hsz xs [] Vector.default m (holds_default m) (by simpa using hfit)
  simp only [List.nil_append] at hv
  refine ⟨v, m', e, hv.1, fun i hi => at_of_holds hv i hi, ?_⟩
  intro k hk
  have hlen : (xs.take k).length = k := by simp [hk]
  have hfitk : 3 * (([] : List T).length + (xs.take k).length) * sizeof_T < usize_limit := by
    have : 3 * (0 + k) * sizeof_T ≤ 3 * xs.length * sizeof_T :=
      Nat.mul_le_mul_right _ (by omega)
    simp only [hlen, List.length_nil]
    omega
  obtain ⟨⟨vk, mk⟩, ek, hvk⟩ :=
    add_all_holds hsz (xs.take k) [] Vector.default m (holds_default m) hfitk
  simp only [List.nil_append] at hvk
  refine ⟨vk, mk, ek, ?_, by rw [Vector.count, hvk.1, hlen], ?_⟩
  · have h := add_all_append sizeof_T (xs.take k) (xs.drop k) Vector.default m
    rw [List.take_append_drop, e, ek] at h
    exact h.symm
  · intro i hi hik
    have h := at_of_holds hvk i (by omega)
    rw [h]
    congr 1
    simp [List.getElem_take]

end Vector
end AT

namespace AT

/-! ## ByteBuffer and Vector indexing -/

namespace ByteBuffer

/-- C4, evaluation at the failing input. A buffer of four bytes is created by
`from_initial_byte_count(4)` and resized by `shrink(0)`: both calls return normally and
leave `byte_count() == 0` with `bytes()` not null (the block `operator new(0)` returned);
the destructor of that buffer then fails on `VERIFY(m_byte_count > 0)`. -/
theorem bytebuffer_shrink_to_zero_keeps_block :
    ∃ b h, (from_initial_byte_count Heap.empty 4 >>= fun r => shrink r.1 r.2 0)
        = Except.ok (b, h) ∧
      b.byte_count = 0 ∧ b.bytes ≠ 0 ∧
      destroy b h = Except.error Fault.contract_violation :=
  ⟨_, _, rfl, rfl, by decide, rfl⟩

/-- C5, evaluation at the failing input. A buffer `s` of four bytes is move-constructed
into `d`: afterwards `s` still holds its byte pointer and its byte count, the same as `d`,
and destroying `d` then `s` releases the same block twice, a memory fault. The same happens
when `s` is move-assigned into another buffer. -/
theorem bytebuffer_move_keeps_source :
    ∃ s h, from_initial_byte_count Heap.empty 4 = Except.ok (s, h) ∧
      (move_construct s).2.bytes = s.bytes ∧ (move_construct s).2.bytes ≠ 0 ∧
      (move_construct s).2.byte_count = 4 ∧
      (move_construct s).1.bytes = (move_construct s).2.bytes ∧
      (destroy (move_construct s).1 h >>= fun h1 => destroy (move_construct s).2 h1)
        = Except.error Fault.memory_fault ∧
      ∃ r h2, move_assign ByteBuffer.default s h = Except.ok (r, h2) ∧
        r.2.bytes ≠ 0 ∧ r.2.byte_count = 4 ∧ r.1.bytes = r.2.bytes :=
  ⟨_, _, rfl, rfl, by decide, rfl, rfl, rfl, _, _, rfl, by decide, rfl, rfl⟩

end ByteBuffer

namespace Vector

/-- C6, as amended. `operator[]` performs no bounds check: for every vector and every
index it returns the reference `m_elements[index]` and never fails, whereas `at` returns
that same reference when `index < count()` and fails with a contract violation
otherwise. -/
theorem vector_operator_index_unchecked (v : Vector) (index : Nat) :
    operator_index v index = Except.ok ⟨v.m_elements, index⟩ ∧
    Vector.«at» v index =
      if index < v.count then operator_index v index
      else Except.error Fault.contract_violation := by
  refine ⟨rfl, ?_⟩
  by_cases h : index < v.count
  · have h' : index < v.m_count := h
    simp [Vector.«at», operator_index, h, h']
  · have h' : ¬ index < v.m_count := h
    simp [Vector.«at», h, h']

/-- C6 as stated fails: on a vector holding two elements in a block of two slots,
`operator[](2)` does not fail; it returns a reference to the slot at index 2, which is
`count()`, outside the storage block, while `at(2)` is a contract violation. -/
theorem vector_operator_index_counterexample :
    ∃ v m, add_all 4 [7, 8] Vector.default (ElementMemory.empty : ElementMemory Nat)
        = Except.ok (v, m) ∧
      v.count = 2 ∧ v.capacity = 2 ∧
      operator_index v 2 = Except.ok ⟨v.m_elements, 2⟩ ∧
      operator_index v 2 ≠ Except.error Fault.contract_violation ∧
      Vector.«at» v 2 = Except.error Fault.contract_violation ∧
      (operator_index v 2 >>= m.read) = Except.error Fault.memory_fault :=
  ⟨_, _, rfl, rfl, rfl, rfl, by simp [operator_index], rfl, rfl⟩

end Vector
end AT

namespace AT
namespace String

theorem usize_pred (n : Nat) (h0 : 0 < n) (h : n < usize_limit) :
    usize (n + usize_limit - 1) = n - 1 := by
  unfold usize
  have : n + usize_limit - 1 = (n - 1) + usize_limit := by omega
  rw [this, Nat.add_mod_right, Nat.mod_eq_of_lt (by omega)]

/-- Filling the inline buffer from a view that fits in it. -/
theorem fill_from_view_inline (cells : List (Option Nat)) (v : StringView) (h : Heap StringBlock)
    (hcells : cells.length = inline_capacity) (hfit : v.byte_count + 1 ≤ inline_capacity) :
    fill_from_view ⟨StringStorage.m_inline_buffer cells, v.byte_count + 1⟩ v h =
      Except.ok (⟨StringStorage.m_inline_buffer
        ((v.characters ++ cells.drop v.byte_count).set v.byte_count (some 0)),
        v.byte_count + 1⟩, h) := by
  have hlim : v.byte_count + 1 < usize_limit := by
    simp only [inline_capacity] at hfit
    simp only [usize_limit]
    omega
  have hchars : v.characters.length = v.byte_count := by simp [StringView.characters, StringView.byte_count]
  have hcopy := copy_memory_spec cells v.characters v.byte_count (by omega) (by omega)
  have htake : v.characters.take v.byte_count = v.characters := by
    rw [← hchars, List.take_length]
  rw [htake] at hcopy
  have hlast : usize (v.byte_count + 1 + usize_limit - 1) = v.byte_count := by
    rw [usize_pred _ (by omega) hlim]
    omega
  have hlen : v.byte_count < (v.characters ++ cells.drop v.byte_count).length := by
    simp only [List.length_append, List.length_drop, hchars]
    omega
  have hlast' : usize (v.byte_count + usize_limit) = v.byte_count := by
    simpa using hlast
  simp only [List.length_append, List.length_drop, hchars] at hlen
  simp [fill_from_view, is_stored_inline, hfit, destination_buffer, hcopy, hlast', hlen,
    set_destination_buffer, hchars]

/-- Filling a fresh heap block from a view that does not fit in the inline buffer. -/
theorem fill_from_view_heap (cells : List (Option Nat)) (v : StringView) (h : Heap StringBlock)
    (hbig : inline_capacity < v.byte_count + 1)
    (hfit : sizeof_HeapBufferHeader + (v.byte_count + 1) < usize_limit) :
    Returns (fill_from_view ⟨StringStorage.m_inline_buffer cells, v.byte_count + 1⟩ v h)
      (fun r => r.1 = ⟨StringStorage.m_heap_buffer (h.allocations + 1), v.byte_count + 1⟩ ∧
        r.2.blocks (h.allocations + 1) = some ⟨1, v.characters ++ [some 0]⟩ ∧
        r.2.allocations = h.allocations + 1 ∧ r.2.freed = h.freed ∧
        ∀ q, q ≠ h.allocations + 1 → r.2.blocks q = h.blocks q) := by
  have hlim : v.byte_count + 1 < usize_limit := by
    simp only [sizeof_HeapBufferHeader] at hfit
    omega
  have hchars : v.characters.length = v.byte_count := by simp [StringView.characters, StringView.byte_count]
  have hcopy := copy_memory_spec (List.replicate (v.byte_count + 1) none) v.characters
    v.byte_count (by omega) (by simp)
  have htake : v.characters.take v.byte_count = v.characters := by
    rw [← hchars, List.take_length]
  have hdrop : (List.replicate (v.byte_count + 1) (none : Option Nat)).drop v.byte_count
      = [none] := by
    simp
  rw [htake, hdrop] at hcopy
  have hlast : usize (v.byte_count + 1 + usize_limit - 1) = v.byte_count := by
    rw [usize_pred _ (by omega) hlim]
    omega
  have hsize : usize (sizeof_HeapBufferHeader + (v.byte_count + 1)) - sizeof_HeapBufferHeader
      = v.byte_count + 1 := by
    rw [usize_of_lt hfit]
    omega
  have hsize2 : ¬ usize (sizeof_HeapBufferHeader + (v.byte_count + 1)) < sizeof_HeapBufferHeader := by
    rw [usize_of_lt hfit]
    omega
  have hni : ¬ v.byte_count + 1 ≤ inline_capacity := by omega
  have hset : (v.characters ++ [none]).set v.byte_count (some 0) = v.characters ++ [some 0] := by
    rw [← hchars, List.set_append_right _ _ (Nat.le_refl _)]
    simp
  simp only [fill_from_view, is_stored_inline, hni, decide_False, Bool.not_false, if_true,
    allocate_heap_buffer, hbig, decide_True, VERIFY_true, ok_bind, hsize2, if_false, hsize,
    Heap.operator_new, increment_reference_count, m_heap_buffer, Heap.store,
    destination_buffer, heap_buffer_characters, hcopy, hlast, set_destination_buffer]
  have hlast' : usize (v.byte_count + usize_limit) = v.byte_count := by
    simpa using hlast
  simp [u32_limit, hchars, hset, hcopy, hlast']
  intro q hq
  simp [hq]

end String
end AT

namespace AT
namespace String

/-- When the allocation size wraps below the size of the header, the constructor from a
view ends in a memory fault. -/
theorem from_view_allocation_wraps (v : StringView) (h : Heap StringBlock)
    (hbig : inline_capacity < usize (v.byte_count + 1))
    (hwrap : usize (sizeof_HeapBufferHeader + usize (v.byte_count + 1)) < sizeof_HeapBufferHeader) :
    from_view v h = Except.error Fault.memory_fault := by
  have hni : ¬ usize (v.byte_count + 1) ≤ inline_capacity := by omega
  simp [from_view, fill_from_view, is_stored_inline, allocate_heap_buffer, hni, hbig, hwrap]

/-- C7, as amended. For every view whose length `L` leaves `sizeof(HeapBufferHeader) + L + 1`
representable in `usize`, the constructor returns a string that is stored inline if and only
if `L + 1 <= inline_capacity`: a view of at most 7 bytes gives an inline string and touches
no heap block, a view of 8 bytes or more gives a string whose union holds a pointer to a
live heap block. -/
theorem string_from_view_inline_iff (v : StringView) (h : Heap StringBlock)
    (hfit : sizeof_HeapBufferHeader + (v.byte_count + 1) < usize_limit) :
    ∃ s h', from_view v h = Except.ok (s, h') ∧
      (s.is_stored_inline = true ↔ v.byte_count + 1 ≤ inline_capacity) ∧
      (v.byte_count ≤ 7 →
        s.is_stored_inline = true ∧ h' = h ∧ ∃ cells, s.storage = StringStorage.m_inline_buffer cells) ∧
      (8 ≤ v.byte_count →
        s.is_stored_inline = false ∧
          ∃ p block, s.storage = StringStorage.m_heap_buffer p ∧ h'.blocks p = some block) := by
  have hlim : usize (v.byte_count + 1) = v.byte_count + 1 :=
    usize_of_lt (by simp only [sizeof_HeapBufferHeader] at hfit; omega)
  by_cases hsmall : v.byte_count + 1 ≤ inline_capacity
  · have e := fill_from_view_inline (List.replicate inline_capacity none) v h (by simp) hsmall
    refine ⟨_, _, by rw [from_view, hlim]; exact e, ?_, ?_, ?_⟩
    · simp [is_stored_inline, hsmall]
    · intro _
      exact ⟨by simp [is_stored_inline, hsmall], rfl, _, rfl⟩
    · intro h8
      simp only [inline_capacity] at hsmall
      omega
  · obtain ⟨⟨s, h'⟩, e, hs, hblock, _, _, _⟩ :=
      fill_from_view_heap (List.replicate inline_capacity none) v h (by omega) hfit
    simp only at hs hblock
    refine ⟨s, h', by rw [from_view, hlim]; exact e, ?_, ?_, ?_⟩
    · simp [hs, is_stored_inline, hsmall]
    · intro h7
      simp only [inline_capacity] at hsmall
      omega
    · intro _
      refine ⟨by simp [hs, is_stored_inline, hsmall], _, _, ?_, hblock⟩
      rw [hs]

/-- A view of three bytes and a view of eight bytes, on an empty heap. -/
theorem string_from_view_inline_iff_witness :
    ∃ s h', from_view ⟨[104, 101, 108, 108, 111, 32, 119, 111]⟩ Heap.empty = Except.ok (s, h') ∧
      (s.is_stored_inline = true ↔
        (StringView.mk [104, 101, 108, 108, 111, 32, 119, 111]).byte_count + 1 ≤ inline_capacity) ∧
      ((StringView.mk [104, 101, 108, 108, 111, 32, 119, 111]).byte_count ≤ 7 →
        s.is_stored_inline = true ∧ h' = Heap.empty ∧
          ∃ cells, s.storage = StringStorage.m_inline_buffer cells) ∧
      (8 ≤ (StringView.mk [104, 101, 108, 108, 111, 32, 119, 111]).byte_count →
        s.is_stored_inline = false ∧
          ∃ p block, s.storage = StringStorage.m_heap_buffer p ∧ h'.blocks p = some block) :=
  string_from_view_inline_iff ⟨[104, 101, 108, 108, 111, 32, 119, 111]⟩ Heap.empty (by decide)

/-- C7 as stated fails: a view of `2 ^ 64 - 2` bytes has `L + 1` representable in `usize` and
at least 8 bytes, yet the constructor yields no heap-backed string: the allocation size
`sizeof(HeapBufferHeader) + L + 1` wraps to 3 bytes, too few for the header. -/
theorem string_from_view_inline_iff_counterexample :
    (StringView.mk (List.replicate 18446744073709551614 0)).byte_count + 1 < usize_limit ∧
    8 ≤ (StringView.mk (List.replicate 18446744073709551614 0)).byte_count ∧
    usize (sizeof_HeapBufferHeader +
      ((StringView.mk (List.replicate 18446744073709551614 0)).byte_count + 1)) = 3 ∧
    from_view (StringView.mk (List.replicate 18446744073709551614 0)) Heap.empty
      = Except.error Fault.memory_fault := by
  have hlen : (StringView.mk (List.replicate 18446744073709551614 0)).byte_count
      = 18446744073709551614 := List.length_replicate _ _
  refine ⟨?_, ?_, ?_, ?_⟩
  · rw [hlen]; decide
  · rw [hlen]; decide
  · rw [hlen]; decide
  · exact from_view_allocation_wraps _ _ (by rw [hlen]; decide) (by rw [hlen]; decide)

end String
end AT

namespace AT
namespace String

/-- C8, as amended. For every view whose length `L` leaves `sizeof(HeapBufferHeader) + L + 1`
representable in `usize`, the constructor returns a string with `byte_count() == L`, whose
first `L` characters are the bytes of the view in order and whose character at `L` is 0;
when the string is not stored inline its union holds the address just handed out by the
allocator, whose block has reference count 1 and holds exactly these characters, nothing
was released and no other block changed; when it is stored inline the heap is unchanged. -/
theorem string_from_view_contents (v : StringView) (h : Heap StringBlock)
    (hfit : sizeof_HeapBufferHeader + (v.byte_count + 1) < usize_limit) :
    ∃ s h' cells, from_view v h = Except.ok (s, h') ∧
      s.byte_count = Except.ok v.byte_count ∧
      s.characters h' = Except.ok cells ∧
      cells.take v.byte_count = v.bytes.map some ∧
      cells[v.byte_count]? = some (some 0) ∧
      (s.is_stored_inline = false →
        s.storage = StringStorage.m_heap_buffer (h.allocations + 1) ∧
        h'.allocations = h.allocations + 1 ∧
        h'.blocks (h.allocations + 1) = some ⟨1, cells⟩ ∧
        h'.freed = h.freed ∧
        ∀ q, q ≠ h.allocations + 1 → h'.blocks q = h.blocks q) ∧
      (s.is_stored_inline = true → h' = h) := by
  have hlim : usize (v.byte_count + 1) = v.byte_count + 1 :=
    usize_of_lt (by simp only [sizeof_HeapBufferHeader] at hfit; omega)
  have hchars : v.characters.length = v.byte_count := by
    simp [StringView.characters, StringView.byte_count]
  by_cases hsmall : v.byte_count + 1 ≤ inline_capacity
  · have e := fill_from_view_inline (List.replicate inline_capacity none) v h (by simp) hsmall
    refine ⟨_, _,
      (v.characters ++ List.drop v.byte_count (List.replicate inline_capacity none)).set
        v.byte_count (some 0),
      by rw [from_view, hlim]; exact e, ?_, ?_, ?_, ?_, ?_, ?_⟩
    · simp [byte_count]
    · simp [characters, is_stored_inline, hsmall, m_inline_buffer]
    · rw [take_set_self, List.take_append_of_le_length (by omega), ← hchars, List.take_length]
      rfl
    · rw [List.getElem?_set]
      simp only [if_true, List.length_append, List.length_drop, List.length_replicate, hchars]
      simp only [inline_capacity] at hsmall ⊢
      rw [if_pos (by omega)]
    · intro hne
      simp [is_stored_inline, hsmall] at hne
    · intro _
      rfl
  · obtain ⟨⟨s, h'⟩, e, hs, hblock, halloc, hfreed, hothers⟩ :=
      fill_from_view_heap (List.replicate inline_capacity none) v h (by omega) hfit
    simp only at hs hblock halloc hfreed hothers
    refine ⟨s, h', v.characters ++ [some 0], by rw [from_view, hlim]; exact e,
      ?_, ?_, ?_, ?_, ?_, ?_⟩
    · simp [hs, byte_count]
    · simp [hs, characters, is_stored_inline, hsmall, heap_buffer_characters, m_heap_buffer,
        hblock]
    · rw [List.take_append_of_le_length (by omega), ← hchars, List.take_length]
      rfl
    · rw [List.getElem?_append_right (by omega)]
      simp [hchars]
    · intro _
      exact ⟨by rw [hs], halloc, hblock, hfreed, hothers⟩
    · intro hin
      simp [hs, is_stored_inline, hsmall] at hin

/-- A view of nine bytes on an empty heap. -/
theorem string_from_view_contents_witness :
    ∃ s h' cells, from_view ⟨[65, 66, 67, 68, 69, 70, 71, 72, 73]⟩ Heap.empty = Except.ok (s, h') ∧
      s.byte_count = Except.ok (StringView.mk [65, 66, 67, 68, 69, 70, 71, 72, 73]).byte_count ∧
      s.characters h' = Except.ok cells ∧
      cells.take (StringView.mk [65, 66, 67, 68, 69, 70, 71, 72, 73]).byte_count
        = [65, 66, 67, 68, 69, 70, 71, 72, 73].map some ∧
      cells[(StringView.mk [65, 66, 67, 68, 69, 70, 71, 72, 73]).byte_count]? = some (some 0) ∧
      (s.is_stored_inline = false →
        s.storage = StringStorage.m_heap_buffer ((Heap.empty : Heap StringBlock).allocations + 1) ∧
        h'.allocations = (Heap.empty : Heap StringBlock).allocations + 1 ∧
        h'.blocks ((Heap.empty : Heap StringBlock).allocations + 1) = some ⟨1, cells⟩ ∧
        h'.freed = (Heap.empty : Heap StringBlock).freed ∧
        ∀ q, q ≠ (Heap.empty : Heap StringBlock).allocations + 1 →
          h'.blocks q = (Heap.empty : Heap StringBlock).blocks q) ∧
      (s.is_stored_inline = true → h' = Heap.empty) :=
  string_from_view_contents ⟨[65, 66, 67, 68, 69, 70, 71, 72, 73]⟩ Heap.empty (by decide)

/-- C8 as stated fails: a view of `2 ^ 64 - 5` bytes has `L + 1` representable in `usize`,
yet the constructor returns no string: the allocation size `sizeof(HeapBufferHeader) + L + 1`
wraps to 0 bytes and the header does not fit in the block. -/
theorem string_from_view_contents_counterexample :
    (StringView.mk (List.replicate 18446744073709551611 0)).byte_count + 1 < usize_limit ∧
    usize (sizeof_HeapBufferHeader +
      ((StringView.mk (List.replicate 18446744073709551611 0)).byte_count + 1)) = 0 ∧
    ¬ ∃ s h', from_view (StringView.mk (List.replicate 18446744073709551611 0)) Heap.empty
      = Except.ok (s, h') := by
  have hlen : (StringView.mk (List.replicate 18446744073709551611 0)).byte_count
      = 18446744073709551611 := List.length_replicate _ _
  refine ⟨?_, ?_, ?_⟩
  · rw [hlen]; decide
  · rw [hlen]; decide
  · rw [from_view_allocation_wraps _ _ (by rw [hlen]; decide) (by rw [hlen]; decide)]
    rintro ⟨s, h', e⟩
    cases e

end String
end AT

namespace AT
namespace String

/-- Copy construction from an inline string. -/
theorem copy_construct_inline (cells : List (Option Nat)) (n : Nat) (h : Heap StringBlock)
    (hn : n ≤ inline_capacity) (hcells : cells.length = inline_capacity) :
    copy_construct ⟨StringStorage.m_inline_buffer cells, n⟩ h =
      Except.ok (⟨StringStorage.m_inline_buffer
        (cells.take n ++ (List.replicate inline_capacity none).drop n), n⟩, h) := by
  have hcopy := copy_memory_spec (List.replicate inline_capacity none) cells n (by omega)
    (by simp; omega)
  simp [copy_construct, copy_from, is_stored_inline, hn, m_inline_buffer, hcopy]

/-- Copy construction from a heap-backed string. -/
theorem copy_construct_heap (p n : Nat) (h : Heap StringBlock) (block : StringBlock)
    (hn : inline_capacity < n) (hb : h.blocks p = some block)
    (hroom : block.reference_count ≠ u32_limit - 1) :
    copy_construct ⟨StringStorage.m_heap_buffer p, n⟩ h =
      Except.ok (⟨StringStorage.m_heap_buffer p, n⟩,
        h.store p (some { block with reference_count := block.reference_count + 1 })) := by
  have hni : ¬ n ≤ inline_capacity := by omega
  simp [copy_construct, copy_from, is_stored_inline, hni, m_heap_buffer, increment_reference_count, hb,
    hroom]

/-- `clear` of an inline string. -/
theorem clear_inline (cells : List (Option Nat)) (n : Nat) (h : Heap StringBlock)
    (hn : n ≤ inline_capacity) (hcells : cells.length = inline_capacity) :
    clear ⟨StringStorage.m_inline_buffer cells, n⟩ h =
      Except.ok (⟨StringStorage.m_inline_buffer (List.replicate inline_capacity (some 0)), 1⟩,
        h) := by
  have hz := zero_memory_all cells
  rw [hcells] at hz
  simp [clear, is_stored_inline, hn, m_inline_buffer, hz]

/-- `clear` of a heap-backed string whose block is shared with another string. -/
theorem clear_heap_shared (p n : Nat) (h : Heap StringBlock) (block : StringBlock)
    (hn : inline_capacity < n) (hb : h.blocks p = some block)
    (hrc : 1 < block.reference_count) :
    clear ⟨StringStorage.m_heap_buffer p, n⟩ h =
      Except.ok (⟨StringStorage.m_inline_buffer (List.replicate inline_capacity (some 0)), 1⟩,
        h.store p (some { block with reference_count := block.reference_count - 1 })) := by
  have hni : ¬ n ≤ inline_capacity := by omega
  have hz := zero_memory_all (List.replicate inline_capacity (none : Option Nat))
  simp only [List.length_replicate] at hz
  have h0 : 0 < block.reference_count := by omega
  have h1 : ¬ block.reference_count - 1 = 0 := by omega
  simp [clear, is_stored_inline, hni, m_heap_buffer, decrement_reference_count, hb, h0, h1,
    m_inline_buffer, hz]

/-- `clear` of a heap-backed string that is the only one to use its block. -/
theorem clear_heap_last (p n : Nat) (h : Heap StringBlock) (block : StringBlock)
    (hn : inline_capacity < n) (hp : p ≠ 0) (hb : h.blocks p = some block)
    (hrc : block.reference_count = 1) :
    clear ⟨StringStorage.m_heap_buffer p, n⟩ h =
      Except.ok (⟨StringStorage.m_inline_buffer (List.replicate inline_capacity (some 0)), 1⟩,
        { blocks := fun q => if q = p then none else h.blocks q,
          allocations := h.allocations,
          freed := p :: h.freed }) := by
  have hni : ¬ n ≤ inline_capacity := by omega
  have hz := zero_memory_all (List.replicate inline_capacity (none : Option Nat))
  simp only [List.length_replicate] at hz
  simp [clear, is_stored_inline, hni, m_heap_buffer, decrement_reference_count, hb, hrc,
    m_inline_buffer, hz, free_heap_buffer, hn, Heap.store, Heap.operator_delete, hp]
  funext q
  by_cases hq : q = p <;> simp [hq]

end String
end AT

namespace AT
namespace String

theorem sample_heap_string_wellFormed : WellFormed sample_heap_string sample_heap :=
  ⟨by decide, by decide, by decide, sample_block, rfl, by decide, rfl, rfl⟩

theorem sample_heap_string_canShare : CanShare sample_heap_string sample_heap := by
  intro p block hp hb
  cases hp
  cases hb
  decide

theorem sample_inline_string_wellFormed : WellFormed sample_inline_string sample_heap :=
  ⟨by decide, by decide, rfl, rfl⟩

theorem sample_inline_string_canShare : CanShare sample_inline_string sample_heap := by
  intro p block hp
  cases hp

/-- C10. Copy construction from a well-formed heap-backed string whose count is not
saturated allocates nothing and releases nothing: the copy holds the same pointer, the block
keeps its characters and its reference count is one greater than before, every other block
is untouched. Copy construction from an inline string leaves the heap as it is and gives a
copy with its own inline buffer, equal to the source on the `m_byte_count` bytes stored. -/
theorem string_copy_construct_shares (s : String) (h : Heap StringBlock)
    (hwf : WellFormed s h) (hroom : CanShare s h) :
    ∃ c h1, copy_construct s h = Except.ok (c, h1) ∧
      c.m_byte_count = s.m_byte_count ∧
      h1.allocations = h.allocations ∧ h1.freed = h.freed ∧
      (∀ p, s.storage = StringStorage.m_heap_buffer p →
        c.storage = StringStorage.m_heap_buffer p ∧
        (∃ block, h.blocks p = some block ∧
          h1.blocks p = some ⟨block.reference_count + 1, block.characters⟩) ∧
        ∀ q, q ≠ p → h1.blocks q = h.blocks q) ∧
      (∀ cells, s.storage = StringStorage.m_inline_buffer cells →
        h1 = h ∧ ∃ copied, c.storage = StringStorage.m_inline_buffer copied ∧
          copied.length = inline_capacity ∧
          copied.take s.m_byte_count = cells.take s.m_byte_count) := by
  obtain ⟨storage, n⟩ := s
  cases storage with
  | m_inline_buffer cells =>
    obtain ⟨_, hn, hlen, _⟩ := hwf
    simp only at hn hlen
    refine ⟨_, _, copy_construct_inline cells n h hn hlen, rfl, rfl, rfl, ?_, ?_⟩
    · intro p hp
      cases hp
    · intro cells' hc
      cases hc
      refine ⟨rfl, _, rfl, ?_, ?_⟩
      · simp only [List.length_append, List.length_take, List.length_drop,
          List.length_replicate, hlen]
        omega
      · rw [List.take_append_of_le_length (by simp; omega), List.take_take, Nat.min_self]
  | m_heap_buffer p =>
    obtain ⟨_, hn, _, block, hb, _, _, _⟩ := hwf
    simp only at hn hb
    refine ⟨_, _, copy_construct_heap p n h block hn hb (hroom p block rfl hb), rfl, rfl, rfl,
      ?_, ?_⟩
    · intro p' hp
      cases hp
      refine ⟨rfl, ⟨block, hb, by simp [Heap.store]⟩, ?_⟩
      intro q hq
      simp [Heap.store, hq]
    · intro cells hc
      cases hc

/-- The sample heap-backed string, whose block has one owner. -/
theorem string_copy_construct_shares_witness :
    WellFormed sample_heap_string sample_heap ∧ CanShare sample_heap_string sample_heap ∧
    ∃ c h1, copy_construct sample_heap_string sample_heap = Except.ok (c, h1) ∧
      c.m_byte_count = sample_heap_string.m_byte_count ∧
      h1.allocations = sample_heap.allocations ∧ h1.freed = sample_heap.freed ∧
      (∀ p, sample_heap_string.storage = StringStorage.m_heap_buffer p →
        c.storage = StringStorage.m_heap_buffer p ∧
        (∃ block, sample_heap.blocks p = some block ∧
          h1.blocks p = some ⟨block.reference_count + 1, block.characters⟩) ∧
        ∀ q, q ≠ p → h1.blocks q = sample_heap.blocks q) ∧
      (∀ cells, sample_heap_string.storage = StringStorage.m_inline_buffer cells →
        h1 = sample_heap ∧ ∃ copied, c.storage = StringStorage.m_inline_buffer copied ∧
          copied.length = inline_capacity ∧
          copied.take sample_heap_string.m_byte_count
            = cells.take sample_heap_string.m_byte_count) :=
  ⟨sample_heap_string_wellFormed, sample_heap_string_canShare,
    string_copy_construct_shares sample_heap_string sample_heap
      sample_heap_string_wellFormed sample_heap_string_canShare⟩

/-- C9. For a well-formed string `s` whose count is not saturated, inline or heap-backed:
copy-construct `c` from `s`, then clear (or destroy) `s`. Both steps return normally,
`c.byte_count()` is what `s.byte_count()` was, the bytes readable through `c.characters()`
afterwards equal, on the `byte_count() + 1` bytes stored, those that were readable through
`s.characters()`, the last of them being the terminator 0; nothing was released, and for a
heap-backed `s` the shared block is still live with a positive count. -/
theorem string_copy_survives_drop (s : String) (h : Heap StringBlock)
    (hwf : WellFormed s h) (hroom : CanShare s h) :
    ∃ c h1 s' h2 cells cells', copy_construct s h = Except.ok (c, h1) ∧
      s.clear h1 = Except.ok (s', h2) ∧ s.destroy h1 = Except.ok h2 ∧
      c.byte_count = s.byte_count ∧ s.byte_count = Except.ok (s.m_byte_count - 1) ∧
      s.characters h = Except.ok cells ∧ c.characters h2 = Except.ok cells' ∧
      cells'.take s.m_byte_count = cells.take s.m_byte_count ∧
      cells'[s.m_byte_count - 1]? = some (some 0) ∧
      h2.freed = h.freed ∧
      (∀ p, s.storage = StringStorage.m_heap_buffer p →
        c.storage = StringStorage.m_heap_buffer p ∧
        ∃ block, h2.blocks p = some block ∧ 0 < block.reference_count) := by
  obtain ⟨storage, n⟩ := s
  cases storage with
  | m_inline_buffer cells =>
    obtain ⟨hpos, hn, hlen, hnul⟩ := hwf
    simp only at hpos hn hlen hnul
    have htake : (cells.take n ++ (List.replicate inline_capacity none).drop n).take n
        = cells.take n := by
      rw [List.take_append_of_le_length (by simp; omega), List.take_take, Nat.min_self]
    refine ⟨_, _, _, _, cells, _, copy_construct_inline cells n h hn hlen,
      clear_inline cells n h hn hlen, ?_, rfl, ?_, ?_, ?_, htake, ?_, rfl, ?_⟩
    · simp [destroy, clear_inline cells n h hn hlen]
    · simp [byte_count, hpos]
    · simp [characters, is_stored_inline, hn, m_inline_buffer]
    · simp only [characters, is_stored_inline, hn, decide_True, if_true, m_inline_buffer]
    · show (cells.take n ++ (List.replicate inline_capacity none).drop n)[n - 1]? = _
      rw [List.getElem?_append_left (by simp; omega), List.getElem?_take_of_lt (by omega)]
      exact hnul
    · intro p hp
      cases hp
  | m_heap_buffer p =>
    obtain ⟨hpos, hn, hp0, block, hb, hrc, hlen, hnul⟩ := hwf
    simp only at hpos hn hb hlen hnul
    have hni : ¬ n ≤ inline_capacity := by omega
    have e1 := copy_construct_heap p n h block hn hb (hroom p block rfl hb)
    have e2 := clear_heap_shared p n
      (h.store p (some { block with reference_count := block.reference_count + 1 }))
      { block with reference_count := block.reference_count + 1 } hn (by simp [Heap.store])
      (by simp only; omega)
    refine ⟨_, _, _, _, block.characters, block.characters, e1, e2, ?_, rfl, ?_, ?_, ?_, rfl,
      hnul, rfl, ?_⟩
    · simp [destroy, e2]
    · simp [byte_count, hpos]
    · simp [characters, is_stored_inline, hni, heap_buffer_characters, m_heap_buffer, hb]
    · simp [characters, is_stored_inline, hni, heap_buffer_characters, m_heap_buffer,
        Heap.store]
    · intro p' hp
      cases hp
      exact ⟨rfl, ⟨block.reference_count + 1 - 1, block.characters⟩, by simp [Heap.store],
        by simpa using hrc⟩

/-- The sample heap-backed string is copied and then cleared. -/
theorem string_copy_survives_drop_witness :
    WellFormed sample_heap_string sample_heap ∧ CanShare sample_heap_string sample_heap ∧
    ∃ c h1 s' h2 cells cells', copy_construct sample_heap_string sample_heap = Except.ok (c, h1) ∧
      sample_heap_string.clear h1 = Except.ok (s', h2) ∧
      sample_heap_string.destroy h1 = Except.ok h2 ∧
      c.byte_count = sample_heap_string.byte_count ∧
      sample_heap_string.byte_count = Except.ok (sample_heap_string.m_byte_count - 1) ∧
      sample_heap_string.characters sample_heap = Except.ok cells ∧
      c.characters h2 = Except.ok cells' ∧
      cells'.take sample_heap_string.m_byte_count = cells.take sample_heap_string.m_byte_count ∧
      cells'[sample_heap_string.m_byte_count - 1]? = some (some 0) ∧
      h2.freed = sample_heap.freed ∧
      (∀ p, sample_heap_string.storage = StringStorage.m_heap_buffer p →
        c.storage = StringStorage.m_heap_buffer p ∧
        ∃ block, h2.blocks p = some block ∧ 0 < block.reference_count) :=
  ⟨sample_heap_string_wellFormed, sample_heap_string_canShare,
    string_copy_survives_drop sample_heap_string sample_heap
      sample_heap_string_wellFormed sample_heap_string_canShare⟩

end String
end AT

namespace AT

theorem bind_eq_ok {ε α β : Type} {x : Except ε α} {f : α → Except ε β} {b : β} :
    (x >>= f) = Except.ok b ↔ ∃ a, x = Except.ok a ∧ f a = Except.ok b := by
  cases x with
  | error e =>
    constructor
    · intro h
      cases h
    · rintro ⟨a, ha, _⟩
      cases ha
  | ok a =>
    constructor
    · intro h
      exact ⟨a, rfl, h⟩
    · rintro ⟨a', ha, h⟩
      cases ha
      exact h

theorem append_eq_set_extend {α : Type} (t : List (Option α)) (y : Option α) :
    t ++ [y] = (t ++ [none]).set t.length y := by
  rw [List.set_append_right _ _ (Nat.le_refl _)]
  simp

theorem getElem?_extend_length {α : Type} (t : List (Option α)) :
    (t ++ [none])[t.length]? = some none := by
  rw [List.getElem?_append_right (Nat.le_refl _)]
  simp

theorem getElem?_extend_of_some {α : Type} {t : List (Option α)} {j : Nat} {a : Option α}
    (hj : t[j]? = some a) : (t ++ [none])[j]? = some a := by
  rw [List.getElem?_append_left (lt_length_of_getElem? hj)]
  exact hj

namespace RefPtr

end RefPtr
end AT

namespace AT
namespace RefPtrWorld

theorem targets_of_length (l : List (Option RefPtr)) : (targets_of l).length = l.length := by
  simp [targets_of]

end RefPtrWorld
end AT

namespace AT
namespace RefPtrWorld

end RefPtrWorld
end AT

namespace AT

/-! ## Reference counting of `String` heap blocks -/

theorem copy_memory_loop_ok_le (source : List (Option Nat)) :
    ∀ (remaining byte_offset : Nat) (destination result : List (Option Nat)),
      copy_memory_loop source remaining byte_offset destination = Except.ok result →
      remaining = 0 ∨ byte_offset + remaining ≤ destination.length := by
  intro remaining
  induction remaining with
  | zero =>
    intro _ _ _ _
    exact Or.inl rfl
  | succ n ih =>
    intro byte_offset destination result e
    right
    unfold copy_memory_loop at e
    split at e
    · cases e
    · split at e
      · rename_i hlt
        have := ih _ _ _ e
        simp only [List.length_set] at this
        omega
      · cases e

/-- A `copy_memory` that returns normally stayed inside the destination buffer. -/
theorem copy_memory_ok_le {destination source result : List (Option Nat)} {byte_count : Nat}
    (e : copy_memory destination source byte_count = Except.ok result) :
    byte_count ≤ destination.length := by
  have := copy_memory_loop_ok_le source byte_count 0 destination result e
  omega

theorem Evolves.refl (h : Heap StringBlock) : Evolves h h :=
  ⟨Nat.le_refl _, fun _ b2 hb => Or.inl ⟨b2, hb, rfl⟩⟩

theorem Evolves.trans {h1 h2 h3 : Heap StringBlock} (e12 : Evolves h1 h2) (e23 : Evolves h2 h3) :
    Evolves h1 h3 := by
  refine ⟨Nat.le_trans e12.1 e23.1, ?_⟩
  intro q b3 hb3
  rcases e23.2 q b3 hb3 with ⟨b2, hb2, hc⟩ | hnew
  · rcases e12.2 q b2 hb2 with ⟨b1, hb1, hc'⟩ | hnew
    · exact Or.inl ⟨b1, hb1, hc.trans hc'⟩
    · exact Or.inr hnew
  · exact Or.inr (Nat.lt_of_le_of_lt e12.1 hnew)

/-- Changing the count of a block keeps every block's characters. -/
theorem Evolves.store {h : Heap StringBlock} {p : Nat} {b : StringBlock} (n : Nat)
    (hb : h.blocks p = some b) : Evolves h (h.store p (some ⟨n, b.characters⟩)) := by
  refine ⟨Nat.le_refl _, ?_⟩
  intro q b2 hb2
  left
  by_cases hq : q = p
  · subst hq
    simp only [Heap.store, if_true, Option.some.injEq] at hb2
    subst hb2
    exact ⟨b, hb, rfl⟩
  · simp only [Heap.store, hq, if_false] at hb2
    exact ⟨b2, hb2, rfl⟩

namespace String

/-- The class invariant only depends on the block the string points to. -/
theorem WellFormed.of_heap {s : String} {h h' : Heap StringBlock} (hwf : WellFormed s h)
    (hkeep : ∀ p b, s.storage = StringStorage.m_heap_buffer p → h.blocks p = some b →
      ∃ b', h'.blocks p = some b' ∧ 0 < b'.reference_count ∧ b'.characters = b.characters) :
    WellFormed s h' := by
  obtain ⟨storage, n⟩ := s
  cases storage with
  | m_inline_buffer cells => exact hwf
  | m_heap_buffer p =>
    obtain ⟨hpos, hn, hp0, b, hb, hrc, hlen, hnul⟩ := hwf
    obtain ⟨b', hb', hrc', hc⟩ := hkeep p b rfl hb
    exact ⟨hpos, hn, hp0, b', hb', hrc', by rw [hc]; exact hlen, by rw [hc]; exact hnul⟩

/-- The canonical empty string is well formed in every heap. -/
theorem wellFormed_cleared (h : Heap StringBlock) :
    WellFormed ⟨StringStorage.m_inline_buffer (List.replicate inline_capacity (some 0)), 1⟩ h :=
  ⟨by decide, by decide, rfl, rfl⟩

theorem wellFormed_default (h : Heap StringBlock) : WellFormed String.default h :=
  ⟨by decide, by decide, rfl, rfl⟩

/-- `clear` keeps the counting invariant, the string pointing to no block afterwards. -/
theorem clear_inv {h h' : Heap StringBlock} {t : List (Option Nat)} {i : Nat} {s s' : String}
    (inv : CountInv StringBlock.reference_count h t) (hi : t[i]? = some s.target)
    (hwf : WellFormed s h) (e : s.clear h = Except.ok (s', h')) :
    s' = ⟨StringStorage.m_inline_buffer (List.replicate inline_capacity (some 0)), 1⟩ ∧
      CountInv StringBlock.reference_count h' (t.set i none) ∧ Evolves h h' := by
  obtain ⟨storage, n⟩ := s
  cases storage with
  | m_inline_buffer cells =>
    obtain ⟨_, hn, hlen, _⟩ := hwf
    rw [clear_inline cells n h hn hlen] at e
    simp only [Except.ok.injEq, Prod.mk.injEq] at e
    obtain ⟨e1, e2⟩ := e
    subst e2
    have : t.set i none = t := set_none_of_none hi
    rw [this]
    exact ⟨e1.symm, inv, Evolves.refl _⟩
  | m_heap_buffer p =>
    obtain ⟨_, hn, hp0, b, hb, hrc, _, _⟩ := hwf
    have hi' : t[i]? = some (some p) := hi
    by_cases hlast : b.reference_count = 1
    · rw [clear_heap_last p n h b hn hp0 hb hlast] at e
      simp only [Except.ok.injEq, Prod.mk.injEq] at e
      obtain ⟨e1, e2⟩ := e
      subst e2
      refine ⟨e1.symm, inv.release_last hi' hb hlast (by simp)
        (by intro q hq; simp [hq]) rfl rfl, Nat.le_refl _, ?_⟩
      intro q b2 hb2
      left
      by_cases hq : q = p
      · simp [hq] at hb2
      · simp only [hq, if_false] at hb2
        exact ⟨b2, hb2, rfl⟩
    · rw [clear_heap_shared p n h b hn hb (by omega)] at e
      simp only [Except.ok.injEq, Prod.mk.injEq] at e
      obtain ⟨e1, e2⟩ := e
      subst e2
      have hb' : (h.store p (some ⟨b.reference_count - 1, b.characters⟩)).blocks p
          = some ⟨b.reference_count - 1, b.characters⟩ := by simp [Heap.store]
      refine ⟨e1.symm, inv.release_shared hi' hb hb' (by simp only; omega) (by omega)
        (by intro q hq; simp [Heap.store, hq]) rfl rfl, Evolves.store _ hb⟩

end String
end AT

namespace AT
namespace String

theorem copy_from_inline (init cells : List (Option Nat)) (n : Nat) (h : Heap StringBlock)
    (hn : n ≤ inline_capacity) (hcells : cells.length = inline_capacity)
    (hinit : init.length = inline_capacity) :
    copy_from ⟨StringStorage.m_inline_buffer init, n⟩ ⟨StringStorage.m_inline_buffer cells, n⟩ h =
      Except.ok (⟨StringStorage.m_inline_buffer (cells.take n ++ init.drop n), n⟩, h) := by
  have hcopy := copy_memory_spec init cells n (by omega) (by omega)
  simp [copy_from, is_stored_inline, hn, m_inline_buffer, hcopy]

theorem move_from_inline (init cells : List (Option Nat)) (n : Nat)
    (hn : n ≤ inline_capacity) (hcells : cells.length = inline_capacity)
    (hinit : init.length = inline_capacity) :
    move_from ⟨StringStorage.m_inline_buffer init, n⟩ ⟨StringStorage.m_inline_buffer cells, n⟩ =
      Except.ok (⟨StringStorage.m_inline_buffer (cells.take n ++ init.drop n), n⟩,
        ⟨StringStorage.m_inline_buffer (List.replicate inline_capacity (some 0)), 1⟩) := by
  have hcopy := copy_memory_spec init cells n (by omega) (by omega)
  have hz := zero_memory_all cells
  rw [hcells] at hz
  simp [move_from, is_stored_inline, hn, m_inline_buffer, hcopy, hz]

theorem move_from_heap (init : List (Option Nat)) (p n : Nat) (hn : inline_capacity < n) :
    move_from ⟨StringStorage.m_inline_buffer init, n⟩ ⟨StringStorage.m_heap_buffer p, n⟩ =
      Except.ok (⟨StringStorage.m_heap_buffer p, n⟩,
        ⟨StringStorage.m_inline_buffer (List.replicate inline_capacity (some 0)), 1⟩) := by
  have hni : ¬ n ≤ inline_capacity := by omega
  have hz := zero_memory_all (List.replicate inline_capacity (none : Option Nat))
  simp only [List.length_replicate] at hz
  simp [move_from, is_stored_inline, hni, m_heap_buffer, m_inline_buffer, hz]

/-- An inline buffer that received the stored bytes of a well-formed inline string. -/
theorem wellFormed_copied (init cells : List (Option Nat)) (n : Nat) (h h' : Heap StringBlock)
    (hwf : WellFormed ⟨StringStorage.m_inline_buffer cells, n⟩ h)
    (hinit : init.length = inline_capacity) :
    WellFormed ⟨StringStorage.m_inline_buffer (cells.take n ++ init.drop n), n⟩ h' := by
  obtain ⟨hpos, hn, hlen, hnul⟩ := hwf
  simp only at hpos hn hlen hnul
  refine ⟨hpos, hn, ?_, ?_⟩
  · simp only [List.length_append, List.length_take, List.length_drop, hlen, hinit]
    omega
  · show (cells.take n ++ init.drop n)[n - 1]? = _
    rw [List.getElem?_append_left (by simp; omega), List.getElem?_take_of_lt (by omega)]
    exact hnul

/-- The copy body, run on a string that pointed to no block, keeps the counting invariant
and yields a well-formed string. -/
theorem copy_from_inv {h h' : Heap StringBlock} {t : List (Option Nat)} {i j : Nat}
    {o s' : String} {init : List (Option Nat)}
    (inv : CountInv StringBlock.reference_count h t) (hi : t[i]? = some none)
    (hj : t[j]? = some o.target) (hwf : WellFormed o h) (hinit : init.length = inline_capacity)
    (e : copy_from ⟨StringStorage.m_inline_buffer init, o.m_byte_count⟩ o h
      = Except.ok (s', h')) :
    CountInv StringBlock.reference_count h' (t.set i s'.target) ∧ Evolves h h' ∧
      WellFormed s' h' := by
  obtain ⟨storage, n⟩ := o
  cases storage with
  | m_inline_buffer cells =>
    have hwf' := hwf
    obtain ⟨_, hn, hlen, _⟩ := hwf'
    rw [copy_from_inline init cells n h hn hlen hinit] at e
    simp only [Except.ok.injEq, Prod.mk.injEq] at e
    obtain ⟨e1, e2⟩ := e
    subst e1 e2
    have : t.set i none = t := set_none_of_none hi
    refine ⟨?_, Evolves.refl _, wellFormed_copied init cells n h h hwf hinit⟩
    show CountInv StringBlock.reference_count h (t.set i none)
    rw [this]
    exact inv
  | m_heap_buffer p =>
    obtain ⟨hpos, hn, hp0, b, hb, hrc, hlen, hnul⟩ := hwf
    simp only at hn hlen hnul
    have hni : ¬ n ≤ inline_capacity := by omega
    by_cases hmax : b.reference_count = u32_limit - 1
    · simp [copy_from, is_stored_inline, hni, m_heap_buffer, increment_reference_count, hb,
        hmax] at e
    · have e0 := copy_construct_heap p n h b hn hb hmax
      have e' : copy_from ⟨StringStorage.m_inline_buffer init, n⟩
          ⟨StringStorage.m_heap_buffer p, n⟩ h
          = Except.ok (⟨StringStorage.m_heap_buffer p, n⟩,
            h.store p (some { b with reference_count := b.reference_count + 1 })) := by
        simp [copy_from, is_stored_inline, hni, m_heap_buffer, increment_reference_count, hb,
          hmax]
      rw [e'] at e
      simp only [Except.ok.injEq, Prod.mk.injEq] at e
      obtain ⟨e1, e2⟩ := e
      subst e1 e2
      have hb' : (h.store p (some ⟨b.reference_count + 1, b.characters⟩)).blocks p
          = some ⟨b.reference_count + 1, b.characters⟩ := by simp [Heap.store]
      refine ⟨inv.acquire hi hb hb' rfl (by intro q hq; simp [Heap.store, hq]) rfl rfl,
        Evolves.store _ hb, ?_⟩
      exact ⟨hpos, hn, hp0, _, hb', Nat.succ_pos _, hlen, hnul⟩

/-- The move body yields a well-formed string pointing where the source pointed, and leaves
the source in the canonical empty state. -/
theorem move_from_spec {h : Heap StringBlock} {o s' o' : String} {init : List (Option Nat)}
    (hwf : WellFormed o h) (hinit : init.length = inline_capacity)
    (e : move_from ⟨StringStorage.m_inline_buffer init, o.m_byte_count⟩ o = Except.ok (s', o')) :
    o' = ⟨StringStorage.m_inline_buffer (List.replicate inline_capacity (some 0)), 1⟩ ∧
      s'.target = o.target ∧ WellFormed s' h := by
  obtain ⟨storage, n⟩ := o
  cases storage with
  | m_inline_buffer cells =>
    have hwf' := hwf
    obtain ⟨_, hn, hlen, _⟩ := hwf'
    rw [move_from_inline init cells n hn hlen hinit] at e
    simp only [Except.ok.injEq, Prod.mk.injEq] at e
    obtain ⟨e1, e2⟩ := e
    subst e1 e2
    exact ⟨rfl, rfl, wellFormed_copied init cells n h h hwf hinit⟩
  | m_heap_buffer p =>
    have hwf' := hwf
    obtain ⟨_, hn, _⟩ := hwf'
    rw [move_from_heap init p n hn] at e
    simp only [Except.ok.injEq, Prod.mk.injEq] at e
    obtain ⟨e1, e2⟩ := e
    subst e1 e2
    exact ⟨rfl, rfl, hwf⟩

end String
end AT

namespace AT
namespace String

/-- When the view body returns normally, the allocation size did not wrap. -/
theorem fill_from_view_fits {init : List (Option Nat)} {v : StringView} {h : Heap StringBlock}
    {r : String × Heap StringBlock} (hinit : init.length = inline_capacity)
    (e : fill_from_view ⟨StringStorage.m_inline_buffer init, usize (v.byte_count + 1)⟩ v h
      = Except.ok r) :
    sizeof_HeapBufferHeader + (v.byte_count + 1) < usize_limit := by
  by_cases hm : usize (v.byte_count + 1) ≤ inline_capacity
  · simp only [fill_from_view, is_stored_inline, hm, decide_True, Bool.not_true,
      Bool.false_eq_true, if_false, ok_bind, destination_buffer, bind_eq_ok] at e
    obtain ⟨copied, ec, _⟩ := e
    have hle := copy_memory_ok_le ec
    simp only [hinit, inline_capacity] at hle
    simp only [sizeof_HeapBufferHeader, usize_limit]
    omega
  · have hbig : usize (v.byte_count + 1) > inline_capacity := by omega
    by_cases hsz : usize (sizeof_HeapBufferHeader + usize (v.byte_count + 1))
        < sizeof_HeapBufferHeader
    · simp [fill_from_view, is_stored_inline, hm, allocate_heap_buffer, hbig, hsz] at e
    · have h0 : ¬ (0 : Nat) = u32_limit - 1 := by decide
      simp only [fill_from_view, is_stored_inline, hm, decide_False, Bool.not_false, if_true,
        allocate_heap_buffer, hbig, decide_True, VERIFY_true, ok_bind, hsz, if_false,
        Heap.operator_new, increment_reference_count, m_heap_buffer, ne_eq, h0,
        not_false_eq_true, Heap.store, destination_buffer, heap_buffer_characters,
        bind_eq_ok] at e
      obtain ⟨copied, ec, _⟩ := e
      have hle := copy_memory_ok_le ec
      simp only [List.length_replicate] at hle
      simp only [usize, usize_limit, sizeof_HeapBufferHeader] at hle hsz ⊢
      omega

/-- The view body, run on a string that pointed to no block, keeps the counting invariant
and yields a well-formed string. -/
theorem fill_from_view_inv {h h' : Heap StringBlock} {t : List (Option Nat)} {i : Nat}
    {s' : String} {init : List (Option Nat)} {v : StringView}
    (inv : CountInv StringBlock.reference_count h t) (hi : t[i]? = some none)
    (hinit : init.length = inline_capacity)
    (e : fill_from_view ⟨StringStorage.m_inline_buffer init, usize (v.byte_count + 1)⟩ v h
      = Except.ok (s', h')) :
    CountInv StringBlock.reference_count h' (t.set i s'.target) ∧ Evolves h h' ∧
      WellFormed s' h' := by
  have hfit := fill_from_view_fits hinit e
  have hlim : usize (v.byte_count + 1) = v.byte_count + 1 :=
    usize_of_lt (by simp only [sizeof_HeapBufferHeader] at hfit; omega)
  have hchars : v.characters.length = v.byte_count := by
    simp [StringView.characters, StringView.byte_count]
  rw [hlim] at e
  by_cases hsmall : v.byte_count + 1 ≤ inline_capacity
  · rw [fill_from_view_inline init v h hinit hsmall] at e
    simp only [Except.ok.injEq, Prod.mk.injEq] at e
    obtain ⟨e1, e2⟩ := e
    subst e1 e2
    refine ⟨?_, Evolves.refl _, ?_⟩
    · show CountInv StringBlock.reference_count h (t.set i none)
      rw [set_none_of_none hi]
      exact inv
    · refine ⟨Nat.succ_pos _, hsmall, ?_, ?_⟩
      · simp only [List.length_set, List.length_append, List.length_drop, hchars, hinit]
        omega
      · show ((v.characters ++ init.drop v.byte_count).set v.byte_count (some 0))[
          v.byte_count + 1 - 1]? = _
        rw [Nat.add_sub_cancel, List.getElem?_set]
        simp only [if_true, List.length_append, List.length_drop, hchars, hinit]
        rw [if_pos (by omega)]
  · obtain ⟨⟨s, h2⟩, e2, hs, hblock, halloc, hfreed, hothers⟩ :=
      fill_from_view_heap init v h (by omega) hfit
    rw [e2] at e
    simp only [Except.ok.injEq, Prod.mk.injEq] at e
    obtain ⟨e3, e4⟩ := e
    subst e3 e4
    simp only at hs hblock halloc hfreed hothers
    subst hs
    refine ⟨inv.fresh hi hblock rfl hothers halloc hfreed, ⟨by omega, ?_⟩, ?_⟩
    · intro q b2 hb2
      by_cases hq : q = h.allocations + 1
      · right
        omega
      · left
        rw [hothers q hq] at hb2
        exact ⟨b2, hb2, rfl⟩
    · have hbig : inline_capacity < v.byte_count + 1 := by omega
      refine ⟨Nat.succ_pos _, hbig, Nat.succ_ne_zero _, _, hblock, Nat.succ_pos _, ?_, ?_⟩
      · simp [hchars]
      · show (v.characters ++ [some 0])[v.byte_count + 1 - 1]? = _
        rw [Nat.add_sub_cancel, List.getElem?_append_right (by omega)]
        simp [hchars]

end String
end AT

namespace AT
namespace StringWorld

theorem object_ok {w : StringWorld} {i : Nat} {s : String} (e : w.object i = Except.ok s) :
    w.strings[i]? = some (some s) := by
  unfold object at e
  rw [List.get?_eq_getElem?] at e
  split at e
  · rename_i s' hs
    cases e
    exact hs
  · cases e

theorem string_targets_getElem {l : List (Option String)} {i : Nat} {s : String}
    (hi : l[i]? = some (some s)) : (targets_of l)[i]? = some s.target := by
  simp [targets_of, hi]

theorem string_targets_set (l : List (Option String)) (i : Nat) (s : String) :
    targets_of (l.set i (some s)) = (targets_of l).set i s.target := by
  simp [targets_of]

theorem string_targets_set_none (l : List (Option String)) (i : Nat) :
    targets_of (l.set i none) = (targets_of l).set i none := by
  simp [targets_of]

theorem string_targets_append (l : List (Option String)) (s : String) :
    targets_of (l ++ [some s]) = (targets_of l ++ [none]).set (targets_of l).length s.target := by
  rw [← append_eq_set_extend]
  simp [targets_of]

theorem getElem?_set_cases {α : Type} {l : List α} {i j : Nat} {x y : α}
    (h : (l.set i x)[j]? = some y) : l[j]? = some y ∨ y = x := by
  rw [List.getElem?_set] at h
  by_cases hij : i = j
  · rw [if_pos hij] at h
    split at h
    · right
      exact (Option.some.inj h).symm
    · cases h
  · rw [if_neg hij] at h
    exact Or.inl h

theorem getElem?_set_set_cases {α : Type} {l : List α} {i j : Nat} {x y : α} (x0 : α)
    (h : (l.set i x)[j]? = some y) : (l.set i x0)[j]? = some y ∨ y = x := by
  rw [List.getElem?_set] at h
  by_cases hij : i = j
  · rw [if_pos hij] at h
    split at h
    · right
      exact (Option.some.inj h).symm
    · cases h
  · rw [if_neg hij] at h
    left
    rw [List.getElem?_set, if_neg hij]
    exact h

theorem getElem?_append_cases {α : Type} {l : List α} {j : Nat} {x y : α}
    (h : (l ++ [x])[j]? = some y) : l[j]? = some y ∨ y = x := by
  by_cases hj : j < l.length
  · rw [List.getElem?_append_left hj] at h
    exact Or.inl h
  · rw [List.getElem?_append_right (by omega)] at h
    right
    by_cases h0 : j - l.length = 0
    · rw [h0] at h
      exact (Option.some.inj h).symm
    · rw [List.getElem?_eq_none (by simp; omega)] at h
      cases h

/-- The number of strings whose heap pointer is `p`, on the list of targets. -/
theorem string_references_eq_count (w : StringWorld) (p : Nat) :
    w.references p = w.targets.count (some p) := by
  unfold references targets targets_of
  induction w.strings with
  | nil => rfl
  | cons o l ih =>
    rw [List.countP_cons, List.map_cons, List.count_cons, ih]
    congr 1
    cases o with
    | none => simp
    | some s =>
      obtain ⟨storage, n⟩ := s
      cases storage with
      | m_inline_buffer cells => simp [String.target]
      | m_heap_buffer q => simp [String.target]

/-- A state whose counting invariant holds, whose heap evolved from that of a state
satisfying the invariant, and whose strings are strings of that state or well formed,
satisfies the invariant. -/
theorem Inv.of_evolves {w : StringWorld} {h' : Heap StringBlock} {l' : List (Option String)}
    (inv : w.Inv) (hcount : CountInv StringBlock.reference_count h' (targets_of l'))
    (hev : Evolves w.heap h')
    (htouched : ∀ (j : Nat) (s2 : String), l'[j]? = some (some s2) →
      w.strings[j]? = some (some s2) ∨ s2.WellFormed h') :
    Inv ⟨h', l'⟩ := by
  refine ⟨hcount, ?_⟩
  intro j s2 hj
  rcases htouched j s2 hj with hold | hnew
  · refine (inv.2 j s2 hold).of_heap ?_
    intro p b hsp hb
    have htarget : s2.target = some p := by simp [String.target, hsp]
    have hj' := string_targets_getElem hj
    rw [htarget] at hj'
    obtain ⟨b', hb', hrc'⟩ := hcount.live_of_target hj'
    refine ⟨b', hb', hrc', ?_⟩
    rcases hev.2 p b' hb' with ⟨b1, hb1, hc⟩ | hnew
    · rw [hb] at hb1
      cases hb1
      exact hc
    · have := (inv.1.2.1 p b hb).2.2
      omega
  · exact hnew

/-- `clear` of the string at a position keeps the invariant. -/
theorem Inv.clear_at {w : StringWorld} {i : Nat} {t s' : String} {h1 : Heap StringBlock}
    (inv : w.Inv) (hi : w.strings[i]? = some (some t))
    (e : t.clear w.heap = Except.ok (s', h1)) :
    s' = ⟨StringStorage.m_inline_buffer (List.replicate String.inline_capacity (some 0)), 1⟩ ∧
      Inv ⟨h1, w.strings.set i (some s')⟩ ∧ Evolves w.heap h1 := by
  obtain ⟨hs, hcount, hev⟩ := String.clear_inv inv.1 (string_targets_getElem hi) (inv.2 i t hi) e
  refine ⟨hs, inv.of_evolves ?_ hev ?_, hev⟩
  · rw [string_targets_set, hs]
    exact hcount
  · intro j s2 hj
    rcases getElem?_set_cases hj with hold | hnew
    · exact Or.inl hold
    · right
      rw [Option.some.inj hnew, hs]
      exact String.wellFormed_cleared _

end StringWorld
end AT

namespace AT
namespace StringWorld

/-- A string that took over what another one pointed to, the other being reset, in terms of
the list of targets. -/
theorem transfer_targets {h : Heap StringBlock} {t : List (Option Nat)} {i j : Nat}
    {o : Option Nat} (inv : CountInv StringBlock.reference_count h t)
    (hi : t[i]? = some none) (hj : t[j]? = some o) :
    CountInv StringBlock.reference_count h ((t.set i o).set j none) := by
  cases o with
  | none =>
    rw [set_none_of_none hi, set_none_of_none hj]
    exact inv
  | some p => exact inv.transfer hi hj

/-- Every operation keeps the invariant, and the heap evolves. -/
theorem string_step_inv {w w' : StringWorld} (op : StringOp) (inv : w.Inv)
    (e : w.step op = Except.ok w') : w'.Inv ∧ Evolves w.heap w'.heap := by
  obtain ⟨heap, strings⟩ := w
  have hcount : CountInv StringBlock.reference_count heap (targets_of strings) := inv.1
  have hzeros : (List.replicate String.inline_capacity (some (0 : Nat))).length
      = String.inline_capacity := List.length_replicate _ _
  have hnones : (List.replicate String.inline_capacity (none : Option Nat)).length
      = String.inline_capacity := List.length_replicate _ _
  cases op with
  | construct_default =>
    simp only [step, Except.ok.injEq] at e
    subst e
    refine ⟨inv.of_evolves ?_ (Evolves.refl _) ?_, Evolves.refl _⟩
    · rw [string_targets_append, show String.default.target = none from rfl,
        set_none_of_none (getElem?_extend_length _)]
      exact hcount.extend
    · intro j s2 hj
      rcases getElem?_append_cases hj with hold | hnew
      · exact Or.inl hold
      · right
        rw [Option.some.inj hnew]
        exact String.wellFormed_default _
  | construct_view v =>
    simp only [step, bind_eq_ok, Except.ok.injEq] at e
    obtain ⟨⟨s', h'⟩, e1, e2⟩ := e
    subst e2
    obtain ⟨hc, hev, hwf⟩ := String.fill_from_view_inv hcount.extend
      (getElem?_extend_length _) hnones e1
    refine ⟨inv.of_evolves ?_ hev ?_, hev⟩
    · rw [string_targets_append]
      exact hc
    · intro j s2 hj
      rcases getElem?_append_cases hj with hold | hnew
      · exact Or.inl hold
      · right
        rw [Option.some.inj hnew]
        exact hwf
  | construct_copy other =>
    simp only [step, bind_eq_ok, Except.ok.injEq] at e
    obtain ⟨o, eo, ⟨s', h'⟩, e1, e2⟩ := e
    subst e2
    have ho := object_ok eo
    obtain ⟨hc, hev, hwf⟩ := String.copy_from_inv hcount.extend (getElem?_extend_length _)
      (getElem?_extend_of_some (string_targets_getElem ho)) (inv.2 other o ho) hnones e1
    refine ⟨inv.of_evolves ?_ hev ?_, hev⟩
    · rw [string_targets_append]
      exact hc
    · intro j s2 hj
      rcases getElem?_append_cases hj with hold | hnew
      · exact Or.inl hold
      · right
        rw [Option.some.inj hnew]
        exact hwf
  | construct_move other =>
    simp only [step, bind_eq_ok, Except.ok.injEq] at e
    obtain ⟨o, eo, ⟨s', o'⟩, e1, e2⟩ := e
    subst e2
    have ho := object_ok eo
    obtain ⟨ho', htarget, hwf⟩ := String.move_from_spec (inv.2 other o ho) hnones e1
    have hto := string_targets_getElem ho
    have hlt : other < (targets_of strings).length := lt_length_of_getElem? hto
    refine ⟨inv.of_evolves ?_ (Evolves.refl _) ?_, Evolves.refl _⟩
    · dsimp only
      rw [string_targets_append, string_targets_set, List.length_set, htarget, ho',
        show (String.mk (StringStorage.m_inline_buffer
          (List.replicate String.inline_capacity (some 0))) 1).target = none from rfl]
      have htr := transfer_targets hcount.extend (getElem?_extend_length _)
        (getElem?_extend_of_some hto)
      rw [List.set_comm _ _ _ (by omega), List.set_append_left _ _ hlt] at htr
      exact htr
    · intro j s2 hj
      rcases getElem?_append_cases hj with hold | hnew
      · rcases getElem?_set_cases hold with hold' | hnew'
        · exact Or.inl hold'
        · right
          rw [Option.some.inj hnew', ho']
          exact String.wellFormed_cleared _
      · right
        rw [Option.some.inj hnew]
        exact hwf
  | assign_copy this other =>
    simp only [step, bind_eq_ok] at e
    obtain ⟨t, et, o, eo, e2⟩ := e
    by_cases hsame : this = other
    · simp only [hsame, if_true, Except.ok.injEq] at e2
      subst e2
      exact ⟨inv, Evolves.refl _⟩
    · simp only [hsame, if_false, bind_eq_ok, Except.ok.injEq] at e2
      obtain ⟨⟨s', h'⟩, e1, e3⟩ := e2
      subst e3
      simp only [String.copy_assign, bind_eq_ok] at e1
      obtain ⟨⟨c, h1⟩, ec, ef⟩ := e1
      obtain ⟨hc, inv1, hev1⟩ := inv.clear_at (object_ok et) ec
      subst hc
      have ho1 : (strings.set this (some (String.mk (StringStorage.m_inline_buffer
          (List.replicate String.inline_capacity (some 0))) 1)))[other]? = some (some o) := by
        rw [List.getElem?_set, if_neg hsame]
        exact object_ok eo
      have hi1 : (targets_of (strings.set this (some (String.mk (StringStorage.m_inline_buffer
          (List.replicate String.inline_capacity (some 0))) 1))))[this]? = some none := by
        rw [string_targets_set, List.getElem?_set]
        simp [lt_length_of_getElem? (string_targets_getElem (object_ok et))]
        rfl
      obtain ⟨hc2, hev2, hwf⟩ := String.copy_from_inv inv1.1 hi1 (string_targets_getElem ho1)
        (inv1.2 other o ho1) hzeros ef
      refine ⟨?_, hev1.trans hev2⟩
      have hc3 : CountInv StringBlock.reference_count h' (targets_of (strings.set this (some s'))) := by
        rw [string_targets_set]
        rw [targets, string_targets_set, List.set_set] at hc2
        exact hc2
      refine inv1.of_evolves hc3 hev2 ?_
      intro j s2 hj
      rcases getElem?_set_set_cases _ hj with hold | hnew
      · exact Or.inl hold
      · right
        rw [Option.some.inj hnew]
        exact hwf
  | assign_move this other =>
    simp only [step, bind_eq_ok] at e
    obtain ⟨t, et, o, eo, e2⟩ := e
    by_cases hsame : this = other
    · simp only [hsame, if_true, Except.ok.injEq] at e2
      subst e2
      exact ⟨inv, Evolves.refl _⟩
    · simp only [hsame, if_false, bind_eq_ok, Except.ok.injEq] at e2
      obtain ⟨⟨⟨s', o'⟩, h'⟩, e1, e3⟩ := e2
      subst e3
      simp only [String.move_assign, bind_eq_ok, Except.ok.injEq, Prod.mk.injEq] at e1
      obtain ⟨⟨c, h1⟩, ec, ⟨s1, o1⟩, em, e4, eh⟩ := e1
      cases e4
      dsimp only at eh
      subst eh
      dsimp only
      obtain ⟨hc, inv1, hev1⟩ := inv.clear_at (object_ok et) ec
      subst hc
      have ho1 : (strings.set this (some (String.mk (StringStorage.m_inline_buffer
          (List.replicate String.inline_capacity (some 0))) 1)))[other]? = some (some o) := by
        rw [List.getElem?_set, if_neg hsame]
        exact object_ok eo
      have hi1 : (targets_of (strings.set this (some (String.mk (StringStorage.m_inline_buffer
          (List.replicate String.inline_capacity (some 0))) 1))))[this]? = some none := by
        rw [string_targets_set, List.getElem?_set]
        simp [lt_length_of_getElem? (string_targets_getElem (object_ok et))]
        rfl
      obtain ⟨ho', htarget, hwf⟩ := String.move_from_spec (inv1.2 other o ho1) hzeros em
      have htr := transfer_targets inv1.1 hi1 (string_targets_getElem ho1)
      refine ⟨?_, hev1⟩
      have hc3 : CountInv StringBlock.reference_count h1
          (targets_of ((strings.set this (some s')).set other (some o'))) := by
        rw [string_targets_set, string_targets_set, htarget, ho']
        rw [targets, string_targets_set, List.set_set] at htr
        exact htr
      refine inv1.of_evolves hc3 (Evolves.refl _) ?_
      intro j s2 hj
      rcases getElem?_set_cases hj with hold | hnew
      · rcases getElem?_set_set_cases _ hold with hold' | hnew'
        · exact Or.inl hold'
        · right
          rw [Option.some.inj hnew']
          exact hwf
      · right
        rw [Option.some.inj hnew, ho']
        exact String.wellFormed_cleared _
  | assign_view this v =>
    simp only [step, bind_eq_ok, Except.ok.injEq] at e
    obtain ⟨t, et, ⟨s', h'⟩, e1, e2⟩ := e
    subst e2
    simp only [String.view_assign, bind_eq_ok] at e1
    obtain ⟨⟨c, h1⟩, ec, ef⟩ := e1
    obtain ⟨hc, inv1, hev1⟩ := inv.clear_at (object_ok et) ec
    subst hc
    have hi1 : (targets_of (strings.set this (some (String.mk (StringStorage.m_inline_buffer
        (List.replicate String.inline_capacity (some 0))) 1))))[this]? = some none := by
      rw [string_targets_set, List.getElem?_set]
      simp [lt_length_of_getElem? (string_targets_getElem (object_ok et))]
      rfl
    obtain ⟨hc2, hev2, hwf⟩ := String.fill_from_view_inv inv1.1 hi1 hzeros ef
    refine ⟨?_, hev1.trans hev2⟩
    have hc3 : CountInv StringBlock.reference_count h'
        (targets_of (strings.set this (some s'))) := by
      rw [string_targets_set]
      rw [targets, string_targets_set, List.set_set] at hc2
      exact hc2
    refine inv1.of_evolves hc3 hev2 ?_
    intro j s2 hj
    rcases getElem?_set_set_cases _ hj with hold | hnew
    · exact Or.inl hold
    · right
      rw [Option.some.inj hnew]
      exact hwf
  | clear this =>
    simp only [step, bind_eq_ok, Except.ok.injEq] at e
    obtain ⟨t, et, ⟨s', h'⟩, e1, e2⟩ := e
    subst e2
    obtain ⟨_, inv1, hev1⟩ := inv.clear_at (object_ok et) e1
    exact ⟨inv1, hev1⟩
  | destroy this =>
    simp only [step, bind_eq_ok, Except.ok.injEq] at e
    obtain ⟨t, et, h', e1, e2⟩ := e
    subst e2
    simp only [String.destroy, bind_eq_ok, Except.ok.injEq] at e1
    obtain ⟨⟨s1, h1⟩, ec, e3⟩ := e1
    dsimp only at e3
    subst e3
    have ht := object_ok et
    obtain ⟨_, hc, hev⟩ := String.clear_inv hcount (string_targets_getElem ht) (inv.2 this t ht) ec
    refine ⟨inv.of_evolves ?_ hev ?_, hev⟩
    · rw [string_targets_set_none]
      exact hc
    · intro j s2 hj
      rcases getElem?_set_cases hj with hold | hnew
      · exact Or.inl hold
      · cases hnew

/-- Every state a program reaches satisfies the invariant. -/
theorem string_run_inv : ∀ (ops : List StringOp) (w w' : StringWorld),
    w.Inv → w.run ops = Except.ok w' → w'.Inv := by
  intro ops
  induction ops with
  | nil =>
    intro w w' inv e
    simp only [run, Except.ok.injEq] at e
    subst e
    exact inv
  | cons op ops ih =>
    intro w w' inv e
    simp only [run, bind_eq_ok] at e
    obtain ⟨w1, e1, e2⟩ := e
    exact ih w1 w' (string_step_inv op inv e1).1 e2

theorem inv_empty : StringWorld.empty.Inv := by
  refine ⟨countInv_empty _, ?_⟩
  intro i s hi
  simp [StringWorld.empty] at hi

/-- C2. In every state a program reaches from nothing by constructing strings (default or
from views), copy- and move-constructing them, copy-, move- and view-assigning them, clearing
and destroying them: every heap block allocated so far either is live, with a
`reference_count` in its header equal to the number of live strings whose `m_heap_buffer`
points to it, at least one, and was never freed; or is no longer live, has no string
pointing to it and was freed exactly once. Moreover an operation frees a block exactly when
it brings the number of strings pointing to that block from positive to zero. -/
theorem string_reference_count_invariant (ops : List StringOp) (w : StringWorld)
    (hrun : StringWorld.empty.run ops = Except.ok w) :
    (∀ p, 1 ≤ p → p ≤ w.heap.allocations →
      (∃ block, w.heap.blocks p = some block ∧ block.reference_count = w.references p ∧
        0 < w.references p ∧ w.heap.freed.count p = 0) ∨
      (w.heap.blocks p = none ∧ w.references p = 0 ∧ w.heap.freed.count p = 1)) ∧
    (∀ op w', w.step op = Except.ok w' → ∀ p, 1 ≤ p → p ≤ w.heap.allocations →
      (w'.heap.freed.count p = w.heap.freed.count p + 1 ↔
        (0 < w.references p ∧ w'.references p = 0))) := by
  have inv := string_run_inv ops StringWorld.empty w inv_empty hrun
  constructor
  · intro p h1 h2
    rw [string_references_eq_count w p]
    exact (inv.1.describe p).1 ⟨h1, h2⟩
  · intro op w' e p h1 h2
    obtain ⟨inv', hev⟩ := string_step_inv op inv e
    rw [string_references_eq_count w p, string_references_eq_count w' p]
    exact inv.1.released_iff inv'.1 hev.1 p h1 h2

/-- A heap-backed string is built from a view of nine bytes, copied, the copy moved, the
original reassigned from a short view, and the remaining owner cleared, which frees the
block. -/
theorem string_reference_count_invariant_witness :
    ∃ w, StringWorld.empty.run
        [StringOp.construct_view ⟨[65, 66, 67, 68, 69, 70, 71, 72, 73]⟩,
          StringOp.construct_copy 0, StringOp.construct_move 1,
          StringOp.assign_view 0 ⟨[104, 105]⟩, StringOp.destroy 1, StringOp.clear 2]
        = Except.ok w ∧
      (∀ p, 1 ≤ p → p ≤ w.heap.allocations →
        (∃ block, w.heap.blocks p = some block ∧ block.reference_count = w.references p ∧
          0 < w.references p ∧ w.heap.freed.count p = 0) ∨
        (w.heap.blocks p = none ∧ w.references p = 0 ∧ w.heap.freed.count p = 1)) ∧
      (∀ op w', w.step op = Except.ok w' → ∀ p, 1 ≤ p → p ≤ w.heap.allocations →
        (w'.heap.freed.count p = w.heap.freed.count p + 1 ↔
          (0 < w.references p ∧ w'.references p = 0))) :=
  ⟨_, rfl, string_reference_count_invariant
    [StringOp.construct_view ⟨[65, 66, 67, 68, 69, 70, 71, 72, 73]⟩,
      StringOp.construct_copy 0, StringOp.construct_move 1,
      StringOp.assign_view 0 ⟨[104, 105]⟩, StringOp.destroy 1, StringOp.clear 2] _ rfl⟩

end StringWorld
end AT

namespace AT

/-! ## Loops -/

/-- A loop whose iterations each return and keep an invariant indexed by the loop variable
returns, the invariant holding at the final value of the variable. -/
theorem for_range_returns {S : Type} (body : Nat → S → Except Fault S) (P : Nat → S → Prop)
    (stop : Nat) (hstep : ∀ i s, i < stop → P i s → Returns (body i s) (P (i + 1))) :
    ∀ (n start : Nat) (s : S), start + n ≤ stop → P start s →
      Returns (for_range body n start s) (P (start + n)) := by
  intro n
  induction n with
  | zero =>
    intro start s _ hP
    simpa [for_range] using hP
  | succ n ih =>
    intro start s hle hP
    unfold for_range
    rw [returns_bind]
    refine (hstep start s (by omega) hP).imp ?_
    intro s1 h1
    have := ih (start + 1) s1 (by omega) h1
    have e : start + 1 + n = start + (n + 1) := by omega
    rwa [e] at this

/-- A loop that returned ran every one of its iterations to the end, each from a state
satisfying whatever the iterations preserve. -/
theorem for_range_ok {S : Type} (body : Nat → S → Except Fault S) (Q : S → Prop)
    (hQ : ∀ i s s1, Q s → body i s = Except.ok s1 → Q s1) :
    ∀ (n start : Nat) (s s1 : S), Q s → for_range body n start s = Except.ok s1 →
      Q s1 ∧ ∀ k, k < n → ∃ a b, Q a ∧ body (start + k) a = Except.ok b := by
  intro n
  induction n with
  | zero =>
    intro start s s1 hs e
    simp only [for_range, Except.ok.injEq] at e
    subst e
    exact ⟨hs, fun k hk => absurd hk (Nat.not_lt_zero k)⟩
  | succ n ih =>
    intro start s s1 hs e
    unfold for_range at e
    obtain ⟨s2, e1, e2⟩ := bind_eq_ok.mp e
    obtain ⟨h1, h2⟩ := ih (start + 1) s2 s1 (hQ _ _ _ hs e1) e2
    refine ⟨h1, ?_⟩
    intro k hk
    cases k with
    | zero => exact ⟨s, s2, hs, e1⟩
    | succ k =>
      obtain ⟨a, b, ha, hb⟩ := h2 k (by omega)
      have e : start + 1 + k = start + (k + 1) := by omega
      rw [e] at hb
      exact ⟨a, b, ha, hb⟩

namespace Vector

variable {T : Type}

theorem Rep.of_holds {v : Vector} {m : ElementMemory T} {xs : List T} (h : Holds v m xs) :
    Rep v m xs :=
  ⟨h.1, h.2.1, h.2.2.2.1, h.2.2.2.2⟩

theorem rep_default (m : ElementMemory T) : Rep Vector.default m ([] : List T) := by
  simp [Rep, Vector.default]

theorem emplace_eq_add (sizeof_T : Nat) (v : Vector) (m : ElementMemory T) (x : T) :
    emplace sizeof_T v m x = add sizeof_T v m x := rfl

/-- What `expand_elements_block_if_required` does to the three members and to the
allocator, whenever it returns and `count * 3` does not wrap. -/
theorem expand_if_required_capacity {sizeof_T : Nat} {v : Vector} {m : ElementMemory T}
    {required : Nat} {r : Vector × ElementMemory T} (hc : v.m_count * 3 < usize_limit)
    (e : expand_elements_block_if_required sizeof_T v m required = Except.ok r) :
    r.1.m_count = v.m_count ∧
    (v.m_capacity < required → r.1.m_capacity = max required (v.m_count * 3 / 2) ∧
      v.m_capacity < r.1.m_capacity) ∧
    (v.m_capacity ≥ required → r = (v, m)) := by
  unfold expand_elements_block_if_required at e
  by_cases h : v.m_capacity ≥ required
  · rw [if_pos h] at e
    simp only [Except.ok.injEq] at e
    subst e
    exact ⟨rfl, fun h1 => absurd h (by omega), fun _ => rfl⟩
  · rw [if_neg h] at e
    simp only [growth_factor_numerator, growth_factor_denominator, usize_of_lt hc] at e
    unfold expand_elements_block at e
    obtain ⟨_, e1, e2⟩ := bind_eq_ok.mp e
    obtain ⟨m1, _, e3⟩ := bind_eq_ok.mp e2
    obtain ⟨m2, _, e4⟩ := bind_eq_ok.mp e3
    have hgrow : v.m_capacity <
        (if v.m_count * 3 / 2 < required then required else v.m_count * 3 / 2) := by
      by_contra hn
      simp [hn] at e1
    simp only [Except.ok.injEq] at e4
    subst e4
    refine ⟨rfl, fun _ => ⟨?_, hgrow⟩, fun h1 => absurd h1 h⟩
    show (if v.m_count * 3 / 2 < required then required else v.m_count * 3 / 2) = _
    split <;> omega

/-- Whenever `expand_elements_block_if_required` returns, the capacity has not decreased and
covers the required capacity; this holds also when the growth computation wraps. -/
theorem expand_if_required_ge {sizeof_T : Nat} {v : Vector} {m : ElementMemory T}
    {required : Nat} {r : Vector × ElementMemory T}
    (e : expand_elements_block_if_required sizeof_T v m required = Except.ok r) :
    r.1.m_count = v.m_count ∧ v.m_capacity ≤ r.1.m_capacity ∧ required ≤ r.1.m_capacity := by
  unfold expand_elements_block_if_required at e
  by_cases h : v.m_capacity ≥ required
  · rw [if_pos h] at e
    simp only [Except.ok.injEq] at e
    subst e
    exact ⟨rfl, Nat.le_refl _, h⟩
  · rw [if_neg h] at e
    unfold expand_elements_block at e
    obtain ⟨_, e1, e2⟩ := bind_eq_ok.mp e
    obtain ⟨m1, _, e3⟩ := bind_eq_ok.mp e2
    obtain ⟨m2, _, e4⟩ := bind_eq_ok.mp e3
    generalize hnc : (if usize (v.m_count * growth_factor_numerator) / growth_factor_denominator
      < required then required
      else usize (v.m_count * growth_factor_numerator) / growth_factor_denominator) = nc at e1 e4
    have hgrow : v.m_capacity < nc := by
      by_contra hn
      simp [hn] at e1
    have hreq : required ≤ nc := by
      rw [← hnc]
      split <;> omega
    simp only [Except.ok.injEq] at e4
    subst e4
    exact ⟨rfl, Nat.le_of_lt hgrow, hreq⟩

/-- Whenever `add` returns: the new count, and the capacity covers it and has not
decreased. -/
theorem add_ok_shape {sizeof_T : Nat} {v : Vector} {m : ElementMemory T} {x : T}
    {r : Vector × ElementMemory T} (e : add sizeof_T v m x = Except.ok r) :
    r.1.m_count = usize (v.m_count + 1) ∧ v.m_capacity ≤ r.1.m_capacity ∧
      usize (v.m_count + 1) ≤ r.1.m_capacity := by
  unfold add at e
  obtain ⟨r1, e1, e2⟩ := bind_eq_ok.mp e
  obtain ⟨m1, _, e3⟩ := bind_eq_ok.mp e2
  obtain ⟨hc, hcap, hreq⟩ := expand_if_required_ge e1
  simp only [Except.ok.injEq] at e3
  subst e3
  exact ⟨by simp [hc], hcap, hreq⟩

end Vector
end AT

namespace AT
namespace Vector

variable {T : Type}

/-- Growing the storage block of any well-formed vector keeps every element at its
position. -/
theorem expand_elements_block_rep {sizeof_T : Nat} {v : Vector} {m : ElementMemory T}
    {xs : List T} {new_capacity : Nat} (hv : Rep v m xs) (hsz : 0 < sizeof_T)
    (hgrow : v.m_capacity < new_capacity) (hfit : new_capacity * sizeof_T < usize_limit) :
    Returns (expand_elements_block sizeof_T v m new_capacity) (fun r =>
      r.1.m_count = xs.length ∧ r.1.m_capacity = new_capacity ∧ r.1.m_elements ≠ 0 ∧
      r.1.m_elements ≤ r.2.heap.allocations ∧ Stores r.2 r.1.m_elements new_capacity xs) := by
  obtain ⟨hcount, hcap, hptr, hrep⟩ := hv
  have hslots : usize (new_capacity * sizeof_T) / sizeof_T = new_capacity := by
    rw [usize_of_lt hfit, Nat.mul_div_cancel _ hsz]
  rcases hrep with ⟨hnull, hzero⟩ | ⟨hnn, slots, hb, hlen, hget⟩
  · have hn : xs.length = 0 := by omega
    simp only [expand_elements_block, hgrow, decide_True, VERIFY_true, ok_bind, move_elements,
      hcount, hn, move_elements_loop, free_memory, Heap.operator_delete, hnull, if_true,
      returns_ok, allocate_memory, Heap.operator_new, hslots]
    refine ⟨trivial, trivial, by simp, by simp, ?_⟩
    refine ⟨List.replicate new_capacity Slot.raw, by simp, by simp, ?_⟩
    intro i hi
    omega
  · have hne : v.m_elements ≠ m.heap.allocations + 1 := by omega
    obtain ⟨m1, ss1, ds1, e, hs1, hd1, hdlen, hmoved, _, _, ha, _, _⟩ :=
      move_elements_loop_spec hne v.m_count 0
        (allocate_memory sizeof_T m new_capacity).2 slots
        (List.replicate new_capacity Slot.raw)
        (by simp [allocate_memory, Heap.operator_new, hne, hb])
        (by simp [allocate_memory, Heap.operator_new, hslots])
        (by omega) (by simp; omega)
        (by
          intro i _ hi
          rw [hget i (by omega)]
          have : i < xs.length := by omega
          simp [List.getElem?_eq_getElem this])
    have hnew : (allocate_memory sizeof_T m new_capacity).1 = m.heap.allocations + 1 := rfl
    simp only [expand_elements_block, hgrow, decide_True, VERIFY_true, ok_bind, move_elements,
      hnew, e, free_memory, Heap.operator_delete, hnn, if_false, hs1, returns_ok]
    refine ⟨hcount, trivial, by simp, ?_, ?_⟩
    · simp [ha, allocate_memory, Heap.operator_new]
    · refine ⟨ds1, ?_, by simpa using hdlen, ?_⟩
      · simp [hd1, Ne.symm hne]
      · intro i hi
        rw [hmoved i (Nat.zero_le _) (by omega), hget i hi]

/-- On any well-formed vector whose next storage size is representable, `add` returns and
appends the element, keeping the rest. -/
theorem add_rep {sizeof_T : Nat} {v : Vector} {m : ElementMemory T} {xs : List T} (x : T)
    (hv : Rep v m xs) (hsz : 0 < sizeof_T)
    (hfit : 3 * (xs.length + 1) * sizeof_T < usize_limit) :
    Returns (add sizeof_T v m x) (fun r => Rep r.1 r.2 (xs ++ [x])) := by
  have hle : 3 * (xs.length + 1) ≤ 3 * (xs.length + 1) * sizeof_T :=
    Nat.le_mul_of_pos_right _ hsz
  have hn1 : xs.length + 1 < usize_limit := by omega
  have hv1 := hv
  obtain ⟨hcount, hcap, hptr, hrep⟩ := hv1
  have hreq : usize (v.m_count + 1) = xs.length + 1 := by rw [hcount, usize_of_lt hn1]
  have hnext : ∀ c, c = xs.length → usize (c + 1) = (xs ++ [x]).length := by
    intro c hc
    rw [hc, usize_of_lt hn1]
    simp
  unfold add
  rw [returns_bind, hreq]
  unfold expand_elements_block_if_required
  by_cases hroom : v.m_capacity ≥ xs.length + 1
  · rw [if_pos hroom]
    simp only [returns_ok]
    rcases hrep with ⟨_, hzero⟩ | ⟨hnn, hst⟩
    · omega
    · obtain ⟨m1, e, hst1, ha⟩ := construct_stores x hst (by omega)
      rw [hcount, e]
      simp only [ok_bind, returns_ok]
      refine ⟨hnext _ rfl, ?_, ?_, Or.inr ⟨hnn, hst1⟩⟩
      · simp; omega
      · simpa [ha] using hptr
  · rw [if_neg hroom]
    have h3 : usize (v.m_count * growth_factor_numerator) = 3 * xs.length := by
      rw [hcount, growth_factor_numerator, usize_of_lt (by omega)]
      omega
    simp only [h3, growth_factor_denominator]
    generalize hnc : (if 3 * xs.length / 2 < xs.length + 1 then xs.length + 1
      else 3 * xs.length / 2) = nc
    have hnc1 : xs.length + 1 ≤ nc := by
      rw [← hnc]
      split <;> omega
    have hnc2 : 2 * nc ≤ 3 * (xs.length + 1) := by
      rw [← hnc]
      split <;> omega
    have hncfit : nc * sizeof_T < usize_limit :=
      Nat.lt_of_le_of_lt (Nat.mul_le_mul_right _ (by omega)) hfit
    refine (expand_elements_block_rep hv hsz (by omega) hncfit).imp ?_
    rintro ⟨v1, m1⟩ ⟨hc1, hcap1, hnn1, hptr1, hst1⟩
    simp only at hc1 hcap1 hnn1 hptr1 hst1
    obtain ⟨m2, e, hst2, ha⟩ := construct_stores x hst1 (by omega)
    simp only [hc1, e, ok_bind, returns_ok]
    refine ⟨hnext _ rfl, ?_, ?_, Or.inr ⟨hnn1, by simpa [hcap1] using hst2⟩⟩
    · simp; omega
    · simpa [ha] using hptr1

/-- A run of `add` calls on any well-formed vector returns and appends the elements in
order. -/
theorem add_all_rep {sizeof_T : Nat} (hsz : 0 < sizeof_T) :
    ∀ (ys xs : List T) (v : Vector) (m : ElementMemory T), Rep v m xs →
      3 * (xs.length + ys.length) * sizeof_T < usize_limit →
      Returns (add_all sizeof_T ys v m) (fun r => Rep r.1 r.2 (xs ++ ys)) := by
  intro ys
  induction ys with
  | nil =>
    intro xs v m hv _
    simpa [add_all] using hv
  | cons y ys ih =>
    intro xs v m hv hfit
    simp only [List.length_cons] at hfit
    have hstep : 3 * (xs.length + 1) * sizeof_T ≤ 3 * (xs.length + (ys.length + 1)) * sizeof_T :=
      Nat.mul_le_mul_right _ (by omega)
    unfold add_all
    rw [returns_bind]
    refine (add_rep y hv hsz (by omega)).imp ?_
    rintro ⟨v1, m1⟩ h1
    have := ih (xs ++ [y]) v1 m1 h1 (by
      simp only [List.length_append, List.length_singleton]
      have : xs.length + 1 + ys.length = xs.length + (ys.length + 1) := by omega
      rw [this]
      exact hfit)
    simpa using this

/-- Whenever a run of `add` calls returns, the capacity has not decreased. -/
theorem add_all_ok_capacity (sizeof_T : Nat) :
    ∀ (ys : List T) (v : Vector) (m : ElementMemory T) (r : Vector × ElementMemory T),
      add_all sizeof_T ys v m = Except.ok r → v.m_capacity ≤ r.1.m_capacity := by
  intro ys
  induction ys with
  | nil =>
    intro v m r e
    simp only [add_all, Except.ok.injEq] at e
    subst e
    exact Nat.le_refl _
  | cons y ys ih =>
    intro v m r e
    unfold add_all at e
    obtain ⟨r1, e1, e2⟩ := bind_eq_ok.mp e
    exact Nat.le_trans (add_ok_shape e1).2.1 (ih r1.1 r1.2 r e2)

end Vector
end AT

namespace AT

theorem sample_vector_rep : Vector.Rep sample_vector sample_memory [10, 20] := by
  refine ⟨rfl, by decide, by decide, Or.inr ⟨by decide, ?_⟩⟩
  refine ⟨[Slot.live 10, Slot.live 20, Slot.raw], rfl, rfl, ?_⟩
  intro i hi
  have : i = 0 ∨ i = 1 := by
    simp only [List.length_cons, List.length_nil] at hi
    omega
  rcases this with h | h <;> subst h <;> rfl

theorem sample_full_vector_rep : Vector.Rep sample_full_vector sample_full_memory [10, 20] := by
  refine ⟨rfl, by decide, by decide, Or.inr ⟨by decide, ?_⟩⟩
  refine ⟨[Slot.live 10, Slot.live 20], rfl, rfl, ?_⟩
  intro i hi
  have : i = 0 ∨ i = 1 := by
    simp only [List.length_cons, List.length_nil] at hi
    omega
  rcases this with h | h <;> subst h <;> rfl

namespace Vector

variable {T : Type}

/-- Reading through `at` a position of a well-formed vector gives the element there. -/
theorem at_of_rep {v : Vector} {m : ElementMemory T} {xs : List T} (hv : Rep v m xs)
    (i : Nat) (hi : i < xs.length) :
    Vector.«at» v i >>= m.read = Except.ok (xs.get ⟨i, hi⟩) := by
  obtain ⟨hcount, hcap, _, hrep⟩ := hv
  rcases hrep with ⟨_, hzero⟩ | ⟨_, slots, hb, _, hget⟩
  · omega
  · have h := hget i hi
    simp [Vector.«at», hcount, hi, ElementMemory.read, ElementMemory.slot, hb, h,
      List.getElem?_eq_getElem hi]

/-- C19. `Vector::at(index)` fails with a contract violation exactly when
`index >= count()`; otherwise it returns the reference `m_elements[index]` with the index
it was given, neither wrapped nor clamped, and on a well-formed vector holding the elements
`xs` reading that reference gives `xs[index]`. -/
theorem vector_at_checked (v : Vector) (m : ElementMemory T) (xs : List T) (index : Nat) :
    (v.«at» index = Except.error Fault.contract_violation ↔ index ≥ v.count) ∧
    (v.«at» index = Except.ok ⟨v.m_elements, index⟩ ↔ index < v.count) ∧
    (Rep v m xs → ∀ (h : index < xs.length),
      (v.«at» index >>= m.read) = Except.ok (xs.get ⟨index, h⟩)) := by
  refine ⟨?_, ?_, fun hv h => at_of_rep hv index h⟩
  · by_cases h : index < v.m_count <;> simp [Vector.«at», Vector.count, h]
    omega
  · by_cases h : index < v.m_count <;> simp [Vector.«at», Vector.count, h]

/-- The sample vector: position 1 is read, position 2 is refused. -/
theorem vector_at_checked_witness :
    (sample_vector.«at» 1 >>= sample_memory.read) = Except.ok 20 ∧
    sample_vector.«at» 2 = Except.error Fault.contract_violation :=
  ⟨(vector_at_checked sample_vector sample_memory [10, 20] 1).2.2 sample_vector_rep
      (by decide),
    (vector_at_checked sample_vector sample_memory [10, 20] 2).1.mpr (by decide)⟩

/-- C16. For a vector with count `c` and capacity `k`, `c * 3` not overflowing `usize`:
whenever `add` or `emplace` returns, if `k < c + 1` the capacity afterwards is
`max (c + 1) (c * 3 / 2)`, and if `k >= c + 1` the capacity, the storage pointer and the
allocator (blocks handed out, blocks released) are unchanged. Both calls do return on every
well-formed vector whose grown storage size is representable in `usize`. -/
theorem vector_add_growth_formula (sizeof_T : Nat) (v : Vector) (m : ElementMemory T) (x : T)
    (hc : v.count * 3 < usize_limit) :
    (∀ r, add sizeof_T v m x = Except.ok r ∨ emplace sizeof_T v m x = Except.ok r →
      (v.capacity < v.count + 1 → r.1.capacity = max (v.count + 1) (v.count * 3 / 2)) ∧
      (v.capacity ≥ v.count + 1 → r.1.capacity = v.capacity ∧ r.1.m_elements = v.m_elements ∧
        r.2.heap.allocations = m.heap.allocations ∧ r.2.heap.freed = m.heap.freed)) ∧
    (∀ xs, Rep v m xs → 0 < sizeof_T → 3 * (v.count + 1) * sizeof_T < usize_limit →
      ∃ r, add sizeof_T v m x = Except.ok r ∧ emplace sizeof_T v m x = Except.ok r) := by
  have hc1 : v.m_count * 3 < usize_limit := hc
  have hone : 1 < usize_limit := by decide
  have hreq : usize (v.m_count + 1) = v.m_count + 1 := usize_of_lt (by omega)
  constructor
  · intro r e
    have e1 : add sizeof_T v m x = Except.ok r := by
      rcases e with e | e
      · exact e
      · rwa [emplace_eq_add] at e
    unfold add at e1
    obtain ⟨r1, e2, e3⟩ := bind_eq_ok.mp e1
    obtain ⟨m1, e4, e5⟩ := bind_eq_ok.mp e3
    obtain ⟨_, hgrow, hkeep⟩ := expand_if_required_capacity hc1 e2
    rw [hreq] at hgrow hkeep
    simp only [Except.ok.injEq] at e5
    subst e5
    refine ⟨fun h => (hgrow h).1, fun h => ?_⟩
    have hr1 := hkeep h
    subst hr1
    simp only [ElementMemory.construct, ElementMemory.set_slot] at e4
    split at e4
    · cases e4
    · split at e4
      · simp only [Except.ok.injEq] at e4
        subst e4
        exact ⟨rfl, rfl, rfl, rfl⟩
      · cases e4
  · intro xs hv hsz hfit
    have hlen : v.m_count = xs.length := hv.1
    obtain ⟨r, e, _⟩ := add_rep x hv hsz (by rw [← hlen]; exact hfit)
    exact ⟨r, e, e⟩

/-- A full vector of two grows to capacity three; a vector with room keeps its block. -/
theorem vector_add_growth_formula_witness :
    sample_full_vector.count * 3 < usize_limit ∧ sample_vector.count * 3 < usize_limit ∧
    (∃ r, add 4 sample_full_vector sample_full_memory 30 = Except.ok r ∧ r.1.capacity = 3) ∧
    (∃ r, add 4 sample_vector sample_memory 30 = Except.ok r ∧ r.1.capacity = 3 ∧
      r.1.m_elements = 1 ∧ r.2.heap.allocations = 1) := by
  refine ⟨by decide, by decide, ?_, ?_⟩
  · have h := vector_add_growth_formula 4 sample_full_vector sample_full_memory 30 (by decide)
    obtain ⟨r, e, _⟩ := h.2 [10, 20] sample_full_vector_rep (by decide) (by decide)
    exact ⟨r, e, (h.1 r (Or.inl e)).1 (by decide)⟩
  · have h := vector_add_growth_formula 4 sample_vector sample_memory 30 (by decide)
    obtain ⟨r, e, _⟩ := h.2 [10, 20] sample_vector_rep (by decide) (by decide)
    obtain ⟨h1, h2, h3, _⟩ := (h.1 r (Or.inl e)).2 (by decide)
    exact ⟨r, e, h1, h2, h3⟩

/-- C17. Whenever `add(x)` returns, `capacity()` afterwards is at least `capacity()`
before, in every vector state; hence whenever a run of `add` calls returns the capacity at
its end is at least the capacity at its start, for the run and for each of its suffixes.
On a well-formed vector whose grown storage size is representable the run does return. -/
theorem vector_add_capacity_monotone (sizeof_T : Nat) (v : Vector) (m : ElementMemory T) :
    (∀ x r, add sizeof_T v m x = Except.ok r → v.capacity ≤ r.1.capacity) ∧
    (∀ ys zs r1 r2, add_all sizeof_T ys v m = Except.ok r1 →
      add_all sizeof_T zs r1.1 r1.2 = Except.ok r2 →
      v.capacity ≤ r1.1.capacity ∧ r1.1.capacity ≤ r2.1.capacity) ∧
    (∀ xs ys, Rep v m xs → 0 < sizeof_T →
      3 * (xs.length + ys.length) * sizeof_T < usize_limit →
      ∃ r, add_all sizeof_T ys v m = Except.ok r ∧ v.capacity ≤ r.1.capacity) := by
  refine ⟨fun x r e => (add_ok_shape e).2.1, ?_, ?_⟩
  · intro ys zs r1 r2 e1 e2
    exact ⟨add_all_ok_capacity sizeof_T ys v m r1 e1,
      add_all_ok_capacity sizeof_T zs r1.1 r1.2 r2 e2⟩
  · intro xs ys hv hsz hfit
    obtain ⟨r, e, _⟩ := add_all_rep hsz ys xs v m hv hfit
    exact ⟨r, e, add_all_ok_capacity sizeof_T ys v m r e⟩

/-- Three `add` calls on the full sample vector. -/
theorem vector_add_capacity_monotone_witness :
    ∃ r, add_all 4 [30, 40, 50] sample_full_vector sample_full_memory = Except.ok r ∧
      sample_full_vector.capacity ≤ r.1.capacity :=
  (vector_add_capacity_monotone 4 sample_full_vector sample_full_memory).2.2 [10, 20]
    [30, 40, 50] sample_full_vector_rep (by decide) (by decide)

end Vector
end AT

namespace AT

namespace ElementMemory

variable {T : Type}

/-- The destructor call on a live element leaves its slot raw and records the value. -/
theorem destroy_live {m : ElementMemory T} {p i : Nat} {slots : List (Slot T)} {x : T}
    (hb : m.heap.blocks p = some slots) (hx : slots[i]? = some (Slot.live x)) :
    m.destroy ⟨p, i⟩ =
      Except.ok ⟨m.heap.store p (some (slots.set i Slot.raw)), x :: m.finalized⟩ := by
  have hi : i < slots.length := lt_length_of_getElem? hx
  simp [destroy, slot, set_slot, hb, hx, hi]

/-- The destructor call on a moved-from element leaves its slot raw and records nothing. -/
theorem destroy_moved_from {m : ElementMemory T} {p i : Nat} {slots : List (Slot T)}
    (hb : m.heap.blocks p = some slots) (hx : slots[i]? = some Slot.moved_from) :
    m.destroy ⟨p, i⟩ =
      Except.ok ⟨m.heap.store p (some (slots.set i Slot.raw)), m.finalized⟩ := by
  have hi : i < slots.length := lt_length_of_getElem? hx
  simp [destroy, slot, set_slot, hb, hx, hi]

end ElementMemory

namespace Vector

variable {T : Type}

/-- On a well-formed vector `clear` returns: every element is finalized once, in order, the
count becomes zero, and the storage block stays with the vector, allocated and of the same
capacity. -/
theorem clear_rep {v : Vector} {m : ElementMemory T} {xs : List T} (hv : Rep v m xs) :
    Returns (clear v m) (fun r =>
      r.1 = ⟨v.m_elements, v.m_capacity, 0⟩ ∧ Rep r.1 r.2 [] ∧
      r.2.finalized = xs.reverse ++ m.finalized ∧
      r.2.heap.allocations = m.heap.allocations ∧ r.2.heap.freed = m.heap.freed ∧
      (∀ q, q ≠ v.m_elements → r.2.heap.blocks q = m.heap.blocks q) ∧
      (∀ slots, m.heap.blocks v.m_elements = some slots →
        ∃ slots1, r.2.heap.blocks v.m_elements = some slots1 ∧
          slots1.length = slots.length ∧
          (∀ j, j < xs.length → slots1[j]? = some Slot.raw) ∧
          ∀ j, xs.length ≤ j → slots1[j]? = slots[j]?)) := by
  obtain ⟨hcount, hcap, hptr, hrep⟩ := hv
  unfold clear
  rw [returns_bind]
  rcases hrep with ⟨hnull, hzero⟩ | ⟨hnn, slots, hb, hlen, hget⟩
  · have hn : xs.length = 0 := by omega
    have hnil : xs = [] := List.length_eq_zero.mp hn
    subst hnil
    rw [hcount]
    refine (returns_ok _ _).mpr ((returns_ok _ _).mpr ?_)
    refine ⟨rfl, ⟨rfl, Nat.zero_le _, hptr, Or.inl ⟨hnull, hzero⟩⟩, rfl, rfl, rfl,
      fun q _ => rfl, ?_⟩
    intro slots hs
    exact ⟨slots, hs, rfl, fun j hj => absurd hj (Nat.not_lt_zero j), fun j _ => rfl⟩
  · have hloop := for_range_returns
      (fun index (m1 : ElementMemory T) => m1.destroy ⟨v.m_elements, index⟩)
      (fun i s => s.finalized = (xs.take i).reverse ++ m.finalized ∧
        s.heap.allocations = m.heap.allocations ∧ s.heap.freed = m.heap.freed ∧
        (∀ q, q ≠ v.m_elements → s.heap.blocks q = m.heap.blocks q) ∧
        ∃ slots1, s.heap.blocks v.m_elements = some slots1 ∧ slots1.length = slots.length ∧
          (∀ j, j < i → slots1[j]? = some Slot.raw) ∧ ∀ j, i ≤ j → slots1[j]? = slots[j]?)
      xs.length
      (by
        rintro i s hi ⟨hfin, hall, hfr, hoth, slots1, hb1, hlen1, hraw, hrest⟩
        have hx : slots1[i]? = some (Slot.live (xs.get ⟨i, hi⟩)) := by
          rw [hrest i (Nat.le_refl _), hget i hi, List.getElem?_eq_getElem hi]
          rfl
        dsimp only
        rw [ElementMemory.destroy_live hb1 hx, returns_ok]
        refine ⟨?_, hall, hfr, ?_, slots1.set i Slot.raw, by simp [Heap.store], by simpa using hlen1,
          ?_, ?_⟩
        · show xs.get ⟨i, hi⟩ :: s.finalized = _
          have ht : xs.take (i + 1) = xs.take i ++ [xs.get ⟨i, hi⟩] := by
            rw [List.take_succ, List.getElem?_eq_getElem hi]
            rfl
          rw [hfin, ht, List.reverse_append]
          rfl
        · intro q hq
          simp [Heap.store, hq, hoth q hq]
        · intro j hj
          rw [List.getElem?_set]
          by_cases h : i = j
          · subst h
            simp [lt_length_of_getElem? hx]
          · rw [if_neg h]
            exact hraw j (by omega)
        · intro j hj
          rw [List.getElem?_set, if_neg (by omega)]
          exact hrest j (by omega))
      xs.length 0 m (by omega)
      ⟨by simp, rfl, rfl, fun q _ => rfl, slots, hb, rfl, fun j hj => absurd hj (Nat.not_lt_zero j),
        fun j _ => rfl⟩
    rw [hcount]
    refine hloop.imp ?_
    rintro m1 ⟨hfin, hall, hfr, hoth, slots1, hb1, hlen1, hraw, hrest⟩
    simp only [Nat.zero_add] at hfin hraw hrest
    rw [returns_ok]
    refine ⟨rfl, ⟨rfl, Nat.zero_le _, by simpa [hall] using hptr, Or.inr ⟨hnn, slots1, hb1,
      by simpa [hlen] using hlen1, fun j hj => absurd hj (Nat.not_lt_zero j)⟩⟩, ?_, hall, hfr, hoth, ?_⟩
    · simpa using hfin
    · intro slots2 hs2
      rw [hb] at hs2
      cases hs2
      exact ⟨slots1, hb1, hlen1, hraw, hrest⟩

end Vector
end AT

namespace AT
namespace Vector

variable {T : Type}

/-- C20 (divergence). Move-assignment `a = move(b)` onto a well-formed vector `a` that owns
a storage block returns, gives `a` the members of `b` and leaves `b` empty with no storage,
but does not release the block `a` owned: that block is still allocated afterwards, with its
capacity and with the former elements finalized, the log of released blocks is unchanged,
and neither vector points to it any more. -/
theorem vector_move_assign_keeps_old_block (a b : Vector) (m : ElementMemory T) (xs : List T)
    (ha : Rep a m xs) (hcap : a.capacity > 0) (hdistinct : b.m_elements ≠ a.m_elements) :
    Returns (move_assign a b m) (fun r =>
      r.1.1 = b ∧ r.1.2 = Vector.default ∧
      (∃ slots, r.2.heap.blocks a.m_elements = some slots ∧ slots.length = a.capacity) ∧
      r.2.heap.freed = m.heap.freed ∧ r.2.heap.allocations = m.heap.allocations ∧
      r.2.finalized = xs.reverse ++ m.finalized ∧
      r.1.1.m_elements ≠ a.m_elements ∧ r.1.2.m_elements ≠ a.m_elements) := by
  have hnn : a.m_elements ≠ 0 := by
    rcases ha.2.2.2 with ⟨_, h0⟩ | ⟨h, _⟩
    · have : a.m_capacity > 0 := hcap
      omega
    · exact h
  unfold move_assign
  rw [returns_bind]
  refine (clear_rep ha).imp ?_
  rintro ⟨a1, m1⟩ ⟨_, hrep, hfin, hall, hfr, _, hblock⟩
  rw [returns_ok]
  obtain ⟨_, _, _, hst⟩ := hrep
  refine ⟨rfl, rfl, ?_, hfr, hall, hfin, hdistinct, ?_⟩
  · rcases ha.2.2.2 with ⟨h0, _⟩ | ⟨_, slots, hb, hlen, _⟩
    · exact absurd h0 hnn
    · obtain ⟨slots1, hb1, hlen1, _, _⟩ := hblock slots hb
      exact ⟨slots1, hb1, by rw [hlen1, hlen]; rfl⟩
  · exact fun h => hnn h.symm

/-- Move-assigning an empty vector onto the full sample vector: the block of the sample
vector stays allocated, and stays so after the destructors of both vectors have run. -/
theorem vector_move_assign_keeps_old_block_witness :
    (∃ r, move_assign sample_full_vector Vector.default sample_full_memory = Except.ok r ∧
      r.1.1 = Vector.default ∧ r.1.2 = Vector.default ∧
      (∃ slots, r.2.heap.blocks 1 = some slots ∧ slots.length = 2) ∧ r.2.heap.freed = []) ∧
    ((do
      let r ← move_assign sample_full_vector Vector.default sample_full_memory
      let m1 ← destroy r.1.1 r.2
      let m2 ← destroy r.1.2 m1
      Except.ok ((m2.heap.blocks 1).isSome, m2.heap.freed)).toOption = some (true, [])) := by
  constructor
  · obtain ⟨r, e, h1, h2, h3, h4, _⟩ :=
      vector_move_assign_keeps_old_block sample_full_vector Vector.default sample_full_memory
        [10, 20] sample_full_vector_rep (by decide) (by decide)
    exact ⟨r, e, h1, h2, h3, h4⟩
  · decide

end Vector
end AT

namespace AT

namespace ElementMemory

variable {T : Type}

theorem updated_trans {m m1 m2 : ElementMemory T} {p : Nat} {s1 s2 : List (Slot T)}
    {l1 l2 : List T} (h1 : Updated m m1 p s1 l1) (h2 : Updated m1 m2 p s2 l2) :
    Updated m m2 p s2 l2 :=
  ⟨h2.1, fun q hq => (h2.2.1 q hq).trans (h1.2.1 q hq), h2.2.2.1.trans h1.2.2.1,
    h2.2.2.2.1.trans h1.2.2.2.1, h2.2.2.2.2⟩

/-- Writing a slot of a live block. -/
theorem set_slot_updated {m : ElementMemory T} {p i : Nat} {slots : List (Slot T)} (s : Slot T)
    (hb : m.heap.blocks p = some slots) (hi : i < slots.length) :
    Returns (m.set_slot ⟨p, i⟩ s) (fun m1 => Updated m m1 p (slots.set i s) m.finalized) := by
  simp only [set_slot, hb, hi, if_true, returns_ok]
  refine ⟨by simp [Heap.store], ?_, rfl, rfl, rfl⟩
  intro q hq
  simp [Heap.store, hq]

/-- The destructor call on a live element. -/
theorem destroy_updated {m : ElementMemory T} {p i : Nat} {slots : List (Slot T)} {x : T}
    (hb : m.heap.blocks p = some slots) (hx : slots[i]? = some (Slot.live x)) :
    Returns (m.destroy ⟨p, i⟩)
      (fun m1 => Updated m m1 p (slots.set i Slot.raw) (x :: m.finalized)) := by
  rw [destroy_live hb hx, returns_ok]
  refine ⟨by simp [Heap.store], ?_, rfl, rfl, rfl⟩
  intro q hq
  simp [Heap.store, hq]

/-- The destructor call on a moved-from element. -/
theorem destroy_moved_from_updated {m : ElementMemory T} {p i : Nat} {slots : List (Slot T)}
    (hb : m.heap.blocks p = some slots) (hx : slots[i]? = some Slot.moved_from) :
    Returns (m.destroy ⟨p, i⟩)
      (fun m1 => Updated m m1 p (slots.set i Slot.raw) m.finalized) := by
  rw [destroy_moved_from hb hx, returns_ok]
  refine ⟨by simp [Heap.store], ?_, rfl, rfl, rfl⟩
  intro q hq
  simp [Heap.store, hq]

/-- Move construction between two slots of one block. -/
theorem move_construct_updated {m : ElementMemory T} {p i j : Nat} {slots : List (Slot T)}
    {x : T} (hb : m.heap.blocks p = some slots) (hx : slots[j]? = some (Slot.live x))
    (hi : i < slots.length) :
    Returns (m.move_construct ⟨p, i⟩ ⟨p, j⟩) (fun m1 =>
      Updated m m1 p ((slots.set j Slot.moved_from).set i (Slot.live x)) m.finalized) := by
  have hj : j < slots.length := lt_length_of_getElem? hx
  simp only [move_construct, slot, hb, List.get?_eq_getElem?, hx]
  rw [returns_bind]
  refine (set_slot_updated Slot.moved_from hb hj).imp ?_
  intro m1 h1
  refine (set_slot_updated (Slot.live x) h1.1 (by simpa using hi)).imp ?_
  intro m2 h2
  have h := updated_trans h1 h2
  rwa [h1.2.2.2.2] at h

end ElementMemory

namespace Vector

variable {T : Type}

/-- On a well-formed vector holding `xs`, `remove_unordered(i)` with `i` below the count
returns: the members, the elements held afterwards, the destructor log, the allocator, and
the state of the slot the former last element occupied. -/
theorem remove_unordered_rep {v : Vector} {m : ElementMemory T} {xs : List T}
    (hv : Rep v m xs) (i : Nat) (hi : i < xs.length) (last : T)
    (hlast : xs[xs.length - 1]? = some last) :
    Returns (remove_unordered v m i) (fun r =>
      r.1 = ⟨v.m_elements, v.m_capacity, xs.length - 1⟩ ∧
      Rep r.1 r.2 ((xs.set i last).take (xs.length - 1)) ∧
      r.2.finalized = xs.get ⟨i, hi⟩ :: m.finalized ∧
      r.2.heap.allocations = m.heap.allocations ∧ r.2.heap.freed = m.heap.freed ∧
      r.2.slot ⟨v.m_elements, xs.length - 1⟩ = some Slot.raw) := by
  obtain ⟨hcount, hcap, hptr, hrep⟩ := hv
  rcases hrep with ⟨_, hzero⟩ | ⟨hnn, slots, hb, hlen, hget⟩
  · omega
  have hx : slots[i]? = some (Slot.live (xs.get ⟨i, hi⟩)) := by
    rw [hget i hi, List.getElem?_eq_getElem hi]
    rfl
  have hl : slots[xs.length - 1]? = some (Slot.live last) := by
    rw [hget _ (by omega), hlast]
    rfl
  have hstores : ∀ (m1 : ElementMemory T) (slots1 : List (Slot T)),
      m1.heap.blocks v.m_elements = some slots1 → slots1.length = slots.length →
      m1.heap.allocations = m.heap.allocations →
      (∀ j, j < xs.length - 1 → slots1[j]? = ((xs.set i last)[j]?).map Slot.live) →
      Rep (⟨v.m_elements, v.m_capacity, xs.length - 1⟩ : Vector) m1
        ((xs.set i last).take (xs.length - 1)) := by
    intro m1 slots1 hb1 hlen1 hall hs
    have hlen2 : ((xs.set i last).take (xs.length - 1)).length = xs.length - 1 := by
      simp
    refine ⟨hlen2.symm, by rw [hlen2]; show xs.length - 1 ≤ v.m_capacity; omega,
      by simpa [hall] using hptr, Or.inr ⟨hnn, slots1, hb1, by rw [hlen1, hlen], ?_⟩⟩
    intro j hj
    rw [hlen2] at hj
    rw [hs j hj, List.getElem?_take_of_lt hj]
  unfold remove_unordered
  simp only [hcount, hi, decide_True, VERIFY_true, ok_bind]
  rw [returns_bind]
  refine (ElementMemory.destroy_updated hb hx).imp ?_
  intro m1 h1
  by_cases hil : i = xs.length - 1
  · rw [if_neg (by simpa using hil), returns_ok]
    refine ⟨rfl, hstores m1 _ h1.1 (by simp) h1.2.2.1 ?_, h1.2.2.2.2, h1.2.2.1, h1.2.2.2.1, ?_⟩
    · intro j hj
      rw [List.getElem?_set_ne (by omega), List.getElem?_set_ne (by omega), hget j (by omega)]
    · rw [ElementMemory.slot_eq h1.1, ← hil]
      simp [lt_length_of_getElem? hx]
  · rw [if_pos (by simpa using hil)]
    have hl1 : (slots.set i Slot.raw)[xs.length - 1]? = some (Slot.live last) := by
      rw [List.getElem?_set_ne hil, hl]
    rw [returns_bind]
    refine (ElementMemory.move_construct_updated h1.1 hl1
      (by simpa using lt_length_of_getElem? hx)).imp ?_
    intro m2 h2
    have hmf : (((slots.set i Slot.raw).set (xs.length - 1) Slot.moved_from).set i
        (Slot.live last))[xs.length - 1]? = some Slot.moved_from := by
      rw [List.getElem?_set_ne hil]
      simp [lt_length_of_getElem? hl]
    rw [returns_bind]
    refine (ElementMemory.destroy_moved_from_updated h2.1 hmf).imp ?_
    intro m3 h3
    rw [returns_ok]
    have h13 := ElementMemory.updated_trans (ElementMemory.updated_trans h1 h2) h3
    refine ⟨rfl, hstores m3 _ h3.1 (by simp) h13.2.2.1 ?_, ?_, h13.2.2.1, h13.2.2.2.1, ?_⟩
    · intro j hj
      rw [List.getElem?_set_ne (by omega)]
      by_cases hji : i = j
      · subst hji
        simp [lt_length_of_getElem? hx, hi]
      · rw [List.getElem?_set_ne hji, List.getElem?_set_ne (by omega),
          List.getElem?_set_ne hji, List.getElem?_set_ne hji, hget j (by omega)]
    · rw [h3.2.2.2.2, h2.2.2.2.2, h1.2.2.2.2]
    · rw [ElementMemory.slot_eq h3.1]
      simp [lt_length_of_getElem? hl]

end Vector
end AT

namespace AT
namespace Vector

variable {T : Type}

/-- C18. On a well-formed vector holding the elements `xs` (count `C = xs.length`),
`remove_unordered(i)` fails, with a contract violation, exactly when `i >= C`. When
`i < C` it returns with `count() == C - 1`, the same storage and capacity, and holding
elements `ys` such that `ys[i]` is the former `xs[C - 1]` when `i != C - 1` and
`ys[j] = xs[j]` at every other `j < C - 1`; the destructor log gains exactly one entry,
the removed `xs[i]`, and the slot the former last element occupied is raw storage. -/
theorem vector_remove_unordered (v : Vector) (m : ElementMemory T) (xs : List T) (i : Nat)
    (hv : Rep v m xs) :
    (remove_unordered v m i = Except.error Fault.contract_violation ↔ i ≥ v.count) ∧
    ((∃ r, remove_unordered v m i = Except.ok r) ↔ i < v.count) ∧
    ∀ (hi : i < xs.length), ∃ r ys, remove_unordered v m i = Except.ok r ∧
      r.1.count = xs.length - 1 ∧ r.1.capacity = v.capacity ∧ r.1.m_elements = v.m_elements ∧
      Rep r.1 r.2 ys ∧
      (i ≠ xs.length - 1 → ys[i]? = xs[xs.length - 1]?) ∧
      (∀ j, j < xs.length - 1 → j ≠ i → ys[j]? = xs[j]?) ∧
      r.2.finalized = xs.get ⟨i, hi⟩ :: m.finalized ∧
      r.2.slot ⟨v.m_elements, xs.length - 1⟩ = some Slot.raw := by
  have hcount : v.m_count = xs.length := hv.1
  have hok : ∀ (hi : i < xs.length), ∃ r ys, remove_unordered v m i = Except.ok r ∧
      r.1.count = xs.length - 1 ∧ r.1.capacity = v.capacity ∧ r.1.m_elements = v.m_elements ∧
      Rep r.1 r.2 ys ∧
      (i ≠ xs.length - 1 → ys[i]? = xs[xs.length - 1]?) ∧
      (∀ j, j < xs.length - 1 → j ≠ i → ys[j]? = xs[j]?) ∧
      r.2.finalized = xs.get ⟨i, hi⟩ :: m.finalized ∧
      r.2.slot ⟨v.m_elements, xs.length - 1⟩ = some Slot.raw := by
    intro hi
    have hl : xs.length - 1 < xs.length := by omega
    obtain ⟨r, e, h1, h2, h3, _, _, h6⟩ :=
      remove_unordered_rep hv i hi (xs.get ⟨xs.length - 1, hl⟩) (List.getElem?_eq_getElem hl)
    refine ⟨r, _, e, by rw [h1]; rfl, by rw [h1]; rfl, by rw [h1], h2, ?_, ?_, h3, h6⟩
    · intro hne
      rw [List.getElem?_take_of_lt (by omega), List.getElem?_set_self hi,
        List.getElem?_eq_getElem hl]
      rfl
    · intro j hj hji
      rw [List.getElem?_take_of_lt hj, List.getElem?_set_ne (fun h => hji h.symm)]
  refine ⟨?_, ?_, hok⟩
  · by_cases h : i < v.m_count
    · obtain ⟨r, _, e, _⟩ := hok (by omega)
      rw [e]
      simp only [Vector.count]
      constructor
      · intro h1
        cases h1
      · intro h1
        omega
    · simp [remove_unordered, Vector.count, h]
      omega
  · constructor
    · rintro ⟨r, e⟩
      by_contra h
      have h1 : ¬ i < v.m_count := h
      simp [remove_unordered, h1] at e
    · intro h
      have h1 : i < v.m_count := h
      obtain ⟨r, _, e, _⟩ := hok (by omega)
      exact ⟨r, e⟩

/-- Removing position 0 of the sample vector `[10, 20]`: `20` moves to position 0, `10` is
finalized, and position 2 is refused. -/
theorem vector_remove_unordered_witness :
    (∃ r ys, remove_unordered sample_vector sample_memory 0 = Except.ok r ∧
      r.1.count = 1 ∧ Rep r.1 r.2 ys ∧ ys[0]? = some 20 ∧ r.2.finalized = [10]) ∧
    remove_unordered sample_vector sample_memory 2 = Except.error Fault.contract_violation := by
  have h := vector_remove_unordered sample_vector sample_memory [10, 20] 0 sample_vector_rep
  obtain ⟨r, ys, e, h1, _, _, h2, h3, _, h4, _⟩ := h.2.2 (by decide)
  refine ⟨⟨r, ys, e, h1, h2, h3 (by decide), h4⟩, ?_⟩
  exact (vector_remove_unordered sample_vector sample_memory [10, 20] 2
    sample_vector_rep).1.mpr (by decide)

end Vector
end AT

namespace AT
namespace VectorWorld

variable {T : Type}

/-! ## Block sizes stay bounded -/

theorem bounded_empty : Bounded (ElementMemory.empty : ElementMemory T) := by
  intro p slots h
  cases h

theorem set_slot_bounded {m m1 : ElementMemory T} {r : ElementRef} {s : Slot T}
    (hb : Bounded m) (e : m.set_slot r s = Except.ok m1) : Bounded m1 := by
  unfold ElementMemory.set_slot at e
  split at e
  · cases e
  · rename_i slots hs
    split at e
    · simp only [Except.ok.injEq] at e
      subst e
      intro p slots1 h1
      simp only [Heap.store] at h1
      split at h1
      · simp only [Option.some.injEq] at h1
        subst h1
        simpa using hb _ _ hs
      · exact hb _ _ h1
    · cases e

theorem destroy_bounded {m m1 : ElementMemory T} {r : ElementRef}
    (hb : Bounded m) (e : m.destroy r = Except.ok m1) : Bounded m1 := by
  unfold ElementMemory.destroy at e
  split at e
  · obtain ⟨m2, e1, e2⟩ := bind_eq_ok.mp e
    simp only [Except.ok.injEq] at e2
    subst e2
    exact fun p slots h => set_slot_bounded hb e1 p slots h
  · exact set_slot_bounded hb e
  · cases e

/-- A destructor call that returns was made on a slot inside a live block. -/
theorem destroy_ok_index {m m1 : ElementMemory T} {p i : Nat}
    (e : m.destroy ⟨p, i⟩ = Except.ok m1) :
    ∃ slots, m.heap.blocks p = some slots ∧ i < slots.length := by
  have hslot : m.slot ⟨p, i⟩ ≠ none := by
    intro h
    simp [ElementMemory.destroy, h] at e
  unfold ElementMemory.slot at hslot
  split at hslot
  · exact absurd rfl hslot
  · rename_i slots hs
    refine ⟨slots, hs, ?_⟩
    by_contra hn
    apply hslot
    simp only [List.get?_eq_getElem?]
    exact List.getElem?_eq_none (by omega)

theorem construct_bounded {m m1 : ElementMemory T} {r : ElementRef} {x : T}
    (hb : Bounded m) (e : m.construct r x = Except.ok m1) : Bounded m1 :=
  set_slot_bounded hb e

theorem move_construct_bounded {m m1 : ElementMemory T} {d s : ElementRef}
    (hb : Bounded m) (e : m.move_construct d s = Except.ok m1) : Bounded m1 := by
  unfold ElementMemory.move_construct at e
  split at e
  · obtain ⟨m2, e1, e2⟩ := bind_eq_ok.mp e
    exact set_slot_bounded (set_slot_bounded hb e1) e2
  · cases e

theorem copy_construct_bounded {m m1 : ElementMemory T} {d s : ElementRef}
    (hb : Bounded m) (e : m.copy_construct d s = Except.ok m1) : Bounded m1 := by
  unfold ElementMemory.copy_construct at e
  split at e
  · exact set_slot_bounded hb e
  · cases e

theorem allocate_memory_bounded (sizeof_T : Nat) {m : ElementMemory T} (in_count : Nat)
    (hb : Bounded m) : Bounded (Vector.allocate_memory sizeof_T m in_count).2 := by
  intro p slots h
  simp only [Vector.allocate_memory, Heap.operator_new] at h
  split at h
  · simp only [Option.some.injEq] at h
    subst h
    rw [List.length_replicate]
    have h1 : usize (in_count * sizeof_T) < usize_limit := Nat.mod_lt _ (by decide)
    exact Nat.lt_of_le_of_lt (Nat.div_le_self _ _) h1
  · exact hb _ _ h

theorem free_memory_bounded {m m1 : ElementMemory T} {p c : Nat}
    (hb : Bounded m) (e : Vector.free_memory m p c = Except.ok m1) : Bounded m1 := by
  unfold Vector.free_memory at e
  obtain ⟨h, e1, e2⟩ := bind_eq_ok.mp e
  simp only [Except.ok.injEq] at e2
  subst e2
  unfold Heap.operator_delete at e1
  split at e1
  · simp only [Except.ok.injEq] at e1
    subst e1
    exact hb
  · split at e1
    · cases e1
    · simp only [Except.ok.injEq] at e1
      subst e1
      intro q slots hq
      simp only at hq
      split at hq
      · cases hq
      · exact hb _ _ hq

theorem move_elements_loop_bounded (d s : Nat) :
    ∀ (n i : Nat) (m m1 : ElementMemory T), Bounded m →
      Vector.move_elements_loop d s n i m = Except.ok m1 → Bounded m1 := by
  intro n
  induction n with
  | zero =>
    intro i m m1 hb e
    simp only [Vector.move_elements_loop, Except.ok.injEq] at e
    subst e
    exact hb
  | succ n ih =>
    intro i m m1 hb e
    unfold Vector.move_elements_loop at e
    obtain ⟨m2, e1, e2⟩ := bind_eq_ok.mp e
    obtain ⟨m3, e3, e4⟩ := bind_eq_ok.mp e2
    exact ih _ _ _ (destroy_bounded (move_construct_bounded hb e1) e3) e4

theorem for_range_bounded (body : Nat → ElementMemory T → Except Fault (ElementMemory T))
    (hbody : ∀ i s s1, Bounded s → body i s = Except.ok s1 → Bounded s1)
    {n start : Nat} {m m1 : ElementMemory T} (hb : Bounded m)
    (e : for_range body n start m = Except.ok m1) : Bounded m1 :=
  (for_range_ok body Bounded hbody n start m m1 hb e).1

theorem add_bounded {sizeof_T : Nat} {v : Vector} {m : ElementMemory T} {x : T}
    {r : Vector × ElementMemory T} (hb : Bounded m)
    (e : Vector.add sizeof_T v m x = Except.ok r) : Bounded r.2 := by
  unfold Vector.add at e
  obtain ⟨r1, e1, e2⟩ := bind_eq_ok.mp e
  obtain ⟨m1, e3, e4⟩ := bind_eq_ok.mp e2
  simp only [Except.ok.injEq] at e4
  subst e4
  refine construct_bounded ?_ e3
  unfold Vector.expand_elements_block_if_required at e1
  split at e1
  · simp only [Except.ok.injEq] at e1
    subst e1
    exact hb
  · unfold Vector.expand_elements_block at e1
    obtain ⟨_, _, e5⟩ := bind_eq_ok.mp e1
    obtain ⟨m2, e6, e7⟩ := bind_eq_ok.mp e5
    obtain ⟨m3, e8, e9⟩ := bind_eq_ok.mp e7
    simp only [Except.ok.injEq] at e9
    subst e9
    exact free_memory_bounded
      (move_elements_loop_bounded _ _ _ _ _ _ (allocate_memory_bounded _ _ hb) e6) e8

theorem clear_ok {v : Vector} {m : ElementMemory T} {r : Vector × ElementMemory T}
    (hb : Bounded m) (e : Vector.clear v m = Except.ok r) :
    r.1 = ⟨v.m_elements, v.m_capacity, 0⟩ ∧ Bounded r.2 := by
  unfold Vector.clear at e
  obtain ⟨m1, e1, e2⟩ := bind_eq_ok.mp e
  simp only [Except.ok.injEq] at e2
  subst e2
  exact ⟨rfl, for_range_bounded _ (fun _ _ _ h1 h2 => destroy_bounded h1 h2) hb e1⟩

theorem clear_and_shrink_ok {v : Vector} {m : ElementMemory T} {r : Vector × ElementMemory T}
    (hb : Bounded m) (e : Vector.clear_and_shrink v m = Except.ok r) :
    r.1 = ⟨0, 0, 0⟩ ∧ Bounded r.2 := by
  unfold Vector.clear_and_shrink at e
  obtain ⟨r1, e1, e2⟩ := bind_eq_ok.mp e
  obtain ⟨m1, e3, e4⟩ := bind_eq_ok.mp e2
  obtain ⟨h1, h2⟩ := clear_ok hb e1
  simp only [Except.ok.injEq] at e4
  subst e4
  exact ⟨by rw [h1], free_memory_bounded h2 e3⟩

theorem copy_elements_bounded {m m1 : ElementMemory T} {d s n : Nat} (hb : Bounded m)
    (e : Vector.copy_elements m d s n = Except.ok m1) : Bounded m1 :=
  for_range_bounded _ (fun _ _ _ h1 h2 => copy_construct_bounded h1 h2) hb e

end VectorWorld
end AT

namespace AT
namespace VectorWorld

variable {T : Type}

theorem verify_ok {c : Bool} {u : Unit} (e : VERIFY c = Except.ok u) : c = true := by
  cases c
  · cases e
  · rfl

/-- A call of `remove_unordered(remove_index, remove_count)` that returns leaves
`count() <= capacity()`: when `remove_index + remove_count` wraps, the destructor loops
reach the slot `2^64 - 1`, which no block has. -/
theorem remove_unordered_range_ok {v : Vector} {m : ElementMemory T} {i n : Nat}
    {r : Vector × ElementMemory T} (hb : Bounded m) (hcc : v.m_count ≤ v.m_capacity)
    (hi : i < usize_limit) (hn : n < usize_limit)
    (e : Vector.remove_unordered_range v m i n = Except.ok r) :
    r.1.m_count ≤ r.1.m_capacity ∧ Bounded r.2 := by
  unfold Vector.remove_unordered_range at e
  obtain ⟨_, e0, e1⟩ := bind_eq_ok.mp e
  have hver : usize (i + n) ≤ v.m_count := of_decide_eq_true (verify_ok e0)
  dsimp only at e1
  generalize hmc : (if usize (v.m_count + usize_limit - usize (i + n)) > n then n
    else usize (v.m_count + usize_limit - usize (i + n))) = mc at e1
  have hmcn : mc ≤ n := by
    rw [← hmc]
    split <;> omega
  obtain ⟨m1, l1, e2⟩ := bind_eq_ok.mp e1
  obtain ⟨m4, l2, e3⟩ := bind_eq_ok.mp e2
  simp only [Except.ok.injEq] at e3
  subst e3
  have hbody1 : ∀ (q : Nat → Nat) (k : Nat) (s s1 : ElementMemory T), Bounded s →
      (do
        let m2 ← s.destroy ⟨v.m_elements, usize (i + k)⟩
        let m3 ← m2.copy_construct ⟨v.m_elements, i + k⟩ ⟨v.m_elements, q k⟩
        m3.destroy ⟨v.m_elements, q k⟩) = Except.ok s1 → Bounded s1 := by
    intro q k s s1 hs es
    obtain ⟨m2, a1, a2⟩ := bind_eq_ok.mp es
    obtain ⟨m3, a3, a4⟩ := bind_eq_ok.mp a2
    exact destroy_bounded (copy_construct_bounded (destroy_bounded hs a1) a3) a4
  obtain ⟨hb1, hrun1⟩ := for_range_ok _ Bounded
    (fun k s s1 hs es => hbody1 (fun k => usize (usize (v.m_count + usize_limit - mc) + k))
      k s s1 hs es) mc 0 m m1 hb l1
  obtain ⟨hb4, hrun2⟩ := for_range_ok _ Bounded
    (fun _ _ _ hs es => destroy_bounded hs es) (n - mc) mc m1 m4 hb1 l2
  refine ⟨?_, hb4⟩
  show usize (v.m_count + usize_limit - n) ≤ v.m_capacity
  have hlim : usize_limit = 18446744073709551616 := rfl
  by_cases hw : i + n < usize_limit
  · rw [usize_of_lt hw] at hver
    have h1 : v.m_count + usize_limit - n = (v.m_count - n) + usize_limit := by omega
    rw [h1]
    unfold usize
    rw [Nat.add_mod_right]
    exact Nat.le_trans (Nat.mod_le _ _) (by omega)
  · exfalso
    have hk : usize_limit - 1 - i < n := by omega
    have hslot : ∀ (a b : ElementMemory T) (j : Nat), Bounded a → i + j = usize_limit - 1 →
        a.destroy ⟨v.m_elements, usize (i + j)⟩ = Except.ok b → False := by
      intro a b j ha hj ed
      obtain ⟨slots, hs, hlt⟩ := destroy_ok_index ed
      have hbound := ha _ _ hs
      rw [hj, usize_of_lt (by omega)] at hlt
      omega
    by_cases hlow : usize_limit - 1 - i < mc
    · obtain ⟨a, b, ha, eb⟩ := hrun1 _ hlow
      obtain ⟨m2, a1, _⟩ := bind_eq_ok.mp eb
      exact hslot a m2 _ ha (by omega) a1
    · obtain ⟨a, b, ha, eb⟩ := hrun2 (usize_limit - 1 - i - mc) (by omega)
      exact hslot a b _ ha (by omega) eb

end VectorWorld
end AT

namespace AT
namespace VectorWorld

variable {T : Type}

theorem from_span_ok {sizeof_T : Nat} {m : ElementMemory T} {span : List T}
    {r : Vector × ElementMemory T} (hb : Bounded m)
    (e : Vector.from_span sizeof_T m span = Except.ok r) :
    r.1.m_count ≤ r.1.m_capacity ∧ Bounded r.2 := by
  unfold Vector.from_span at e
  dsimp only at e
  obtain ⟨m1, e1, e2⟩ := bind_eq_ok.mp e
  simp only [Except.ok.injEq] at e2
  subst e2
  refine ⟨Nat.le_refl _, for_range_bounded _ ?_ (allocate_memory_bounded _ _ hb) e1⟩
  intro i s s1 hs es
  split at es
  · exact construct_bounded hs es
  · cases es

theorem from_template_element_ok {sizeof_T : Nat} {m : ElementMemory T} {n : Nat} {x : T}
    {r : Vector × ElementMemory T} (hb : Bounded m)
    (e : Vector.from_template_element sizeof_T m n x = Except.ok r) :
    r.1.m_count ≤ r.1.m_capacity ∧ Bounded r.2 := by
  unfold Vector.from_template_element at e
  dsimp only at e
  obtain ⟨m1, e1, e2⟩ := bind_eq_ok.mp e
  simp only [Except.ok.injEq] at e2
  subst e2
  exact ⟨Nat.le_refl _, for_range_bounded _ (fun _ _ _ hs es => construct_bounded hs es)
    (allocate_memory_bounded _ _ hb) e1⟩

theorem copy_construct_ok {sizeof_T : Nat} {m : ElementMemory T} {other : Vector}
    {r : Vector × ElementMemory T} (hb : Bounded m)
    (e : Vector.copy_construct sizeof_T other m = Except.ok r) :
    r.1.m_count ≤ r.1.m_capacity ∧ Bounded r.2 := by
  unfold Vector.copy_construct at e
  obtain ⟨m1, e1, e2⟩ := bind_eq_ok.mp e
  simp only [Except.ok.injEq] at e2
  subst e2
  exact ⟨Nat.le_refl _, copy_elements_bounded (allocate_memory_bounded _ _ hb) e1⟩

theorem copy_assign_ok {sizeof_T : Nat} {m : ElementMemory T} {this other : Vector}
    {r : Vector × ElementMemory T} (hb : Bounded m)
    (e : Vector.copy_assign sizeof_T this other m = Except.ok r) :
    r.1.m_count ≤ r.1.m_capacity ∧ Bounded r.2 := by
  unfold Vector.copy_assign at e
  obtain ⟨c, e1, e2⟩ := bind_eq_ok.mp e
  obtain ⟨hc, hbc⟩ := clear_ok hb e1
  obtain ⟨r1, e3, e4⟩ := bind_eq_ok.mp e2
  dsimp only at e4
  obtain ⟨m2, e5, e6⟩ := bind_eq_ok.mp e4
  simp only [Except.ok.injEq] at e6
  subst e6
  have h1 : other.m_count ≤ r1.1.m_capacity ∧ Bounded r1.2 := by
    split at e3
    · cases e7 : Vector.free_memory c.2 c.1.m_elements c.1.m_capacity with
      | error f =>
        rw [e7] at e3
        cases e3
      | ok m1 =>
        rw [e7] at e3
        simp only [Except.map, Except.ok.injEq] at e3
        subst e3
        exact ⟨Nat.le_refl _, allocate_memory_bounded _ _ (free_memory_bounded hbc e7)⟩
    · rename_i hle
      simp only [Except.ok.injEq] at e3
      subst e3
      exact ⟨by omega, hbc⟩
  exact ⟨h1.1, copy_elements_bounded h1.2 e5⟩

theorem move_assign_ok {m : ElementMemory T} {this other : Vector}
    {r : (Vector × Vector) × ElementMemory T} (hb : Bounded m)
    (e : Vector.move_assign this other m = Except.ok r) :
    r.1.1 = other ∧ r.1.2 = ⟨0, 0, 0⟩ ∧ Bounded r.2 := by
  unfold Vector.move_assign at e
  obtain ⟨c, e1, e2⟩ := bind_eq_ok.mp e
  simp only [Except.ok.injEq] at e2
  subst e2
  exact ⟨rfl, rfl, (clear_ok hb e1).2⟩

theorem add_ok {sizeof_T : Nat} {v : Vector} {m : ElementMemory T} {x : T}
    {r : Vector × ElementMemory T} (hb : Bounded m)
    (e : Vector.add sizeof_T v m x = Except.ok r) :
    r.1.m_count ≤ r.1.m_capacity ∧ Bounded r.2 := by
  obtain ⟨h1, _, h2⟩ := Vector.add_ok_shape e
  exact ⟨by rw [h1]; exact h2, add_bounded hb e⟩

theorem remove_last_ok {v : Vector} {m : ElementMemory T} {r : Vector × ElementMemory T}
    (hb : Bounded m) (hcc : v.m_count ≤ v.m_capacity)
    (e : Vector.remove_last v m = Except.ok r) :
    r.1.m_count ≤ r.1.m_capacity ∧ Bounded r.2 := by
  unfold Vector.remove_last at e
  obtain ⟨_, _, e1⟩ := bind_eq_ok.mp e
  dsimp only at e1
  obtain ⟨m1, e2, e3⟩ := bind_eq_ok.mp e1
  simp only [Except.ok.injEq] at e3
  subst e3
  refine ⟨?_, destroy_bounded hb e2⟩
  show v.m_count - 1 ≤ v.m_capacity
  omega

theorem remove_last_count_ok {v : Vector} {m : ElementMemory T} {n : Nat}
    {r : Vector × ElementMemory T} (hb : Bounded m) (hcc : v.m_count ≤ v.m_capacity)
    (e : Vector.remove_last_count v m n = Except.ok r) :
    r.1.m_count ≤ r.1.m_capacity ∧ Bounded r.2 := by
  unfold Vector.remove_last_count at e
  obtain ⟨_, _, e1⟩ := bind_eq_ok.mp e
  obtain ⟨m1, e2, e3⟩ := bind_eq_ok.mp e1
  simp only [Except.ok.injEq] at e3
  subst e3
  refine ⟨?_, for_range_bounded _ (fun _ _ _ hs es => destroy_bounded hs es) hb e2⟩
  show v.m_count - n ≤ v.m_capacity
  omega

theorem remove_unordered_ok {v : Vector} {m : ElementMemory T} {i : Nat}
    {r : Vector × ElementMemory T} (hb : Bounded m) (hcc : v.m_count ≤ v.m_capacity)
    (e : Vector.remove_unordered v m i = Except.ok r) :
    r.1.m_count ≤ r.1.m_capacity ∧ Bounded r.2 := by
  unfold Vector.remove_unordered at e
  obtain ⟨_, _, e1⟩ := bind_eq_ok.mp e
  obtain ⟨m1, e2, e3⟩ := bind_eq_ok.mp e1
  dsimp only at e3
  have hb1 := destroy_bounded hb e2
  have hle : v.m_count - 1 ≤ v.m_capacity := by omega
  split at e3
  · obtain ⟨m2, e4, e5⟩ := bind_eq_ok.mp e3
    obtain ⟨m3, e6, e7⟩ := bind_eq_ok.mp e5
    simp only [Except.ok.injEq] at e7
    subst e7
    exact ⟨hle, destroy_bounded (move_construct_bounded hb1 e4) e6⟩
  · simp only [Except.ok.injEq] at e3
    subst e3
    exact ⟨hle, hb1⟩

theorem vectors_append {vs : List (Option Vector)} {v : Vector}
    (h : ∀ (i : Nat) (u : Vector), vs[i]? = some (some u) → u.m_count ≤ u.m_capacity)
    (hv : v.m_count ≤ v.m_capacity) :
    ∀ (i : Nat) (u : Vector), (vs ++ [some v])[i]? = some (some u) →
      u.m_count ≤ u.m_capacity := by
  intro i u hu
  rcases StringWorld.getElem?_append_cases hu with h1 | h1
  · exact h i u h1
  · cases h1
    exact hv

theorem vectors_set {vs : List (Option Vector)} {v : Vector} {k : Nat}
    (h : ∀ (i : Nat) (u : Vector), vs[i]? = some (some u) → u.m_count ≤ u.m_capacity)
    (hv : v.m_count ≤ v.m_capacity) :
    ∀ (i : Nat) (u : Vector), (vs.set k (some v))[i]? = some (some u) →
      u.m_count ≤ u.m_capacity := by
  intro i u hu
  rcases StringWorld.getElem?_set_cases hu with h1 | h1
  · exact h i u h1
  · cases h1
    exact hv

theorem vectors_set_none {vs : List (Option Vector)} {k : Nat}
    (h : ∀ (i : Nat) (u : Vector), vs[i]? = some (some u) → u.m_count ≤ u.m_capacity) :
    ∀ (i : Nat) (u : Vector), (vs.set k none)[i]? = some (some u) →
      u.m_count ≤ u.m_capacity := by
  intro i u hu
  rcases StringWorld.getElem?_set_cases hu with h1 | h1
  · exact h i u h1
  · cases h1

theorem vector_object_ok {w : VectorWorld T} {i : Nat} {v : Vector}
    (e : w.object i = Except.ok v) : w.vectors[i]? = some (some v) := by
  unfold object at e
  rw [List.get?_eq_getElem?] at e
  split at e
  · rename_i u hu
    cases e
    exact hu
  · cases e

end VectorWorld
end AT

namespace AT
namespace VectorWorld

variable {T : Type}

theorem vector_inv_empty : Inv (VectorWorld.empty : VectorWorld T) := by
  refine ⟨?_, bounded_empty⟩
  intro i v h
  simp [VectorWorld.empty] at h

/-- Every operation that returns keeps `count() <= capacity()` in every live vector. -/
theorem vector_step_inv {sizeof_T : Nat} {w w1 : VectorWorld T} {op : VectorOp T}
    (hw : Inv w) (ht : op.well_typed) (e : w.step sizeof_T op = Except.ok w1) : Inv w1 := by
  obtain ⟨hv, hb⟩ := hw
  cases op with
  | construct_default =>
    simp only [step, Except.ok.injEq] at e
    subst e
    exact ⟨vectors_append hv (Nat.le_refl 0), hb⟩
  | from_initial_capacity n =>
    simp only [step, Except.ok.injEq] at e
    subst e
    exact ⟨vectors_append hv (Nat.zero_le _), allocate_memory_bounded _ _ hb⟩
  | from_span span =>
    simp only [step] at e
    obtain ⟨r, e1, e2⟩ := bind_eq_ok.mp e
    simp only [Except.ok.injEq] at e2
    subst e2
    obtain ⟨h1, h2⟩ := from_span_ok hb e1
    exact ⟨vectors_append hv h1, h2⟩
  | from_template_element n x =>
    simp only [step] at e
    obtain ⟨r, e1, e2⟩ := bind_eq_ok.mp e
    simp only [Except.ok.injEq] at e2
    subst e2
    obtain ⟨h1, h2⟩ := from_template_element_ok hb e1
    exact ⟨vectors_append hv h1, h2⟩
  | construct_copy other =>
    simp only [step] at e
    obtain ⟨o, _, e1⟩ := bind_eq_ok.mp e
    obtain ⟨r, e2, e3⟩ := bind_eq_ok.mp e1
    simp only [Except.ok.injEq] at e3
    subst e3
    obtain ⟨h1, h2⟩ := copy_construct_ok hb e2
    exact ⟨vectors_append hv h1, h2⟩
  | construct_move other =>
    simp only [step] at e
    obtain ⟨o, eo, e1⟩ := bind_eq_ok.mp e
    simp only [ok_bind, Except.ok.injEq] at e1
    subst e1
    have ho := hv _ _ (vector_object_ok eo)
    exact ⟨vectors_append (vectors_set hv (Nat.le_refl 0)) ho, hb⟩
  | assign_copy this other =>
    simp only [step] at e
    obtain ⟨t, _, e1⟩ := bind_eq_ok.mp e
    obtain ⟨o, _, e2⟩ := bind_eq_ok.mp e1
    split at e2
    · simp only [Except.ok.injEq] at e2
      subst e2
      exact ⟨hv, hb⟩
    · obtain ⟨r, e3, e4⟩ := bind_eq_ok.mp e2
      simp only [Except.ok.injEq] at e4
      subst e4
      obtain ⟨h1, h2⟩ := copy_assign_ok hb e3
      exact ⟨vectors_set hv h1, h2⟩
  | assign_move this other =>
    simp only [step] at e
    obtain ⟨t, _, e1⟩ := bind_eq_ok.mp e
    obtain ⟨o, eo, e2⟩ := bind_eq_ok.mp e1
    split at e2
    · simp only [Except.ok.injEq] at e2
      subst e2
      exact ⟨hv, hb⟩
    · obtain ⟨r, e3, e4⟩ := bind_eq_ok.mp e2
      simp only [Except.ok.injEq] at e4
      subst e4
      obtain ⟨h1, h2, h3⟩ := move_assign_ok hb e3
      have ho := hv _ _ (vector_object_ok eo)
      refine ⟨vectors_set (vectors_set hv ?_) ?_, h3⟩
      · rw [h1]
        exact ho
      · rw [h2]
  | add this x =>
    simp only [step] at e
    obtain ⟨t, _, e1⟩ := bind_eq_ok.mp e
    obtain ⟨r, e2, e3⟩ := bind_eq_ok.mp e1
    simp only [Except.ok.injEq] at e3
    subst e3
    obtain ⟨h1, h2⟩ := add_ok hb e2
    exact ⟨vectors_set hv h1, h2⟩
  | emplace this x =>
    simp only [step] at e
    obtain ⟨t, _, e1⟩ := bind_eq_ok.mp e
    obtain ⟨r, e2, e3⟩ := bind_eq_ok.mp e1
    simp only [Except.ok.injEq] at e3
    subst e3
    rw [Vector.emplace_eq_add] at e2
    obtain ⟨h1, h2⟩ := add_ok hb e2
    exact ⟨vectors_set hv h1, h2⟩
  | remove_last this =>
    simp only [step] at e
    obtain ⟨t, et, e1⟩ := bind_eq_ok.mp e
    obtain ⟨r, e2, e3⟩ := bind_eq_ok.mp e1
    simp only [Except.ok.injEq] at e3
    subst e3
    obtain ⟨h1, h2⟩ := remove_last_ok hb (hv _ _ (vector_object_ok et)) e2
    exact ⟨vectors_set hv h1, h2⟩
  | remove_last_count this n =>
    simp only [step] at e
    obtain ⟨t, et, e1⟩ := bind_eq_ok.mp e
    obtain ⟨r, e2, e3⟩ := bind_eq_ok.mp e1
    simp only [Except.ok.injEq] at e3
    subst e3
    obtain ⟨h1, h2⟩ := remove_last_count_ok hb (hv _ _ (vector_object_ok et)) e2
    exact ⟨vectors_set hv h1, h2⟩
  | remove_unordered this i =>
    simp only [step] at e
    obtain ⟨t, et, e1⟩ := bind_eq_ok.mp e
    obtain ⟨r, e2, e3⟩ := bind_eq_ok.mp e1
    simp only [Except.ok.injEq] at e3
    subst e3
    obtain ⟨h1, h2⟩ := remove_unordered_ok hb (hv _ _ (vector_object_ok et)) e2
    exact ⟨vectors_set hv h1, h2⟩
  | remove_unordered_range this i n =>
    simp only [step] at e
    obtain ⟨t, et, e1⟩ := bind_eq_ok.mp e
    obtain ⟨r, e2, e3⟩ := bind_eq_ok.mp e1
    simp only [Except.ok.injEq] at e3
    subst e3
    obtain ⟨h1, h2⟩ :=
      remove_unordered_range_ok hb (hv _ _ (vector_object_ok et)) ht.1 ht.2 e2
    exact ⟨vectors_set hv h1, h2⟩
  | clear this =>
    simp only [step] at e
    obtain ⟨t, _, e1⟩ := bind_eq_ok.mp e
    obtain ⟨r, e2, e3⟩ := bind_eq_ok.mp e1
    simp only [Except.ok.injEq] at e3
    subst e3
    obtain ⟨h1, h2⟩ := clear_ok hb e2
    exact ⟨vectors_set hv (by rw [h1]; exact Nat.zero_le _), h2⟩
  | clear_and_shrink this =>
    simp only [step] at e
    obtain ⟨t, _, e1⟩ := bind_eq_ok.mp e
    obtain ⟨r, e2, e3⟩ := bind_eq_ok.mp e1
    simp only [Except.ok.injEq] at e3
    subst e3
    obtain ⟨h1, h2⟩ := clear_and_shrink_ok hb e2
    exact ⟨vectors_set hv (by rw [h1]), h2⟩
  | destroy this =>
    simp only [step] at e
    obtain ⟨t, _, e1⟩ := bind_eq_ok.mp e
    obtain ⟨m1, e2, e3⟩ := bind_eq_ok.mp e1
    simp only [Except.ok.injEq] at e3
    subst e3
    unfold Vector.destroy at e2
    obtain ⟨r, e4, e5⟩ := bind_eq_ok.mp e2
    simp only [Except.ok.injEq] at e5
    subst e5
    exact ⟨vectors_set_none hv, (clear_and_shrink_ok hb e4).2⟩

theorem vector_run_inv (sizeof_T : Nat) :
    ∀ (ops : List (VectorOp T)) (w w1 : VectorWorld T), Inv w →
      (∀ op ∈ ops, op.well_typed) → w.run sizeof_T ops = Except.ok w1 → Inv w1 := by
  intro ops
  induction ops with
  | nil =>
    intro w w1 hw _ e
    simp only [run, Except.ok.injEq] at e
    subst e
    exact hw
  | cons op ops ih =>
    intro w w1 hw ht e
    unfold run at e
    obtain ⟨w2, e1, e2⟩ := bind_eq_ok.mp e
    exact ih w2 w1 (vector_step_inv hw (ht op (List.mem_cons_self _ _)) e1)
      (fun o ho => ht o (List.mem_cons_of_mem _ ho)) e2

/-- In every state reached from the empty program by a sequence of constructor,
factory, `add`, `emplace`, `remove_last`, `remove_unordered`, `clear`, `clear_and_shrink`,
copy-assignment, move-assignment and destructor calls that all return (none fails a
`VERIFY`, none touches a slot outside a live block), with arguments that are values of
`usize`, every live vector satisfies `count() <= capacity()`. -/
theorem run_count_le_capacity (sizeof_T : Nat) (ops : List (VectorOp T))
    (w : VectorWorld T) (htyped : ∀ op ∈ ops, op.well_typed)
    (hrun : VectorWorld.empty.run sizeof_T ops = Except.ok w) :
    ∀ (i : Nat) (v : Vector), w.vectors[i]? = some (some v) → v.count ≤ v.capacity :=
  (vector_run_inv sizeof_T ops VectorWorld.empty w vector_inv_empty htyped hrun).1

end VectorWorld
end AT

namespace AT
namespace String

/-- On a well-formed string `clear` returns the canonical empty inline string; what it does
to the heap depends on the storage released. -/
theorem clear_wellFormed {s : String} {h : Heap StringBlock} (hwf : WellFormed s h) :
    ∃ h1, s.clear h = Except.ok
        (⟨StringStorage.m_inline_buffer (List.replicate inline_capacity (some 0)), 1⟩, h1) ∧
      (∀ cells, s.storage = StringStorage.m_inline_buffer cells → h1 = h) ∧
      (∀ p, s.storage = StringStorage.m_heap_buffer p →
        ∃ block, h.blocks p = some block ∧ 0 < block.reference_count ∧
          (1 < block.reference_count →
            h1 = h.store p (some ⟨block.reference_count - 1, block.characters⟩)) ∧
          (block.reference_count = 1 →
            h1 = ⟨fun q => if q = p then none else h.blocks q, h.allocations,
              p :: h.freed⟩)) := by
  obtain ⟨storage, n⟩ := s
  cases storage with
  | m_inline_buffer cells =>
    obtain ⟨_, hn, hlen, _⟩ := hwf
    refine ⟨h, clear_inline cells n h hn hlen, fun _ _ => rfl, ?_⟩
    intro p hp
    cases hp
  | m_heap_buffer p =>
    obtain ⟨_, hn, hp0, b, hb, hrc, _, _⟩ := hwf
    by_cases hlast : b.reference_count = 1
    · refine ⟨_, clear_heap_last p n h b hn hp0 hb hlast, ?_, ?_⟩
      · intro cells hc
        cases hc
      · intro q hq
        cases hq
        exact ⟨b, hb, hrc, fun h1 => absurd hlast (by omega), fun _ => rfl⟩
    · refine ⟨_, clear_heap_shared p n h b hn hb (by omega), ?_, ?_⟩
      · intro cells hc
        cases hc
      · intro q hq
        cases hq
        exact ⟨b, hb, hrc, fun _ => rfl, fun h1 => absurd h1 hlast⟩

/-- A well-formed string answers `byte_count()` without tripping the assertion, and the byte
of `characters()` at `byte_count()` is the terminator. -/
theorem wellFormed_nul {s : String} {h : Heap StringBlock} (hwf : WellFormed s h) :
    1 ≤ s.m_byte_count ∧ s.byte_count = Except.ok (s.m_byte_count - 1) ∧
      ∃ cells, s.characters h = Except.ok cells ∧
        cells[s.m_byte_count - 1]? = some (some 0) := by
  obtain ⟨storage, n⟩ := s
  have hpos : 0 < n := hwf.1
  refine ⟨hpos, by simp [byte_count, hpos], ?_⟩
  cases storage with
  | m_inline_buffer cells =>
    obtain ⟨_, hn, _, hnul⟩ := hwf
    exact ⟨cells, by simp [characters, is_stored_inline, hn, m_inline_buffer], hnul⟩
  | m_heap_buffer p =>
    obtain ⟨_, hn, _, b, hb, _, _, hnul⟩ := hwf
    have hn0 : inline_capacity < n := hn
    have hn1 : ¬ n ≤ inline_capacity := by omega
    exact ⟨b.characters, by simp [characters, is_stored_inline, hn1, heap_buffer_characters,
      m_heap_buffer, hb], hnul⟩

/-- C12. `String::clear()` is idempotent. On every well-formed string the first call returns
and leaves the canonical empty inline state (`m_byte_count == 1`, the eight inline bytes
zero, `byte_count() == 0`, stored inline); it leaves the heap as it was for an inline
string, and for a heap-backed string lowers the count of its block by one, releasing the
block exactly when the count was one. A second call returns the same string and the very
same heap: no count is decremented again and nothing is released again. -/
theorem string_clear_idempotent (s : String) (h : Heap StringBlock) (hwf : WellFormed s h) :
    ∃ s1 h1, s.clear h = Except.ok (s1, h1) ∧
      s1 = ⟨StringStorage.m_inline_buffer (List.replicate inline_capacity (some 0)), 1⟩ ∧
      s1.byte_count = Except.ok 0 ∧ s1.is_stored_inline = true ∧
      (∀ cells, s.storage = StringStorage.m_inline_buffer cells → h1 = h) ∧
      (∀ p, s.storage = StringStorage.m_heap_buffer p →
        ∃ block, h.blocks p = some block ∧ 0 < block.reference_count ∧
          (1 < block.reference_count →
            h1.blocks p = some ⟨block.reference_count - 1, block.characters⟩ ∧
            h1.freed = h.freed) ∧
          (block.reference_count = 1 → h1.blocks p = none ∧ h1.freed = p :: h.freed)) ∧
      s1.clear h1 = Except.ok (s1, h1) := by
  obtain ⟨h1, e, hin, hheap⟩ := clear_wellFormed hwf
  refine ⟨_, h1, e, rfl, rfl, rfl, hin, ?_, ?_⟩
  · intro p hp
    obtain ⟨b, hb, hrc, hshared, hlast⟩ := hheap p hp
    refine ⟨b, hb, hrc, ?_, ?_⟩
    · intro h2
      rw [hshared h2]
      simp [Heap.store]
    · intro h2
      rw [hlast h2]
      simp
  · exact clear_inline _ 1 h1 (by decide) (by simp)

/-- Clearing the sample heap-backed string releases its block; clearing again changes
nothing. -/
theorem string_clear_idempotent_witness :
    ∃ s1 h1, sample_heap_string.clear sample_heap = Except.ok (s1, h1) ∧
      s1.byte_count = Except.ok 0 ∧ h1.blocks 1 = none ∧ h1.freed = [1] ∧
      s1.clear h1 = Except.ok (s1, h1) := by
  obtain ⟨s1, h1, e, _, hc, _, _, hheap, e2⟩ :=
    string_clear_idempotent sample_heap_string sample_heap sample_heap_string_wellFormed
  obtain ⟨b, hb, _, _, hlast⟩ := hheap 1 rfl
  have hb1 : b = sample_block := by
    have : sample_heap.blocks 1 = some sample_block := rfl
    rw [this] at hb
    exact (Option.some.inj hb).symm
  obtain ⟨h2, h3⟩ := hlast (by rw [hb1]; rfl)
  exact ⟨s1, h1, e, hc, h2, h3, e2⟩

end String

namespace StringWorld

/-- C14. In every state a program reaches from nothing by default construction,
construction from a view, copy and move construction, copy, move and view assignment,
`clear` and destruction, every live string has `m_byte_count >= 1`, so that `byte_count()`
returns `m_byte_count - 1` without tripping its assertion, and the byte of `characters()`
at index `byte_count()` is the terminator 0. The default-constructed string, and the string
left by `clear()` on any live string, are stored inline with `byte_count() == 0`. -/
theorem string_nul_terminated (ops : List StringOp) (w : StringWorld)
    (hrun : StringWorld.empty.run ops = Except.ok w) :
    (∀ (i : Nat) (s : String), w.strings[i]? = some (some s) →
      1 ≤ s.m_byte_count ∧ s.byte_count = Except.ok (s.m_byte_count - 1) ∧
      ∃ cells, s.characters w.heap = Except.ok cells ∧
        cells[s.m_byte_count - 1]? = some (some 0)) ∧
    (String.default.is_stored_inline = true ∧ String.default.byte_count = Except.ok 0 ∧
      ∃ cells, String.default.characters w.heap = Except.ok cells ∧
        cells[0]? = some (some 0)) ∧
    (∀ (i : Nat) (s : String), w.strings[i]? = some (some s) →
      ∃ r, s.clear w.heap = Except.ok r ∧ r.1.is_stored_inline = true ∧
        r.1.byte_count = Except.ok 0 ∧
        ∃ cells, r.1.characters r.2 = Except.ok cells ∧ cells[0]? = some (some 0)) := by
  have inv := string_run_inv ops StringWorld.empty w inv_empty hrun
  refine ⟨fun i s hi => String.wellFormed_nul (inv.2 i s hi), ?_, ?_⟩
  · exact ⟨rfl, rfl, _, rfl, rfl⟩
  · intro i s hi
    obtain ⟨h1, e, _⟩ := String.clear_wellFormed (inv.2 i s hi)
    exact ⟨_, e, rfl, rfl, _, rfl, rfl⟩

/-- A program that builds a heap-backed string and an inline one, copies, moves, reassigns
and clears them: the string at position 1 ends with its terminator. -/
theorem string_nul_terminated_witness :
    ∃ w s, StringWorld.empty.run
        [StringOp.construct_view ⟨[65, 66, 67, 68, 69, 70, 71, 72, 73]⟩,
          StringOp.construct_copy 0, StringOp.construct_default,
          StringOp.assign_move 2 0, StringOp.assign_view 0 ⟨[104, 105]⟩,
          StringOp.construct_move 0, StringOp.assign_copy 0 1, StringOp.clear 2]
        = Except.ok w ∧ w.strings[1]? = some (some s) ∧
      1 ≤ s.m_byte_count ∧ s.byte_count = Except.ok (s.m_byte_count - 1) ∧
      ∃ cells, s.characters w.heap = Except.ok cells ∧
        cells[s.m_byte_count - 1]? = some (some 0) :=
  ⟨_, _, rfl, rfl, (string_nul_terminated
    [StringOp.construct_view ⟨[65, 66, 67, 68, 69, 70, 71, 72, 73]⟩,
      StringOp.construct_copy 0, StringOp.construct_default,
      StringOp.assign_move 2 0, StringOp.assign_view 0 ⟨[104, 105]⟩,
      StringOp.construct_move 0, StringOp.assign_copy 0 1, StringOp.clear 2] _ rfl).1 1 _ rfl⟩

end StringWorld
end AT

namespace AT
namespace String

/-- Moving out of a well-formed string: the destination has the count, the storage kind and,
on the `m_byte_count` bytes stored, the characters of the source; the source is left in the
canonical empty inline state. The heap `h1` in which the destination is read is any heap in
which the block of the source is still live with its characters. -/
theorem move_from_wellFormed {s : String} {h : Heap StringBlock} (h1 : Heap StringBlock)
    (init : List (Option Nat)) (hs : WellFormed s h) (hs1 : WellFormed s h1)
    (hsame : ∀ p b b1, s.storage = StringStorage.m_heap_buffer p → h.blocks p = some b →
      h1.blocks p = some b1 → b1.characters = b.characters)
    (hinit : init.length = inline_capacity) :
    ∃ d cells cells1, move_from ⟨StringStorage.m_inline_buffer init, s.m_byte_count⟩ s =
        Except.ok (d, ⟨StringStorage.m_inline_buffer (List.replicate inline_capacity (some 0)),
          1⟩) ∧
      d.m_byte_count = s.m_byte_count ∧ d.byte_count = s.byte_count ∧
      d.is_stored_inline = s.is_stored_inline ∧ d.target = s.target ∧
      s.characters h = Except.ok cells ∧ d.characters h1 = Except.ok cells1 ∧
      cells1.take s.m_byte_count = cells.take s.m_byte_count ∧
      cells1[s.m_byte_count - 1]? = some (some 0) := by
  obtain ⟨storage, n⟩ := s
  cases storage with
  | m_inline_buffer cells =>
    obtain ⟨hpos, hn, hlen, hnul⟩ := hs
    have hn0 : n ≤ inline_capacity := hn
    have hpos0 : 0 < n := hpos
    have hnul0 : cells[n - 1]? = some (some 0) := hnul
    refine ⟨_, cells, cells.take n ++ init.drop n, move_from_inline init cells n hn hlen hinit,
      rfl, rfl, rfl, rfl, ?_, ?_, ?_, ?_⟩
    · simp [characters, is_stored_inline, hn0, m_inline_buffer]
    · simp [characters, is_stored_inline, hn0, m_inline_buffer]
    · show (cells.take n ++ init.drop n).take n = cells.take n
      have hl : (cells.take n).length = n := by
        rw [List.length_take]
        omega
      rw [List.take_append_of_le_length (by omega)]
      simp
    · show (cells.take n ++ init.drop n)[n - 1]? = some (some 0)
      have hl : (cells.take n).length = n := by
        rw [List.length_take]
        omega
      rw [List.getElem?_append_left (by omega), List.getElem?_take_of_lt (by omega)]
      exact hnul0
  | m_heap_buffer p =>
    obtain ⟨hpos, hn, _, b, hb, _, _, hnul⟩ := hs
    obtain ⟨_, _, _, b1, hb1, _, _, hnul1⟩ := hs1
    have hn0 : inline_capacity < n := hn
    have hn1 : ¬ n ≤ inline_capacity := by omega
    have hch := hsame p b b1 rfl hb hb1
    refine ⟨_, b.characters, b1.characters, move_from_heap init p n hn, rfl, rfl, rfl, rfl,
      ?_, ?_, by rw [hch], hnul1⟩
    · simp [characters, is_stored_inline, hn1, heap_buffer_characters, m_heap_buffer, hb]
    · simp [characters, is_stored_inline, hn1, heap_buffer_characters, m_heap_buffer, hb1]

end String

namespace StringWorld

/-- C11. Let `s` be a live string of a reachable program state. Move-constructing `d` from
`s` returns: `d` has the `byte_count()` and, on the `byte_count() + 1` bytes stored, the
`characters()` that `s` had, with the same storage kind and, when heap-backed, the same
block; `s` is left in the canonical empty inline state (`m_byte_count == 1`, the eight
inline bytes zero, `byte_count() == 0`, stored inline). The move constructor does not take
part in the heap: the reference count of the block is what it was. Move-assigning `s` to a
distinct live string `d0` returns with the same outcome for the destination and for `s`,
read in the heap left by the release of the previous storage of `d0`. -/
theorem string_move_leaves_empty (ops : List StringOp) (w : StringWorld) (j : Nat) (s : String)
    (hrun : StringWorld.empty.run ops = Except.ok w) (hj : w.strings[j]? = some (some s)) :
    (∃ d s1 cells cells1, String.move_construct s = Except.ok (d, s1) ∧
      d.byte_count = s.byte_count ∧ d.is_stored_inline = s.is_stored_inline ∧
      d.target = s.target ∧
      s.characters w.heap = Except.ok cells ∧ d.characters w.heap = Except.ok cells1 ∧
      cells1.take s.m_byte_count = cells.take s.m_byte_count ∧
      cells1[s.m_byte_count - 1]? = some (some 0) ∧
      s1 = ⟨StringStorage.m_inline_buffer (List.replicate String.inline_capacity (some 0)),
        1⟩ ∧
      s1.byte_count = Except.ok 0 ∧ s1.is_stored_inline = true ∧
      s1.characters w.heap = Except.ok (List.replicate String.inline_capacity (some 0))) ∧
    (∀ (i : Nat) (d0 : String), i ≠ j → w.strings[i]? = some (some d0) →
      ∃ d s1 h1 cells cells1, String.move_assign d0 s w.heap = Except.ok ((d, s1), h1) ∧
        d.byte_count = s.byte_count ∧ d.is_stored_inline = s.is_stored_inline ∧
        d.target = s.target ∧
        s.characters w.heap = Except.ok cells ∧ d.characters h1 = Except.ok cells1 ∧
        cells1.take s.m_byte_count = cells.take s.m_byte_count ∧
        cells1[s.m_byte_count - 1]? = some (some 0) ∧
        s1 = ⟨StringStorage.m_inline_buffer (List.replicate String.inline_capacity (some 0)),
          1⟩ ∧
        s1.byte_count = Except.ok 0 ∧ s1.is_stored_inline = true ∧
        s1.characters h1 = Except.ok (List.replicate String.inline_capacity (some 0))) := by
  have inv := string_run_inv ops StringWorld.empty w inv_empty hrun
  have hs := inv.2 j s hj
  constructor
  · obtain ⟨d, cells, cells1, e, _, h2, h3, h4, h5, h6, h7, h8⟩ :=
      String.move_from_wellFormed w.heap (List.replicate String.inline_capacity none) hs hs
        (by
          intro p b b1 _ hb hb1
          rw [hb] at hb1
          cases hb1
          rfl)
        (by simp)
    exact ⟨d, _, cells, cells1, e, h2, h3, h4, h5, h6, h7, h8, rfl, rfl, rfl, rfl⟩
  · intro i d0 hij hi
    obtain ⟨h1, ec, _, _⟩ := String.clear_wellFormed (inv.2 i d0 hi)
    obtain ⟨_, inv1, hev⟩ := inv.clear_at hi ec
    have hj1 : (w.strings.set i (some (⟨StringStorage.m_inline_buffer
        (List.replicate String.inline_capacity (some 0)), 1⟩ : String)))[j]?
        = some (some s) := by
      rw [List.getElem?_set_ne hij]
      exact hj
    have hs1 : s.WellFormed h1 := inv1.2 j s hj1
    obtain ⟨d, cells, cells1, e, _, h2, h3, h4, h5, h6, h7, h8⟩ :=
      String.move_from_wellFormed h1 (List.replicate String.inline_capacity (some 0)) hs hs1
        (by
          intro p b b1 _ hb hb1
          rcases hev.2 p b1 hb1 with ⟨b0, hb0, hch⟩ | hnew
          · rw [hb] at hb0
            cases hb0
            exact hch
          · have := (inv.1.2.1 p b hb).2.2
            omega)
        (by simp)
    refine ⟨d, _, h1, cells, cells1, ?_, h2, h3, h4, h5, h6, h7, h8, rfl, rfl, rfl, rfl⟩
    unfold String.move_assign
    rw [ec]
    simp only [ok_bind]
    rw [e]
    rfl

/-- A heap-backed string is built from a view of nine bytes, next to a default-constructed
one; it is moved from, by construction and by assignment to the other string. -/
theorem string_move_leaves_empty_witness :
    ∃ w s, StringWorld.empty.run
        [StringOp.construct_view ⟨[65, 66, 67, 68, 69, 70, 71, 72, 73]⟩,
          StringOp.construct_default] = Except.ok w ∧
      w.strings[0]? = some (some s) ∧
      (∃ d s1, String.move_construct s = Except.ok (d, s1) ∧ d.byte_count = s.byte_count ∧
        s1.byte_count = Except.ok 0 ∧ s1.is_stored_inline = true) ∧
      (∃ d0 d s1 h1, w.strings[1]? = some (some d0) ∧
        String.move_assign d0 s w.heap = Except.ok ((d, s1), h1) ∧
        d.byte_count = s.byte_count ∧ s1.byte_count = Except.ok 0) := by
  have h := string_move_leaves_empty
    [StringOp.construct_view ⟨[65, 66, 67, 68, 69, 70, 71, 72, 73]⟩,
      StringOp.construct_default] _ 0 _ rfl rfl
  obtain ⟨d, s1, _, _, e, h1, _, _, _, _, _, _, _, h2, h3, _⟩ := h.1
  obtain ⟨d2, s2, h4, _, _, e2, h5, _, _, _, _, _, _, _, h6, _⟩ :=
    h.2 1 String.default (by decide) rfl
  exact ⟨_, _, rfl, rfl, ⟨d, s1, e, h1, h2, h3⟩, ⟨String.default, d2, s2, h4, rfl, e2, h5, h6⟩⟩

end StringWorld
end AT

namespace AT
namespace String

/-- On the heap path the view body never reads the inline bytes it started from. -/
theorem fill_from_view_heap_init (init1 init2 : List (Option Nat)) (n : Nat) (v : StringView)
    (h : Heap StringBlock) (hn : ¬ n ≤ inline_capacity) :
    fill_from_view ⟨StringStorage.m_inline_buffer init1, n⟩ v h =
      fill_from_view ⟨StringStorage.m_inline_buffer init2, n⟩ v h := by
  unfold fill_from_view
  simp only [is_stored_inline, hn, decide_False, Bool.not_false, if_true]

/-- The view body, started from any inline buffer, when the allocation size is
representable: the string built, its characters and what happened to the heap. -/
theorem fill_from_view_contents (init : List (Option Nat)) (v : StringView)
    (h : Heap StringBlock) (hinit : init.length = inline_capacity)
    (hfit : sizeof_HeapBufferHeader + (v.byte_count + 1) < usize_limit) :
    ∃ s h1 cells,
      fill_from_view ⟨StringStorage.m_inline_buffer init, usize (v.byte_count + 1)⟩ v h
        = Except.ok (s, h1) ∧
      s.byte_count = Except.ok v.byte_count ∧
      s.is_stored_inline = decide (v.byte_count + 1 ≤ inline_capacity) ∧
      s.characters h1 = Except.ok cells ∧
      cells.take v.byte_count = v.characters ∧
      cells[v.byte_count]? = some (some 0) ∧
      h1.freed = h.freed ∧
      (∀ q, q ≠ h.allocations + 1 → h1.blocks q = h.blocks q) ∧
      (v.byte_count + 1 ≤ inline_capacity → h1 = h) ∧
      (inline_capacity < v.byte_count + 1 →
        s.storage = StringStorage.m_heap_buffer (h.allocations + 1) ∧
        h1.allocations = h.allocations + 1 ∧
        h1.blocks (h.allocations + 1) = some ⟨1, cells⟩) := by
  have hlim : usize (v.byte_count + 1) = v.byte_count + 1 :=
    usize_of_lt (by simp only [sizeof_HeapBufferHeader] at hfit; omega)
  have hchars : v.characters.length = v.byte_count := by
    simp [StringView.characters, StringView.byte_count]
  rw [hlim]
  by_cases hsmall : v.byte_count + 1 ≤ inline_capacity
  · have e := fill_from_view_inline init v h hinit hsmall
    refine ⟨_, _, (v.characters ++ List.drop v.byte_count init).set v.byte_count (some 0),
      e, ?_, ?_, ?_, ?_, ?_, rfl, fun _ _ => rfl, fun _ => rfl, ?_⟩
    · simp [byte_count]
    · simp [is_stored_inline, hsmall]
    · simp [characters, is_stored_inline, hsmall, m_inline_buffer]
    · rw [take_set_self, List.take_append_of_le_length (by omega), ← hchars, List.take_length]
    · rw [List.getElem?_set]
      simp only [if_true, List.length_append, List.length_drop, hinit, hchars]
      simp only [inline_capacity] at hsmall ⊢
      rw [if_pos (by omega)]
    · intro hbig
      omega
  · obtain ⟨⟨s, h1⟩, e, hs, hblock, halloc, hfreed, hothers⟩ :=
      fill_from_view_heap init v h (by omega) hfit
    simp only at hs hblock halloc hfreed hothers
    refine ⟨s, h1, v.characters ++ [some 0], e, ?_, ?_, ?_, ?_, ?_, hfreed, hothers, ?_, ?_⟩
    · simp [hs, byte_count]
    · simp [hs, is_stored_inline, hsmall]
    · simp [hs, characters, is_stored_inline, hsmall, heap_buffer_characters, m_heap_buffer,
        hblock]
    · rw [List.take_append_of_le_length (by omega), ← hchars, List.take_length]
    · rw [List.getElem?_append_right (by omega)]
      simp [hchars]
    · intro hle
      exact absurd hle hsmall
    · intro _
      exact ⟨by rw [hs], halloc, hblock⟩

end String
end AT

namespace AT
namespace String

/-- C13. Assignment of a view `v` to a well-formed string `s` first releases the storage of
`s` exactly as `clear()` does, giving a heap `h1` (the heap as it was for an inline `s`;
for a heap-backed `s` the count of its block lowered by one, the block being released
exactly when that count was one), and then behaves as the construction `String(v)` run on
`h1`: the assignment returns exactly when the construction does, namely when the allocation
size is representable, and then both yield the same heap and strings with the same
`byte_count()`, the same inline or heap storage kind, and the same characters up to and
including the terminator; when heap-backed the two strings are equal and point to the
block just handed out, whose reference count is one. The bytes of a view are held by the
view itself in this model, so they are never inside the buffer of `s`. -/
theorem string_view_assign_as_construction (s : String) (v : StringView)
    (h : Heap StringBlock) (hwf : WellFormed s h) :
    ∃ s0 h1, s.clear h = Except.ok (s0, h1) ∧
      (∀ cells, s.storage = StringStorage.m_inline_buffer cells → h1 = h) ∧
      (∀ p, s.storage = StringStorage.m_heap_buffer p →
        ∃ block, h.blocks p = some block ∧ 0 < block.reference_count ∧
          (1 < block.reference_count →
            h1.blocks p = some ⟨block.reference_count - 1, block.characters⟩ ∧
            h1.freed = h.freed) ∧
          (block.reference_count = 1 → h1.blocks p = none ∧ h1.freed = p :: h.freed)) ∧
      ((∃ r, view_assign s v h = Except.ok r) ↔ (∃ r, from_view v h1 = Except.ok r)) ∧
      ((∃ r, view_assign s v h = Except.ok r) ↔
        sizeof_HeapBufferHeader + (v.byte_count + 1) < usize_limit) ∧
      (∀ a h2, view_assign s v h = Except.ok (a, h2) →
        ∃ c cells1 cells2, from_view v h1 = Except.ok (c, h2) ∧
          a.byte_count = Except.ok v.byte_count ∧ c.byte_count = Except.ok v.byte_count ∧
          a.is_stored_inline = c.is_stored_inline ∧
          a.characters h2 = Except.ok cells1 ∧ c.characters h2 = Except.ok cells2 ∧
          cells1.take v.byte_count = v.characters ∧ cells2.take v.byte_count = v.characters ∧
          cells1[v.byte_count]? = some (some 0) ∧ cells2[v.byte_count]? = some (some 0) ∧
          h2.freed = h1.freed ∧
          (∀ q, q ≠ h1.allocations + 1 → h2.blocks q = h1.blocks q) ∧
          (a.is_stored_inline = true → h2 = h1) ∧
          (a.is_stored_inline = false →
            a = c ∧ a.storage = StringStorage.m_heap_buffer (h1.allocations + 1) ∧
            h2.allocations = h1.allocations + 1 ∧
            h2.blocks (h1.allocations + 1) = some ⟨1, cells1⟩)) := by
  obtain ⟨h1, ec, hin, hheap⟩ := clear_wellFormed hwf
  have hassign : view_assign s v h =
      fill_from_view ⟨StringStorage.m_inline_buffer (List.replicate inline_capacity (some 0)),
        usize (v.byte_count + 1)⟩ v h1 := by
    unfold view_assign
    rw [ec]
    rfl
  have hzeros : (List.replicate inline_capacity (some (0 : Nat))).length = inline_capacity :=
    List.length_replicate _ _
  have hnones : (List.replicate inline_capacity (none : Option Nat)).length = inline_capacity :=
    List.length_replicate _ _
  have hiff1 : (∃ r, view_assign s v h = Except.ok r) ↔
      sizeof_HeapBufferHeader + (v.byte_count + 1) < usize_limit := by
    rw [hassign]
    constructor
    · rintro ⟨r, e⟩
      exact fill_from_view_fits hzeros e
    · intro hfit
      obtain ⟨a, h2, _, e, _⟩ := fill_from_view_contents _ v h1 hzeros hfit
      exact ⟨_, e⟩
  have hiff2 : (∃ r, from_view v h1 = Except.ok r) ↔
      sizeof_HeapBufferHeader + (v.byte_count + 1) < usize_limit := by
    unfold from_view
    constructor
    · rintro ⟨r, e⟩
      exact fill_from_view_fits hnones e
    · intro hfit
      obtain ⟨a, h2, _, e, _⟩ := fill_from_view_contents _ v h1 hnones hfit
      exact ⟨_, e⟩
  refine ⟨_, h1, ec, hin, ?_, hiff1.trans hiff2.symm, hiff1, ?_⟩
  · intro p hp
    obtain ⟨b, hb, hrc, hshared, hlast⟩ := hheap p hp
    refine ⟨b, hb, hrc, ?_, ?_⟩
    · intro h2
      rw [hshared h2]
      simp [Heap.store]
    · intro h2
      rw [hlast h2]
      simp
  · intro a h2 e
    have hfit := hiff1.mp ⟨_, e⟩
    rw [hassign] at e
    obtain ⟨a1, g1, cells1, e1, a2, a3, a4, a5, a6, a7, a8, a9, a10⟩ :=
      fill_from_view_contents _ v h1 hzeros hfit
    obtain ⟨c, g2, cells2, e2, c2, c3, c4, c5, c6, c7, c8, c9, c10⟩ :=
      fill_from_view_contents _ v h1 hnones hfit
    rw [e1] at e
    simp only [Except.ok.injEq, Prod.mk.injEq] at e
    obtain ⟨ea, eh⟩ := e
    subst ea
    subst eh
    by_cases hsmall : v.byte_count + 1 ≤ inline_capacity
    · have hg : g2 = g1 := (c9 hsmall).trans (a9 hsmall).symm
      subst hg
      refine ⟨c, cells1, cells2, e2, a2, c2, by rw [a3, c3], a4, c4, a5, c5, a6, c6, a7, a8,
        fun _ => a9 hsmall, ?_⟩
      intro hne
      rw [a3] at hne
      simp [hsmall] at hne
    · have hlim : usize (v.byte_count + 1) = v.byte_count + 1 :=
        usize_of_lt (by simp only [sizeof_HeapBufferHeader] at hfit; omega)
      have hsame := fill_from_view_heap_init (List.replicate inline_capacity (some 0))
        (List.replicate inline_capacity none) (usize (v.byte_count + 1)) v h1
        (by rw [hlim]; exact hsmall)
      rw [e1, e2] at hsame
      simp only [Except.ok.injEq, Prod.mk.injEq] at hsame
      obtain ⟨hac, hgg⟩ := hsame
      subst hac
      subst hgg
      have hcells : cells2 = cells1 := by
        rw [a4] at c4
        exact (Except.ok.inj c4).symm
      subst hcells
      obtain ⟨b1, b2, b3⟩ := a10 (by omega)
      refine ⟨a1, cells2, cells2, e2, a2, a2, rfl, a4, a4, a5, a5, a6, a6, a7, a8, ?_, ?_⟩
      · intro hin1
        rw [a3] at hin1
        simp [hsmall] at hin1
      · intro _
        exact ⟨rfl, b1, b2, b3⟩

/-- The sample heap-backed string, sole owner of its block, is assigned a view of nine
bytes: the old block is released and a new block is handed out. -/
theorem string_view_assign_as_construction_witness :
    ∃ s0 h1 a h2 c, sample_heap_string.clear sample_heap = Except.ok (s0, h1) ∧
      h1.blocks 1 = none ∧ h1.freed = [1] ∧
      view_assign sample_heap_string ⟨[97, 98, 99, 100, 101, 102, 103, 104, 105]⟩ sample_heap
        = Except.ok (a, h2) ∧
      from_view ⟨[97, 98, 99, 100, 101, 102, 103, 104, 105]⟩ h1 = Except.ok (c, h2) ∧
      a = c ∧ a.byte_count = Except.ok 9 := by
  obtain ⟨s0, h1, ec, _, hheap, _, hiff, hres⟩ :=
    string_view_assign_as_construction sample_heap_string
      ⟨[97, 98, 99, 100, 101, 102, 103, 104, 105]⟩ sample_heap sample_heap_string_wellFormed
  obtain ⟨b, hb, _, _, hlast⟩ := hheap 1 rfl
  have hb1 : b = sample_block := by
    have : sample_heap.blocks 1 = some sample_block := rfl
    rw [this] at hb
    exact (Option.some.inj hb).symm
  obtain ⟨hfree1, hfree2⟩ := hlast (by rw [hb1]; rfl)
  obtain ⟨⟨a, h2⟩, e⟩ := hiff.mpr (by decide)
  obtain ⟨c, _, _, e2, ha, _, hkind, _, _, _, _, _, _, _, _, _, hheap2⟩ := hres a h2 e
  have hnot : a.is_stored_inline = false := by
    cases hk : a.is_stored_inline with
    | false => rfl
    | true =>
      exfalso
      have h9 : a.m_byte_count - 1 = 9 := by
        unfold byte_count at ha
        by_cases hp : a.m_byte_count > 0
        · simp only [hp, decide_True, VERIFY_true, ok_bind, Except.ok.injEq] at ha
          exact ha
        · simp [hp] at ha
      simp only [is_stored_inline, decide_eq_true_eq, inline_capacity] at hk
      omega
  exact ⟨s0, h1, a, h2, c, ec, hfree1, hfree2, e, e2, (hheap2 hnot).1, ha⟩

end String
end AT

namespace AT
namespace Vector

variable {T : Type}

/-- On a well-formed vector `clear_and_shrink` returns: every element is finalized once, in
order, the storage block is released and the vector is left without storage. -/
theorem clear_and_shrink_rep {v : Vector} {m : ElementMemory T} {xs : List T}
    (hv : Rep v m xs) :
    Returns (clear_and_shrink v m) (fun r =>
      r.1 = ⟨0, 0, 0⟩ ∧ r.2.finalized = xs.reverse ++ m.finalized ∧
      r.2.heap.allocations = m.heap.allocations ∧
      (v.m_elements ≠ 0 → r.2.heap.blocks v.m_elements = none ∧
        r.2.heap.freed = v.m_elements :: m.heap.freed) ∧
      (v.m_elements = 0 → r.2.heap.freed = m.heap.freed) ∧
      (∀ q, q ≠ v.m_elements → r.2.heap.blocks q = m.heap.blocks q)) := by
  unfold clear_and_shrink
  rw [returns_bind]
  refine (clear_rep hv).imp ?_
  rintro ⟨v1, m1⟩ ⟨hv1, hrep, hfin, hall, hfr, hoth, _⟩
  simp only at hv1 hrep hfin hall hfr hoth
  subst hv1
  by_cases hnull : v.m_elements = 0
  · have e : free_memory m1 (⟨v.m_elements, v.m_capacity, 0⟩ : Vector).m_elements
        (⟨v.m_elements, v.m_capacity, 0⟩ : Vector).m_capacity = Except.ok m1 := by
      simp [free_memory, Heap.operator_delete, hnull]
    rw [e]
    refine (returns_ok _ _).mpr ⟨rfl, hfin, hall, fun h => absurd hnull h, fun _ => hfr, hoth⟩
  · obtain ⟨_, _, _, hst⟩ := hrep
    rcases hst with ⟨h0, _⟩ | ⟨_, slots, hb, _, _⟩
    · exact absurd h0 hnull
    · have hb1 : m1.heap.blocks v.m_elements = some slots := hb
      have e : free_memory m1 (⟨v.m_elements, v.m_capacity, 0⟩ : Vector).m_elements
          (⟨v.m_elements, v.m_capacity, 0⟩ : Vector).m_capacity = Except.ok
            { m1 with heap := ⟨fun q => if q = v.m_elements then none else m1.heap.blocks q,
              m1.heap.allocations, v.m_elements :: m1.heap.freed⟩ } := by
        simp [free_memory, Heap.operator_delete, hnull, hb1]
      rw [e]
      refine (returns_ok _ _).mpr ⟨rfl, hfin, hall, fun _ => ⟨by simp, by simp [hfr]⟩,
        fun h => absurd h hnull, ?_⟩
      intro q hq
      simp only [hq, if_false]
      exact hoth q hq

/-- C21. On every well-formed vector holding the elements `xs`: `clear()` returns, runs the
destructor once on each element of `xs` and on nothing else (the log of finalized values
gains exactly `xs`, in order), sets `count()` to 0 and leaves `capacity()`, the storage
pointer and the allocator unchanged, the storage block staying allocated with its
`capacity()` slots; `clear_and_shrink()` returns, finalizes the same elements once each,
releases the storage block (once, when there is one) and leaves `count() == 0`,
`capacity() == 0` and `elements()` null. No other block is touched by either. -/
theorem vector_clear_frame (v : Vector) (m : ElementMemory T) (xs : List T)
    (hv : Rep v m xs) :
    (∃ r, clear v m = Except.ok r ∧
      r.1.count = 0 ∧ r.1.capacity = v.capacity ∧ r.1.m_elements = v.m_elements ∧
      r.2.finalized = xs.reverse ++ m.finalized ∧
      r.2.heap.allocations = m.heap.allocations ∧ r.2.heap.freed = m.heap.freed ∧
      (∀ q, q ≠ v.m_elements → r.2.heap.blocks q = m.heap.blocks q) ∧
      (v.m_elements ≠ 0 →
        ∃ slots, r.2.heap.blocks v.m_elements = some slots ∧ slots.length = v.capacity) ∧
      Rep r.1 r.2 []) ∧
    (∃ r, clear_and_shrink v m = Except.ok r ∧
      r.1.count = 0 ∧ r.1.capacity = 0 ∧ r.1.m_elements = 0 ∧
      r.2.finalized = xs.reverse ++ m.finalized ∧
      r.2.heap.allocations = m.heap.allocations ∧
      (v.m_elements ≠ 0 → r.2.heap.blocks v.m_elements = none ∧
        r.2.heap.freed = v.m_elements :: m.heap.freed) ∧
      (v.m_elements = 0 → r.2.heap.freed = m.heap.freed) ∧
      (∀ q, q ≠ v.m_elements → r.2.heap.blocks q = m.heap.blocks q)) := by
  constructor
  · obtain ⟨r, e, h1, h2, h3, h4, h5, h6, h7⟩ := clear_rep hv
    refine ⟨r, e, by rw [h1]; rfl, by rw [h1]; rfl, by rw [h1], h3, h4, h5, h6, ?_, h2⟩
    intro hnn
    rcases hv.2.2.2 with ⟨h0, _⟩ | ⟨_, slots, hb, hlen, _⟩
    · exact absurd h0 hnn
    · obtain ⟨slots1, hb1, hlen1, _, _⟩ := h7 slots hb
      exact ⟨slots1, hb1, by rw [hlen1, hlen]; rfl⟩
  · obtain ⟨r, e, h1, h2, h3, h4, h5, h6⟩ := clear_and_shrink_rep hv
    exact ⟨r, e, by rw [h1]; rfl, by rw [h1]; rfl, by rw [h1], h2, h3, h4, h5, h6⟩

/-- The sample vector `[10, 20]` is cleared, or cleared and shrunk. -/
theorem vector_clear_frame_witness :
    (∃ r, clear sample_vector sample_memory = Except.ok r ∧ r.1.count = 0 ∧
      r.1.capacity = 3 ∧ r.1.m_elements = 1 ∧ r.2.finalized = [20, 10] ∧
      r.2.heap.freed = []) ∧
    (∃ r, clear_and_shrink sample_vector sample_memory = Except.ok r ∧ r.1.count = 0 ∧
      r.1.capacity = 0 ∧ r.1.m_elements = 0 ∧ r.2.finalized = [20, 10] ∧
      r.2.heap.freed = [1]) := by
  have h := vector_clear_frame sample_vector sample_memory [10, 20] sample_vector_rep
  obtain ⟨⟨r, e, h1, h2, h3, h4, _, h5, _⟩, ⟨r2, e2, g1, g2, g3, g4, _, g5, _⟩⟩ := h
  exact ⟨⟨r, e, h1, h2, h3, h4, h5⟩, ⟨r2, e2, g1, g2, g3, g4, (g5 (by decide)).2⟩⟩

end Vector
end AT

namespace AT
namespace ByteBuffer

theorem sample_byte_buffer_wellFormed : WellFormed sample_byte_buffer sample_byte_heap := by
  refine ⟨Or.inr ⟨by decide, by decide, [some 1, some 2, some 3, some 4], rfl, rfl⟩, ?_⟩
  constructor <;> intro h <;> cases h

theorem region_of_backed {b : ByteBuffer} {h : Heap (List (Option Nat))} (hb : Backed b h) :
    (region h b.m_bytes).length = b.m_byte_count := by
  rcases hb with ⟨h0, h1⟩ | ⟨hn, _, stored, hs, hlen⟩
  · simp [region, h0, h1]
  · simp [region, hn, hs, hlen]

/-- A resize to a different byte count, on a backed buffer that passes the assertion of
`free`: the new block holds the first `min(m, n)` bytes of the old one followed by
indeterminate bytes, the old block is released, nothing else changes. -/
theorem set_byte_count_backed {b : ByteBuffer} {h : Heap (List (Option Nat))} {n : Nat}
    (hb : Backed b h) (hne : b.m_byte_count ≠ n) (hfree : b.m_bytes ≠ 0 → 0 < b.m_byte_count) :
    Returns (set_byte_count b h n) (fun r =>
      r.1 = ⟨h.allocations + 1, n⟩ ∧
      r.2.blocks (h.allocations + 1) = some ((region h b.m_bytes).take (min b.m_byte_count n)
        ++ List.replicate (n - min b.m_byte_count n) none) ∧
      r.2.allocations = h.allocations + 1 ∧
      (b.m_bytes ≠ 0 → r.2.blocks b.m_bytes = none ∧ r.2.freed = b.m_bytes :: h.freed) ∧
      (b.m_bytes = 0 → r.2.freed = h.freed) ∧
      (∀ q, q ≠ h.allocations + 1 → q ≠ b.m_bytes → r.2.blocks q = h.blocks q)) := by
  have hlen := region_of_backed hb
  have hk : (if b.m_byte_count > n then n else b.m_byte_count) = min b.m_byte_count n := by
    split <;> omega
  have hnew : region (h.operator_new (List.replicate n none)).2
      (h.operator_new (List.replicate n none)).1 = List.replicate n none := by
    simp [region, Heap.operator_new]
  have hold : region (h.operator_new (List.replicate n none)).2 b.m_bytes
      = region h b.m_bytes := by
    rcases hb with ⟨h0, _⟩ | ⟨hn, hle, _⟩
    · simp [region, h0]
    · have : b.m_bytes ≠ h.allocations + 1 := by omega
      simp [region, Heap.operator_new, hn, this]
  have hcopy := copy_memory_spec (List.replicate n none) (region h b.m_bytes)
    (min b.m_byte_count n) (by rw [hlen]; omega) (by simp)
  have hdrop : (List.replicate n (none : Option Nat)).drop (min b.m_byte_count n)
      = List.replicate (n - min b.m_byte_count n) none := by
    simp
  rw [hdrop] at hcopy
  unfold set_byte_count
  rw [if_neg hne]
  simp only [hk, hnew, hold, hcopy, ok_bind]
  by_cases hnull : b.m_bytes = 0
  · simp only [free, hnull, ne_eq, not_true_eq_false, if_false, ok_bind, returns_ok]
    refine ⟨by simp [Heap.operator_new], by simp [Heap.operator_new, Heap.store],
      by simp [Heap.operator_new, Heap.store], fun h0 => h0.elim, fun _ => by
        simp [Heap.operator_new, Heap.store], ?_⟩
    intro q hq _
    simp [Heap.operator_new, Heap.store, hq]
  · have hpos := hfree hnull
    rcases hb with ⟨h0, _⟩ | ⟨_, hle, stored, hs, _⟩
    · exact absurd h0 hnull
    · have hfresh : b.m_bytes ≠ h.allocations + 1 := by omega
      simp only [free, hnull, ne_eq, not_false_eq_true, if_true, hpos, decide_True,
        VERIFY_true, ok_bind, Heap.operator_delete, if_false, Heap.store, Heap.operator_new,
        hfresh, hs, returns_ok]
      refine ⟨trivial, by simp [Ne.symm hfresh], trivial, fun _ => ⟨by simp, trivial⟩,
        fun h0 => h0.elim, ?_⟩
      intro q hq hq2
      simp [hq, hq2]

/-- A resize to a different byte count of a non-null buffer whose byte count is zero fails
on the assertion of `free`. -/
theorem set_byte_count_of_empty_block {b : ByteBuffer} {h : Heap (List (Option Nat))} {n : Nat}
    (hnn : b.m_bytes ≠ 0) (hzero : b.m_byte_count = 0) (hne : n ≠ 0) :
    set_byte_count b h n = Except.error Fault.contract_violation := by
  unfold set_byte_count
  rw [if_neg (by omega)]
  simp [hzero, copy_memory, copy_memory_loop, free, hnn]

end ByteBuffer
end AT

namespace AT
namespace ByteBuffer

/-- What a resize that returned did, on a backed buffer. -/
theorem set_byte_count_ok {b : ByteBuffer} {h : Heap (List (Option Nat))} {n : Nat}
    {r : ByteBuffer × Heap (List (Option Nat))} (hb : Backed b h)
    (e : set_byte_count b h n = Except.ok r) :
    r.1.byte_count = n ∧ (region r.2 r.1.bytes).length = n ∧
      (∀ i, i < min b.byte_count n → (region r.2 r.1.bytes)[i]? = (region h b.bytes)[i]?) ∧
      (b.m_byte_count = n → r = (b, h)) ∧
      (b.m_byte_count ≠ n → r.1.bytes = h.allocations + 1) := by
  by_cases hsame : b.m_byte_count = n
  · have e1 : set_byte_count b h n = Except.ok (b, h) := by
      unfold set_byte_count
      rw [if_pos hsame]
    rw [e1] at e
    simp only [Except.ok.injEq] at e
    subst e
    exact ⟨hsame, by rw [← hsame]; exact region_of_backed hb, fun _ _ => rfl, fun _ => rfl,
      fun h1 => absurd hsame h1⟩
  · have hfree : b.m_bytes ≠ 0 → 0 < b.m_byte_count := by
      intro hnn
      by_contra h0
      rw [set_byte_count_of_empty_block hnn (by omega) (by omega)] at e
      cases e
    obtain ⟨r1, e1, h1, h2, _⟩ := set_byte_count_backed hb hsame hfree
    rw [e1] at e
    simp only [Except.ok.injEq] at e
    subst e
    have hreg : region r1.2 r1.1.bytes = (region h b.m_bytes).take (min b.m_byte_count n)
        ++ List.replicate (n - min b.m_byte_count n) none := by
      simp [region, bytes, h1, h2]
    have hlen := region_of_backed hb
    refine ⟨by rw [h1]; rfl, ?_, ?_, fun h0 => absurd h0 hsame, fun _ => by rw [h1]; rfl⟩
    · rw [hreg]
      simp only [List.length_append, List.length_take, List.length_replicate, hlen]
      omega
    · intro i hi
      have hi1 : i < min b.m_byte_count n := hi
      rw [hreg, List.getElem?_append_left (by simp [hlen]; omega),
        List.getElem?_take_of_lt hi1]
      rfl

/-- On a well-formed buffer every resize returns. -/
theorem set_byte_count_returns {b : ByteBuffer} {h : Heap (List (Option Nat))} (n : Nat)
    (hw : WellFormed b h) : ∃ r, set_byte_count b h n = Except.ok r := by
  by_cases hsame : b.m_byte_count = n
  · exact ⟨(b, h), by unfold set_byte_count; rw [if_pos hsame]⟩
  · have hfree : b.m_bytes ≠ 0 → 0 < b.m_byte_count := by
      intro hnn
      have := hw.2
      by_contra h0
      exact hnn (this.mpr (by omega))
    obtain ⟨r, e, _⟩ := set_byte_count_backed hw.1 hsame hfree
    exact ⟨r, e⟩

theorem expand_eq {b : ByteBuffer} {h : Heap (List (Option Nat))} {n : Nat}
    (hn : n ≥ b.m_byte_count) : expand b h n = set_byte_count b h n := by
  simp [expand, hn]

theorem expand_fails {b : ByteBuffer} {h : Heap (List (Option Nat))} {n : Nat}
    (hn : n < b.m_byte_count) : expand b h n = Except.error Fault.contract_violation := by
  have : ¬ n ≥ b.m_byte_count := by omega
  simp [expand, this]

theorem shrink_eq {b : ByteBuffer} {h : Heap (List (Option Nat))} {n : Nat}
    (hn : n ≤ b.m_byte_count) : shrink b h n = set_byte_count b h n := by
  simp [shrink, hn]

theorem shrink_fails {b : ByteBuffer} {h : Heap (List (Option Nat))} {n : Nat}
    (hn : b.m_byte_count < n) : shrink b h n = Except.error Fault.contract_violation := by
  have : ¬ n ≤ b.m_byte_count := by omega
  simp [shrink, this]

/-- C22. For every backed buffer with byte count `m` and every `n`: whenever
`set_byte_count(n)` returns, and therefore whenever `expand(n)` or `shrink(n)`, which call
it after their assertion, returns, `byte_count()` is `n`, the buffer has `n` accessible
bytes, and at every position below `min(m, n)` the byte is the one the buffer held there
before the call. `expand(n)` returns only when `n >= m`, `shrink(n)` only when `n <= m`.
On a well-formed buffer the resize does return. -/
theorem bytebuffer_resize_keeps_prefix (b : ByteBuffer) (h : Heap (List (Option Nat)))
    (n : Nat) (hb : Backed b h) :
    (∀ r, set_byte_count b h n = Except.ok r ∨ expand b h n = Except.ok r ∨
        shrink b h n = Except.ok r →
      r.1.byte_count = n ∧ (region r.2 r.1.bytes).length = n ∧
      ∀ i, i < min b.byte_count n → (region r.2 r.1.bytes)[i]? = (region h b.bytes)[i]?) ∧
    (∀ r, expand b h n = Except.ok r → n ≥ b.byte_count) ∧
    (∀ r, shrink b h n = Except.ok r → n ≤ b.byte_count) ∧
    (WellFormed b h →
      (∃ r, set_byte_count b h n = Except.ok r) ∧
      (n ≥ b.byte_count → ∃ r, expand b h n = Except.ok r) ∧
      (n ≤ b.byte_count → ∃ r, shrink b h n = Except.ok r)) := by
  have hexp : ∀ r, expand b h n = Except.ok r →
      n ≥ b.m_byte_count ∧ set_byte_count b h n = Except.ok r := by
    intro r e
    by_cases hn : n ≥ b.m_byte_count
    · rw [expand_eq hn] at e
      exact ⟨hn, e⟩
    · rw [expand_fails (by omega)] at e
      cases e
  have hshr : ∀ r, shrink b h n = Except.ok r →
      n ≤ b.m_byte_count ∧ set_byte_count b h n = Except.ok r := by
    intro r e
    by_cases hn : n ≤ b.m_byte_count
    · rw [shrink_eq hn] at e
      exact ⟨hn, e⟩
    · rw [shrink_fails (by omega)] at e
      cases e
  refine ⟨?_, fun r e => (hexp r e).1, fun r e => (hshr r e).1, ?_⟩
  · intro r e
    have e1 : set_byte_count b h n = Except.ok r := by
      rcases e with e | e | e
      · exact e
      · exact (hexp r e).2
      · exact (hshr r e).2
    obtain ⟨h1, h2, h3, _⟩ := set_byte_count_ok hb e1
    exact ⟨h1, h2, h3⟩
  · intro hw
    obtain ⟨r, e⟩ := set_byte_count_returns n hw
    refine ⟨⟨r, e⟩, fun hn => ⟨r, ?_⟩, fun hn => ⟨r, ?_⟩⟩
    · rw [expand_eq hn]
      exact e
    · rw [shrink_eq hn]
      exact e

/-- The sample buffer of four bytes is shrunk to two bytes. -/
theorem bytebuffer_resize_keeps_prefix_witness :
    ∃ r, shrink sample_byte_buffer sample_byte_heap 2 = Except.ok r ∧
      r.1.byte_count = 2 ∧ (region r.2 r.1.bytes)[0]? = some (some 1) ∧
      (region r.2 r.1.bytes)[1]? = some (some 2) := by
  have h := bytebuffer_resize_keeps_prefix sample_byte_buffer sample_byte_heap 2
    sample_byte_buffer_wellFormed.1
  obtain ⟨r, e⟩ := (h.2.2.2 sample_byte_buffer_wellFormed).2.2 (by decide)
  obtain ⟨h1, _, h3⟩ := h.1 r (Or.inr (Or.inr e))
  exact ⟨r, e, h1, by rw [h3 0 (by decide)]; rfl, by rw [h3 1 (by decide)]; rfl⟩

end ByteBuffer
end AT

namespace AT
namespace ByteBuffer

/-- The buffer a resize leaves is backed; it is well-formed when the new byte count is
positive. -/
theorem set_byte_count_keeps_backed {b : ByteBuffer} {h : Heap (List (Option Nat))} {n : Nat}
    {r : ByteBuffer × Heap (List (Option Nat))} (hb : Backed b h)
    (e : set_byte_count b h n = Except.ok r) :
    Backed r.1 r.2 ∧ (0 < n → WellFormed b h ∨ b.m_byte_count ≠ n → WellFormed r.1 r.2) := by
  by_cases hsame : b.m_byte_count = n
  · obtain ⟨_, _, _, h4, _⟩ := set_byte_count_ok hb e
    have hr := h4 hsame
    subst hr
    refine ⟨hb, ?_⟩
    intro _ hor
    rcases hor with hw | hne
    · exact hw
    · exact absurd hsame hne
  · have hfree : b.m_bytes ≠ 0 → 0 < b.m_byte_count := by
      intro hnn
      by_contra h0
      rw [set_byte_count_of_empty_block hnn (by omega) (by omega)] at e
      cases e
    obtain ⟨r1, e1, h1, h2, h3, _⟩ := set_byte_count_backed hb hsame hfree
    rw [e1] at e
    simp only [Except.ok.injEq] at e
    subst e
    have hlen := region_of_backed hb
    have hback : Backed r1.1 r1.2 := by
      refine Or.inr ⟨by rw [h1]; exact Nat.add_one_ne_zero _, by rw [h1, h3],
        (region h b.m_bytes).take (min b.m_byte_count n)
          ++ List.replicate (n - min b.m_byte_count n) none, ?_, ?_⟩
      · rw [h1]
        exact h2
      · rw [h1]
        simp only [List.length_append, List.length_take, List.length_replicate, hlen]
        omega
    refine ⟨hback, ?_⟩
    intro hpos _
    refine ⟨hback, ?_⟩
    rw [h1]
    constructor
    · intro h0
      exact absurd h0 (Nat.add_one_ne_zero _)
    · intro h0
      have : n = 0 := h0
      omega

/-- C23 (divergence). From every well-formed buffer with byte count `m` and for all
`N >= m` and `M <= N`, `expand(N)` followed by `shrink(M)` returns, leaves
`byte_count() == M` and, at every position below `min(m, M)`, the byte the buffer held
there at the start. But the buffer that `shrink(0)` leaves is not well-formed (it keeps a
block with `byte_count() == 0`), and from it `expand(8)` fails on the assertion of `free`,
although `8 >= 0`. -/
theorem bytebuffer_expand_then_shrink :
    (∀ (b : ByteBuffer) (h : Heap (List (Option Nat))) (N M : Nat), WellFormed b h →
      N ≥ b.byte_count → M ≤ N →
      ∃ r1 r2, expand b h N = Except.ok r1 ∧ shrink r1.1 r1.2 M = Except.ok r2 ∧
        r2.1.byte_count = M ∧
        ∀ i, i < min b.byte_count M →
          (region r2.2 r2.1.bytes)[i]? = (region h b.bytes)[i]?) ∧
    (∃ b h, (from_initial_byte_count Heap.empty 4 >>= fun r => shrink r.1 r.2 0)
        = Except.ok (b, h) ∧
      b.byte_count = 0 ∧ expand b h 8 = Except.error Fault.contract_violation) := by
  constructor
  · intro b h N M hw hN hM
    have hN1 : N ≥ b.m_byte_count := hN
    obtain ⟨r1, e1⟩ := set_byte_count_returns N hw
    obtain ⟨a1, a2, a3, _⟩ := set_byte_count_ok hw.1 e1
    obtain ⟨hback1, hwf1⟩ := set_byte_count_keeps_backed hw.1 e1
    have hM1 : M ≤ r1.1.m_byte_count := by
      have : r1.1.m_byte_count = N := a1
      omega
    have hret : ∃ r2, set_byte_count r1.1 r1.2 M = Except.ok r2 := by
      by_cases hpos : 0 < N
      · exact set_byte_count_returns M (hwf1 hpos (Or.inl hw))
      · have hN0 : N = 0 := by omega
        have hM0 : M = 0 := by omega
        refine ⟨r1, ?_⟩
        unfold set_byte_count
        rw [if_pos (by
          have : r1.1.m_byte_count = N := a1
          omega)]
    obtain ⟨r2, e2⟩ := hret
    obtain ⟨c1, _, c3, _⟩ := set_byte_count_ok hback1 e2
    refine ⟨r1, r2, by rw [expand_eq hN1]; exact e1, by rw [shrink_eq hM1]; exact e2, c1, ?_⟩
    intro i hi
    have hi1 : i < min b.m_byte_count M := hi
    have hb1 : r1.1.byte_count = N := a1
    rw [c3 i (by rw [hb1]; omega), a3 i (by
      have : i < min b.m_byte_count N := by omega
      exact this)]
  · exact ⟨_, _, rfl, rfl, rfl⟩

/-- The sample buffer of four bytes is expanded to eight bytes and shrunk to three. -/
theorem bytebuffer_expand_then_shrink_witness :
    ∃ r1 r2, expand sample_byte_buffer sample_byte_heap 8 = Except.ok r1 ∧
      shrink r1.1 r1.2 3 = Except.ok r2 ∧ r2.1.byte_count = 3 ∧
      (region r2.2 r2.1.bytes)[2]? = some (some 3) := by
  obtain ⟨r1, r2, e1, e2, h1, h2⟩ := bytebuffer_expand_then_shrink.1 sample_byte_buffer
    sample_byte_heap 8 3 sample_byte_buffer_wellFormed (by decide) (by decide)
  exact ⟨r1, r2, e1, e2, h1, by rw [h2 2 (by decide)]; rfl⟩

/-- C24 (divergence). In every state, `expand(n)` with `n < m`, `shrink(n)` with `n > m` and
`shrink_by(k)` with `k > m` fail with a contract violation on their first statement, before
the buffer or the heap is read or written. On every well-formed buffer these are the only
failures: `expand(n)` fails exactly when `n < m`, `shrink(n)` exactly when `n > m`,
`shrink_by(k)` exactly when `k > m`. But from the buffer that `shrink(0)` leaves (a block
with `byte_count() == 0`), `expand(8)` fails with a contract violation, on the assertion of
`free`, although `8 >= 0`. -/
theorem bytebuffer_resize_contract :
    (∀ (b : ByteBuffer) (h : Heap (List (Option Nat))) (n : Nat),
      (n < b.byte_count → expand b h n = Except.error Fault.contract_violation) ∧
      (n > b.byte_count → shrink b h n = Except.error Fault.contract_violation) ∧
      (n > b.byte_count → shrink_by b h n = Except.error Fault.contract_violation)) ∧
    (∀ (b : ByteBuffer) (h : Heap (List (Option Nat))) (n : Nat), WellFormed b h →
      (expand b h n = Except.error Fault.contract_violation ↔ n < b.byte_count) ∧
      ((∃ r, expand b h n = Except.ok r) ↔ n ≥ b.byte_count) ∧
      (shrink b h n = Except.error Fault.contract_violation ↔ n > b.byte_count) ∧
      ((∃ r, shrink b h n = Except.ok r) ↔ n ≤ b.byte_count) ∧
      (shrink_by b h n = Except.error Fault.contract_violation ↔ n > b.byte_count) ∧
      ((∃ r, shrink_by b h n = Except.ok r) ↔ n ≤ b.byte_count)) ∧
    (∃ b h, (from_initial_byte_count Heap.empty 4 >>= fun r => shrink r.1 r.2 0)
        = Except.ok (b, h) ∧
      8 ≥ b.byte_count ∧ expand b h 8 = Except.error Fault.contract_violation) := by
  have hby : ∀ (b : ByteBuffer) (h : Heap (List (Option Nat))) (k : Nat),
      k ≤ b.m_byte_count → shrink_by b h k = set_byte_count b h (b.m_byte_count - k) := by
    intro b h k hk
    have h1 : b.m_byte_count - k ≤ b.m_byte_count := Nat.sub_le _ _
    simp [shrink_by, hk, shrink, h1]
  have hbyf : ∀ (b : ByteBuffer) (h : Heap (List (Option Nat))) (k : Nat),
      k > b.m_byte_count → shrink_by b h k = Except.error Fault.contract_violation := by
    intro b h k hk
    have h1 : ¬ k ≤ b.m_byte_count := by omega
    simp [shrink_by, h1]
  refine ⟨fun b h n => ⟨fun hn => expand_fails hn, fun hn => shrink_fails hn,
    fun hn => hbyf b h n hn⟩, ?_, ⟨_, _, rfl, by decide, rfl⟩⟩
  intro b h n hw
  have hcases : n < b.m_byte_count ∨ n ≥ b.m_byte_count := by omega
  have hcases2 : n > b.m_byte_count ∨ n ≤ b.m_byte_count := by omega
  obtain ⟨r, e⟩ := set_byte_count_returns n hw
  obtain ⟨r3, e3⟩ := set_byte_count_returns (b.m_byte_count - n) hw
  refine ⟨?_, ?_, ?_, ?_, ?_, ?_⟩
  · constructor
    · intro he
      by_contra hn
      rw [expand_eq (by
        have : ¬ n < b.m_byte_count := hn
        omega), e] at he
      cases he
    · exact fun hn => expand_fails hn
  · constructor
    · rintro ⟨r1, e1⟩
      by_contra hn
      rw [expand_fails (by
        have : ¬ n ≥ b.m_byte_count := hn
        omega)] at e1
      cases e1
    · intro hn
      exact ⟨r, by rw [expand_eq hn]; exact e⟩
  · constructor
    · intro he
      by_contra hn
      rw [shrink_eq (by
        have : ¬ n > b.m_byte_count := hn
        omega), e] at he
      cases he
    · exact fun hn => shrink_fails hn
  · constructor
    · rintro ⟨r1, e1⟩
      by_contra hn
      rw [shrink_fails (by
        have : ¬ n ≤ b.m_byte_count := hn
        omega)] at e1
      cases e1
    · intro hn
      exact ⟨r, by rw [shrink_eq hn]; exact e⟩
  · constructor
    · intro he
      by_contra hn
      rw [hby b h n (by
        have : ¬ n > b.m_byte_count := hn
        omega), e3] at he
      cases he
    · exact fun hn => hbyf b h n hn
  · constructor
    · rintro ⟨r1, e1⟩
      by_contra hn
      rw [hbyf b h n (by
        have : ¬ n ≤ b.m_byte_count := hn
        omega)] at e1
      cases e1
    · intro hn
      exact ⟨r3, by rw [hby b h n hn]; exact e3⟩

/-- On the sample buffer of four bytes, `expand(2)` and `shrink(6)` are refused and
`shrink_by(4)` is accepted. -/
theorem bytebuffer_resize_contract_witness :
    expand sample_byte_buffer sample_byte_heap 2 = Except.error Fault.contract_violation ∧
    shrink sample_byte_buffer sample_byte_heap 6 = Except.error Fault.contract_violation ∧
    ∃ r, shrink_by sample_byte_buffer sample_byte_heap 4 = Except.ok r := by
  have h := bytebuffer_resize_contract.2.1 sample_byte_buffer sample_byte_heap
  exact ⟨(h 2 sample_byte_buffer_wellFormed).1.mpr (by decide),
    (h 6 sample_byte_buffer_wellFormed).2.2.1.mpr (by decide),
    (h 4 sample_byte_buffer_wellFormed).2.2.2.2.2.mpr (by decide)⟩

/-- C25 (divergence). In every state `ensure_byte_count(n)` with `m >= n` returns the
buffer and the heap as they were. On every well-formed buffer with `m < n` it returns with
`byte_count() == n` exactly and the first `m` bytes unchanged. But it can fail: from the
buffer that `shrink(0)` leaves (a block with `byte_count() == 0`), `ensure_byte_count(1)`
fails with a contract violation, on the assertion of `free`. -/
theorem bytebuffer_ensure_byte_count :
    (∀ (b : ByteBuffer) (h : Heap (List (Option Nat))) (n : Nat), b.byte_count ≥ n →
      ensure_byte_count b h n = Except.ok (b, h)) ∧
    (∀ (b : ByteBuffer) (h : Heap (List (Option Nat))) (n : Nat), WellFormed b h →
      b.byte_count < n →
      ∃ r, ensure_byte_count b h n = Except.ok r ∧ r.1.byte_count = n ∧
        (region r.2 r.1.bytes).length = n ∧
        ∀ i, i < b.byte_count → (region r.2 r.1.bytes)[i]? = (region h b.bytes)[i]?) ∧
    (∃ b h, (from_initial_byte_count Heap.empty 4 >>= fun r => shrink r.1 r.2 0)
        = Except.ok (b, h) ∧
      b.byte_count < 1 ∧ ensure_byte_count b h 1 = Except.error Fault.contract_violation) := by
  refine ⟨?_, ?_, ⟨_, _, rfl, by decide, rfl⟩⟩
  · intro b h n hn
    have hn1 : b.m_byte_count ≥ n := hn
    simp [ensure_byte_count, hn1]
  · intro b h n hw hn
    have hn1 : b.m_byte_count < n := hn
    have hn2 : ¬ b.m_byte_count ≥ n := by omega
    obtain ⟨r, e⟩ := set_byte_count_returns n hw
    obtain ⟨a1, a2, a3, _⟩ := set_byte_count_ok hw.1 e
    refine ⟨r, ?_, a1, a2, ?_⟩
    · unfold ensure_byte_count
      rw [if_neg hn2, expand_eq (by omega)]
      exact e
    · intro i hi
      have hi1 : i < b.m_byte_count := hi
      exact a3 i (by
        have : i < min b.m_byte_count n := by omega
        exact this)

/-- The sample buffer of four bytes is asked for two bytes, then for six. -/
theorem bytebuffer_ensure_byte_count_witness :
    ensure_byte_count sample_byte_buffer sample_byte_heap 2
      = Except.ok (sample_byte_buffer, sample_byte_heap) ∧
    ∃ r, ensure_byte_count sample_byte_buffer sample_byte_heap 6 = Except.ok r ∧
      r.1.byte_count = 6 ∧ (region r.2 r.1.bytes)[3]? = some (some 4) := by
  refine ⟨bytebuffer_ensure_byte_count.1 _ _ 2 (by decide), ?_⟩
  obtain ⟨r, e, h1, _, h3⟩ := bytebuffer_ensure_byte_count.2.1 sample_byte_buffer
    sample_byte_heap 6 sample_byte_buffer_wellFormed (by decide)
  exact ⟨r, e, h1, by rw [h3 3 (by decide)]; rfl⟩

end ByteBuffer
end AT

namespace AT

/-- Releasing a live block. -/
theorem operator_delete_live {B : Type} {h : Heap B} {p : Nat} {o : B} (hp : p ≠ 0)
    (hb : h.blocks p = some o) :
    h.operator_delete p = Except.ok
      ⟨fun q => if q = p then none else h.blocks q, h.allocations, p :: h.freed⟩ := by
  simp [Heap.operator_delete, hp, hb]

/-- Under the counting discipline a live block was never released. -/
theorem CountInv.not_freed_of_live {B : Type} {rc : B → Nat} {h : Heap B}
    {t : List (Option Nat)} (inv : CountInv rc h t) {p : Nat} {o : B}
    (hb : h.blocks p = some o) : h.freed.count p = 0 := by
  rw [List.count_eq_zero]
  intro hmem
  have := ((inv.2.2.2 p).mp hmem).1
  rw [hb] at this
  cases this

/-- When every live object counts for one, two handles owning the same object are the
same handle. -/
theorem owners_distinct {B : Type} {h : Heap B} {t : List (Option Nat)}
    (inv : CountInv (fun _ : B => 1) h t) {i j p : Nat} (hi : t[i]? = some (some p))
    (hj : t[j]? = some (some p)) : i = j := by
  by_contra hij
  have hc := count_set_some hi none p
  have hn : ¬ (none : Option Nat) = some p := by simp
  rw [if_pos rfl, if_neg hn] at hc
  have hj1 : (t.set i none)[j]? = some (some p) := by
    rw [List.getElem?_set_ne hij]
    exact hj
  have hmem : some p ∈ t.set i none := List.getElem?_mem hj1
  have hpos : 0 < (t.set i none).count (some p) := List.count_pos_iff.mpr hmem
  have hone := inv.1 p
  unfold live_count at hone
  split at hone
  · simp only at hone
    omega
  · omega

namespace OwnPtr

variable {B : Type}

theorem own_target_null : (OwnPtr.mk 0).target = none := rfl

theorem own_target_of_ne {p : OwnPtr} (h : p.m_instance ≠ 0) :
    p.target = some p.m_instance := by
  simp [target, h]

theorem release_null (h : Heap B) : (OwnPtr.mk 0).release h = Except.ok (⟨0⟩, h) := rfl

/-- `release` on a handle whose object is live deletes the object and nulls the handle. -/
theorem release_live {p : OwnPtr} {h : Heap B} {o : B} (hp : p.m_instance ≠ 0)
    (hb : h.blocks p.m_instance = some o) :
    p.release h = Except.ok (⟨0⟩,
      ⟨fun q => if q = p.m_instance then none else h.blocks q, h.allocations,
        p.m_instance :: h.freed⟩) := by
  simp [release, hp, operator_delete_live hp hb]

/-- `release` keeps the ownership invariant, the handle owning nothing afterwards. -/
theorem own_release_inv {h h1 : Heap B} {t : List (Option Nat)} {i : Nat} {p p1 : OwnPtr}
    (inv : CountInv (fun _ : B => 1) h t) (hi : t[i]? = some p.target)
    (e : p.release h = Except.ok (p1, h1)) :
    p1 = ⟨0⟩ ∧ CountInv (fun _ : B => 1) h1 (t.set i none) ∧
      h.allocations ≤ h1.allocations := by
  by_cases hnull : p.m_instance = 0
  · simp only [release, hnull, ne_eq, not_true_eq_false, if_false, Except.ok.injEq,
      Prod.mk.injEq] at e
    obtain ⟨e1, e2⟩ := e
    subst e2
    have : p.target = none := by simp [target, hnull]
    rw [this] at hi
    rw [set_none_of_none hi]
    refine ⟨?_, inv, Nat.le_refl _⟩
    rw [← e1]
    cases p
    simp only at hnull
    rw [hnull]
  · rw [own_target_of_ne hnull] at hi
    obtain ⟨o, hb, _⟩ := inv.live_of_target hi
    rw [release_live hnull hb] at e
    simp only [Except.ok.injEq, Prod.mk.injEq] at e
    obtain ⟨e1, e2⟩ := e
    subst e2
    exact ⟨e1.symm, inv.release_last hi hb rfl (by simp) (by intro q hq; simp [hq]) rfl rfl,
      Nat.le_refl _⟩

/-- Creating an object and adopting it keeps the ownership invariant. -/
theorem create_own_inv {h : Heap B} {t : List (Option Nat)} {i : Nat} (value : B)
    (inv : CountInv (fun _ : B => 1) h t) (hi : t[i]? = some none) :
    CountInv (fun _ : B => 1) (create_own h value).2
      (t.set i (create_own h value).1.target) := by
  have ht : (create_own h value).1.target = some (h.allocations + 1) := by
    simp [create_own, adopt_own, from_instance, Heap.operator_new, target]
  rw [ht]
  have hb : (create_own h value).2.blocks (h.allocations + 1) = some value := by
    simp [create_own, Heap.operator_new]
  exact inv.fresh hi hb rfl
    (by intro q hq; simp [create_own, Heap.operator_new, hq]) rfl rfl

end OwnPtr

namespace OwnPtrWorld

variable {B : Type}

theorem own_handle_ok {w : OwnPtrWorld B} {i : Nat} {p : OwnPtr}
    (e : w.handle i = Except.ok p) : w.handles[i]? = some (some p) := by
  unfold handle at e
  rw [List.get?_eq_getElem?] at e
  split at e
  · rename_i q hq
    cases e
    exact hq
  · cases e

theorem own_handle_of {w : OwnPtrWorld B} {i : Nat} {p : OwnPtr}
    (h : w.handles[i]? = some (some p)) : w.handle i = Except.ok p := by
  unfold handle
  rw [List.get?_eq_getElem?, h]

theorem own_targets_getElem {l : List (Option OwnPtr)} {i : Nat} {p : OwnPtr}
    (hi : l[i]? = some (some p)) : (targets_of l)[i]? = some p.target := by
  simp [targets_of, hi]

theorem own_targets_set (l : List (Option OwnPtr)) (i : Nat) (p : OwnPtr) :
    targets_of (l.set i (some p)) = (targets_of l).set i p.target := by
  simp [targets_of]

theorem own_targets_set_none (l : List (Option OwnPtr)) (i : Nat) :
    targets_of (l.set i none) = (targets_of l).set i none := by
  simp [targets_of]

theorem own_targets_append (l : List (Option OwnPtr)) (p : OwnPtr) :
    targets_of (l ++ [some p]) = (targets_of l ++ [none]).set (targets_of l).length p.target := by
  rw [← append_eq_set_extend]
  simp [targets_of]

/-- The number of handles whose instance pointer is a non-null `p`, on the list of
targets. -/
theorem owners_eq_count (w : OwnPtrWorld B) (p : Nat) (hp : p ≠ 0) :
    w.owners p = w.targets.count (some p) := by
  unfold owners targets targets_of
  induction w.handles with
  | nil => rfl
  | cons o l ih =>
    rw [List.countP_cons, List.map_cons, List.count_cons, ih]
    congr 1
    cases o with
    | none => simp
    | some r =>
      by_cases hr : r.m_instance = p
      · simp [OwnPtr.target, hr, hp]
      · by_cases h0 : r.m_instance = 0
        · simp [OwnPtr.target, hr, h0, Ne.symm hp]
        · simp [OwnPtr.target, hr, h0]

/-- Moving the object of handle `other` to a new handle appended to the list. -/
theorem own_transfer_append {heap : Heap B} {handles : List (Option OwnPtr)} {other : Nat}
    {o : OwnPtr} (inv : CountInv (fun _ : B => 1) heap (targets_of handles))
    (ho : handles[other]? = some (some o)) :
    CountInv (fun _ : B => 1) heap
      (targets_of (handles.set other (some ⟨0⟩) ++ [some ⟨o.m_instance⟩])) := by
  have ho1 := own_targets_getElem ho
  have hlt : other < (targets_of handles).length := lt_length_of_getElem? ho1
  rw [own_targets_append, own_targets_set, List.length_set,
    show (OwnPtr.mk 0).target = none from rfl]
  by_cases hnull : o.m_instance = 0
  · have hnone : o.target = none := by simp [OwnPtr.target, hnull]
    rw [hnone] at ho1
    rw [set_none_of_none ho1, show (OwnPtr.mk o.m_instance).target = none by
      simp [OwnPtr.target, hnull], set_none_of_none (getElem?_extend_length _)]
    exact inv.extend
  · rw [OwnPtr.own_target_of_ne hnull] at ho1
    have htr := inv.extend.transfer (getElem?_extend_length _) (getElem?_extend_of_some ho1)
    rw [show (OwnPtr.mk o.m_instance).target = some o.m_instance from
      OwnPtr.own_target_of_ne hnull]
    rw [List.set_comm _ _ _ (by omega), List.set_append_left _ _ hlt] at htr
    exact htr

/-- Every operation keeps the ownership invariant. -/
theorem own_step_inv {w w1 : OwnPtrWorld B} (op : OwnPtrOp B) (inv : w.Inv)
    (e : w.step op = Except.ok w1) : w1.Inv := by
  obtain ⟨heap, handles⟩ := w
  simp only [Inv, targets] at inv ⊢
  cases op with
  | create_own value =>
    simp only [step, Except.ok.injEq] at e
    subst e
    dsimp only
    rw [own_targets_append]
    exact OwnPtr.create_own_inv value inv.extend (getElem?_extend_length _)
  | construct_default =>
    simp only [step, Except.ok.injEq] at e
    subst e
    dsimp only
    rw [own_targets_append, show OwnPtr.default.target = none from rfl,
      set_none_of_none (getElem?_extend_length _)]
    exact inv.extend
  | construct_nullptr =>
    simp only [step, Except.ok.injEq] at e
    subst e
    dsimp only
    rw [own_targets_append, show OwnPtr.from_nullptr.target = none from rfl,
      set_none_of_none (getElem?_extend_length _)]
    exact inv.extend
  | construct_move other =>
    simp only [step, bind_eq_ok, Except.ok.injEq, OwnPtr.move_construct] at e
    obtain ⟨o, eo, e2⟩ := e
    subst e2
    exact own_transfer_append inv (own_handle_ok eo)
  | assign_move this other =>
    simp only [step, bind_eq_ok] at e
    obtain ⟨t, et, o, eo, e2⟩ := e
    by_cases hsame : this = other
    · simp only [hsame, if_true, Except.ok.injEq] at e2
      subst e2
      exact inv
    · simp only [hsame, if_false, bind_eq_ok, Except.ok.injEq] at e2
      obtain ⟨⟨⟨r1, r2⟩, h1⟩, e1, e3⟩ := e2
      subst e3
      dsimp only
      simp only [OwnPtr.move_assign, bind_eq_ok, Except.ok.injEq, Prod.mk.injEq] at e1
      obtain ⟨⟨t1, h2⟩, er, ⟨ec1, ec2⟩, ec3⟩ := e1
      dsimp only at ec1 ec2 ec3
      subst ec1 ec2 ec3
      have ht := own_targets_getElem (own_handle_ok et)
      have ho := own_targets_getElem (own_handle_ok eo)
      obtain ⟨_, inv1, _⟩ := OwnPtr.own_release_inv inv ht er
      have hi1 : ((targets_of handles).set this none)[this]? = some none := by
        rw [List.getElem?_set]
        simp [lt_length_of_getElem? ht]
      have hj1 : ((targets_of handles).set this none)[other]? = some o.target := by
        rw [List.getElem?_set, if_neg hsame]
        exact ho
      rw [own_targets_set, own_targets_set, show (OwnPtr.mk 0).target = none from rfl]
      by_cases hnull : o.m_instance = 0
      · have hnone : o.target = none := by simp [OwnPtr.target, hnull]
        rw [hnone] at hj1
        rw [show (OwnPtr.mk o.m_instance).target = none by simp [OwnPtr.target, hnull]]
        rw [set_none_of_none hj1]
        exact inv1
      · rw [OwnPtr.own_target_of_ne hnull] at hj1
        have htr := inv1.transfer hi1 hj1
        rw [List.set_set] at htr
        rw [show (OwnPtr.mk o.m_instance).target = some o.m_instance from
          OwnPtr.own_target_of_ne hnull]
        exact htr
  | assign_nullptr this =>
    simp only [step, bind_eq_ok, Except.ok.injEq] at e
    obtain ⟨t, et, ⟨r, h1⟩, e1, e2⟩ := e
    subst e2
    dsimp only
    obtain ⟨hr, inv1, _⟩ := OwnPtr.own_release_inv inv (own_targets_getElem (own_handle_ok et)) e1
    rw [own_targets_set, hr]
    exact inv1
  | release this =>
    simp only [step, bind_eq_ok, Except.ok.injEq] at e
    obtain ⟨t, et, ⟨r, h1⟩, e1, e2⟩ := e
    subst e2
    dsimp only
    obtain ⟨hr, inv1, _⟩ := OwnPtr.own_release_inv inv (own_targets_getElem (own_handle_ok et)) e1
    rw [own_targets_set, hr]
    exact inv1
  | cast this =>
    simp only [step, bind_eq_ok, Except.ok.injEq, OwnPtr.«as», OwnPtr.from_instance] at e
    obtain ⟨o, eo, e2⟩ := e
    subst e2
    exact own_transfer_append inv (own_handle_ok eo)
  | destroy this =>
    simp only [step, bind_eq_ok, Except.ok.injEq] at e
    obtain ⟨t, et, h1, e1, e2⟩ := e
    subst e2
    dsimp only
    simp only [OwnPtr.destroy, bind_eq_ok, Except.ok.injEq] at e1
    obtain ⟨⟨r, h2⟩, er, e3⟩ := e1
    dsimp only at e3
    subst e3
    obtain ⟨_, inv1, _⟩ := OwnPtr.own_release_inv inv (own_targets_getElem (own_handle_ok et)) er
    rw [own_targets_set_none]
    exact inv1

/-- Every state a program reaches satisfies the ownership invariant. -/
theorem own_run_inv : ∀ (ops : List (OwnPtrOp B)) (w w1 : OwnPtrWorld B),
    w.Inv → w.run ops = Except.ok w1 → w1.Inv := by
  intro ops
  induction ops with
  | nil =>
    intro w w1 inv e
    simp only [run, Except.ok.injEq] at e
    subst e
    exact inv
  | cons op ops ih =>
    intro w w1 inv e
    simp only [run, bind_eq_ok] at e
    obtain ⟨w2, e1, e2⟩ := e
    exact ih w2 w1 (own_step_inv op inv e1) e2

theorem own_inv_empty : (OwnPtrWorld.empty : OwnPtrWorld B).Inv :=
  countInv_empty _

end OwnPtrWorld
end AT

namespace AT
namespace OwnPtrWorld

variable {B : Type}

/-- In a reachable state a valid handle owns a live object that was never deleted, and no
other handle owns it. -/
theorem own_valid_facts {w : OwnPtrWorld B} {j : Nat} {s : OwnPtr} (inv : w.Inv)
    (hj : w.handles[j]? = some (some s)) (hvalid : s.is_valid = true) :
    s.m_instance ≠ 0 ∧ (∃ o, w.heap.blocks s.m_instance = some o) ∧
      w.heap.freed.count s.m_instance = 0 ∧
      ∀ (i : Nat) (d : OwnPtr), w.handles[i]? = some (some d) →
        d.m_instance = s.m_instance → i = j := by
  have hnn : s.m_instance ≠ 0 := by
    simpa [OwnPtr.is_valid] using hvalid
  have ht := own_targets_getElem hj
  rw [OwnPtr.own_target_of_ne hnn] at ht
  obtain ⟨o, hb, _⟩ := CountInv.live_of_target inv ht
  refine ⟨hnn, ⟨o, hb⟩, CountInv.not_freed_of_live inv hb, ?_⟩
  intro i d hi hd
  have hti := own_targets_getElem hi
  rw [OwnPtr.own_target_of_ne (by rw [hd]; exact hnn), hd] at hti
  exact owners_distinct inv hti ht

/-- C27. Let `p` be a live handle of a reachable program state. `p.as<Q>()` returns a handle
holding the pointer `p` held and leaves `p` null; the call does not take part in the heap,
so nothing is deleted. In the state after the call the heap is the one before, and when `p`
was valid its pointee has exactly one owning handle before the call and exactly one
after. -/
theorem ownptr_as_transfers (ops : List (OwnPtrOp B)) (w : OwnPtrWorld B) (j : Nat)
    (p : OwnPtr) (hrun : OwnPtrWorld.empty.run ops = Except.ok w)
    (hj : w.handles[j]? = some (some p)) :
    (OwnPtr.«as» p).1.m_instance = p.m_instance ∧ (OwnPtr.«as» p).2.is_valid = false ∧
    ∃ w1, w.step (OwnPtrOp.cast j) = Except.ok w1 ∧ w1.heap = w.heap ∧
      w1.handles = w.handles.set j (some (OwnPtr.«as» p).2) ++ [some (OwnPtr.«as» p).1] ∧
      (p.is_valid = true → w.owners p.m_instance = 1 ∧ w1.owners p.m_instance = 1 ∧
        ∃ o, w1.heap.blocks p.m_instance = some o) := by
  have inv := own_run_inv ops OwnPtrWorld.empty w own_inv_empty hrun
  have estep : w.step (OwnPtrOp.cast j) = Except.ok
      ⟨w.heap, w.handles.set j (some (OwnPtr.«as» p).2) ++ [some (OwnPtr.«as» p).1]⟩ := by
    simp only [step, own_handle_of hj, ok_bind]
  have inv1 := own_step_inv (OwnPtrOp.cast j) inv estep
  refine ⟨rfl, rfl, _, estep, rfl, rfl, ?_⟩
  intro hv
  obtain ⟨hnn, ⟨o, hb⟩, _, _⟩ := own_valid_facts inv hj hv
  have hone : ∀ (u : OwnPtrWorld B), u.Inv → u.heap = w.heap → u.owners p.m_instance = 1 := by
    intro u hu hheap
    rw [owners_eq_count u _ hnn, hu.1 p.m_instance]
    unfold live_count
    rw [hheap, hb]
  exact ⟨hone w inv rfl, hone _ inv1 rfl, o, hb⟩

/-- An object is created and its handle cast. -/
theorem ownptr_as_transfers_witness :
    ∃ (w w1 : OwnPtrWorld Nat),
      OwnPtrWorld.empty.run [OwnPtrOp.create_own 5] = Except.ok w ∧
      w.step (OwnPtrOp.cast 0) = Except.ok w1 ∧ w1.heap = w.heap ∧
      w.owners 1 = 1 ∧ w1.owners 1 = 1 ∧ (OwnPtr.«as» ⟨1⟩).2.is_valid = false := by
  obtain ⟨_, hv, w1, e, hh, _, hown⟩ :=
    ownptr_as_transfers [OwnPtrOp.create_own 5] _ 0 ⟨1⟩ rfl rfl
  obtain ⟨c1, c2, _⟩ := hown rfl
  exact ⟨_, w1, rfl, e, hh, c1, c2, hv⟩

end OwnPtrWorld
end AT

namespace AT
namespace RefPtr

/-- C29. In every heap: `adopt_ref(p)` on a non-null object whose `reference_count` is 0
returns a valid handle to `p` and leaves the count at 1; copy-constructing from a valid
handle whose pointee is live with an unsaturated count `c` returns a valid handle to the
same object and leaves the count at `c + 1`; both touch no other object and release
nothing. Move-constructing gives a handle to the same object and nulls the source, without
taking part in the heap, so no count changes. Adopting or copying a null pointer returns an
invalid handle and leaves the heap as it is. -/
theorem refptr_adopt_copy_move (h : Heap RefCounted) :
    (∀ p, p ≠ 0 → h.blocks p = some ⟨0⟩ →
      ∃ h1, adopt_ref p h = Except.ok (⟨p⟩, h1) ∧ (RefPtr.mk p).is_valid = true ∧
        h1.blocks p = some ⟨1⟩ ∧ h1.freed = h.freed ∧ h1.allocations = h.allocations ∧
        ∀ q, q ≠ p → h1.blocks q = h.blocks q) ∧
    (∀ (r : RefPtr) (o : RefCounted), r.is_valid = true → h.blocks r.m_instance = some o →
      o.reference_count ≠ u64_limit - 1 →
      ∃ c h1, copy_construct r h = Except.ok (c, h1) ∧ c.is_valid = true ∧
        c.m_instance = r.m_instance ∧
        h1.blocks r.m_instance = some ⟨o.reference_count + 1⟩ ∧ h1.freed = h.freed ∧
        h1.allocations = h.allocations ∧ ∀ q, q ≠ r.m_instance → h1.blocks q = h.blocks q) ∧
    (∀ (r : RefPtr), (move_construct r).1.m_instance = r.m_instance ∧
      (move_construct r).1.is_valid = r.is_valid ∧ (move_construct r).2.is_valid = false) ∧
    (adopt_ref 0 h = Except.ok (⟨0⟩, h) ∧ copy_construct ⟨0⟩ h = Except.ok (⟨0⟩, h) ∧
      (RefPtr.mk 0).is_valid = false) := by
  have hmax : ¬ (0 : Nat) = u64_limit - 1 := by decide
  refine ⟨?_, ?_, fun r => ⟨rfl, rfl, rfl⟩, rfl, rfl, rfl⟩
  · intro p hp hb
    refine ⟨h.store p (some ⟨1⟩), ?_, by simp [is_valid, hp], by simp [Heap.store], rfl, rfl,
      ?_⟩
    · simp [adopt_ref, from_instance, hp, increment_reference_count, hb,
        RefCounted.increment_reference_count, hmax]
    · intro q hq
      simp [Heap.store, hq]
  · intro r o hv hb hroom
    have hp : r.m_instance ≠ 0 := by simpa [is_valid] using hv
    have hroom1 : ¬ o.m_reference_count = u64_limit - 1 := hroom
    refine ⟨⟨r.m_instance⟩, h.store r.m_instance (some ⟨o.m_reference_count + 1⟩), ?_, hv, rfl,
      by simp [Heap.store, RefCounted.reference_count], rfl, rfl, ?_⟩
    · simp [copy_construct, hp, increment_reference_count, hb,
        RefCounted.increment_reference_count, hroom1]
    · intro q hq
      simp [Heap.store, hq]

/-- An object with count 0 is adopted; an object with count 2 is copied. -/
theorem refptr_adopt_copy_move_witness :
    (∃ h1, adopt_ref 1 ⟨fun q => if q = 1 then some ⟨0⟩ else none, 1, []⟩
        = Except.ok (⟨1⟩, h1) ∧ h1.blocks 1 = some ⟨1⟩) ∧
    (∃ c h1, copy_construct ⟨1⟩ ⟨fun q => if q = 1 then some ⟨2⟩ else none, 1, []⟩
        = Except.ok (c, h1) ∧ c.is_valid = true ∧ h1.blocks 1 = some ⟨3⟩) := by
  constructor
  · obtain ⟨h1, e, _, hb, _⟩ :=
      (refptr_adopt_copy_move ⟨fun q => if q = 1 then some ⟨0⟩ else none, 1, []⟩).1 1
        (by decide) rfl
    exact ⟨h1, e, hb⟩
  · obtain ⟨c, h1, e, hv, _, hb, _⟩ :=
      (refptr_adopt_copy_move ⟨fun q => if q = 1 then some ⟨2⟩ else none, 1, []⟩).2.1 ⟨1⟩ ⟨2⟩
        rfl rfl (by decide)
    exact ⟨c, h1, e, hv, hb⟩

end RefPtr
end AT

namespace AT
namespace Optional

variable {T : Type}

theorem optional_default_wellFormed : (Optional.default : Optional T).WellFormed := by
  simp [WellFormed, Optional.default]

theorem optional_from_value_wellFormed (v : T) : (from_value v).WellFormed := by
  simp [WellFormed, from_value]

/-- An occupied well-formed optional holds an object in its buffer. -/
theorem occupied_live {o : Optional T} (hw : o.WellFormed) (ho : o.has_value = true) :
    ∃ x, o = ⟨Slot.live x, true⟩ := by
  obtain ⟨x, hx⟩ := hw.mp ho
  refine ⟨x, ?_⟩
  cases o with
  | mk slot flag =>
    simp only [has_value] at ho
    simp only at hx
    subst ho hx
    rfl

/-- An empty well-formed optional holds no live object. -/
theorem empty_flag {o : Optional T} (ho : o.has_value = false) :
    o = ⟨o.m_value_buffer, false⟩ := by
  cases o with
  | mk slot flag =>
    simp only [has_value] at ho
    subst ho
    rfl

/-- C31. `Optional<T>(v)` is occupied and `value()` returns `v`; `Optional<T>()` is empty
and its `value()` is a contract violation. On every well-formed occupied optional `o`,
`value()` returns the contained value `x`, and `release()` returns, leaves `o` empty and
well formed, and adds exactly one entry, `x`, to the log of finalized values; a second
`release()`, like every `release()` on an empty optional, changes neither the optional
nor the log. -/
theorem optional_round_trip (o : Optional T) (finalized : List T) (hw : o.WellFormed) :
    (∀ v : T, (from_value v).has_value = true ∧ (from_value v).value = Except.ok v) ∧
    ((Optional.default : Optional T).has_value = false ∧
      (Optional.default : Optional T).value = Except.error Fault.contract_violation) ∧
    (o.has_value = true → ∃ x o1, o.value = Except.ok x ∧
      o.release finalized = Except.ok (o1, x :: finalized) ∧
      o1.has_value = false ∧ o1.WellFormed ∧
      o1.release (x :: finalized) = Except.ok (o1, x :: finalized)) ∧
    (o.has_value = false → o.release finalized = Except.ok (o, finalized)) := by
  refine ⟨fun v => ⟨rfl, rfl⟩, ⟨rfl, rfl⟩, ?_, ?_⟩
  · intro ho
    obtain ⟨x, rfl⟩ := occupied_live hw ho
    refine ⟨x, ⟨Slot.raw, false⟩, rfl, rfl, rfl, ?_, rfl⟩
    simp [WellFormed]
  · intro ho
    rw [empty_flag ho]
    rfl

/-- The optional built from `5` is occupied with `5`; releasing it logs `5` once. -/
theorem optional_round_trip_witness :
    (from_value 5).WellFormed ∧
    ∃ x o1, (from_value 5).value = Except.ok x ∧
      (from_value 5).release [] = Except.ok (o1, [x]) ∧
      o1.has_value = false ∧ o1.WellFormed ∧
      o1.release [x] = Except.ok (o1, [x]) :=
  ⟨optional_from_value_wellFormed 5,
    (optional_round_trip (from_value 5) [] (optional_from_value_wellFormed 5)).2.2.1 rfl⟩

end Optional
end AT

namespace AT
namespace Optional

variable {T : Type}

/-- C32. For every well-formed source `s` (and, for the assignments, well-formed distinct
destination `d`): copy construction and copy assignment return a well-formed destination
with `has_value()` equal to that of `s` and `value()` giving what `s.value()` gives (the
source is a `const` operand and is not written); move construction and move assignment
return a destination with the state and value `s` had and leave `s` well formed and empty;
the assignments finalize the value the destination held, once, and nothing else is
finalized. The same equalities hold for the specialization `Optional<T&>`, where the
state is the stored pointer. -/
theorem optional_copy_move (s d : Optional T) (finalized : List T)
    (hs : s.WellFormed) (hd : d.WellFormed) :
    (∃ c, copy_construct s = Except.ok c ∧ c.WellFormed ∧
      c.has_value = s.has_value ∧ c.value = s.value) ∧
    (∃ c log, copy_assign d s finalized = Except.ok (c, log) ∧ c.WellFormed ∧
      c.has_value = s.has_value ∧ c.value = s.value ∧
      (∀ x, d.value = Except.ok x → log = x :: finalized) ∧
      (d.has_value = false → log = finalized)) ∧
    (∃ c s1, move_construct s finalized = Except.ok ((c, s1), finalized) ∧ c.WellFormed ∧
      c.has_value = s.has_value ∧ c.value = s.value ∧
      s1.WellFormed ∧ s1.has_value = false) ∧
    (∃ c s1 log, move_assign d s finalized = Except.ok ((c, s1), log) ∧ c.WellFormed ∧
      c.has_value = s.has_value ∧ c.value = s.value ∧
      s1.WellFormed ∧ s1.has_value = false ∧
      (∀ x, d.value = Except.ok x → log = x :: finalized) ∧
      (d.has_value = false → log = finalized)) ∧
    (∀ r t : OptionalReference,
      (r.copy_construct.has_value = r.has_value ∧ r.copy_construct.value = r.value) ∧
      ((t.copy_assign r).has_value = r.has_value ∧ (t.copy_assign r).value = r.value) ∧
      (r.move_construct.1.has_value = r.has_value ∧ r.move_construct.1.value = r.value ∧
        r.move_construct.2.has_value = false) ∧
      ((t.move_assign r).1.has_value = r.has_value ∧ (t.move_assign r).1.value = r.value ∧
        (t.move_assign r).2.has_value = false)) := by
  have hempty : ∀ slot : Slot T, WellFormed (⟨slot, false⟩ : Optional T) →
      ∀ x, slot ≠ Slot.live x := by
    intro slot hw x hx
    have := hw.mpr ⟨x, hx⟩
    simp at this
  cases hsv : s.has_value with
  | true =>
    obtain ⟨x, rfl⟩ := occupied_live hs hsv
    cases hdv : d.has_value with
    | true =>
      obtain ⟨y, rfl⟩ := occupied_live hd hdv
      refine ⟨⟨⟨Slot.live x, true⟩, rfl, hs, rfl, rfl⟩,
        ⟨⟨Slot.live x, true⟩, y :: finalized, rfl, hs, rfl, rfl, ?_, ?_⟩,
        ⟨⟨Slot.live x, true⟩, ⟨Slot.raw, false⟩, rfl, hs, rfl, rfl, by simp [WellFormed], rfl⟩,
        ⟨⟨Slot.live x, true⟩, ⟨Slot.raw, false⟩, y :: finalized, rfl, hs, rfl, rfl,
          by simp [WellFormed], rfl, ?_, ?_⟩, ?_⟩
      · intro z hz
        have : y = z := by simpa [value, has_value, VERIFY, raw_value] using hz
        rw [this]
      · intro hf
        simp [has_value] at hf
      · intro z hz
        have : y = z := by simpa [value, has_value, VERIFY, raw_value] using hz
        rw [this]
      · intro hf
        simp [has_value] at hf
      · intro r t
        exact ⟨⟨rfl, rfl⟩, ⟨rfl, rfl⟩, ⟨rfl, rfl, rfl⟩, ⟨rfl, rfl, rfl⟩⟩
    | false =>
      rw [empty_flag hdv] at hd ⊢
      refine ⟨⟨⟨Slot.live x, true⟩, rfl, hs, rfl, rfl⟩,
        ⟨⟨Slot.live x, true⟩, finalized, rfl, hs, rfl, rfl, ?_, fun _ => rfl⟩,
        ⟨⟨Slot.live x, true⟩, ⟨Slot.raw, false⟩, rfl, hs, rfl, rfl, by simp [WellFormed], rfl⟩,
        ⟨⟨Slot.live x, true⟩, ⟨Slot.raw, false⟩, finalized, rfl, hs, rfl, rfl,
          by simp [WellFormed], rfl, ?_, fun _ => rfl⟩, ?_⟩
      · intro z hz
        simp [value, has_value, VERIFY] at hz
      · intro z hz
        simp [value, has_value, VERIFY] at hz
      · intro r t
        exact ⟨⟨rfl, rfl⟩, ⟨rfl, rfl⟩, ⟨rfl, rfl, rfl⟩, ⟨rfl, rfl, rfl⟩⟩
  | false =>
    rw [empty_flag hsv] at hs ⊢
    have hraw : WellFormed (⟨Slot.raw, false⟩ : Optional T) := by simp [WellFormed]
    cases hdv : d.has_value with
    | true =>
      obtain ⟨y, rfl⟩ := occupied_live hd hdv
      refine ⟨⟨⟨Slot.raw, false⟩, rfl, hraw, rfl, rfl⟩,
        ⟨⟨Slot.raw, false⟩, y :: finalized, rfl, hraw, rfl, rfl, ?_, ?_⟩,
        ⟨⟨Slot.raw, false⟩, _, rfl, hraw, rfl, rfl, hs, rfl⟩,
        ⟨⟨Slot.raw, false⟩, _, y :: finalized, rfl, hraw, rfl, rfl, hs, rfl, ?_, ?_⟩, ?_⟩
      · intro z hz
        have : y = z := by simpa [value, has_value, VERIFY, raw_value] using hz
        rw [this]
      · intro hf
        simp [has_value] at hf
      · intro z hz
        have : y = z := by simpa [value, has_value, VERIFY, raw_value] using hz
        rw [this]
      · intro hf
        simp [has_value] at hf
      · intro r t
        exact ⟨⟨rfl, rfl⟩, ⟨rfl, rfl⟩, ⟨rfl, rfl, rfl⟩, ⟨rfl, rfl, rfl⟩⟩
    | false =>
      rw [empty_flag hdv] at hd ⊢
      refine ⟨⟨⟨Slot.raw, false⟩, rfl, hraw, rfl, rfl⟩,
        ⟨_, finalized, rfl, hd, rfl, rfl, ?_, fun _ => rfl⟩,
        ⟨⟨Slot.raw, false⟩, _, rfl, hraw, rfl, rfl, hs, rfl⟩,
        ⟨_, _, finalized, rfl, hd, rfl, rfl, hs, rfl, ?_, fun _ => rfl⟩, ?_⟩
      · intro z hz
        simp [value, has_value, VERIFY] at hz
      · intro z hz
        simp [value, has_value, VERIFY] at hz
      · intro r t
        exact ⟨⟨rfl, rfl⟩, ⟨rfl, rfl⟩, ⟨rfl, rfl, rfl⟩, ⟨rfl, rfl, rfl⟩⟩

/-- Moving the optional holding `5` into the optional holding `9`: the destination holds
`5`, the source is empty, and `9` is finalized. -/
theorem optional_copy_move_witness :
    (from_value 5).WellFormed ∧ (from_value 9).WellFormed ∧
    ∃ c s1 log, move_assign (from_value 9) (from_value 5) [] = Except.ok ((c, s1), log) ∧
      c.WellFormed ∧ c.has_value = (from_value 5).has_value ∧
      c.value = (from_value 5).value ∧ s1.WellFormed ∧ s1.has_value = false ∧
      (∀ x, (from_value 9).value = Except.ok x → log = [x]) ∧
      ((from_value 9).has_value = false → log = []) :=
  ⟨optional_from_value_wellFormed 5, optional_from_value_wellFormed 9,
    (optional_copy_move (from_value 5) (from_value 9) []
      (optional_from_value_wellFormed 5) (optional_from_value_wellFormed 9)).2.2.2.1⟩

end Optional
end AT

namespace AT
namespace Optional

variable {T : Type}

/-- C33. For all well-formed optionals `a` and `b`, `eq` being `operator==` of `T`:
`a == b` returns; it is true when both are empty, false when exactly one is empty, and
`eq x y` when both are occupied, with values `x` and `y`; and `a != b` returns the
negation of `a == b`. -/
theorem optional_equality (eq : T → T → Bool) (a b : Optional T)
    (ha : a.WellFormed) (hb : b.WellFormed) :
    (∃ r, operator_eq eq a b = Except.ok r ∧ operator_ne eq a b = Except.ok (!r)) ∧
    (a.has_value = false → b.has_value = false → operator_eq eq a b = Except.ok true) ∧
    (a.has_value ≠ b.has_value → operator_eq eq a b = Except.ok false) ∧
    (∀ x y, a.value = Except.ok x → b.value = Except.ok y →
      operator_eq eq a b = Except.ok (eq x y)) ∧
    (a.has_value = true → b.has_value = true →
      ∃ x y, a.value = Except.ok x ∧ b.value = Except.ok y) := by
  cases hav : a.has_value with
  | true =>
    obtain ⟨x, rfl⟩ := occupied_live ha hav
    cases hbv : b.has_value with
    | true =>
      obtain ⟨y, rfl⟩ := occupied_live hb hbv
      refine ⟨⟨eq x y, rfl, rfl⟩, fun h => by simp at h, fun h => by simp at h, ?_,
        fun _ _ => ⟨x, y, rfl, rfl⟩⟩
      intro x1 y1 h1 h2
      have e1 : x = x1 := by simpa [value, has_value, VERIFY, raw_value] using h1
      have e2 : y = y1 := by simpa [value, has_value, VERIFY, raw_value] using h2
      subst e1 e2
      rfl
    | false =>
      rw [empty_flag hbv]
      refine ⟨⟨false, rfl, rfl⟩, fun h => by simp at h, fun _ => rfl, ?_,
        fun _ h => by simp at h⟩
      intro x1 y1 _ h2
      simp [value, has_value, VERIFY] at h2
  | false =>
    rw [empty_flag hav]
    cases hbv : b.has_value with
    | true =>
      obtain ⟨y, rfl⟩ := occupied_live hb hbv
      refine ⟨⟨false, rfl, rfl⟩, fun _ h => by simp at h, fun _ => rfl, ?_,
        fun h => by simp at h⟩
      intro x1 y1 h1 _
      simp [value, has_value, VERIFY] at h1
    | false =>
      rw [empty_flag hbv]
      refine ⟨⟨true, rfl, rfl⟩, fun _ _ => rfl, fun h => by simp at h, ?_,
        fun h => by simp at h⟩
      intro x1 y1 h1 _
      simp [value, has_value, VERIFY] at h1

/-- With `==` of the naturals: the optionals holding `5` and `7` differ, and the
comparison goes through the contained values. -/
theorem optional_equality_witness :
    (from_value 5).WellFormed ∧ (from_value 7).WellFormed ∧
    operator_eq (fun x y : Nat => decide (x = y)) (from_value 5) (from_value 7)
      = Except.ok (decide (5 = 7)) :=
  ⟨optional_from_value_wellFormed 5, optional_from_value_wellFormed 7,
    (optional_equality (fun x y : Nat => decide (x = y)) (from_value 5) (from_value 7)
      (optional_from_value_wellFormed 5) (optional_from_value_wellFormed 7)).2.2.2.1 5 7
      rfl rfl⟩

end Optional

namespace OptionalReference

/-- C34 as stated fails: two occupied `Optional<T&>` referring to the distinct objects at
addresses `1` and `2`, which both hold the value `7`, do not compare equal. -/
theorem optional_reference_equality_counterexample :
    (from_value 1).has_value = true ∧ (from_value 2).has_value = true ∧
    read sample_objects (from_value 1) = Except.ok 7 ∧
    read sample_objects (from_value 2) = Except.ok 7 ∧
    operator_eq (from_value 1) (from_value 2) = false ∧
    operator_ne (from_value 1) (from_value 2) = true :=
  ⟨rfl, rfl, rfl, rfl, rfl, rfl⟩

/-- C34, amended. For the specialization `Optional<T&>`, `a == b` is true exactly when
the two optionals store the same pointer: two empty optionals are equal, an empty one
differs from every occupied one, and two occupied ones are equal exactly when they refer
to the same object, in which case the values read through them are the same; `a != b`
is the negation of `a == b`. -/
theorem optional_reference_equality (a b : OptionalReference) :
    (operator_eq a b = true ↔ a.m_value = b.m_value) ∧
    (a.has_value = false → b.has_value = false → operator_eq a b = true) ∧
    (a.has_value ≠ b.has_value → operator_eq a b = false) ∧
    (∀ p q, a.value = Except.ok p → b.value = Except.ok q →
      (operator_eq a b = true ↔ p = q)) ∧
    (∀ (T : Type) (objects : Nat → Option T), operator_eq a b = true →
      read objects a = read objects b) ∧
    operator_ne a b = !operator_eq a b := by
  cases a with
  | mk p =>
    cases b with
    | mk q =>
      refine ⟨by simp [operator_eq], ?_, ?_, ?_, ?_, rfl⟩
      · intro h1 h2
        have e1 : p = 0 := by simpa [has_value] using h1
        have e2 : q = 0 := by simpa [has_value] using h2
        simp [operator_eq, e1, e2]
      · intro h
        simp only [operator_eq, decide_eq_false_iff_not]
        intro hpq
        have hpq1 : p = q := hpq
        subst hpq1
        exact h rfl
      · intro p1 q1 h1 h2
        by_cases hp : p = 0
        · subst hp
          simp [value, has_value, VERIFY] at h1
        · by_cases hq : q = 0
          · subst hq
            simp [value, has_value, VERIFY] at h2
          · have e1 : p = p1 := by simpa [value, has_value, VERIFY, hp] using h1
            have e2 : q = q1 := by simpa [value, has_value, VERIFY, hq] using h2
            subst e1 e2
            simp [operator_eq]
      · intro T objects h
        have hpq : p = q := by simpa [operator_eq] using h
        subst hpq
        rfl

/-- Two optionals referring to the object at address `1` compare equal. -/
theorem optional_reference_equality_witness :
    (from_value 1).m_value = (from_value 1).m_value ∧
    operator_eq (from_value 1) (from_value 1) = true :=
  ⟨rfl, (optional_reference_equality (from_value 1) (from_value 1)).1.mpr rfl⟩

end OptionalReference
end AT

namespace AT

theorem usize_sub_of_le {a b : Nat} (hab : a ≤ b) (hb : b < usize_limit) :
    usize (b + usize_limit - a) = b - a := by
  unfold usize
  have e : b + usize_limit - a = (b - a) + usize_limit := by omega
  rw [e, Nat.add_mod_right]
  exact Nat.mod_eq_of_lt (by omega)

namespace Span

/-- `slice(offset, n)` returns exactly when the wrapped sum passes the check. -/
theorem slice_ok_iff (s : Span) (offset n : Nat) (r : Span) :
    slice s offset n = Except.ok r ↔
      usize (offset + n) ≤ s.m_count ∧ r = ⟨s.element offset, n⟩ := by
  unfold slice
  by_cases h : usize (offset + n) ≤ s.m_count
  · simp [h, VERIFY, eq_comm]
  · simp [h, VERIFY]

/-- C35. For a span of count `c` and `usize` arguments, `slice(offset)` and
`slice_range(lo, hi)` return exactly when `offset <= c`, resp. `lo <= hi <= c`, and
`slice(offset, n)` returns with the right span whenever `offset + n` does not wrap and
is at most `c`; what is returned then lies inside the original, has count `c - offset`,
`hi - lo`, `n`, and its `k`-th element is the element `offset + k`, `lo + k` of the
original. But the check of `slice(offset, n)` is made on the wrapped sum: on the sample
span of count 4, `slice(2^64 - 1, 2)` passes it, since the sum wraps to `1`, and returns
a span of count 2 at offset `2^64 - 1`, which is not inside the original; and in general
`slice(offset, n)` returns whenever the wrapped sum is at most `c`. -/
theorem span_slice_bounds :
    (∀ (s : Span) (offset : Nat), s.m_count < usize_limit → offset < usize_limit →
      ((∃ r, slice_to_end s offset = Except.ok r) ↔ offset ≤ s.m_count) ∧
      ∀ r, slice_to_end s offset = Except.ok r →
        offset ≤ s.m_count ∧ r.count = s.m_count - offset ∧ r.Inside s ∧
        ∀ k, k < r.count → r.«at» k = s.«at» (offset + k)) ∧
    (∀ (s : Span) (lo hi : Nat), s.m_count < usize_limit → lo < usize_limit →
      hi < usize_limit →
      ((∃ r, slice_range s lo hi = Except.ok r) ↔ lo ≤ hi ∧ hi ≤ s.m_count) ∧
      ∀ r, slice_range s lo hi = Except.ok r →
        lo ≤ hi ∧ hi ≤ s.m_count ∧ r.count = hi - lo ∧ r.Inside s ∧
        ∀ k, k < r.count → r.«at» k = s.«at» (lo + k)) ∧
    (∀ (s : Span) (offset n : Nat), s.m_count < usize_limit → offset + n < usize_limit →
      ((∃ r, slice s offset n = Except.ok r) ↔ offset + n ≤ s.m_count) ∧
      ∀ r, slice s offset n = Except.ok r →
        offset + n ≤ s.m_count ∧ r.count = n ∧ r.Inside s ∧
        ∀ k, k < r.count → r.«at» k = s.«at» (offset + k)) ∧
    (∀ (s : Span) (offset n : Nat),
      (∃ r, slice s offset n = Except.ok r) ↔ usize (offset + n) ≤ s.m_count) ∧
    (sample_span.count = 4 ∧ 18446744073709551615 < usize_limit ∧ 2 < usize_limit ∧
      ¬ (18446744073709551615 + 2 ≤ sample_span.count) ∧
      slice sample_span 18446744073709551615 2
        = Except.ok ⟨⟨1, 18446744073709551615⟩, 2⟩ ∧
      ¬ (Span.mk ⟨1, 18446744073709551615⟩ 2).Inside sample_span) := by
  refine ⟨?_, ?_, ?_, ?_, ?_⟩
  · intro s offset hc ho
    by_cases h : offset ≤ s.m_count
    · have e : slice_to_end s offset = Except.ok ⟨s.element offset, s.m_count - offset⟩ := by
        simp [slice_to_end, VERIFY, h, usize_sub_of_le h hc]
      refine ⟨⟨fun _ => h, fun _ => ⟨_, e⟩⟩, ?_⟩
      intro r er
      rw [e] at er
      simp only [Except.ok.injEq] at er
      subst er
      refine ⟨h, rfl, ⟨rfl, by simp [element], by simp only [element]; omega⟩, ?_⟩
      intro k hk
      have hk1 : k < s.m_count - offset := hk
      have hk2 : offset + k < s.m_count := by omega
      simp [«at», VERIFY, hk1, hk2, element, Nat.add_assoc]
    · have e : slice_to_end s offset = Except.error Fault.contract_violation := by
        simp [slice_to_end, VERIFY, h]
      refine ⟨⟨fun ⟨r, er⟩ => (by rw [e] at er; cases er), fun hh => absurd hh h⟩, ?_⟩
      intro r er
      rw [e] at er
      cases er
  · intro s lo hi hc hlo hhi
    by_cases h : lo ≤ hi ∧ hi ≤ s.m_count
    · have e : slice_range s lo hi = Except.ok ⟨s.element lo, hi - lo⟩ := by
        simp [slice_range, VERIFY, h.1, h.2, usize_sub_of_le h.1 hhi]
      refine ⟨⟨fun _ => h, fun _ => ⟨_, e⟩⟩, ?_⟩
      intro r er
      rw [e] at er
      simp only [Except.ok.injEq] at er
      subst er
      refine ⟨h.1, h.2, rfl, ⟨rfl, by simp [element], by simp only [element]; omega⟩, ?_⟩
      intro k hk
      have hk1 : k < hi - lo := hk
      have hk2 : lo + k < s.m_count := by omega
      simp [«at», VERIFY, hk1, hk2, element, Nat.add_assoc]
    · have e : slice_range s lo hi = Except.error Fault.contract_violation := by
        by_cases h1 : lo ≤ hi
        · have h2 : ¬ hi ≤ s.m_count := fun h2 => h ⟨h1, h2⟩
          simp [slice_range, VERIFY, h1, h2]
        · simp [slice_range, VERIFY, h1]
      refine ⟨⟨fun ⟨r, er⟩ => (by rw [e] at er; cases er), fun hh => absurd hh h⟩, ?_⟩
      intro r er
      rw [e] at er
      cases er
  · intro s offset n hc hsum
    have hu : usize (offset + n) = offset + n := Nat.mod_eq_of_lt hsum
    refine ⟨?_, ?_⟩
    · constructor
      · rintro ⟨r, er⟩
        have := ((slice_ok_iff s offset n r).mp er).1
        omega
      · intro h
        exact ⟨_, (slice_ok_iff s offset n _).mpr ⟨by omega, rfl⟩⟩
    · intro r er
      obtain ⟨h1, h2⟩ := (slice_ok_iff s offset n r).mp er
      subst h2
      have h3 : offset + n ≤ s.m_count := by omega
      refine ⟨h3, rfl, ⟨rfl, by simp [element], by simp only [element]; omega⟩, ?_⟩
      intro k hk
      have hk1 : k < n := hk
      have hk2 : offset + k < s.m_count := by omega
      simp [«at», VERIFY, hk1, hk2, element, Nat.add_assoc]
  · intro s offset n
    constructor
    · rintro ⟨r, er⟩
      exact ((slice_ok_iff s offset n r).mp er).1
    · intro h
      exact ⟨_, (slice_ok_iff s offset n _).mpr ⟨h, rfl⟩⟩
  · refine ⟨rfl, by decide, by decide, by decide, ?_, ?_⟩
    · exact (slice_ok_iff _ _ _ _).mpr ⟨by decide, rfl⟩
    · intro h
      have h3 := h.2.2
      simp [sample_span] at h3

/-- On the sample span of count 4: `slice(1, 2)` returns the span of count 2 at offset 1,
inside the original. -/
theorem span_slice_bounds_witness :
    sample_span.m_count < usize_limit ∧ 1 + 2 < usize_limit ∧
    slice sample_span 1 2 = Except.ok ⟨⟨1, 1⟩, 2⟩ ∧
    (Span.mk ⟨1, 1⟩ 2).Inside sample_span :=
  ⟨by decide, by decide, rfl,
    ((span_slice_bounds.2.2.1 sample_span 1 2 (by decide) (by decide)).2 ⟨⟨1, 1⟩, 2⟩ rfl).2.2.1⟩

end Span

namespace StringView

/-- The loop of `operator==` over two views of the same byte count: it returns, and
answers whether the bytes from `byte_offset` on are the same. -/
theorem operator_eq_loop_spec (xs ys : List Nat) :
    ∀ (remaining byte_offset : Nat), byte_offset + remaining = xs.length →
      xs.length = ys.length →
      operator_eq_loop (xs.map some) (ys.map some) remaining byte_offset
        = Except.ok (decide (xs.drop byte_offset = ys.drop byte_offset)) := by
  intro remaining
  induction remaining with
  | zero =>
    intro byte_offset h1 h2
    have e1 : xs.drop byte_offset = [] := List.drop_eq_nil_of_le (by omega)
    have e2 : ys.drop byte_offset = [] := List.drop_eq_nil_of_le (by omega)
    simp [operator_eq_loop, e1, e2]
  | succ n ih =>
    intro byte_offset h1 h2
    have hx : byte_offset < xs.length := by omega
    have hy : byte_offset < ys.length := by omega
    have e1 : xs.drop byte_offset = xs[byte_offset] :: xs.drop (byte_offset + 1) :=
      List.drop_eq_getElem_cons hx
    have e2 : ys.drop byte_offset = ys[byte_offset] :: ys.drop (byte_offset + 1) :=
      List.drop_eq_getElem_cons hy
    unfold operator_eq_loop
    simp only [List.get?_eq_getElem?, List.getElem?_map, List.getElem?_eq_getElem hx,
      List.getElem?_eq_getElem hy, Option.map_some']
    have key : xs.drop byte_offset = ys.drop byte_offset ↔
        xs[byte_offset] = ys[byte_offset] ∧
          xs.drop (byte_offset + 1) = ys.drop (byte_offset + 1) := by
      rw [e1, e2]
      exact List.cons_eq_cons
    by_cases hb : xs[byte_offset] = ys[byte_offset]
    · rw [if_neg (by simpa using hb), ih (byte_offset + 1) (by omega) h2,
        decide_eq_decide.mpr (key.trans (and_iff_right hb))]
    · rw [if_pos hb, decide_eq_false (fun e => hb (key.mp e).1)]

/-- `operator==` decides the equality of the byte sequences. -/
theorem operator_eq_spec (a b : StringView) :
    operator_eq a b = Except.ok (decide (a.bytes = b.bytes)) := by
  unfold operator_eq
  by_cases h : a.byte_count = b.byte_count
  · have h1 : a.bytes.length = b.bytes.length := h
    rw [if_neg (by simpa using h)]
    have := operator_eq_loop_spec a.bytes b.bytes a.byte_count 0 (by simp [byte_count]) h1
    simpa [characters] using this
  · have h1 : a.bytes.length ≠ b.bytes.length := h
    rw [if_pos h]
    have : a.bytes ≠ b.bytes := fun e => h1 (by rw [e])
    simp [this]

/-- C36. For all views `a` and `b`, `a == b` returns, and it is true if and only if the
byte counts are equal and the bytes at every offset below that count are equal, that is,
if and only if the two byte sequences are the same; two empty views are equal; `==` is
reflexive, symmetric and transitive; and `a != b` returns the negation of `a == b`. -/
theorem stringview_equality (a b c : StringView) :
    (∃ r, operator_eq a b = Except.ok r ∧ operator_ne a b = Except.ok (!r)) ∧
    (operator_eq a b = Except.ok true ↔
      a.byte_count = b.byte_count ∧ ∀ i, i < a.byte_count → a.bytes[i]? = b.bytes[i]?) ∧
    (operator_eq a b = Except.ok true ↔ a.bytes = b.bytes) ∧
    (a.byte_count = 0 → b.byte_count = 0 → operator_eq a b = Except.ok true) ∧
    operator_eq a a = Except.ok true ∧
    operator_eq a b = operator_eq b a ∧
    (operator_eq a b = Except.ok true → operator_eq b c = Except.ok true →
      operator_eq a c = Except.ok true) := by
  have hiff : ∀ x y : StringView, operator_eq x y = Except.ok true ↔ x.bytes = y.bytes := by
    intro x y
    rw [operator_eq_spec]
    simp
  have hsymm : operator_eq a b = operator_eq b a := by
    rw [operator_eq_spec, operator_eq_spec]
    by_cases h : a.bytes = b.bytes
    · simp [h]
    · have : ¬ b.bytes = a.bytes := fun e => h e.symm
      simp [h, this]
  refine ⟨⟨decide (a.bytes = b.bytes), operator_eq_spec a b, ?_⟩, ?_, hiff a b, ?_,
    (hiff a a).mpr rfl, hsymm, ?_⟩
  · unfold operator_ne
    rw [← hsymm, operator_eq_spec]
    rfl
  · rw [hiff]
    constructor
    · intro e
      rw [byte_count, byte_count, e]
      exact ⟨rfl, fun _ _ => rfl⟩
    · rintro ⟨h1, h2⟩
      apply List.ext_getElem?
      intro i
      by_cases hi : i < a.bytes.length
      · exact h2 i hi
      · have h3 : b.bytes.length = a.bytes.length := h1.symm
        rw [List.getElem?_eq_none (by omega), List.getElem?_eq_none (by omega)]
  · intro h1 h2
    rw [hiff]
    have e1 : a.bytes = [] := List.length_eq_zero.mp h1
    have e2 : b.bytes = [] := List.length_eq_zero.mp h2
    rw [e1, e2]
  · intro h1 h2
    rw [hiff] at h1 h2 ⊢
    rw [h1, h2]

/-- The views over `abc` and `abd` have the same byte count and differ. -/
theorem stringview_equality_witness :
    operator_eq ⟨[97, 98, 99]⟩ ⟨[97, 98, 100]⟩ = Except.ok false ∧
    operator_ne ⟨[97, 98, 99]⟩ ⟨[97, 98, 100]⟩ = Except.ok true ∧
    operator_eq ⟨[97, 98, 99]⟩ ⟨[97, 98, 99]⟩ = Except.ok true :=
  ⟨rfl, rfl, (stringview_equality ⟨[97, 98, 99]⟩ ⟨[97, 98, 99]⟩ ⟨[]⟩).2.2.2.2.1⟩

end StringView
end AT

namespace AT
namespace ElementMemory

variable {T : Type}

/-- Copy construction between two slots of one block: the source stays live. -/
theorem copy_construct_updated {m : ElementMemory T} {p i j : Nat} {slots : List (Slot T)}
    {x : T} (hb : m.heap.blocks p = some slots) (hx : slots[j]? = some (Slot.live x))
    (hi : i < slots.length) :
    Returns (m.copy_construct ⟨p, i⟩ ⟨p, j⟩) (fun m1 =>
      Updated m m1 p (slots.set i (Slot.live x)) m.finalized) := by
  simp only [copy_construct, slot, hb, List.get?_eq_getElem?, hx]
  exact set_slot_updated (Slot.live x) hb hi

end ElementMemory

namespace Vector

variable {T : Type}

theorem perm_log_step {x y : T} {log a b f : List T} (h : List.Perm log (a ++ b ++ f)) :
    List.Perm (y :: x :: log) ((a ++ [x]) ++ (b ++ [y]) ++ f) := by
  have h1 : List.Perm (y :: x :: log) (y :: x :: (a ++ b ++ f)) := (h.cons x).cons y
  refine h1.trans ?_
  have e : (a ++ [x]) ++ (b ++ [y]) ++ f = a ++ x :: (b ++ y :: f) := by simp
  rw [e]
  have h2 : List.Perm (a ++ x :: (b ++ y :: f)) (x :: (a ++ (b ++ y :: f))) := List.perm_middle
  have e3 : a ++ (b ++ y :: f) = (a ++ b) ++ y :: f := by simp
  have h3 : List.Perm ((a ++ b) ++ y :: f) (y :: (a ++ b ++ f)) := List.perm_middle
  have h4 : List.Perm (a ++ x :: (b ++ y :: f)) (x :: y :: (a ++ b ++ f)) := by
    refine h2.trans ?_
    rw [e3]
    exact h3.cons x
  exact (h4.trans (List.Perm.swap y x _)).symm

theorem perm_log_single {x : T} {log a b f : List T} (h : List.Perm log (a ++ b ++ f)) :
    List.Perm (x :: log) ((a ++ [x]) ++ b ++ f) := by
  have h1 : List.Perm (x :: log) (x :: (a ++ b ++ f)) := h.cons x
  refine h1.trans ?_
  have e : (a ++ [x]) ++ b ++ f = a ++ x :: (b ++ f) := by simp
  rw [e]
  have h2 : List.Perm (a ++ x :: (b ++ f)) (x :: (a ++ (b ++ f))) := List.perm_middle
  have e3 : a ++ (b ++ f) = a ++ b ++ f := by simp
  rw [e3] at h2
  exact h2.symm

theorem take_succ_of_getElem? {α : Type} {l : List α} {n : Nat} {x : α} (h : l[n]? = some x) :
    l.take (n + 1) = l.take n ++ [x] := by
  rw [List.take_succ, h]
  rfl

end Vector
end AT

namespace AT
namespace Vector

variable {T : Type}

/-- First loop of `remove_unordered(remove_index, remove_count)`: each of the first `k`
removed elements is finalized, a copy of one of the last `k` elements takes its slot, and
the original of that element is finalized. -/
theorem remove_range_first_loop {m : ElementMemory T} {p : Nat} {slots : List (Slot T)}
    {xs : List T} (i n k : Nat) (hb : m.heap.blocks p = some slots)
    (hget : ∀ t, t < xs.length → slots[t]? = (xs[t]?).map Slot.live)
    (hC : xs.length < usize_limit) (hk1 : k ≤ n) (hk2 : i + n + k ≤ xs.length) :
    Returns (for_range (fun index m1 => do
        let m2 ← m1.destroy ⟨p, usize (i + index)⟩
        let m3 ← m2.copy_construct ⟨p, i + index⟩ ⟨p, usize (xs.length - k + index)⟩
        m3.destroy ⟨p, usize (xs.length - k + index)⟩) k 0 m)
      (fun m1 => ∃ slots1, ElementMemory.Updated m m1 p slots1 m1.finalized ∧
        slots1.length = slots.length ∧
        (∀ t, slots1[t]? = if i ≤ t ∧ t < i + k then slots[xs.length - k + (t - i)]?
          else if (xs.length - k ≤ t ∧ t < xs.length - k + k) ∨ (i + k ≤ t ∧ t < i + k)
            then some Slot.raw else slots[t]?) ∧
        List.Perm m1.finalized
          ((xs.drop i).take k ++ (xs.drop (xs.length - k)).take k ++ m.finalized)) := by
  have hlen : xs.length ≤ slots.length := by
    by_contra hlt
    have h1 : slots.length < xs.length := by omega
    have h2 := hget slots.length h1
    rw [List.getElem?_eq_none (le_refl _), List.getElem?_eq_getElem h1] at h2
    cases h2
  have hmain := for_range_returns
    (fun index (m1 : ElementMemory T) => do
        let m2 ← m1.destroy ⟨p, usize (i + index)⟩
        let m3 ← m2.copy_construct ⟨p, i + index⟩ ⟨p, usize (xs.length - k + index)⟩
        m3.destroy ⟨p, usize (xs.length - k + index)⟩)
    (fun j m1 => ∃ slots1, ElementMemory.Updated m m1 p slots1 m1.finalized ∧
        slots1.length = slots.length ∧
        (∀ t, slots1[t]? = if i ≤ t ∧ t < i + j then slots[xs.length - k + (t - i)]?
          else if (xs.length - k ≤ t ∧ t < xs.length - k + j) ∨ (i + j ≤ t ∧ t < i + j)
            then some Slot.raw else slots[t]?) ∧
        List.Perm m1.finalized
          ((xs.drop i).take j ++ (xs.drop (xs.length - k)).take j ++ m.finalized))
    k ?_ k 0 m (by omega) ?_
  · simpa using hmain
  · intro j m1 hj ⟨slots1, hup, hl1, hdesc, hperm⟩
    obtain ⟨x, hx⟩ : ∃ x, xs[i + j]? = some x := ⟨_, List.getElem?_eq_getElem (by omega)⟩
    obtain ⟨y, hy⟩ : ∃ y, xs[xs.length - k + j]? = some y :=
      ⟨_, List.getElem?_eq_getElem (by omega)⟩
    have hs1 : slots1[i + j]? = some (Slot.live x) := by
      rw [hdesc (i + j), if_neg (by omega), if_neg (by omega), hget _ (by omega), hx]
      rfl
    have hs2 : slots1[xs.length - k + j]? = some (Slot.live y) := by
      rw [hdesc, if_neg (by omega), if_neg (by omega), hget _ (by omega), hy]
      rfl
    have hu1 : usize (i + j) = i + j := usize_of_lt (by omega)
    have hu2 : usize (xs.length - k + j) = xs.length - k + j := usize_of_lt (by omega)
    dsimp only
    rw [hu1, hu2, returns_bind]
    refine (ElementMemory.destroy_updated hup.1 hs1).imp ?_
    intro m2 h2
    rw [returns_bind]
    have hs3 : (slots1.set (i + j) Slot.raw)[xs.length - k + j]? = some (Slot.live y) := by
      rw [List.getElem?_set, if_neg (by omega)]
      exact hs2
    refine (ElementMemory.copy_construct_updated h2.1 hs3
      (by rw [List.length_set]; omega)).imp ?_
    intro m3 h3
    have hs4 : ((slots1.set (i + j) Slot.raw).set (i + j) (Slot.live y))[xs.length - k + j]?
        = some (Slot.live y) := by
      rw [List.getElem?_set, if_neg (by omega)]
      exact hs3
    refine (ElementMemory.destroy_updated h3.1 hs4).imp ?_
    intro m4 h4
    have hall := ElementMemory.updated_trans (ElementMemory.updated_trans
      (ElementMemory.updated_trans hup h2) h3) h4
    have hfin : m4.finalized = y :: x :: m1.finalized := by
      rw [h4.2.2.2.2, h3.2.2.2.2, h2.2.2.2.2]
    refine ⟨_, ⟨hall.1, hall.2.1, hall.2.2.1, hall.2.2.2.1, rfl⟩, ?_, ?_, ?_⟩
    · simp only [List.length_set]
      exact hl1
    · intro t
      have hi1 : i + j < slots1.length := by omega
      have hi2 : xs.length - k + j < slots1.length := by omega
      simp only [List.getElem?_set, List.length_set, hi1, hi2, if_true]
      by_cases e1 : xs.length - k + j = t
      · have c1 : ¬ (i ≤ t ∧ t < i + (j + 1)) := by omega
        have c2 : (xs.length - k ≤ t ∧ t < xs.length - k + (j + 1)) ∨
            (i + (j + 1) ≤ t ∧ t < i + (j + 1)) := by omega
        rw [if_pos e1, if_neg c1, if_pos c2]
      · rw [if_neg e1]
        by_cases e2 : i + j = t
        · have c1 : i ≤ t ∧ t < i + (j + 1) := by omega
          rw [if_pos e2, if_pos c1]
          have e3 : xs.length - k + (t - i) = xs.length - k + j := by omega
          rw [e3, hget _ (by omega), hy]
          rfl
        · rw [if_neg e2, if_neg e2, hdesc t]
          by_cases c1 : i ≤ t ∧ t < i + j
          · have c3 : i ≤ t ∧ t < i + (j + 1) := by omega
            rw [if_pos c1, if_pos c3]
          · have c3 : ¬ (i ≤ t ∧ t < i + (j + 1)) := by omega
            rw [if_neg c1, if_neg c3]
            by_cases c2 : (xs.length - k ≤ t ∧ t < xs.length - k + j) ∨ (i + j ≤ t ∧ t < i + j)
            · have c4 : (xs.length - k ≤ t ∧ t < xs.length - k + (j + 1)) ∨
                  (i + (j + 1) ≤ t ∧ t < i + (j + 1)) := by omega
              rw [if_pos c2, if_pos c4]
            · have c4 : ¬ ((xs.length - k ≤ t ∧ t < xs.length - k + (j + 1)) ∨
                  (i + (j + 1) ≤ t ∧ t < i + (j + 1))) := by omega
              rw [if_neg c2, if_neg c4]
    · rw [hfin]
      have ea : (xs.drop i).take (j + 1) = (xs.drop i).take j ++ [x] :=
        take_succ_of_getElem? (by rw [List.getElem?_drop]; exact hx)
      have eb : (xs.drop (xs.length - k)).take (j + 1)
          = (xs.drop (xs.length - k)).take j ++ [y] :=
        take_succ_of_getElem? (by rw [List.getElem?_drop]; exact hy)
      rw [ea, eb]
      exact perm_log_step hperm
  · refine ⟨slots, ⟨hb, fun _ _ => rfl, rfl, rfl, rfl⟩, rfl, ?_, by simp⟩
    intro t
    rw [if_neg (by omega), if_neg (by omega)]

end Vector
end AT

namespace AT
namespace Vector

variable {T : Type}

/-- Second loop of `remove_unordered(remove_index, remove_count)`: the removed elements
whose slot received no copy are finalized. -/
theorem remove_range_second_loop {m mA : ElementMemory T} {p : Nat}
    {slots slotsA : List (Slot T)} {xs : List T} (i n k : Nat)
    (hupA : ElementMemory.Updated m mA p slotsA mA.finalized)
    (hlA : slotsA.length = slots.length)
    (hdescA : ∀ t, slotsA[t]? = if i ≤ t ∧ t < i + k then slots[xs.length - k + (t - i)]?
      else if (xs.length - k ≤ t ∧ t < xs.length - k + k) ∨ (i + k ≤ t ∧ t < i + k)
        then some Slot.raw else slots[t]?)
    (hpermA : List.Perm mA.finalized
      ((xs.drop i).take k ++ (xs.drop (xs.length - k)).take k ++ m.finalized))
    (hget : ∀ t, t < xs.length → slots[t]? = (xs[t]?).map Slot.live)
    (hC : xs.length < usize_limit) (hk1 : k ≤ n)
    (hk3 : k < n → i + n + k = xs.length) :
    Returns (for_range (fun index m1 => m1.destroy ⟨p, usize (i + index)⟩) (n - k) k mA)
      (fun m1 => ∃ slots1, ElementMemory.Updated m m1 p slots1 m1.finalized ∧
        slots1.length = slots.length ∧
        (∀ t, slots1[t]? = if i ≤ t ∧ t < i + k then slots[xs.length - k + (t - i)]?
          else if (xs.length - k ≤ t ∧ t < xs.length - k + k) ∨ (i + k ≤ t ∧ t < i + n)
            then some Slot.raw else slots[t]?) ∧
        List.Perm m1.finalized
          ((xs.drop i).take n ++ (xs.drop (xs.length - k)).take k ++ m.finalized)) := by
  have hlen : xs.length ≤ slots.length := by
    by_contra hlt
    have h1 : slots.length < xs.length := by omega
    have h2 := hget slots.length h1
    rw [List.getElem?_eq_none (le_refl _), List.getElem?_eq_getElem h1] at h2
    cases h2
  have hmain := for_range_returns
    (fun index (m1 : ElementMemory T) => m1.destroy ⟨p, usize (i + index)⟩)
    (fun j m1 => k ≤ j ∧ ∃ slots1, ElementMemory.Updated m m1 p slots1 m1.finalized ∧
        slots1.length = slots.length ∧
        (∀ t, slots1[t]? = if i ≤ t ∧ t < i + k then slots[xs.length - k + (t - i)]?
          else if (xs.length - k ≤ t ∧ t < xs.length - k + k) ∨ (i + k ≤ t ∧ t < i + j)
            then some Slot.raw else slots[t]?) ∧
        List.Perm m1.finalized
          ((xs.drop i).take j ++ (xs.drop (xs.length - k)).take k ++ m.finalized))
    n ?_ (n - k) k mA (by omega) ⟨le_refl _, slotsA, hupA, hlA, hdescA, hpermA⟩
  · have e : k + (n - k) = n := by omega
    rw [e] at hmain
    exact hmain.imp (fun _ h => h.2)
  · intro j m1 hj ⟨hkj, slots1, hup, hl1, hdesc, hperm⟩
    have hkn : k < n := by omega
    have hsum := hk3 hkn
    obtain ⟨x, hx⟩ : ∃ x, xs[i + j]? = some x := ⟨_, List.getElem?_eq_getElem (by omega)⟩
    have c1 : ¬ (i ≤ i + j ∧ i + j < i + k) := by omega
    have c2 : ¬ ((xs.length - k ≤ i + j ∧ i + j < xs.length - k + k) ∨
        (i + k ≤ i + j ∧ i + j < i + j)) := by omega
    have hs1 : slots1[i + j]? = some (Slot.live x) := by
      rw [hdesc (i + j), if_neg c1, if_neg c2, hget _ (by omega), hx]
      rfl
    have hu1 : usize (i + j) = i + j := usize_of_lt (by omega)
    dsimp only
    rw [hu1]
    refine (ElementMemory.destroy_updated hup.1 hs1).imp ?_
    intro m2 h2
    have hall := ElementMemory.updated_trans hup h2
    refine ⟨by omega, _, ⟨hall.1, hall.2.1, hall.2.2.1, hall.2.2.2.1, rfl⟩, ?_, ?_, ?_⟩
    · rw [List.length_set]
      exact hl1
    · intro t
      have hi1 : i + j < slots1.length := by omega
      simp only [List.getElem?_set, hi1, if_true]
      by_cases e1 : i + j = t
      · have c3 : ¬ (i ≤ t ∧ t < i + k) := by omega
        have c4 : (xs.length - k ≤ t ∧ t < xs.length - k + k) ∨
            (i + k ≤ t ∧ t < i + (j + 1)) := by omega
        rw [if_pos e1, if_neg c3, if_pos c4]
      · rw [if_neg e1, hdesc t]
        by_cases c3 : i ≤ t ∧ t < i + k
        · rw [if_pos c3, if_pos c3]
        · rw [if_neg c3, if_neg c3]
          by_cases c4 : (xs.length - k ≤ t ∧ t < xs.length - k + k) ∨
              (i + k ≤ t ∧ t < i + j)
          · have c5 : (xs.length - k ≤ t ∧ t < xs.length - k + k) ∨
                (i + k ≤ t ∧ t < i + (j + 1)) := by omega
            rw [if_pos c4, if_pos c5]
          · have c5 : ¬ ((xs.length - k ≤ t ∧ t < xs.length - k + k) ∨
                (i + k ≤ t ∧ t < i + (j + 1))) := by omega
            rw [if_neg c4, if_neg c5]
    · rw [h2.2.2.2.2]
      have ea : (xs.drop i).take (j + 1) = (xs.drop i).take j ++ [x] :=
        take_succ_of_getElem? (by rw [List.getElem?_drop]; exact hx)
      rw [ea]
      exact perm_log_single hperm

end Vector
end AT

namespace AT
namespace Vector

variable {T : Type}

/-- The elements that stay after a removal of `n` elements at `i`, `k` of the last
elements having taken the first `k` freed slots. -/
theorem range_survivors_getElem? (xs : List T) (i n k t : Nat) (hk1 : k ≤ n)
    (hk2 : i + n + k ≤ xs.length) (hk3 : k < n → i + n + k = xs.length)
    (ht : t < xs.length - n) :
    (xs.take i ++ xs.drop (xs.length - k)
        ++ (xs.drop (i + n)).take (xs.length - n - i - k))[t]?
      = if i ≤ t ∧ t < i + k then xs[xs.length - k + (t - i)]? else xs[t]? := by
  have l1 : (xs.take i).length = i := by rw [List.length_take]; omega
  have l2 : (xs.drop (xs.length - k)).length = k := by rw [List.length_drop]; omega
  have l3 : (xs.take i ++ xs.drop (xs.length - k)).length = i + k := by
    rw [List.length_append, l1, l2]
  by_cases c1 : t < i
  · rw [List.getElem?_append_left (by omega), List.getElem?_append_left (by omega),
      List.getElem?_take_of_lt c1, if_neg (by omega)]
  · by_cases c2 : t < i + k
    · rw [List.getElem?_append_left (by omega), List.getElem?_append_right (by omega), l1,
        List.getElem?_drop, if_pos (by omega)]
    · have hkn : k = n := by
        by_contra hne
        have := hk3 (by omega)
        omega
      rw [List.getElem?_append_right (by omega), l3,
        List.getElem?_take_of_lt (by omega), List.getElem?_drop, if_neg (by omega)]
      congr 1
      omega

/-- C37. On a well-formed vector holding `xs` (count `C < 2^64`), with
`remove_index + remove_count <= C` as mathematical integers,
`remove_unordered(remove_index, remove_count)` returns; the vector keeps its storage and
capacity and has count `C - remove_count`; the elements below `remove_index` are
unchanged; the elements held afterwards together with the removed ones are, as a
multiset, the elements held before, so that no element is lost. But the destructor does
not run on the removed elements only: the first loop fills a freed slot by copy
construction from one of the last `k = min(remove_count, C - (remove_index + remove_count))`
elements and then runs the destructor on that live element, so the destructor log gains,
as a multiset, the removed elements and these `k` surviving elements, where the claim has
no surviving element finalized. -/
theorem vector_remove_unordered_range (v : Vector) (m : ElementMemory T) (xs : List T)
    (i n : Nat) (hv : Rep v m xs) (hC : xs.length < usize_limit) (hin : i + n ≤ xs.length) :
    ∃ r ys, remove_unordered_range v m i n = Except.ok r ∧
      r.1.count = xs.length - n ∧ r.1.capacity = v.capacity ∧
      r.1.m_elements = v.m_elements ∧ Rep r.1 r.2 ys ∧
      ys.take i = xs.take i ∧
      List.Perm (ys ++ (xs.drop i).take n) xs ∧
      List.Perm r.2.finalized ((xs.drop i).take n
        ++ xs.drop (xs.length - min n (xs.length - (i + n))) ++ m.finalized) := by
  obtain ⟨hcount, hcap, hptr, hrep⟩ := hv
  have hlim : 1 < usize_limit := by decide
  have e1 : usize (i + n) = i + n := usize_of_lt (by omega)
  have e2 : usize (xs.length + usize_limit - (i + n)) = xs.length - (i + n) :=
    usize_sub_of_le hin hC
  have e3 : (if xs.length - (i + n) > n then n else xs.length - (i + n))
      = min n (xs.length - (i + n)) := by
    split <;> omega
  generalize hk : min n (xs.length - (i + n)) = k at e3
  have hk1 : k ≤ n := by omega
  have hk2 : i + n + k ≤ xs.length := by omega
  have hk3 : k < n → i + n + k = xs.length := by omega
  have e4 : usize (xs.length + usize_limit - k) = xs.length - k :=
    usize_sub_of_le (by omega) hC
  have e5 : usize (xs.length + usize_limit - n) = xs.length - n :=
    usize_sub_of_le (by omega) hC
  have hver : decide (i + n ≤ xs.length) = true := decide_eq_true hin
  have hys : List.Perm ((xs.take i ++ xs.drop (xs.length - k)
      ++ (xs.drop (i + n)).take (xs.length - n - i - k)) ++ (xs.drop i).take n) xs := by
    have d1 : xs.drop (i + n) = (xs.drop (i + n)).take (xs.length - n - i - k)
        ++ xs.drop (xs.length - k) := by
      have h := (List.take_append_drop (xs.length - n - i - k) (xs.drop (i + n))).symm
      rw [List.drop_drop] at h
      have e : i + n + (xs.length - n - i - k) = xs.length - k := by omega
      rw [e] at h
      exact h
    have d2 : xs = xs.take i ++ ((xs.drop i).take n ++ xs.drop (i + n)) := by
      have h := (List.take_append_drop n (xs.drop i)).symm
      rw [List.drop_drop] at h
      rw [← h]
      exact (List.take_append_drop i xs).symm
    generalize xs.take i = a at d2 ⊢
    generalize (xs.drop i).take n = b at d2 ⊢
    generalize xs.drop (xs.length - k) = c at d1 ⊢
    generalize (xs.drop (i + n)).take (xs.length - n - i - k) = d at d1 ⊢
    rw [d1] at d2
    have h1 : List.Perm (a ++ c ++ d ++ b) (a ++ (c ++ d ++ b)) := by simp
    have h2 : List.Perm (c ++ d ++ b) (b ++ (d ++ c)) := by
      have h3 : List.Perm (c ++ d ++ b) (b ++ (c ++ d)) := List.perm_append_comm
      exact h3.trans (List.Perm.append_left b List.perm_append_comm)
    have h4 := h1.trans (List.Perm.append_left a h2)
    rw [← d2] at h4
    exact h4
  rcases hrep with ⟨hnull, hzero⟩ | ⟨hnn, slots, hb, hlen, hget⟩
  · have hx0 : xs.length = 0 := by omega
    have hnil : xs = [] := List.length_eq_zero.mp hx0
    subst hnil
    have hi0 : i = 0 := by simp at hin; omega
    have hn0 : n = 0 := by simp at hin; omega
    have hk0 : k = 0 := by omega
    subst hi0 hn0 hk0
    refine ⟨(v, m), [], ?_, ?_, rfl, rfl, ⟨hcount, hcap, hptr, Or.inl ⟨hnull, hzero⟩⟩,
      rfl, by simp, by simp⟩
    · unfold remove_unordered_range
      rw [hcount]
      simp only [e1, e2, e3, e4, e5, hver, VERIFY_true, ok_bind]
      have hz : ∀ (body : Nat → ElementMemory T → Except Fault (ElementMemory T))
          (start : Nat) (s : ElementMemory T), for_range body 0 start s = Except.ok s :=
        fun _ _ _ => rfl
      simp only [hz, ok_bind, Nat.sub_self]
      cases v
      simp only [List.length_nil] at hcount
      subst hcount
      rfl
    · exact hcount
  · have hget1 : ∀ t, t < xs.length → slots[t]? = (xs[t]?).map Slot.live := hget
    obtain ⟨mA, eA, slotsA, hupA, hlA, hdescA, hpermA⟩ :=
      remove_range_first_loop i n k hb hget1 hC hk1 hk2
    obtain ⟨mB, eB, slotsB, hupB, hlB, hdescB, hpermB⟩ :=
      remove_range_second_loop i n k hupA hlA hdescA hpermA hget1 hC hk1 hk3
    have hlenk : (xs.drop (xs.length - k)).length = k := by rw [List.length_drop]; omega
    have htk : (xs.drop (xs.length - k)).take k = xs.drop (xs.length - k) :=
      List.take_of_length_le (by omega)
    refine ⟨(⟨v.m_elements, v.m_capacity, xs.length - n⟩, mB),
      xs.take i ++ xs.drop (xs.length - k) ++ (xs.drop (i + n)).take (xs.length - n - i - k),
      ?_, rfl, rfl, rfl, ?_, ?_, hys, ?_⟩
    · unfold remove_unordered_range
      rw [hcount]
      simp only [e1, e2, e3, e4, e5, hver, VERIFY_true, ok_bind]
      rw [eA]
      simp only [ok_bind]
      rw [eB]
      rfl
    · have hylen : (xs.take i ++ xs.drop (xs.length - k)
          ++ (xs.drop (i + n)).take (xs.length - n - i - k)).length = xs.length - n := by
        simp only [List.length_append, List.length_take, List.length_drop]
        omega
      refine ⟨hylen.symm, ?_, ?_, Or.inr ⟨hnn, slotsB, hupB.1, by rw [hlB]; exact hlen, ?_⟩⟩
      · show _ ≤ v.m_capacity
        rw [hylen]
        omega
      · show v.m_elements ≤ mB.heap.allocations
        rw [hupB.2.2.1]
        exact hptr
      · intro t ht
        rw [hylen] at ht
        rw [range_survivors_getElem? xs i n k t hk1 hk2 hk3 ht, hdescB t]
        by_cases c1 : i ≤ t ∧ t < i + k
        · rw [if_pos c1, if_pos c1]
          exact hget1 _ (by omega)
        · have c2 : ¬ ((xs.length - k ≤ t ∧ t < xs.length - k + k) ∨
              (i + k ≤ t ∧ t < i + n)) := by omega
          rw [if_neg c1, if_neg c1, if_neg c2]
          exact hget1 _ (by omega)
    · rw [List.append_assoc, List.take_append_eq_append_take, List.take_take]
      have : (xs.take i).length = i := by rw [List.length_take]; omega
      rw [this, Nat.sub_self, List.take_zero, List.append_nil, Nat.min_self]
    · rw [htk] at hpermB
      exact hpermB

/-- Removing position 0 of the sample vector `[10, 20]` with `remove_unordered(0, 1)`:
the vector is left holding `[20]`, a copy of the former last element constructed in slot
0, and the destructor has run on the removed `10` and on the surviving `20`. -/
theorem vector_remove_unordered_range_witness :
    (Rep sample_vector sample_memory [10, 20] ∧ [10, 20].length < usize_limit ∧
      0 + 1 ≤ [10, 20].length) ∧
    (∃ r ys, remove_unordered_range sample_vector sample_memory 0 1 = Except.ok r ∧
      r.1.count = 1 ∧ r.1.capacity = sample_vector.capacity ∧
      r.1.m_elements = sample_vector.m_elements ∧ Rep r.1 r.2 ys ∧
      ys.take 0 = [] ∧ List.Perm (ys ++ [10]) [10, 20] ∧
      List.Perm r.2.finalized [10, 20]) ∧
    (remove_unordered_range sample_vector sample_memory 0 1).toOption.map
      (fun r => (r.1, r.2.slot ⟨1, 0⟩, r.2.slot ⟨1, 1⟩, r.2.finalized))
      = some (⟨1, 3, 1⟩, some (Slot.live 20), some Slot.raw, [20, 10]) :=
  ⟨⟨sample_vector_rep, by decide, by decide⟩,
    vector_remove_unordered_range sample_vector sample_memory [10, 20] 0 1 sample_vector_rep
      (by decide) (by decide), rfl⟩

end Vector
end AT

namespace AT
namespace FormatStream

theorem determinate_map_some (bytes : List Nat) : determinate (bytes.map some) = some bytes := by
  induction bytes with
  | nil => rfl
  | cons b rest ih => simp [determinate, ih]

/-- In a state satisfying the invariant, `formatted_string_view` is the view over the
output pushed so far. -/
theorem formatted_string_view_of_inv {s : FormatStream} {h : Heap (List (Option Nat))}
    {output : List Nat} (hinv : Inv s h output) :
    formatted_string_view s h = some ⟨output⟩ := by
  obtain ⟨_, _, _, hcnt, htake⟩ := hinv
  unfold formatted_string_view
  dsimp only
  rw [htake, List.length_map, if_pos hcnt.symm, determinate_map_some]
  rfl

theorem inv_fresh : Inv fresh.1 fresh.2 [] := by
  refine ⟨⟨Or.inl ⟨rfl, rfl⟩, Iff.intro (fun _ => rfl) (fun _ => rfl)⟩, by decide,
    Nat.le_refl _, rfl, rfl⟩

/-- `ensure_push_byte_count` always returns; it keeps the formatted bytes and their
count, and leaves a buffer of `m_formatted_byte_count + push_byte_count` bytes or more,
the sum being taken in `usize`. -/
theorem ensure_push_byte_count_inv {s : FormatStream} {h : Heap (List (Option Nat))}
    {output : List Nat} (n : Nat) (hinv : Inv s h output) :
    ∃ r, ensure_push_byte_count s h n = Except.ok r ∧ Inv r.1 r.2 output ∧
      r.1.m_formatted_byte_count = s.m_formatted_byte_count ∧
      usize (s.m_formatted_byte_count + n) ≤ r.1.m_formatted_buffer.m_byte_count := by
  obtain ⟨hw, hlt, hle, hcnt, htake⟩ := hinv
  unfold ensure_push_byte_count
  by_cases hge : s.m_formatted_buffer.m_byte_count ≥ usize (s.m_formatted_byte_count + n)
  · refine ⟨(s, h), ?_, ⟨hw, hlt, hle, hcnt, htake⟩, rfl, hge⟩
    simp [ByteBuffer.ensure_byte_count, hge]
  · have hgt : s.m_formatted_buffer.m_byte_count < usize (s.m_formatted_byte_count + n) := by
      omega
    obtain ⟨r, e⟩ := ByteBuffer.set_byte_count_returns
      (usize (s.m_formatted_byte_count + n)) hw
    obtain ⟨h1, h2, h3, _, _⟩ := ByteBuffer.set_byte_count_ok hw.1 e
    have hwf := (ByteBuffer.set_byte_count_keeps_backed hw.1 e).2 (by omega) (Or.inl hw)
    have h1a : r.1.m_byte_count = usize (s.m_formatted_byte_count + n) := h1
    refine ⟨({ s with m_formatted_buffer := r.1 }, r.2), ?_, ⟨hwf, ?_, ?_, hcnt, ?_⟩, rfl, ?_⟩
    · simp only [ByteBuffer.ensure_byte_count, if_neg hge, ByteBuffer.expand_eq (Nat.le_of_lt hgt),
        e, ok_bind]
    · show r.1.m_byte_count < usize_limit
      rw [h1a]
      exact Nat.mod_lt _ (by decide)
    · show s.m_formatted_byte_count ≤ r.1.m_byte_count
      omega
    · show (ByteBuffer.region r.2 r.1.bytes).take s.m_formatted_byte_count = output.map some
      rw [← htake]
      apply List.ext_getElem?
      intro i
      rw [List.getElem?_take, List.getElem?_take]
      by_cases hi : i < s.m_formatted_byte_count
      · rw [if_pos hi, if_pos hi]
        exact h3 i (by
          show i < min s.m_formatted_buffer.m_byte_count _
          omega)
      · rw [if_neg hi, if_neg hi]
    · show usize (s.m_formatted_byte_count + n) ≤ r.1.m_byte_count
      omega

theorem take_succ_set {α : Type} (l : List α) (c : Nat) (x : α) (hc : c < l.length) :
    (l.set c x).take (c + 1) = l.take c ++ [x] := by
  have h1 : (l.set c x)[c]? = some x := by
    rw [List.getElem?_set, if_pos rfl, if_pos hc]
  rw [Vector.take_succ_of_getElem? h1, take_set_self]

/-- A store into the block of a well-formed buffer, of as many bytes as it had. -/
theorem wellFormed_store {b : ByteBuffer} {h : Heap (List (Option Nat))}
    (hw : ByteBuffer.WellFormed b h) (hnn : b.m_bytes ≠ 0) (block : List (Option Nat))
    (hlen : block.length = b.m_byte_count) :
    ByteBuffer.WellFormed b (h.store b.m_bytes (some block)) ∧
      ByteBuffer.region (h.store b.m_bytes (some block)) b.m_bytes = block := by
  obtain ⟨hb, hiff⟩ := hw
  rcases hb with ⟨h0, _⟩ | ⟨_, hal, _⟩
  · exact absurd h0 hnn
  · refine ⟨⟨Or.inr ⟨hnn, hal, block, by simp [Heap.store], hlen⟩, hiff⟩, ?_⟩
    simp [ByteBuffer.region, hnn, Heap.store]

/-- `push_codepoint` when the formatted byte count can grow by one: it returns, and the
output gains the low byte of the code point. -/
theorem push_codepoint_inv {s : FormatStream} {h : Heap (List (Option Nat))}
    {output : List Nat} (codepoint : Nat) (hinv : Inv s h output)
    (hfit : s.m_formatted_byte_count + 1 < usize_limit) :
    ∃ r, push_codepoint s h codepoint = Except.ok r ∧
      Inv r.1 r.2 (output ++ [codepoint % char_limit]) ∧
      r.1.m_formatted_byte_count = s.m_formatted_byte_count + 1 := by
  obtain ⟨r1, e1, hinv1, hc1, hroom⟩ := ensure_push_byte_count_inv 1 hinv
  obtain ⟨hw, hlt, hle, hcnt, htake⟩ := hinv1
  have hu : usize (s.m_formatted_byte_count + 1) = s.m_formatted_byte_count + 1 :=
    usize_of_lt hfit
  rw [hu] at hroom
  have hreg : (ByteBuffer.region r1.2 r1.1.m_formatted_buffer.bytes).length
      = r1.1.m_formatted_buffer.m_byte_count := ByteBuffer.region_of_backed hw.1
  have hnn : r1.1.m_formatted_buffer.m_bytes ≠ 0 := by
    intro h0
    have := hw.2.mp h0
    omega
  have hidx : r1.1.m_formatted_byte_count
      < (ByteBuffer.region r1.2 r1.1.m_formatted_buffer.bytes).length := by
    rw [hreg]
    omega
  obtain ⟨hw2, hreg2⟩ := wellFormed_store hw hnn
    ((ByteBuffer.region r1.2 r1.1.m_formatted_buffer.bytes).set r1.1.m_formatted_byte_count
      (some (codepoint % char_limit)))
    (by rw [List.length_set]; exact hreg)
  refine ⟨({ r1.1 with m_formatted_byte_count := usize (r1.1.m_formatted_byte_count + 1) },
    r1.2.store r1.1.m_formatted_buffer.bytes
      (some ((ByteBuffer.region r1.2 r1.1.m_formatted_buffer.bytes).set
        r1.1.m_formatted_byte_count (some (codepoint % char_limit))))),
    ?_, ⟨hw2, hlt, ?_, ?_, ?_⟩, ?_⟩
  · unfold push_codepoint
    rw [e1]
    simp only [ok_bind]
    rw [if_pos hidx]
  · show usize (r1.1.m_formatted_byte_count + 1) ≤ r1.1.m_formatted_buffer.m_byte_count
    rw [hc1, hu]
    exact hroom
  · show usize (r1.1.m_formatted_byte_count + 1) = (output ++ [codepoint % char_limit]).length
    rw [hc1, hu, List.length_append, ← hcnt, hc1]
    rfl
  · show (ByteBuffer.region (r1.2.store r1.1.m_formatted_buffer.m_bytes _)
        r1.1.m_formatted_buffer.m_bytes).take (usize (r1.1.m_formatted_byte_count + 1)) = _
    rw [hreg2, hc1, hu, ← hc1, take_succ_set _ _ _ hidx, htake, List.map_append]
    rfl
  · show usize (r1.1.m_formatted_byte_count + 1) = s.m_formatted_byte_count + 1
    rw [hc1, hu]

/-- A `push_codepoint` that returns did not wrap the formatted byte count. -/
theorem push_codepoint_fits {s : FormatStream} {h : Heap (List (Option Nat))}
    {output : List Nat} {codepoint : Nat} {r : FormatStream × Heap (List (Option Nat))}
    (hinv : Inv s h output) (e : push_codepoint s h codepoint = Except.ok r) :
    s.m_formatted_byte_count + 1 < usize_limit := by
  obtain ⟨r1, e1, hinv1, hc1, _⟩ := ensure_push_byte_count_inv 1 hinv
  obtain ⟨hw, hlt, _, _, _⟩ := hinv1
  have hreg : (ByteBuffer.region r1.2 r1.1.m_formatted_buffer.bytes).length
      = r1.1.m_formatted_buffer.m_byte_count := ByteBuffer.region_of_backed hw.1
  unfold push_codepoint at e
  rw [e1] at e
  simp only [ok_bind] at e
  by_cases hidx : r1.1.m_formatted_byte_count
      < (ByteBuffer.region r1.2 r1.1.m_formatted_buffer.bytes).length
  · rw [hreg] at hidx
    omega
  · rw [if_neg hidx] at e
    cases e

/-- `push_string` when the formatted byte count can grow by the byte count of the view:
it returns, and the output gains the bytes of the view. -/
theorem push_string_inv {s : FormatStream} {h : Heap (List (Option Nat))}
    {output : List Nat} (v : StringView) (hinv : Inv s h output)
    (hfit : s.m_formatted_byte_count + v.byte_count < usize_limit) :
    ∃ r, push_string s h v = Except.ok r ∧ Inv r.1 r.2 (output ++ v.bytes) ∧
      r.1.m_formatted_byte_count = s.m_formatted_byte_count + v.byte_count := by
  obtain ⟨r1, e1, hinv1, hc1, hroom⟩ := ensure_push_byte_count_inv v.byte_count hinv
  obtain ⟨hw, hlt, hle, hcnt, htake⟩ := hinv1
  have hu : usize (s.m_formatted_byte_count + v.byte_count)
      = s.m_formatted_byte_count + v.byte_count := usize_of_lt hfit
  rw [hu] at hroom
  have hreg : (ByteBuffer.region r1.2 r1.1.m_formatted_buffer.bytes).length
      = r1.1.m_formatted_buffer.m_byte_count := ByteBuffer.region_of_backed hw.1
  have hvlen : v.characters.length = v.byte_count := by simp [StringView.characters,
    StringView.byte_count]
  have hcopy := copy_memory_spec
    ((ByteBuffer.region r1.2 r1.1.m_formatted_buffer.bytes).drop r1.1.m_formatted_byte_count)
    v.characters v.byte_count (by omega) (by rw [List.length_drop, hreg]; omega)
  have htk : v.characters.take v.byte_count = v.characters :=
    List.take_of_length_le (by omega)
  rw [htk] at hcopy
  have hu1 : usize (r1.1.m_formatted_byte_count + v.byte_count)
      = s.m_formatted_byte_count + v.byte_count := by rw [hc1, hu]
  by_cases hnn : r1.1.m_formatted_buffer.bytes = 0
  · have hz : r1.1.m_formatted_buffer.m_byte_count = 0 := hw.2.mp hnn
    have hv0 : v.byte_count = 0 := by omega
    have hvn : v.bytes = [] := List.length_eq_zero.mp hv0
    refine ⟨(⟨r1.1.m_formatted_buffer, usize (r1.1.m_formatted_byte_count + v.byte_count)⟩, r1.2),
      ?_, ⟨hw, hlt, ?_, ?_, ?_⟩, ?_⟩
    · unfold push_string
      rw [e1]
      simp only [ok_bind]
      rw [hcopy]
      simp only [ok_bind]
      rw [if_pos hnn]
    · show usize (r1.1.m_formatted_byte_count + v.byte_count)
          ≤ r1.1.m_formatted_buffer.m_byte_count
      rw [hu1]
      omega
    · show usize (r1.1.m_formatted_byte_count + v.byte_count) = (output ++ v.bytes).length
      rw [hu1, List.length_append, ← hcnt, hc1]
      rfl
    · show (ByteBuffer.region r1.2 r1.1.m_formatted_buffer.bytes).take
          (usize (r1.1.m_formatted_byte_count + v.byte_count)) = _
      rw [hu1, hv0, Nat.add_zero, ← hc1, htake, hvn, List.append_nil]
    · exact hu1
  · have hnn1 : r1.1.m_formatted_buffer.m_bytes ≠ 0 := hnn
    have hblen : ((ByteBuffer.region r1.2 r1.1.m_formatted_buffer.bytes).take
          r1.1.m_formatted_byte_count ++ (v.characters ++
            ((ByteBuffer.region r1.2 r1.1.m_formatted_buffer.bytes).drop
              r1.1.m_formatted_byte_count).drop v.byte_count)).length
        = r1.1.m_formatted_buffer.m_byte_count := by
      simp only [List.length_append, List.length_take, List.length_drop, hreg, hvlen]
      omega
    obtain ⟨hw2, hreg2⟩ := wellFormed_store hw hnn1 _ hblen
    refine ⟨(⟨r1.1.m_formatted_buffer, usize (r1.1.m_formatted_byte_count + v.byte_count)⟩,
      r1.2.store r1.1.m_formatted_buffer.bytes
        (some ((ByteBuffer.region r1.2 r1.1.m_formatted_buffer.bytes).take
          r1.1.m_formatted_byte_count ++ (v.characters ++
            ((ByteBuffer.region r1.2 r1.1.m_formatted_buffer.bytes).drop
              r1.1.m_formatted_byte_count).drop v.byte_count)))),
      ?_, ⟨hw2, hlt, ?_, ?_, ?_⟩, ?_⟩
    · unfold push_string
      rw [e1]
      simp only [ok_bind]
      rw [hcopy]
      simp only [ok_bind]
      rw [if_neg hnn]
    · show usize (r1.1.m_formatted_byte_count + v.byte_count)
          ≤ r1.1.m_formatted_buffer.m_byte_count
      rw [hu1]
      omega
    · show usize (r1.1.m_formatted_byte_count + v.byte_count) = (output ++ v.bytes).length
      rw [hu1, List.length_append, ← hcnt, hc1]
      rfl
    · show (ByteBuffer.region (r1.2.store r1.1.m_formatted_buffer.m_bytes _)
          r1.1.m_formatted_buffer.m_bytes).take
          (usize (r1.1.m_formatted_byte_count + v.byte_count)) = _
      rw [hreg2, hu1, ← List.append_assoc, List.take_append_eq_append_take]
      have hl : ((ByteBuffer.region r1.2 r1.1.m_formatted_buffer.bytes).take
          r1.1.m_formatted_byte_count ++ v.characters).length
          = s.m_formatted_byte_count + v.byte_count := by
        simp only [List.length_append, List.length_take, hreg, hvlen]
        omega
      rw [hl, Nat.sub_self, List.take_zero, List.append_nil,
        List.take_of_length_le (by omega), htake, List.map_append]
      rfl
    · exact hu1

/-- A `push_string` that returns did not wrap the formatted byte count. -/
theorem push_string_fits {s : FormatStream} {h : Heap (List (Option Nat))}
    {output : List Nat} {v : StringView} {r : FormatStream × Heap (List (Option Nat))}
    (hinv : Inv s h output) (e : push_string s h v = Except.ok r) :
    s.m_formatted_byte_count + v.byte_count < usize_limit := by
  obtain ⟨r1, e1, hinv1, hc1, _⟩ := ensure_push_byte_count_inv v.byte_count hinv
  obtain ⟨hw, hlt, hle, _, _⟩ := hinv1
  have hreg : (ByteBuffer.region r1.2 r1.1.m_formatted_buffer.bytes).length
      = r1.1.m_formatted_buffer.m_byte_count := ByteBuffer.region_of_backed hw.1
  unfold push_string at e
  rw [e1] at e
  simp only [ok_bind] at e
  obtain ⟨copied, ec, _⟩ := bind_eq_ok.mp e
  have hle2 := copy_memory_ok_le ec
  rw [List.length_drop, hreg] at hle2
  omega

end FormatStream
end AT

namespace AT
namespace FormatStream

theorem digits_length_le (v : Nat) (hv : v < u64_limit) : (Nat.digits 10 v).length ≤ 20 := by
  by_cases h0 : v = 0
  · subst h0
    simp
  · rw [Nat.digits_len 10 v (by decide) h0]
    have hlt : v < 10 ^ 20 := Nat.lt_of_lt_of_le hv (by decide)
    have := Nat.log_lt_of_lt_pow h0 hlt
    omega

/-- The first loop of `push_unsigned_integer` counts the decimal digits. -/
theorem count_digits_spec : ∀ (t c : Nat), c + (Nat.digits 10 t).length < usize_limit →
    count_digits t c = c + (Nat.digits 10 t).length := by
  intro t
  induction t using Nat.strong_induction_on with
  | _ t ih =>
    intro c hc
    rw [count_digits]
    by_cases h0 : t = 0
    · subst h0
      simp
    · rw [dif_pos h0]
      rw [Nat.digits_def' (by decide) (Nat.pos_of_ne_zero h0)] at hc ⊢
      simp only [List.length_cons] at hc ⊢
      rw [usize_of_lt (by omega),
        ih (t / 10) (Nat.div_lt_self (Nat.pos_of_ne_zero h0) (by decide)) (c + 1) (by omega)]
      omega

/-- The second loop of `push_unsigned_integer` writes the digits, most significant
first, at the start of the scratch array, every write being inside the array. -/
theorem write_digits_spec (N : Nat) (hN : N + 1 < usize_limit) :
    ∀ (t k : Nat) (buf : List Nat), k + (Nat.digits 10 t).length = N → N ≤ buf.length →
      write_digits N t (k + 1) buf = Except.ok
        (((Nat.digits 10 t).reverse).map (fun digit => digit + 48) ++ buf.drop (N - k)) := by
  intro t
  induction t using Nat.strong_induction_on with
  | _ t ih =>
    intro k buf hk hbuf
    rw [write_digits]
    by_cases h0 : t = 0
    · subst h0
      simp only [Nat.digits_zero, List.length_nil, Nat.add_zero] at hk
      subst hk
      simp
    · rw [dif_pos h0]
      have hd : Nat.digits 10 t = t % 10 :: Nat.digits 10 (t / 10) :=
        Nat.digits_def' (by decide) (Nat.pos_of_ne_zero h0)
      rw [hd] at hk ⊢
      simp only [List.length_cons] at hk
      have hmod : t % 10 < 10 := Nat.mod_lt _ (by decide)
      have e1 : (t % 10 + 48) % char_limit = t % 10 + 48 :=
        Nat.mod_eq_of_lt (by unfold char_limit; omega)
      have e2 : usize (N + usize_limit - (k + 1)) = N - (k + 1) :=
        usize_sub_of_le (by omega) (by omega)
      have e3 : usize (k + 1 + 1) = k + 1 + 1 := usize_of_lt (by omega)
      have hidx : N - (k + 1) < buf.length := by omega
      simp only [e1, e2, e3, hidx, if_true]
      rw [ih (t / 10) (Nat.div_lt_self (Nat.pos_of_ne_zero h0) (by decide)) (k + 1)
        (buf.set (N - (k + 1)) (t % 10 + 48)) (by omega) (by rw [List.length_set]; exact hbuf)]
      congr 1
      rw [List.drop_set, if_neg (by omega), Nat.sub_self,
        List.drop_eq_getElem_cons hidx, List.set_cons_zero, List.reverse_cons,
        List.map_append, List.append_assoc]
      have e4 : N - (k + 1) + 1 = N - k := by omega
      rw [e4]
      rfl

/-- The bytes `push_unsigned_integer` hands to `push_string` are the canonical decimal
representation of the value. -/
theorem push_unsigned_integer_eq (s : FormatStream) (h : Heap (List (Option Nat))) (v : Nat)
    (hv : v < u64_limit) (h0 : v ≠ 0) :
    (∃ fb, write_digits (count_digits v 0) v 1 (List.replicate 64 0) = Except.ok fb ∧
      count_digits v 0 ≤ 64 ∧ fb.length = 64 ∧
      fb.take (count_digits v 0) = canonical_decimal v) ∧
    push_unsigned_integer s h v = push_string s h ⟨canonical_decimal v⟩ := by
  have hlen := digits_length_le v hv
  have hlim : 100 < usize_limit := by decide
  have hc : count_digits v 0 = (Nat.digits 10 v).length := by
    rw [count_digits_spec v 0 (by omega), Nat.zero_add]
  have hw := write_digits_spec (Nat.digits 10 v).length (by omega) v 0 (List.replicate 64 0)
    (by omega) (by rw [List.length_replicate]; omega)
  simp only [Nat.zero_add, Nat.sub_zero] at hw
  have hcd : canonical_decimal v
      = ((Nat.digits 10 v).reverse).map (fun digit => digit + 48) := by
    unfold canonical_decimal
    rw [if_neg h0]
  have htake : (((Nat.digits 10 v).reverse).map (fun digit => digit + 48)
      ++ (List.replicate 64 0).drop (Nat.digits 10 v).length).take (Nat.digits 10 v).length
      = canonical_decimal v := by
    rw [hcd]
    exact List.take_left' (by simp)
  refine ⟨⟨_, by rw [hc]; exact hw, by omega, ?_, by rw [hc]; exact htake⟩, ?_⟩
  · simp only [List.length_append, List.length_map, List.length_reverse, List.length_drop,
      List.length_replicate]
    omega
  · unfold push_unsigned_integer
    rw [if_neg h0]
    simp only [hc, hw, ok_bind, htake]

theorem push_unsigned_integer_zero (s : FormatStream) (h : Heap (List (Option Nat))) :
    push_unsigned_integer s h 0 = push_codepoint s h 48 := by
  unfold push_unsigned_integer
  rw [if_pos rfl]

/-- A `push_codepoint` that returns appended the low byte of the code point. -/
theorem push_codepoint_ok {s : FormatStream} {h : Heap (List (Option Nat))}
    {output : List Nat} {codepoint : Nat} {r : FormatStream × Heap (List (Option Nat))}
    (hinv : Inv s h output) (e : push_codepoint s h codepoint = Except.ok r) :
    Inv r.1 r.2 (output ++ [codepoint % char_limit]) := by
  obtain ⟨r1, e1, h1, _⟩ := push_codepoint_inv codepoint hinv (push_codepoint_fits hinv e)
  rw [e] at e1
  simp only [Except.ok.injEq] at e1
  rw [e1]
  exact h1

/-- A `push_string` that returns appended the bytes of the view. -/
theorem push_string_ok {s : FormatStream} {h : Heap (List (Option Nat))}
    {output : List Nat} {v : StringView} {r : FormatStream × Heap (List (Option Nat))}
    (hinv : Inv s h output) (e : push_string s h v = Except.ok r) :
    Inv r.1 r.2 (output ++ v.bytes) := by
  obtain ⟨r1, e1, h1, _⟩ := push_string_inv v hinv (push_string_fits hinv e)
  rw [e] at e1
  simp only [Except.ok.injEq] at e1
  rw [e1]
  exact h1

theorem canonical_decimal_zero : canonical_decimal 0 = [48] := rfl

/-- A `push_unsigned_integer` of a `u64` that returns appended the canonical decimal
representation of the value. -/
theorem push_unsigned_integer_ok {s : FormatStream} {h : Heap (List (Option Nat))}
    {output : List Nat} {v : Nat} {r : FormatStream × Heap (List (Option Nat))}
    (hinv : Inv s h output) (hv : v < u64_limit)
    (e : push_unsigned_integer s h v = Except.ok r) :
    Inv r.1 r.2 (output ++ canonical_decimal v) := by
  by_cases h0 : v = 0
  · subst h0
    rw [push_unsigned_integer_zero] at e
    exact push_codepoint_ok hinv e
  · rw [(push_unsigned_integer_eq s h v hv h0).2] at e
    exact push_string_ok hinv e

/-- `push_unsigned_integer` of a `u64` returns when the formatted byte count can grow by
the number of digits. -/
theorem push_unsigned_integer_returns {s : FormatStream} {h : Heap (List (Option Nat))}
    {output : List Nat} {v : Nat} (hinv : Inv s h output) (hv : v < u64_limit)
    (hfit : s.m_formatted_byte_count + (canonical_decimal v).length < usize_limit) :
    ∃ r, push_unsigned_integer s h v = Except.ok r := by
  by_cases h0 : v = 0
  · subst h0
    rw [push_unsigned_integer_zero]
    obtain ⟨r, e, _⟩ := push_codepoint_inv 48 hinv hfit
    exact ⟨r, e⟩
  · rw [(push_unsigned_integer_eq s h v hv h0).2]
    obtain ⟨r, e, _⟩ := push_string_inv ⟨canonical_decimal v⟩ hinv hfit
    exact ⟨r, e⟩

/-- Whatever the argument, a `push_unsigned_integer` that returns leaves a state
satisfying the invariant. -/
theorem push_unsigned_integer_reach {s : FormatStream} {h : Heap (List (Option Nat))}
    {output : List Nat} {v : Nat} {r : FormatStream × Heap (List (Option Nat))}
    (hinv : Inv s h output) (e : push_unsigned_integer s h v = Except.ok r) :
    ∃ output1, Inv r.1 r.2 output1 := by
  unfold push_unsigned_integer at e
  by_cases h0 : v = 0
  · rw [if_pos h0] at e
    exact ⟨_, push_codepoint_ok hinv e⟩
  · rw [if_neg h0] at e
    obtain ⟨fb, _, e2⟩ := bind_eq_ok.mp e
    exact ⟨_, push_string_ok hinv e2⟩

theorem push_signed_integer_reach {s : FormatStream} {h : Heap (List (Option Nat))}
    {output : List Nat} {v : Int} {r : FormatStream × Heap (List (Option Nat))}
    (hinv : Inv s h output) (e : push_signed_integer s h v = Except.ok r) :
    ∃ output1, Inv r.1 r.2 output1 := by
  unfold push_signed_integer at e
  by_cases h0 : v < 0
  · rw [if_pos h0] at e
    obtain ⟨r1, e1, e2⟩ := bind_eq_ok.mp e
    exact push_unsigned_integer_reach (push_codepoint_ok hinv e1) e2
  · rw [if_neg h0] at e
    exact push_unsigned_integer_reach hinv e

/-- Every state reached by calls on a stream satisfies the invariant. -/
theorem format_run_inv : ∀ (calls : List Call) (state r : FormatStream × Heap (List (Option Nat)))
    (output : List Nat), Inv state.1 state.2 output → run state calls = Except.ok r →
    ∃ output1, Inv r.1 r.2 output1 := by
  intro calls
  induction calls with
  | nil =>
    intro state r output hinv e
    simp only [run, Except.ok.injEq] at e
    subst e
    exact ⟨output, hinv⟩
  | cons call calls ih =>
    intro state r output hinv e
    unfold run at e
    obtain ⟨state1, e1, e2⟩ := bind_eq_ok.mp e
    have h1 : ∃ output1, Inv state1.1 state1.2 output1 := by
      cases call with
      | push_codepoint codepoint => exact ⟨_, push_codepoint_ok hinv e1⟩
      | push_unsigned_integer value => exact push_unsigned_integer_reach hinv e1
      | push_signed_integer value => exact push_signed_integer_reach hinv e1
      | push_string string_view => exact ⟨_, push_string_ok hinv e1⟩
      | ensure_push_byte_count push_byte_count =>
        obtain ⟨r1, e3, h3, _⟩ := ensure_push_byte_count_inv push_byte_count hinv
        have e4 : ensure_push_byte_count state.1 state.2 push_byte_count = Except.ok state1 :=
          e1
        rw [e4] at e3
        simp only [Except.ok.injEq] at e3
        rw [e3]
        exact ⟨output, h3⟩
    obtain ⟨output1, hinv1⟩ := h1
    exact ih state1 r output1 hinv1 e2

theorem format_reach_inv {calls : List Call} {s : FormatStream} {h : Heap (List (Option Nat))}
    (e : run fresh calls = Except.ok (s, h)) : ∃ output, Inv s h output :=
  format_run_inv calls fresh (s, h) [] inv_fresh e

end FormatStream
end AT

namespace AT
namespace FormatStream

theorem canonical_decimal_of_ne_zero {v : Nat} (h0 : v ≠ 0) :
    canonical_decimal v = ((Nat.digits 10 v).reverse).map (fun digit => digit + 48) := by
  unfold canonical_decimal
  rw [if_neg h0]

/-- Reading the canonical representation as a decimal number gives the value back. -/
theorem canonical_decimal_value (v : Nat) :
    (canonical_decimal v).foldl (fun acc byte => 10 * acc + (byte - 48)) 0 = v := by
  by_cases h0 : v = 0
  · subst h0
    rfl
  · rw [canonical_decimal_of_ne_zero h0, List.foldl_map, List.foldl_reverse]
    have key : ∀ ds : List Nat,
        List.foldr (fun x y => 10 * y + (x + 48 - 48)) 0 ds = Nat.ofDigits 10 ds := by
      intro ds
      induction ds with
      | nil => rfl
      | cons d ds ih =>
        rw [List.foldr_cons, ih, Nat.ofDigits_cons]
        omega
    rw [key, Nat.ofDigits_digits]

theorem canonical_decimal_range (v : Nat) :
    ∀ byte ∈ canonical_decimal v, 48 ≤ byte ∧ byte ≤ 57 := by
  intro byte hb
  by_cases h0 : v = 0
  · subst h0
    rw [canonical_decimal_zero] at hb
    simp only [List.mem_singleton] at hb
    omega
  · rw [canonical_decimal_of_ne_zero h0] at hb
    obtain ⟨d, hd, rfl⟩ := List.mem_map.mp hb
    have hlt : d < 10 := Nat.digits_lt_base (by decide) (List.mem_reverse.mp hd)
    omega

theorem canonical_decimal_length {v : Nat} (h0 : v ≠ 0) :
    (canonical_decimal v).length = Nat.log 10 v + 1 := by
  rw [canonical_decimal_of_ne_zero h0, List.length_map, List.length_reverse,
    Nat.digits_len 10 v (by decide) h0]

theorem canonical_decimal_head {v : Nat} (h0 : v ≠ 0) :
    (canonical_decimal v).head? ≠ some 48 := by
  rw [canonical_decimal_of_ne_zero h0, List.head?_map, List.head?_reverse]
  have hne : Nat.digits 10 v ≠ [] := Nat.digits_ne_nil_iff_ne_zero.mpr h0
  rw [List.getLast?_eq_getLast _ hne]
  have := Nat.getLast_digit_ne_zero 10 h0
  intro h
  simp only [Option.map_some', Option.some.injEq] at h
  omega

/-- C38. In every state a stream reaches, and for every `u64` value `v`:
`push_unsigned_integer(v)` returns whenever the formatted byte count can grow by the
number of digits, and when it returns the formatted view is the previous one followed by
the canonical base-10 representation of `v`. That representation is the single byte `'0'`
for zero and otherwise has `floor(log10 v) + 1` bytes and no leading `'0'`; its bytes are
ASCII digits, and read as a decimal number they give `v`. For `v != 0` both loops over
the 64-byte scratch array end with every write inside the array, and its first bytes are
that representation. -/
theorem formatstream_push_unsigned_integer (calls : List Call) (s : FormatStream)
    (h : Heap (List (Option Nat))) (v : Nat) (e : run fresh calls = Except.ok (s, h))
    (hv : v < u64_limit) :
    ∃ before, formatted_string_view s h = some before ∧
      (s.m_formatted_byte_count + (canonical_decimal v).length < usize_limit →
        ∃ r, push_unsigned_integer s h v = Except.ok r) ∧
      (∀ r, push_unsigned_integer s h v = Except.ok r →
        formatted_string_view r.1 r.2 = some ⟨before.bytes ++ canonical_decimal v⟩) ∧
      (v = 0 → canonical_decimal v = [48]) ∧
      (v ≠ 0 → (canonical_decimal v).length = Nat.log 10 v + 1 ∧
        (canonical_decimal v).head? ≠ some 48) ∧
      (∀ byte ∈ canonical_decimal v, 48 ≤ byte ∧ byte ≤ 57) ∧
      (canonical_decimal v).foldl (fun acc byte => 10 * acc + (byte - 48)) 0 = v ∧
      (v ≠ 0 → ∃ scratch,
        write_digits (count_digits v 0) v 1 (List.replicate 64 0) = Except.ok scratch ∧
        count_digits v 0 ≤ 64 ∧ scratch.length = 64 ∧
        scratch.take (count_digits v 0) = canonical_decimal v) := by
  obtain ⟨output, hinv⟩ := format_reach_inv e
  refine ⟨⟨output⟩, formatted_string_view_of_inv hinv,
    fun hfit => push_unsigned_integer_returns hinv hv hfit, ?_, ?_, ?_,
    canonical_decimal_range v, canonical_decimal_value v,
    fun h0 => (push_unsigned_integer_eq s h v hv h0).1⟩
  · intro r er
    exact formatted_string_view_of_inv (push_unsigned_integer_ok hinv hv er)
  · intro h0
    rw [h0]
    rfl
  · intro h0
    exact ⟨canonical_decimal_length h0, canonical_decimal_head h0⟩

/-- On a fresh stream, pushing `2^64 - 1` returns and gives a view of 20 bytes that read
back as `2^64 - 1`. -/
theorem formatstream_push_unsigned_integer_witness :
    run fresh [] = Except.ok (FormatStream.default, Heap.empty) ∧
    18446744073709551615 < u64_limit ∧
    ∃ before, formatted_string_view FormatStream.default Heap.empty = some before ∧
      (∀ r, push_unsigned_integer FormatStream.default Heap.empty 18446744073709551615
          = Except.ok r →
        formatted_string_view r.1 r.2
          = some ⟨before.bytes ++ canonical_decimal 18446744073709551615⟩) ∧
      (canonical_decimal 18446744073709551615).foldl
        (fun acc byte => 10 * acc + (byte - 48)) 0 = 18446744073709551615 := by
  refine ⟨rfl, by decide, ?_⟩
  obtain ⟨before, h1, _, h3, _, _, _, h7, _⟩ :=
    formatstream_push_unsigned_integer [] FormatStream.default Heap.empty
      18446744073709551615 rfl (by decide)
  exact ⟨before, h1, h3, h7⟩

/-- C39. In every state a stream reaches, and for every `s64` value `v`, the minimum
`-2^63` included, the negation being taken modulo `2^64`: `push_signed_integer(v)`
returns whenever the formatted byte count can grow by the length of the representation,
and when it returns the formatted view is the previous one followed by the canonical
decimal representation of `v`. For `v >= 0` the call is `push_unsigned_integer(v)`; for
`v < 0` the representation is the byte `'-'` followed by the decimal digits of `|v|`,
which is the `u64` value the negation yields. -/
theorem formatstream_push_signed_integer (calls : List Call) (s : FormatStream)
    (h : Heap (List (Option Nat))) (v : Int) (e : run fresh calls = Except.ok (s, h))
    (hlo : -9223372036854775808 ≤ v) (hhi : v < 9223372036854775808) :
    ∃ before, formatted_string_view s h = some before ∧
      (s.m_formatted_byte_count + (canonical_signed_decimal v).length < usize_limit →
        ∃ r, push_signed_integer s h v = Except.ok r) ∧
      (∀ r, push_signed_integer s h v = Except.ok r →
        formatted_string_view r.1 r.2 = some ⟨before.bytes ++ canonical_signed_decimal v⟩) ∧
      (0 ≤ v → push_signed_integer s h v = push_unsigned_integer s h v.toNat ∧
        canonical_signed_decimal v = canonical_decimal v.toNat) ∧
      (v < 0 → canonical_signed_decimal v = 45 :: canonical_decimal v.natAbs ∧
        ((-v) % (u64_limit : Int)).toNat = v.natAbs) := by
  obtain ⟨output, hinv⟩ := format_reach_inv e
  have hcast : (u64_limit : Int) = 18446744073709551616 := by
    unfold u64_limit
    rfl
  have hnat : v.natAbs < u64_limit := by
    unfold u64_limit
    omega
  by_cases hneg : v < 0
  · have hmod : ((-v) % (u64_limit : Int)).toNat = v.natAbs := by
      rw [hcast]
      omega
    have hcsd : canonical_signed_decimal v = 45 :: canonical_decimal v.natAbs := by
      unfold canonical_signed_decimal
      rw [if_pos hneg]
    have hdef : push_signed_integer s h v = (do
        let r ← push_codepoint s h 45
        push_unsigned_integer r.1 r.2 v.natAbs) := by
      unfold push_signed_integer
      rw [if_pos hneg, hmod]
    refine ⟨⟨output⟩, formatted_string_view_of_inv hinv, ?_, ?_,
      fun h0 => absurd hneg (by omega), fun _ => ⟨hcsd, hmod⟩⟩
    · intro hfit
      rw [hcsd, List.length_cons] at hfit
      obtain ⟨r1, e1, hinv1, hc1⟩ := push_codepoint_inv 45 hinv (by omega)
      obtain ⟨r2, e2⟩ := push_unsigned_integer_returns hinv1 hnat (by rw [hc1]; omega)
      exact ⟨r2, by rw [hdef, e1]; exact e2⟩
    · intro r er
      rw [hdef] at er
      obtain ⟨r1, e1, e2⟩ := bind_eq_ok.mp er
      have hinv2 := push_unsigned_integer_ok (push_codepoint_ok hinv e1) hnat e2
      rw [formatted_string_view_of_inv hinv2, hcsd]
      have e45 : 45 % char_limit = 45 := by decide
      rw [e45]
      simp
  · have hmod : (v % (u64_limit : Int)).toNat = v.toNat := by
      rw [hcast]
      omega
    have hna : v.natAbs = v.toNat := by omega
    have hcsd : canonical_signed_decimal v = canonical_decimal v.toNat := by
      unfold canonical_signed_decimal
      rw [if_neg hneg, hna]
    have hdef : push_signed_integer s h v = push_unsigned_integer s h v.toNat := by
      unfold push_signed_integer
      rw [if_neg hneg, hmod]
    have hnat1 : v.toNat < u64_limit := by rw [← hna]; exact hnat
    refine ⟨⟨output⟩, formatted_string_view_of_inv hinv, ?_, ?_,
      fun _ => ⟨hdef, hcsd⟩, fun h0 => absurd h0 hneg⟩
    · intro hfit
      rw [hdef]
      rw [hcsd] at hfit
      exact push_unsigned_integer_returns hinv hnat1 hfit
    · intro r er
      rw [hdef] at er
      rw [hcsd]
      exact formatted_string_view_of_inv (push_unsigned_integer_ok hinv hnat1 er)

/-- On a fresh stream, pushing `-2^63` gives `'-'` followed by the digits of `2^63`. -/
theorem formatstream_push_signed_integer_witness :
    run fresh [] = Except.ok (FormatStream.default, Heap.empty) ∧
    (-9223372036854775808 : Int) ≤ -9223372036854775808 ∧
    (-9223372036854775808 : Int) < 9223372036854775808 ∧
    ∃ before, formatted_string_view FormatStream.default Heap.empty = some before ∧
      (∀ r, push_signed_integer FormatStream.default Heap.empty (-9223372036854775808)
          = Except.ok r →
        formatted_string_view r.1 r.2
          = some ⟨before.bytes ++ canonical_signed_decimal (-9223372036854775808)⟩) ∧
      canonical_signed_decimal (-9223372036854775808)
        = 45 :: canonical_decimal (Int.natAbs (-9223372036854775808)) := by
  refine ⟨rfl, by decide, by decide, ?_⟩
  obtain ⟨before, h1, _, h3, _, h5⟩ :=
    formatstream_push_signed_integer [] FormatStream.default Heap.empty
      (-9223372036854775808) rfl (by decide) (by decide)
  exact ⟨before, h1, h3, (h5 (by decide)).1⟩

/-- C40. In every state a stream reaches, the formatted byte count does not exceed the
byte count of the buffer, and `formatted_string_view` is a view `before` over determinate
bytes. For every view `v`, given by its bytes, which the call does not overwrite:
`push_string(v)` returns whenever the formatted byte count can grow by the byte count of
`v`, and when it returns the formatted view is `before` followed by the bytes of `v`.
For every code point `c < 128`, `push_codepoint(c)` returns whenever the count can grow
by one, and when it returns the view is `before` followed by the byte `c`. And
`ensure_push_byte_count` always returns and leaves the view as it was, after any
reallocation it makes. In all three cases the formatted byte count stays within the
byte count of the buffer. -/
theorem formatstream_push_appends (calls : List Call) (s : FormatStream)
    (h : Heap (List (Option Nat))) (v : StringView) (c : Nat)
    (e : run fresh calls = Except.ok (s, h)) (hc : c < 128) :
    s.m_formatted_byte_count ≤ s.m_formatted_buffer.byte_count ∧
    ∃ before, formatted_string_view s h = some before ∧
      (s.m_formatted_byte_count + v.byte_count < usize_limit →
        ∃ r, push_string s h v = Except.ok r) ∧
      (∀ r, push_string s h v = Except.ok r →
        formatted_string_view r.1 r.2 = some ⟨before.bytes ++ v.bytes⟩ ∧
        r.1.m_formatted_byte_count = s.m_formatted_byte_count + v.byte_count ∧
        r.1.m_formatted_byte_count ≤ r.1.m_formatted_buffer.byte_count) ∧
      (s.m_formatted_byte_count + 1 < usize_limit →
        ∃ r, push_codepoint s h c = Except.ok r) ∧
      (∀ r, push_codepoint s h c = Except.ok r →
        formatted_string_view r.1 r.2 = some ⟨before.bytes ++ [c]⟩ ∧
        r.1.m_formatted_byte_count = s.m_formatted_byte_count + 1 ∧
        r.1.m_formatted_byte_count ≤ r.1.m_formatted_buffer.byte_count) ∧
      (∀ n, ∃ r, ensure_push_byte_count s h n = Except.ok r ∧
        formatted_string_view r.1 r.2 = some before ∧
        r.1.m_formatted_byte_count = s.m_formatted_byte_count ∧
        r.1.m_formatted_byte_count ≤ r.1.m_formatted_buffer.byte_count) := by
  obtain ⟨output, hinv⟩ := format_reach_inv e
  have hcm : c % char_limit = c := Nat.mod_eq_of_lt (by unfold char_limit; omega)
  refine ⟨hinv.2.2.1, ⟨output⟩, formatted_string_view_of_inv hinv, ?_, ?_, ?_, ?_, ?_⟩
  · intro hfit
    obtain ⟨r, er, _⟩ := push_string_inv v hinv hfit
    exact ⟨r, er⟩
  · intro r er
    obtain ⟨r1, e1, h1, hc1⟩ := push_string_inv v hinv (push_string_fits hinv er)
    rw [er] at e1
    simp only [Except.ok.injEq] at e1
    subst e1
    exact ⟨formatted_string_view_of_inv h1, hc1, h1.2.2.1⟩
  · intro hfit
    obtain ⟨r, er, _⟩ := push_codepoint_inv c hinv hfit
    exact ⟨r, er⟩
  · intro r er
    obtain ⟨r1, e1, h1, hc1⟩ := push_codepoint_inv c hinv (push_codepoint_fits hinv er)
    rw [er] at e1
    simp only [Except.ok.injEq] at e1
    subst e1
    rw [hcm] at h1
    exact ⟨formatted_string_view_of_inv h1, hc1, h1.2.2.1⟩
  · intro n
    obtain ⟨r, er, h1, hc1, _⟩ := ensure_push_byte_count_inv n hinv
    exact ⟨r, er, formatted_string_view_of_inv h1, hc1, h1.2.2.1⟩

/-- After `push_codepoint('h')` on a fresh stream the view is `"h"`, and pushing the view
`"i!"` then gives the previous view followed by `"i!"`. -/
theorem formatstream_push_appends_witness :
    ∃ s h, run fresh [Call.push_codepoint 104] = Except.ok (s, h) ∧ 33 < 128 ∧
      (formatted_string_view s h).map StringView.bytes = some [104] ∧
      ∃ before, formatted_string_view s h = some before ∧
        ∀ r, push_string s h ⟨[105, 33]⟩ = Except.ok r →
          formatted_string_view r.1 r.2 = some ⟨before.bytes ++ [105, 33]⟩ := by
  refine ⟨_, _, rfl, by decide, rfl, ?_⟩
  obtain ⟨_, before, h1, _, h3, _⟩ :=
    formatstream_push_appends [Call.push_codepoint 104] _ _ ⟨[105, 33]⟩ 33 rfl (by decide)
  exact ⟨before, h1, fun r er => (h3 r er).1⟩

end FormatStream
end AT

namespace AT
namespace ElementMemory

variable {T : Type}

/-- A write through a reference changes the block of the reference only. -/
theorem set_slot_frame {m m1 : ElementMemory T} {r : ElementRef} {s : Slot T}
    (e : m.set_slot r s = Except.ok m1) (q : Nat) (hq : q ≠ r.block) :
    m1.heap.blocks q = m.heap.blocks q := by
  unfold set_slot at e
  cases hb : m.heap.blocks r.block with
  | none =>
    rw [hb] at e
    cases e
  | some slots =>
    simp only [hb] at e
    by_cases hi : r.index < slots.length
    · rw [if_pos hi] at e
      simp only [Except.ok.injEq] at e
      subst e
      simp [Heap.store, hq]
    · rw [if_neg hi] at e
      cases e

theorem move_construct_frame {m m1 : ElementMemory T} {destination source : ElementRef}
    (e : m.move_construct destination source = Except.ok m1) (q : Nat)
    (hd : q ≠ destination.block) (hs : q ≠ source.block) :
    m1.heap.blocks q = m.heap.blocks q := by
  unfold move_construct at e
  split at e
  · obtain ⟨m2, e1, e2⟩ := bind_eq_ok.mp e
    rw [set_slot_frame e2 q hd, set_slot_frame e1 q hs]
  · cases e

theorem destroy_frame {m m1 : ElementMemory T} {source : ElementRef}
    (e : m.destroy source = Except.ok m1) (q : Nat) (hs : q ≠ source.block) :
    m1.heap.blocks q = m.heap.blocks q := by
  unfold destroy at e
  split at e
  · obtain ⟨m2, e1, e2⟩ := bind_eq_ok.mp e
    simp only [Except.ok.injEq] at e2
    subst e2
    exact set_slot_frame e1 q hs
  · exact set_slot_frame e q hs
  · cases e

end ElementMemory

namespace Vector

variable {T : Type}

/-- The element move changes the two blocks it works on only. -/
theorem move_elements_loop_frame {dst src : Nat} :
    ∀ (remaining index : Nat) (m m1 : ElementMemory T),
      move_elements_loop dst src remaining index m = Except.ok m1 →
      ∀ q, q ≠ dst → q ≠ src → m1.heap.blocks q = m.heap.blocks q := by
  intro remaining
  induction remaining with
  | zero =>
    intro index m m1 e q _ _
    simp only [move_elements_loop, Except.ok.injEq] at e
    rw [e]
  | succ n ih =>
    intro index m m1 e q hd hs
    unfold move_elements_loop at e
    obtain ⟨m2, e1, e2⟩ := bind_eq_ok.mp e
    obtain ⟨m3, e3, e4⟩ := bind_eq_ok.mp e2
    rw [ih (index + 1) m3 m1 e4 q hd hs, ElementMemory.destroy_frame e3 q hs,
      ElementMemory.move_construct_frame e1 q hd hs]

/-- Whenever `expand_elements_block` returns: the block the vector had is released, and
no other block that existed is changed. -/
theorem expand_elements_block_frame {sizeof_T : Nat} {v : Vector} {m : ElementMemory T}
    {new_capacity : Nat} {r : Vector × ElementMemory T}
    (e : expand_elements_block sizeof_T v m new_capacity = Except.ok r) :
    (v.m_elements ≠ 0 → r.2.heap.blocks v.m_elements = none) ∧
    (∀ q, q ≠ v.m_elements → q ≤ m.heap.allocations →
      r.2.heap.blocks q = m.heap.blocks q) := by
  unfold expand_elements_block at e
  obtain ⟨_, _, e1⟩ := bind_eq_ok.mp e
  obtain ⟨m1, e2, e3⟩ := bind_eq_ok.mp e1
  obtain ⟨m2, e4, e5⟩ := bind_eq_ok.mp e3
  simp only [Except.ok.injEq] at e5
  subst e5
  unfold free_memory at e4
  obtain ⟨h2, e6, e7⟩ := bind_eq_ok.mp e4
  simp only [Except.ok.injEq] at e7
  subst e7
  unfold Heap.operator_delete at e6
  have hloop := move_elements_loop_frame v.m_count 0 (allocate_memory sizeof_T m new_capacity).2
    m1 e2
  have hnew : (allocate_memory sizeof_T m new_capacity).1 = m.heap.allocations + 1 := rfl
  have halloc : ∀ q, q ≤ m.heap.allocations →
      (allocate_memory sizeof_T m new_capacity).2.heap.blocks q = m.heap.blocks q := by
    intro q hq
    have hne : q ≠ m.heap.allocations + 1 := by omega
    simp [allocate_memory, Heap.operator_new, hne]
  by_cases h0 : v.m_elements = 0
  · rw [if_pos h0] at e6
    simp only [Except.ok.injEq] at e6
    subst e6
    refine ⟨fun hnn => absurd h0 hnn, ?_⟩
    intro q hq hle
    show m1.heap.blocks q = m.heap.blocks q
    rw [hloop q (by rw [hnew]; omega) hq, halloc q hle]
  · rw [if_neg h0] at e6
    split at e6
    · cases e6
    · simp only [Except.ok.injEq] at e6
      subst e6
      refine ⟨fun _ => by simp, ?_⟩
      intro q hq hle
      show (if q = v.m_elements then none else m1.heap.blocks q) = m.heap.blocks q
      rw [if_neg hq, hloop q (by rw [hnew]; omega) hq, halloc q hle]

end Vector
end AT

namespace AT
namespace Vector

variable {T : Type}

theorem slot_of_read {m : ElementMemory T} {element : ElementRef} {x : T}
    (h : m.read element = Except.ok x) : m.slot element = some (Slot.live x) := by
  unfold ElementMemory.read at h
  split at h
  · rename_i y hy
    simp only [Except.ok.injEq] at h
    rw [hy, h]
  · cases h

/-- When the object referred to is still there, with its value, once the storage has been
expanded, `add` through the reference is `add` of that value. -/
theorem add_by_reference_eq {sizeof_T : Nat} {v : Vector} {m : ElementMemory T}
    {element : ElementRef} {x : T}
    (h : ∀ r, expand_elements_block_if_required sizeof_T v m (usize (v.m_count + 1))
      = Except.ok r → r.2.slot element = some (Slot.live x)) :
    add_by_reference sizeof_T v m element = add sizeof_T v m x := by
  unfold add_by_reference add
  cases e : expand_elements_block_if_required sizeof_T v m (usize (v.m_count + 1)) with
  | error f => rfl
  | ok r =>
    simp only [ok_bind]
    have hs := h r e
    simp only [ElementMemory.copy_construct, hs, ElementMemory.construct]

/-- An argument that is an object outside the storage of the vector. -/
theorem add_by_reference_external {sizeof_T : Nat} {v : Vector} {m : ElementMemory T}
    {element : ElementRef} {x : T} (hread : m.read element = Except.ok x)
    (hout : element.block ≠ v.m_elements) (hle : element.block ≤ m.heap.allocations) :
    add_by_reference sizeof_T v m element = add sizeof_T v m x := by
  apply add_by_reference_eq
  intro r e
  unfold expand_elements_block_if_required at e
  by_cases hroom : v.m_capacity ≥ usize (v.m_count + 1)
  · rw [if_pos hroom] at e
    simp only [Except.ok.injEq] at e
    subst e
    exact slot_of_read hread
  · rw [if_neg hroom] at e
    have hb := (expand_elements_block_frame e).2 element.block hout hle
    have hs := slot_of_read hread
    unfold ElementMemory.slot at hs ⊢
    rw [hb]
    exact hs

/-- An argument of any kind, when the capacity has room for one more element. -/
theorem add_by_reference_room {sizeof_T : Nat} {v : Vector} {m : ElementMemory T}
    {element : ElementRef} {x : T} (hread : m.read element = Except.ok x)
    (hroom : v.m_capacity ≥ usize (v.m_count + 1)) :
    add_by_reference sizeof_T v m element = add sizeof_T v m x := by
  apply add_by_reference_eq
  intro r e
  unfold expand_elements_block_if_required at e
  rw [if_pos hroom] at e
  simp only [Except.ok.injEq] at e
  subst e
  exact slot_of_read hread

/-- An argument that is an element of the vector itself, when the vector is full: the
storage is expanded, which moves the elements away, finalizes them and releases the
block, and the copy construction then reads the released object. -/
theorem add_by_reference_aliased {sizeof_T : Nat} {v : Vector} {m : ElementMemory T}
    {xs : List T} (index : Nat) (hv : Rep v m xs) (hsz : 0 < sizeof_T)
    (hfit : 3 * (xs.length + 1) * sizeof_T < usize_limit) (hne : 0 < xs.length)
    (hfull : v.m_capacity = xs.length) :
    add_by_reference sizeof_T v m ⟨v.m_elements, index⟩
      = Except.error Fault.memory_fault := by
  have hle : 3 * (xs.length + 1) ≤ 3 * (xs.length + 1) * sizeof_T :=
    Nat.le_mul_of_pos_right _ hsz
  have hn1 : xs.length + 1 < usize_limit := by omega
  have hv1 := hv
  obtain ⟨hcount, hcap, hptr, hrep⟩ := hv1
  have hnn : v.m_elements ≠ 0 := by
    rcases hrep with ⟨_, hzero⟩ | ⟨hnn, _⟩
    · omega
    · exact hnn
  have hreq : usize (v.m_count + 1) = xs.length + 1 := by rw [hcount, usize_of_lt hn1]
  have hroom : ¬ v.m_capacity ≥ xs.length + 1 := by omega
  unfold add_by_reference
  rw [hreq]
  unfold expand_elements_block_if_required
  rw [if_neg hroom]
  have h3 : usize (v.m_count * growth_factor_numerator) = 3 * xs.length := by
    rw [hcount, growth_factor_numerator, usize_of_lt (by omega)]
    omega
  simp only [h3, growth_factor_denominator]
  generalize hnc : (if 3 * xs.length / 2 < xs.length + 1 then xs.length + 1
    else 3 * xs.length / 2) = nc
  have hnc1 : xs.length + 1 ≤ nc := by
    rw [← hnc]
    split <;> omega
  have hnc2 : 2 * nc ≤ 3 * (xs.length + 1) := by
    rw [← hnc]
    split <;> omega
  have hncfit : nc * sizeof_T < usize_limit :=
    Nat.lt_of_le_of_lt (Nat.mul_le_mul_right _ (by omega)) hfit
  obtain ⟨r, e, _⟩ := expand_elements_block_rep hv hsz (by omega) hncfit
  have hnone := (expand_elements_block_frame e).1 hnn
  rw [e]
  simp only [ok_bind, ElementMemory.copy_construct, ElementMemory.slot, hnone]
  rfl

/-- C1. A run of `add` calls does what the claim says when the arguments are objects
outside the storage of the vector: started on a default-constructed vector with the
values `xs` (whose grown storage size is representable in `usize`) it returns, leaves
`count()` equal to the length of `xs` and the element `xs[i]` at every position `i`,
also in the state after each prefix of the run. An `add` through a reference to an
object outside the storage is the `add` of its value, and so is an `add` through any
reference when the capacity has room. But `add(const T&)` expands the storage before it
reads its argument: on a well-formed full vector, `add` of a reference to one of its
own elements moves the elements away, releases the block and then reads the released
object, which is a memory fault, where the claim has the element appended. After
`add(7)` on a default-constructed vector, `add(v.at(0))` is such a call. -/
theorem vector_add_reads_argument_after_growth (sizeof_T : Nat) (xs : List T)
    (m : ElementMemory T) (hsz : 0 < sizeof_T) (hfit : 3 * xs.length * sizeof_T < usize_limit) :
    (∃ v m', add_all sizeof_T xs Vector.default m = Except.ok (v, m') ∧
      v.count = xs.length ∧
      (∀ (i : Nat) (hi : i < xs.length),
        (Vector.«at» v i >>= m'.read) = Except.ok (xs.get ⟨i, hi⟩)) ∧
      (∀ k, k ≤ xs.length → ∃ vk mk,
        add_all sizeof_T (xs.take k) Vector.default m = Except.ok (vk, mk) ∧
        add_all sizeof_T (xs.drop k) vk mk = Except.ok (v, m') ∧
        vk.count = k ∧
        ∀ (i : Nat) (hi : i < xs.length), i < k →
          (Vector.«at» vk i >>= mk.read) = Except.ok (xs.get ⟨i, hi⟩))) ∧
    (∀ (v : Vector) (m0 : ElementMemory T) (element : ElementRef) (x : T),
      m0.read element = Except.ok x →
      (element.block ≠ v.m_elements ∧ element.block ≤ m0.heap.allocations) ∨
        v.m_capacity ≥ usize (v.m_count + 1) →
      add_by_reference sizeof_T v m0 element = add sizeof_T v m0 x) ∧
    (∀ (v : Vector) (m0 : ElementMemory T) (ys : List T) (index : Nat), Rep v m0 ys →
      3 * (ys.length + 1) * sizeof_T < usize_limit → index < ys.length →
      v.capacity = v.count →
      (∃ x, (Vector.«at» v index >>= m0.read) = Except.ok x) ∧
      add_by_reference sizeof_T v m0 ⟨v.m_elements, index⟩
        = Except.error Fault.memory_fault) ∧
    ((add 4 Vector.default (ElementMemory.empty : ElementMemory Nat) 7 >>= fun r =>
        Vector.«at» r.1 0 >>= r.2.read) = Except.ok 7 ∧
      (add 4 Vector.default (ElementMemory.empty : ElementMemory Nat) 7 >>= fun r =>
        Vector.«at» r.1 0 >>= fun element => add_by_reference 4 r.1 r.2 element)
        = Except.error Fault.memory_fault) := by
  refine ⟨add_all_sequence sizeof_T xs m hsz hfit, ?_, ?_, ⟨rfl, rfl⟩⟩
  · intro v m0 element x hread hor
    rcases hor with ⟨hout, hle⟩ | hroom
    · exact add_by_reference_external hread hout hle
    · exact add_by_reference_room hread hroom
  · intro v m0 ys index hv hfit1 hi hfull
    have hfull1 : v.m_capacity = ys.length := by
      have h1 : v.m_capacity = v.m_count := hfull
      rw [h1, hv.1]
    exact ⟨⟨_, at_of_rep hv index hi⟩,
      add_by_reference_aliased index hv hsz hfit1 (by omega) hfull1⟩

/-- Five `add` calls of outside objects on a vector of four-byte elements leave the five
values in order; on the full sample vector `[10, 20]`, `add` of a reference to its first
element reads it, as `10`, before the call and is a memory fault in the call. -/
theorem vector_add_reads_argument_after_growth_witness :
    (0 < 4 ∧ 3 * [10, 20, 30, 40, 50].length * 4 < usize_limit) ∧
    (∃ v m', add_all 4 [10, 20, 30, 40, 50] Vector.default ElementMemory.empty
        = Except.ok (v, m') ∧
      v.count = [10, 20, 30, 40, 50].length ∧
      (∀ (i : Nat) (hi : i < [10, 20, 30, 40, 50].length),
        (Vector.«at» v i >>= m'.read) = Except.ok ([10, 20, 30, 40, 50].get ⟨i, hi⟩))) ∧
    Rep sample_full_vector sample_full_memory [10, 20] ∧
    (Vector.«at» sample_full_vector 0 >>= sample_full_memory.read) = Except.ok 10 ∧
    add_by_reference 4 sample_full_vector sample_full_memory ⟨sample_full_vector.m_elements, 0⟩
      = Except.error Fault.memory_fault := by
  have h := vector_add_reads_argument_after_growth 4 [10, 20, 30, 40, 50]
    ElementMemory.empty (by decide) (by decide)
  obtain ⟨v, m', e, hc, hat, _⟩ := h.1
  exact ⟨⟨by decide, by decide⟩, ⟨v, m', e, hc, hat⟩, sample_full_vector_rep, rfl,
    (h.2.2.1 sample_full_vector sample_full_memory [10, 20] 0 sample_full_vector_rep
      (by decide) (by decide) rfl).2⟩

end Vector
end AT

namespace AT
namespace Vector

variable {T : Type}

/-- With a sum `remove_index + remove_count` that does not wrap, a call of
`remove_unordered(remove_index, remove_count)` on trivially destructible elements that
returns leaves `count() <= capacity()`. -/
theorem remove_unordered_range_trivial_ok {v : Vector} {m : ElementMemory T} {i n : Nat}
    {r : Vector × ElementMemory T} (hcc : v.m_count ≤ v.m_capacity)
    (hsum : i + n < usize_limit)
    (e : remove_unordered_range_trivial v m i n = Except.ok r) :
    r.1.m_count ≤ r.1.m_capacity := by
  unfold remove_unordered_range_trivial at e
  obtain ⟨_, e0, e1⟩ := bind_eq_ok.mp e
  have hver : usize (i + n) ≤ v.m_count := of_decide_eq_true (VectorWorld.verify_ok e0)
  rw [usize_of_lt hsum] at hver
  obtain ⟨m1, _, e2⟩ := bind_eq_ok.mp e1
  obtain ⟨m4, _, e3⟩ := bind_eq_ok.mp e2
  simp only [Except.ok.injEq] at e3
  subst e3
  show usize (v.m_count + usize_limit - n) ≤ v.m_capacity
  have e4 : v.m_count + usize_limit - n = (v.m_count - n) + usize_limit := by omega
  unfold usize
  rw [e4, Nat.add_mod_right]
  exact Nat.le_trans (Nat.mod_le _ _) (by omega)

end Vector

namespace VectorWorld

variable {T : Type}

/-- C15. In every state reached from the empty program by a sequence of constructor,
factory, `add`, `emplace`, `remove_last`, `remove_unordered`, `clear`, `clear_and_shrink`,
copy-assignment, move-assignment and destructor calls that all return, none of them
touching a slot outside a live block, every live vector satisfies
`count() <= capacity()`; and with trivially destructible elements a call of
`remove_unordered(remove_index, remove_count)` that returns keeps `count() <= capacity()`
whenever `remove_index + remove_count` does not wrap. But the `VERIFY` of that overload
adds in `usize`: on the vector built by `from_span` over one element (count 1,
capacity 1), the sum for `remove_unordered(2^64 - 1, 2)` wraps to `1`, the check passes,
and with trivially destructible elements the call returns and leaves count `2^64 - 1`,
above capacity `1`; with a destructor that accesses its object the same call passes the
check and then is a memory fault, not a contract violation. -/
theorem vector_count_capacity_invariant (sizeof_T : Nat) (ops : List (VectorOp T))
    (w : VectorWorld T) (htyped : ∀ op ∈ ops, op.well_typed)
    (hrun : VectorWorld.empty.run sizeof_T ops = Except.ok w) :
    (∀ (i : Nat) (v : Vector), w.vectors[i]? = some (some v) → v.count ≤ v.capacity) ∧
    (∀ (v : Vector) (m : ElementMemory T) (i n : Nat) (r : Vector × ElementMemory T),
      v.count ≤ v.capacity → i + n < usize_limit →
      Vector.remove_unordered_range_trivial v m i n = Except.ok r →
      r.1.count ≤ r.1.capacity) ∧
    (∃ (v : Vector) (m : ElementMemory Nat),
      Vector.from_span 4 ElementMemory.empty [7] = Except.ok (v, m) ∧
      v.count = 1 ∧ v.capacity = 1 ∧
      18446744073709551615 < usize_limit ∧ 2 < usize_limit ∧
      usize (18446744073709551615 + 2) = 1 ∧
      Vector.remove_unordered_range_trivial v m 18446744073709551615 2
        = Except.ok (⟨v.m_elements, 1, 18446744073709551615⟩, m) ∧
      ¬ (18446744073709551615 ≤ 1) ∧
      Vector.remove_unordered_range v m 18446744073709551615 2
        = Except.error Fault.memory_fault) := by
  refine ⟨run_count_le_capacity sizeof_T ops w htyped hrun, ?_, ?_⟩
  · intro v m i n r hcc hsum e
    exact Vector.remove_unordered_range_trivial_ok hcc hsum e
  · exact ⟨_, _, rfl, rfl, rfl, by decide, by decide, by decide, rfl, by decide, rfl⟩

/-- The sample program runs to the end and every vector it leaves is within capacity. -/
theorem vector_count_capacity_invariant_witness :
    (∀ op ∈ (sample_program : List (VectorOp Nat)), op.well_typed) ∧
    ∃ w, VectorWorld.empty.run 4 sample_program = Except.ok w ∧
      ∀ (i : Nat) (v : Vector), w.vectors[i]? = some (some v) → v.count ≤ v.capacity := by
  have hsome : (VectorWorld.empty.run 4 sample_program).toOption.isSome = true := by decide
  have htyped : ∀ op ∈ sample_program, op.well_typed := by
    intro op hop
    simp only [sample_program, List.mem_cons, List.mem_singleton, List.not_mem_nil,
      or_false] at hop
    rcases hop with h | h | h | h | h | h | h | h | h | h | h | h | h | h | h | h | h | h
    all_goals subst h
    all_goals simp [VectorOp.well_typed, usize_limit]
  refine ⟨htyped, ?_⟩
  cases h : VectorWorld.empty.run 4 sample_program with
  | error f =>
    rw [h] at hsome
    cases hsome
  | ok w => exact ⟨w, rfl, (vector_count_capacity_invariant 4 sample_program w htyped h).1⟩

end VectorWorld
end AT
